import Mathlib

/-!
# passify: heap model, address resolution and control-flow rendering

A shallow embedding of `cmd/passify` (files `heap.go` and `passify.go`).

* Go `int64` values are integers; every `+` and `*` of the source is
  `add64` / `mul64`, which wrap modulo `2^64` as Go does.
* Go maps are association lists with one entry per key; the order of the
  entries is never observed except through `keys`, which sorts.
* `log.Fatal`/`log.Fatalf` and run-time panics end the run: every function
  that can reach one returns an `Except Err _` (or an `Emit _`, which also
  records the text written to standard output before the run ended).
* `go/types` and `go/ssa` are libraries outside the repository.  Types are
  finite trees (`Ty`), values are finite trees (`Value`), and the layout
  provider `types.Sizes` is a parameter (`Sizes`).
-/

namespace Passify

/-! ## 64-bit integers -/

/-- Reduce an integer to the range of a Go `int64` (two's complement). -/
def wrap64 (x : Int) : Int :=
  (x + 9223372036854775808) % 18446744073709551616 - 9223372036854775808

/-- Go `a + b` on `int64`. -/
def add64 (a b : Int) : Int := wrap64 (a + b)

/-- Go `a * b` on `int64`. -/
def mul64 (a b : Int) : Int := wrap64 (a * b)

/-! ## Failures -/

/-- The ways a run of the program can end early.  `outOfFuel` is not an
outcome of the program: it marks that the step budget given to `printExpr`
or `walk` was too small (or that the program does not terminate). -/
inductive Err where
  /-- fatal: `log.Fatalf("no allocation for %v", alloc)` -/
  | noAllocation
  /-- fatal: `log.Fatalf("offset %v not valid within ...")` -/
  | offsetNotValid
  /-- fatal: `log.Fatalf("offset %v within %v already initialized to %v")` -/
  | alreadyInitialized
  /-- fatal: `log.Fatalf("unexpected pointer: %v (%T)")` -/
  | unexpectedPointer
  /-- fatal: `log.Fatalf("unexpected int: %v (%T)")` -/
  | unexpectedInt
  /-- fatal: `log.Fatalf("unexpected instruction: %v (%T)")` -/
  | unexpectedInstruction
  /-- fatal: `log.Fatal("not supported", instr)` -/
  | notSupported
  /-- fatal: `log.Fatalf("bad signature: ...")` -/
  | badSignature
  /-- a Go run-time panic: failed type assertion, index out of range -/
  | runtimePanic
  /-- the step budget of the model ran out -/
  | outOfFuel
  deriving DecidableEq, Repr

/-! ## Types (`go/types`) -/

mutual
/-- A `types.Type`, as far as the program looks into it. -/
inductive Ty where
  /-- a basic type (`int`, `string`, ...) -/
  | basic (name : String)
  /-- a defined type `pkg.name` with its underlying type -/
  | named (pkg name : String) (under : Ty)
  /-- pointer type `*elem` -/
  | pointer (elem : Ty)
  /-- array type `[len]elem` -/
  | array (elem : Ty) (len : Int)
  /-- struct type `struct{...}` with its fields in declaration order -/
  | struct (fields : Fields)
  /-- slice type `[]elem` -/
  | slice (elem : Ty)
  /-- any other type (signature, tuple, interface, map, channel), given by
  its printed form -/
  | other (text : String)
  deriving DecidableEq, Repr
/-- The fields of a struct type, in declaration order. -/
inductive Fields where
  | nil
  | cons (name : String) (typ : Ty) (rest : Fields)
  deriving DecidableEq, Repr
end

/-- Go `typ.NumFields()`. -/
def Fields.length : Fields → Nat
  | .nil => 0
  | .cons _ _ rest => rest.length + 1

/-- Go `typ.Field(i)`; `none` where Go panics (index out of range). -/
def Fields.get? : Fields → Nat → Option (String × Ty)
  | .nil, _ => none
  | .cons n t _, 0 => some (n, t)
  | .cons _ _ rest, i + 1 => rest.get? i

/-- The field types, in declaration order. -/
def Fields.types : Fields → List Ty
  | .nil => []
  | .cons _ t rest => t :: rest.types

/-- Go `typ.Underlying()`: a defined type gives its underlying type, every
other type is its own underlying type. -/
def Ty.Underlying : Ty → Ty
  | .named _ _ u => u.Underlying
  | t => t

/-- The layout provider `sizes types.Sizes` (a package variable set by `do`
from the loaded package). -/
structure Sizes where
  /-- Go `sizes.Sizeof(T)` -/
  Sizeof : Ty → Int
  /-- Go `sizes.Offsetsof(fields)`, given the types of the fields -/
  Offsetsof : List Ty → List Int

/-- Go `offsets(typ)` (heap.go): collect the fields of the struct and ask
the layout provider for their offsets. -/
def offsets (S : Sizes) (typ : Fields) : List Int :=
  S.Offsetsof typ.types

/-! ## Maps -/

/-- Go `m[k]` in its two-result form: `none` when the key is absent. -/
def mapGet {κ β : Type} [DecidableEq κ] : List (κ × β) → κ → Option β
  | [], _ => none
  | (k', v) :: rest, k => if k' = k then some v else mapGet rest k

/-- Go `m[k] = v`: replace the entry of `k`, or add one. -/
def mapSet {κ β : Type} [DecidableEq κ] : List (κ × β) → κ → β → List (κ × β)
  | [], k, v => [(k, v)]
  | (k', v') :: rest, k, v =>
    if k' = k then (k, v) :: rest else (k', v') :: mapSet rest k v

/-- Go `keys(m)` (passify.go): the keys of the map, sorted ascending. -/
def keys {β : Type} (m : List (Int × β)) : List Int :=
  (m.map Prod.fst).insertionSort (fun a b => a ≤ b)

/-! ## Values (`go/ssa`) -/

/-- A `constant.Value` held by an `ssa.Const`; `other` is any constant that
is not an integer or a boolean, given by its printed form. -/
inductive Constant where
  | int (n : Int)
  | bool (b : Bool)
  | other (text : String)
  deriving DecidableEq, Repr

/-- The operator of an `ssa.UnOp`. -/
inductive Token where
  /-- star `*` (load through a pointer) -/
  | MUL
  /-- arrow `<-` (channel receive) -/
  | ARROW
  /-- minus `-` -/
  | SUB
  /-- negation `!` -/
  | NOT
  /-- complement `^` -/
  | XOR
  deriving DecidableEq, Repr

/-- An `*ssa.Alloc`: `id` stands for the identity of the instruction (the
pointer the Go maps are keyed by), `typ` is `v.Type()`. -/
structure Alloc where
  id : Nat
  typ : Ty
  /-- Go field `Heap`: the allocation escapes (`new`) -/
  Heap : Bool := false
  /-- Go field `Comment` -/
  Comment : String := ""
  deriving DecidableEq, Repr

mutual
/-- An `ssa.Value`.  Every value carries `typ`, its `Type()`.  A Go `nil`
value is not a `Value`; the places that can hold `nil` are `Option Value`. -/
inductive Value where
  | function (name : String) (typ : Ty)
  /-- here `val = none` is a `Const` whose `Value` field is `nil` -/
  | const (val : Option Constant) (typ : Ty)
  | call (fn : Value) (args : Args) (typ : Ty)
  | extract (tuple : Value) (index : Nat) (typ : Ty)
  | typeAssert (x : Value) (assertedType : Ty) (typ : Ty)
  | makeInterface (x : Value) (typ : Ty)
  | parameter (name : String) (typ : Ty)
  | slice (x : Value) (typ : Ty)
  | alloc (a : Alloc)
  | fieldAddr (x : Value) (field : Nat) (typ : Ty)
  | indexAddr (x : Value) (index : Value) (typ : Ty)
  | unOp (op : Token) (x : Value) (typ : Ty)
  | makeChan (typ : Ty)
  | makeMap (typ : Ty)
  | select (typ : Ty)
  /-- any other kind of value; `kind` is its Go type as `%T` prints it -/
  | other (kind : String) (typ : Ty)
  deriving DecidableEq, Repr
/-- The arguments of a call, in order. -/
inductive Args where
  | nil
  | cons (v : Value) (rest : Args)
  deriving DecidableEq, Repr
end

/-- Go `v.Type()`. -/
def Value.type : Value → Ty
  | .function _ t => t
  | .const _ t => t
  | .call _ _ t => t
  | .extract _ _ t => t
  | .typeAssert _ _ t => t
  | .makeInterface _ t => t
  | .parameter _ t => t
  | .slice _ t => t
  | .alloc a => a.typ
  | .fieldAddr _ _ t => t
  | .indexAddr _ _ t => t
  | .unOp _ _ t => t
  | .makeChan t => t
  | .makeMap t => t
  | .select t => t
  | .other _ t => t

/-- The arguments as a list. -/
def Args.toList : Args → List Value
  | .nil => []
  | .cons v rest => v :: rest.toList

/-- Go `c.Int64()` of an `ssa.Const`: an integer constant gives its value
when it fits in an `int64` and `0` otherwise; for any other constant
(floating-point constants are not modelled) the method panics. -/
def Const.Int64 : Option Constant → Except Err Int
  | some (.int n) =>
    if -9223372036854775808 ≤ n ∧ n ≤ 9223372036854775807 then .ok n else .ok 0
  | _ => .error .runtimePanic

/-! ## Standard output -/

/-- A run that writes text to standard output and then either returns a
result or ends with a failure; `out` is the text written up to that point. -/
structure Emit (α : Type) where
  out : String
  res : Except Err α

/-- Return a result, writing nothing. -/
def Emit.pure {α : Type} (a : α) : Emit α := ⟨"", .ok a⟩

/-- Run `m`, then `f` on its result; a failure of `m` ends the run with the
text `m` had written. -/
def Emit.bind {α β : Type} (m : Emit α) (f : α → Emit β) : Emit β :=
  match m.res with
  | .ok a => ⟨m.out ++ (f a).out, (f a).res⟩
  | .error e => ⟨m.out, .error e⟩

instance : Monad Emit where
  pure := Emit.pure
  bind := Emit.bind

/-- Go `fmt.Print(s)` / `fmt.Printf` of an already formatted text. -/
def print (s : String) : Emit Unit := ⟨s, .ok ()⟩

/-- End the run: `log.Fatal` or a panic. -/
def fail {α : Type} (e : Err) : Emit α := ⟨"", .error e⟩

/-- Run a computation that writes nothing. -/
def liftE {α : Type} (x : Except Err α) : Emit α := ⟨"", x⟩

/-! ## Printed forms -/

/-- Go `%v` of an `int64`. -/
def fmtInt (n : Int) : String := toString n

/-- Go `%v` of a `[]int64`: the elements separated by blanks, in brackets. -/
def fmtInts (l : List Int) : String :=
  "[" ++ " ".intercalate (l.map fmtInt) ++ "]"

/-- Go `%v` of a `token.Token` that is a unary operator. -/
def Token.text : Token → String
  | .MUL => "*"
  | .ARROW => "<-"
  | .SUB => "-"
  | .NOT => "!"
  | .XOR => "^"

/-- Go `%v` of a `constant.Value`. -/
def Constant.text : Constant → String
  | .int n => fmtInt n
  | .bool b => if b then "true" else "false"
  | .other t => t

mutual
/-- Go `types.TypeString(typ, qf)`.  With `rel = some p` the qualifier is
`types.RelativeTo(p)` (types of package `p` are printed without a package);
with `rel = none` it is the `nil` qualifier that `%v` of a type uses (every
package is printed).  A type of the universe scope has `pkg = ""`. -/
def typeString (rel : Option String) : Ty → String
  | .basic n => n
  | .named pkg name _ =>
    if pkg = "" ∨ rel = some pkg then name else pkg ++ "." ++ name
  | .pointer e => "*" ++ typeString rel e
  | .array e len => "[" ++ fmtInt len ++ "]" ++ typeString rel e
  | .struct fs => "struct\x7b" ++ fieldsString rel fs ++ "\x7d"
  | .slice e => "[]" ++ typeString rel e
  | .other t => t
/-- The fields of a struct in `types.TypeString`: `name type`, separated by
`; `. -/
def fieldsString (rel : Option String) : Fields → String
  | .nil => ""
  | .cons n t .nil => n ++ " " ++ typeString rel t
  | .cons n t rest => n ++ " " ++ typeString rel t ++ "; " ++ fieldsString rel rest
end

/-! ## heap.go -/

/-- Go `type cell struct`: the type of the allocation and the map from byte
offset to the value stored there; `none` is the `nil` entry of a slot that
has been declared and not yet been written. -/
structure Cell where
  typ : Ty
  elems : List (Int × Option Value)

/-- Go `type heap struct`: the cells, keyed by their allocation. -/
structure Heap where
  allocs : List (Alloc × Cell)

mutual
/-- Go `(c *cell).init(base, typ)`, as a function on the map `c.elems`.  The
`switch` is on `typ.Underlying()`, so a defined type is handled as its
underlying type.  A struct whose layout has more offsets than the struct has
fields makes `typ.Field(i)` panic. -/
def Cell.init (S : Sizes) (base : Int) :
    Ty → List (Int × Option Value) → Except Err (List (Int × Option Value))
  | .named _ _ u, elems => Cell.init S base u elems
  | .array elem len, elems =>
    let elemSize := S.Sizeof elem
    if elemSize = 0 ∨ len = 0 then .ok elems
    else
      (List.range len.toNat).foldlM
        (fun m (i : Nat) => Cell.init S (add64 base (mul64 i elemSize)) elem m) elems
  | .struct fs, elems => Cell.initFields S base (offsets S fs) fs elems
  | .basic _, elems => .ok (mapSet elems base none)
  | .pointer _, elems => .ok (mapSet elems base none)
  | .slice _, elems => .ok (mapSet elems base none)
  | .other _, elems => .ok (mapSet elems base none)
/-- The loop `for i, offset := range offsets(typ)` of `init`, from field
`i` on: `offs` are the offsets still to visit and `fs` the fields from `i`. -/
def Cell.initFields (S : Sizes) (base : Int) :
    List Int → Fields → List (Int × Option Value) →
      Except Err (List (Int × Option Value))
  | [], _, elems => .ok elems
  | _ :: _, .nil, _ => .error .runtimePanic
  | offset :: offs, .cons _ t rest, elems =>
    match Cell.init S (add64 base offset) t elems with
    | .ok m => Cell.initFields S base offs rest m
    | .error e => .error e
end

/-- Go `evalInt(v)`. -/
def evalInt : Value → Except Err Int
  | .const val _ => Const.Int64 val
  | _ => .error .unexpectedInt

/-- Go `evalPtr(v, base)`.  A failed type assertion on `v.X.Type()` and an
index outside `offsets(typ)` are run-time panics. -/
def evalPtr (S : Sizes) : Value → Int → Except Err (Alloc × Int)
  | .alloc a, base => .ok (a, base)
  | .fieldAddr x field _, base =>
    match x.type with
    | .pointer e =>
      match e.Underlying with
      | .struct fs =>
        match (offsets S fs).get? field with
        | some o => evalPtr S x (add64 base o)
        | none => .error .runtimePanic
      | _ => .error .runtimePanic
    | _ => .error .runtimePanic
  | .indexAddr x index _, base =>
    match x.type with
    | .pointer e =>
      match e.Underlying with
      | .array elem _ =>
        match evalInt index with
        | .ok i => evalPtr S x (add64 base (mul64 (S.Sizeof elem) i))
        | .error err => .error err
      | _ => .error .runtimePanic
    | _ => .error .runtimePanic
  | _, _ => .error .unexpectedPointer

/-- Go `(h *heap).alloc(v)`: build the cell of `v` and register it, printing
the `offsets:` line. -/
def Heap.alloc (S : Sizes) (h : Heap) (v : Alloc) : Emit Heap :=
  match v.typ with
  | .pointer typ =>
    match Cell.init S 0 typ [] with
    | .ok elems =>
      Emit.bind
        (print ("offsets: " ++ typeString none v.typ ++ " => " ++ fmtInts (keys elems) ++ "\n"))
        (fun _ => Emit.pure { allocs := mapSet h.allocs v { typ := typ, elems := elems } })
    | .error e => fail e
  | _ => fail .runtimePanic

/-- Go `(h *heap).store(v)` for the instruction `*addr = val`.  The map
`cell.elems` is shared with the entry of `h.allocs`, so the write is seen
through the heap. -/
def Heap.store (S : Sizes) (h : Heap) (addr val : Value) : Except Err Heap :=
  match evalPtr S addr 0 with
  | .error e => .error e
  | .ok (alloc, offset) =>
    match mapGet h.allocs alloc with
    | none => .error .noAllocation
    | some cell =>
      match mapGet cell.elems offset with
      | none => .error .offsetNotValid
      | some (some _) => .error .alreadyInitialized
      | some none =>
        .ok { allocs := mapSet h.allocs alloc
                { cell with elems := mapSet cell.elems offset (some val) } }

/-- Go `(h *heap).load(v)`: the content of the slot and whether it is
populated (`ok && old != nil`). -/
def Heap.load (S : Sizes) (h : Heap) (v : Value) : Except Err (Option Value × Bool) :=
  match evalPtr S v 0 with
  | .error e => .error e
  | .ok (alloc, offset) =>
    match mapGet h.allocs alloc with
    | none => .error .noAllocation
    | some cell =>
      match mapGet cell.elems offset with
      | none => .ok (none, false)
      | some old => .ok (old, old.isSome)

/-! ## passify.go -/

/-- An `ssa.Instruction`.  An instruction that is also a value (`Alloc`,
`Call`, `UnOp`, `MakeChan`, `MakeMap`, `Select`, ...) is `value v`; the
operands of the instructions the program only rejects are not kept. -/
inductive Instr where
  | value (v : Value)
  /-- the store `*addr = val` -/
  | Store (addr val : Value)
  /-- conditional branch to `Succs[0]` (then) or `Succs[1]` (else) -/
  | If (cond : Value)
  /-- unconditional jump to `Succs[0]` -/
  | Jump
  | Return (results : List Value)
  | Panic (x : Value)
  | MapUpdate
  | Go
  | Defer
  | Send
  | RunDefers
  /-- any other instruction that is not a value; `kind` is its Go type -/
  | other (kind : String)
  deriving DecidableEq, Repr

/-- An `ssa.BasicBlock`; a successor is given by its index in the
`Blocks` of the function. -/
structure Block where
  Instrs : List Instr
  Succs : List Nat
  deriving DecidableEq, Repr

/-- An `ssa.Function` that is a member of a package: `pkg` is the path of
the package and `name` the name of the member. -/
structure Function where
  pkg : String
  name : String
  Params : List (String × Ty)
  Blocks : List Block
  deriving DecidableEq, Repr

/-- Go `fn.String()` of a package-level function. -/
def Function.text (fn : Function) : String := fn.pkg ++ "." ++ fn.name

/-- Go `v.String()` of an `*ssa.Alloc` in a function of package `pkg`. -/
def Alloc.text (pkg : String) (a : Alloc) : String :=
  (if a.Heap then "new" else "local") ++ " " ++
    typeString (some pkg) (match a.typ with | .pointer e => e | t => t) ++
    " (" ++ a.Comment ++ ")"

/-- Go `isZero(v)`: only a `Const` whose value is `nil`. -/
def isZero : Value → Bool
  | .const none _ => true
  | _ => false

/-- The argument loop of the `*ssa.Call` case of `printExpr`, from argument
`i` on. -/
def printArgs (pe : Value → Emit Unit) : Nat → Args → Emit Unit
  | _, .nil => pure ()
  | i, .cons arg rest => do
    if i > 0 then print ", "
    pe arg
    printArgs pe (i + 1) rest

/-- The loop over `keys(c.elems)` of the `*ssa.Slice` case of `printExpr`,
from position `i` on; `pe` prints `c.elems[offset]`, which may be `nil`. -/
def printSliceElems (pe : Option Value → Emit Unit) (elems : List (Int × Option Value)) :
    Nat → List Int → Emit Unit
  | _, [] => pure ()
  | i, offset :: rest => do
    if i > 0 then print ", "
    pe (mapGet elems offset).join
    printSliceElems pe elems (i + 1) rest

/-- The loop over `keys(c.elems)` of the `*ssa.UnOp` case of `printExpr`,
from position `i` on: every entry is printed as `offset: value`. -/
def printCellElems (pe : Option Value → Emit Unit) (elems : List (Int × Option Value)) :
    Nat → List Int → Emit Unit
  | _, [] => pure ()
  | i, offset :: rest => do
    if i > 0 then print ", "
    print (fmtInt offset ++ ": ")
    pe (mapGet elems offset).join
    printCellElems pe elems (i + 1) rest

/-- A call `printExpr(c.elems[offset])`, whose argument may be `nil`: a
`nil` value reaches the `default` case of `printExpr`, where `%T` prints
`<nil>`; `pe` is `printExpr` on a value that is not `nil`. -/
def printNilable (pe : Value → Emit Unit) : Option Value → Emit Unit
  | none => print "[[<nil>]]"
  | some w => pe w

/-- Go `printExpr(v)`, the closure of `do`; `pkg` is the path of the package
being processed (`pkgs[0].Types`) and `h` the heap after the store pass.
The first argument bounds the depth of the recursion. -/
def printExpr (S : Sizes) (pkg : String) (h : Heap) : Nat → Value → Emit Unit
  | 0, _ => fail .outOfFuel
  | fuel + 1, v =>
    let pe : Value → Emit Unit := printExpr S pkg h fuel
    let peNil : Option Value → Emit Unit := printNilable pe
    match v with
    | .function name _ => print name
    | .const val _ =>
      print (match val with
        | none => "<nil>"
        | some c => c.text)
    | .call fn args _ => do
      pe fn
      print "("
      printArgs pe 0 args
      print ")"
    | .extract tuple index _ =>
      match decide (index = 1), tuple with
      | true, .typeAssert x assertedType _ => do
        print ("is[" ++ typeString none assertedType ++ "]?(")
        pe x
        print ")"
      | _, _ => do
        pe tuple
        print ("@" ++ toString index)
    | .makeInterface x _ => pe x
    | .parameter name _ => print ("PARAM." ++ name)
    | .slice x typ =>
      match x with
      | .alloc a =>
        match mapGet h.allocs a with
        | some c => do
          print (typeString none typ ++ "\x7b")
          printSliceElems peNil c.elems 0 (keys c.elems)
          print "\x7d"
        | none => pure ()
      | _ => pure ()
    | .fieldAddr x field _ => do
      pe x
      match x.type with
      | .pointer e =>
        match e.Underlying with
        | .struct fs =>
          match fs.get? field with
          | some (name, _) => print ("." ++ name)
          | none => fail .runtimePanic
        | _ => fail .runtimePanic
      | _ => fail .runtimePanic
    | .unOp op x _ =>
      let generic : Emit Unit := do
        print (op.text ++ " ")
        pe x
      let viaLoad : Emit Unit :=
        match h.load S x with
        | .error e => fail e
        | .ok (w, true) => peNil w
        | .ok (_, false) => generic
      match op with
      | .MUL =>
        match x with
        | .alloc a =>
          match mapGet h.allocs a with
          | some c => do
            print (typeString (some pkg) c.typ ++ "\x7b")
            printCellElems peNil c.elems 0 (keys c.elems)
            print "\x7d"
          | none => do
            print ("unknown alloc: " ++ a.text pkg ++ "\n")
            viaLoad
        | _ => viaLoad
      | _ => generic
    | .typeAssert _ _ _ => print "[[*ssa.TypeAssert]]"
    | .alloc _ => print "[[*ssa.Alloc]]"
    | .indexAddr _ _ _ => print "[[*ssa.IndexAddr]]"
    | .makeChan _ => print "[[*ssa.MakeChan]]"
    | .makeMap _ => print "[[*ssa.MakeMap]]"
    | .select _ => print "[[*ssa.Select]]"
    | .other kind _ => print ("[[" ++ kind ++ "]]")

/-- Go `walk(b)`, the closure of `do`, on the block with index `b` of `fn`.
The closure variable `indent` is passed in and its value after the call is
returned.  The first argument bounds the depth of the recursion (and is the
budget of each `printExpr` call). -/
def walk (S : Sizes) (h : Heap) (fn : Function) : Nat → Nat → String → Emit String
  | 0, _, _ => fail .outOfFuel
  | fuel + 1, b, indent =>
    let pe : Value → Emit Unit := printExpr S fn.pkg h fuel
    match fn.Blocks.get? b with
    | none => fail .runtimePanic
    | some blk =>
      match blk.Instrs.getLast? with
      | none => fail .runtimePanic
      | some (.If cond) => do
        let old := indent
        print (indent ++ "if (")
        pe cond
        print ") \x7b\n"
        let indent := indent ++ "\t"
        let indent ← (match blk.Succs.get? 0 with
          | some s => walk S h fn fuel s indent
          | none => fail .runtimePanic)
        print (old ++ "\x7d else \x7b\n")
        let _ ← (match blk.Succs.get? 1 with
          | some s => walk S h fn fuel s indent
          | none => fail .runtimePanic)
        print (old ++ "\x7d\n" ++ "\n")
        pure old
      | some .Jump =>
        match blk.Succs.get? 0 with
        | some s => walk S h fn fuel s indent
        | none => fail .runtimePanic
      | some (.Panic x) => do
        print (indent ++ "panic(")
        pe x
        print ")\n"
        pure indent
      | some (.Return results) => do
        print (indent ++ "return (")
        match results.get? 0 with
        | none => fail .runtimePanic
        | some r =>
          if isZero r then print "ZERO" else pe r
        print ")\n"
        pure indent
      | some _ => fail .unexpectedInstruction

/-- What `Lsrc.Scope().Lookup(name)` finds in the source language package:
a type name with its type, or some other object. -/
inductive ScopeObject where
  | TypeName (typ : Ty)
  | other
  deriving DecidableEq, Repr

/-- The part of `do` that looks up the source type of the function and
compares its fields with the parameters (the `env` it builds is not used
afterwards).  `src` is the result of `Lsrc.Scope().Lookup(name)`; a failed
type assertion panics. -/
def checkSource (src : Option ScopeObject) (fn : Function) : Except Err Unit :=
  match src with
  | some (.TypeName (.named _ _ u)) =>
    match u.Underlying with
    | .struct fs =>
      if fn.Params.length ≠ fs.length then .error .badSignature else .ok ()
    | _ => .ok ()
  | _ => .error .runtimePanic

/-- The body of the first loop of `do` ("Allocate heap memory") for one
instruction. -/
def allocInstr (S : Sizes) (h : Heap) : Instr → Emit Heap
  | .value (.alloc a) => h.alloc S a
  | _ => pure h

/-- The body of the second loop of `do` for one instruction: reject the
unsupported instructions, apply the stores. -/
def storeInstr (S : Sizes) (h : Heap) : Instr → Emit Heap
  | .MapUpdate => fail .notSupported
  | .Go => fail .notSupported
  | .Defer => fail .notSupported
  | .Send => fail .notSupported
  | .value (.makeChan _) => fail .notSupported
  | .value (.makeMap _) => fail .notSupported
  | .RunDefers => fail .notSupported
  | .value (.select _) => fail .notSupported
  | .Store addr val => liftE (h.store S addr val)
  | _ => pure h

/-- A loop `for _, block := range fn.Blocks { for _, instr := range
block.Instrs { ... } }` of `do`. -/
def forInstrs (body : Heap → Instr → Emit Heap) (blocks : List Block) (h : Heap) :
    Emit Heap :=
  blocks.foldlM (fun h block => block.Instrs.foldlM body h) h

/-- The body of the loop of `do` over the members of the package, for a
function `fn` that the loop does not skip, from `fmt.Println(fn)` on.  `src`
is what the source language package declares under the name of `fn`; the
last argument is the step budget of `walk`. -/
def doFunction (S : Sizes) (src : Option ScopeObject) (fn : Function) (fuel : Nat) :
    Emit Unit := do
  print (fn.text ++ "\n")
  liftE (checkSource src fn)
  let h ← forInstrs (allocInstr S) fn.Blocks { allocs := [] }
  let h ← forInstrs (storeInstr S) fn.Blocks h
  print "\x7b\x7b\x7b\n"
  let _ ← walk S h fn fuel 0 "\t"
  print "\x7d\x7d\x7d\n"

/-! ## Definitions used to state the properties -/

mutual
/-- The slot offsets of a type placed at `b`, as the specification gives
them: a scalar or reference has the one slot `b`; a struct has the slots of
each field at `b` plus the layout offset of the field; an array has no slot
when its length or the size of its element is `0`, and otherwise the slots
of each of its elements at `b + i * SizeOf(E)`. -/
def slots (S : Sizes) (b : Int) : Ty → List Int
  | .named _ _ u => slots S b u
  | .array elem len =>
    if S.Sizeof elem = 0 ∨ len = 0 then []
    else (List.range len.toNat).flatMap
      (fun (i : Nat) => slots S (add64 b (mul64 i (S.Sizeof elem))) elem)
  | .struct fs => fieldSlots S b (S.Offsetsof fs.types) fs
  | .basic _ => [b]
  | .pointer _ => [b]
  | .slice _ => [b]
  | .other _ => [b]
/-- The slots of the fields `fs` of a struct placed at `b`, the fields
paired with their layout offsets `offs`. -/
def fieldSlots (S : Sizes) (b : Int) : List Int → Fields → List Int
  | o :: offs, .cons _ t rest => slots S (add64 b o) t ++ fieldSlots S b offs rest
  | _, _ => []
end

/-- The layout provider returns one offset per field. -/
def Sizes.OnePerField (S : Sizes) : Prop :=
  ∀ l : List Ty, (S.Offsetsof l).length = l.length

/-- The effect of a run of slot declarations on a map: the run returns, the
offsets in `l` hold `nil` afterwards and every other entry is as before. -/
def Declares (m₀ : List (Int × Option Value))
    (r : Except Err (List (Int × Option Value))) (l : List Int) : Prop :=
  ∃ m, r = .ok m ∧ ∀ k, mapGet m k = if k ∈ l then some none else mapGet m₀ k

/-- The value is in the range of an `int64`. -/
def InInt64 (n : Int) : Prop :=
  -9223372036854775808 ≤ n ∧ n ≤ 9223372036854775807

instance (n : Int) : Decidable (InInt64 n) := by
  unfold InInt64; exact inferInstance

/-- An address chain as the specification reads it: a chain of `FieldAddr`
and constant-index `IndexAddr` projections rooted at an `Alloc`.  The result
is the root and, for each projection from the outermost to the innermost,
what the projection adds to the offset: `OffsetsOf(struct type of the
base)[fieldIndex]` for a `FieldAddr`, `index * SizeOf(element type)` for an
`IndexAddr`.  It is `none` for a value that is not such a chain. -/
def chainOffsets (S : Sizes) : Value → Option (Alloc × List Int)
  | .alloc a => some (a, [])
  | .fieldAddr x field _ =>
    match x.type with
    | .pointer e =>
      match e.Underlying with
      | .struct fs =>
        match (S.Offsetsof fs.types).get? field, chainOffsets S x with
        | some o, some (a, l) => some (a, o :: l)
        | _, _ => none
      | _ => none
    | _ => none
  | .indexAddr x (.const (some (.int n)) _) _ =>
    match x.type with
    | .pointer e =>
      match e.Underlying with
      | .array elem _ =>
        if InInt64 n then
          match chainOffsets S x with
          | some (a, l) => some (a, n * S.Sizeof elem :: l)
          | none => none
        else none
      | _ => none
    | _ => none
  | _ => none

/-- The projections of an address chain are well typed: the base of a
`FieldAddr` is a pointer to a struct that has the field, the base of an
`IndexAddr` is a pointer to an array, and an index that is a constant is an
integer constant. -/
def wellTypedAddr : Value → Bool
  | .fieldAddr x field _ =>
    (match x.type with
      | .pointer e =>
        match e.Underlying with
        | .struct fs => decide (field < fs.length)
        | _ => false
      | _ => false) && wellTypedAddr x
  | .indexAddr x index _ =>
    (match x.type with
      | .pointer e =>
        match e.Underlying with
        | .array _ _ => true
        | _ => false
      | _ => false) &&
    (match index with
      | .const (some (.int _)) _ => true
      | .const _ _ => false
      | _ => true) && wellTypedAddr x
  | _ => true

/-- Some `IndexAddr` of the chain has an index that is not a constant. -/
def hasUnconstrainedIndex : Value → Bool
  | .fieldAddr x _ _ => hasUnconstrainedIndex x
  | .indexAddr x index _ =>
    (match index with
      | .const _ _ => false
      | _ => true) || hasUnconstrainedIndex x
  | _ => false

/-- The chain of `FieldAddr`/`IndexAddr` projections bottoms out in an
`Alloc`. -/
def rootIsAlloc : Value → Bool
  | .alloc _ => true
  | .fieldAddr x _ _ => rootIsAlloc x
  | .indexAddr x _ _ => rootIsAlloc x
  | _ => false

/-! ## Example data -/

mutual
/-- The size of a type in a layout where every scalar and every pointer
takes one 8-byte word and nothing is padded. -/
def wordSizeof : Ty → Int
  | .basic _ => 8
  | .named _ _ u => wordSizeof u
  | .pointer _ => 8
  | .array e len => len * wordSizeof e
  | .struct fs => wordSizeofFields fs
  | .slice _ => 24
  | .other _ => 8
/-- The sizes of the fields, added up. -/
def wordSizeofFields : Fields → Int
  | .nil => 0
  | .cons _ t rest => wordSizeof t + wordSizeofFields rest
end

/-- The offsets of fields laid out one after the other from `start`. -/
def wordOffsets (start : Int) : List Ty → List Int
  | [] => []
  | t :: rest => start :: wordOffsets (start + wordSizeof t) rest

/-- A layout provider: 8-byte words, fields one after the other. -/
def wordSizes : Sizes where
  Sizeof := wordSizeof
  Offsetsof := wordOffsets 0

/-- The type `int`. -/
def tInt : Ty := .basic "int"

/-- The type `bool`. -/
def tBool : Ty := .basic "bool"

/-- The type `T` of package `p`, declared `type T struct { A int; B int }`. -/
def tT : Ty := .named "p" "T" (.struct (.cons "A" tInt (.cons "B" tInt .nil)))

/-- The type `U` of package `p`, declared `type U struct { A int; B struct{} }`. -/
def tU : Ty := .named "p" "U" (.struct (.cons "A" tInt (.cons "B" (.struct .nil) .nil)))

/-- A local variable of type `T`. -/
def allocT : Alloc := { id := 0, typ := .pointer tT }

/-- A local variable of type `U`. -/
def allocU : Alloc := { id := 1, typ := .pointer tU }

/-- The integer constant `n`. -/
def intConst (n : Int) : Value := .const (some (.int n)) tInt

/-- The address `&t.A` of the first field of the variable of type `T`. -/
def addrA : Value := .fieldAddr (.alloc allocT) 0 (.pointer tInt)

/-- The address `&t.B` of the second field of the variable of type `T`. -/
def addrB : Value := .fieldAddr (.alloc allocT) 1 (.pointer tInt)

/-- The address `&u.B` of the empty struct inside the variable of type `U`. -/
def addrUB : Value := .fieldAddr (.alloc allocU) 1 (.pointer (.struct .nil))

/-- The heap after `heap.alloc` of the variable of type `T`. -/
def heapT : Heap := { allocs := [(allocT, { typ := tT, elems := [(0, none), (8, none)] })] }

/-- The heap after `heap.alloc` of the variable of type `U`. -/
def heapU : Heap := { allocs := [(allocU, { typ := tU, elems := [(0, none)] })] }

/-- The type `[3]T`. -/
def tArr : Ty := .array tT 3

/-- A local variable of type `[3]T`. -/
def allocArr : Alloc := { id := 2, typ := .pointer tArr }

/-- The address `&arr[2].B`. -/
def addrElem2B : Value :=
  .fieldAddr (.indexAddr (.alloc allocArr) (intConst 2) (.pointer tT)) 1 (.pointer tInt)

/-- The address `&arr[i]` for a parameter `i`. -/
def addrElemI : Value :=
  .indexAddr (.alloc allocArr) (.parameter "i" tInt) (.pointer tT)

/-- The load `*t` of the whole variable of type `T`. -/
def derefT : Value := .unOp .MUL (.alloc allocT) tT

/-- The heap after the store of 5 to `t.A`. -/
def heapT5 : Heap :=
  { allocs := [(allocT, { typ := tT, elems := [(0, some (intConst 5)), (8, none)] })] }

/-- The heap after the stores of 5 to `t.A` and 7 to `t.B`. -/
def heapT57 : Heap :=
  ⟨[(allocT, ⟨tT, [(0, some (intConst 5)), (8, some (intConst 7))]⟩)]⟩

/-- The text of a `return` line at the given indentation. -/
def returnText (indent x : String) : String :=
  indent ++ "return (" ++ x ++ ")\n"

/-- The text of an if-construct at the given indentation, from its `if (`
line up to and including the line of its closing brace. -/
def ifText (indent c thenText elseText : String) : String :=
  indent ++ "if (" ++ c ++ ") \x7b\n" ++ thenText ++ indent ++ "\x7d else \x7b\n" ++
    elseText ++ indent ++ "\x7d\n"

/-- A function `p.F(c bool) int` whose entry block branches on `c` to two
blocks that return 5 and 7. -/
def fnBranch : Function where
  pkg := "p"
  name := "F"
  Params := [("c", tBool)]
  Blocks := [
    { Instrs := [.If (.parameter "c" tBool)], Succs := [1, 2] },
    { Instrs := [.Return [intConst 5]], Succs := [] },
    { Instrs := [.Return [intConst 7]], Succs := [] }]

/-- A function `p.F(c bool) int` in which both branches of the entry block
jump to the same block, which returns 5. -/
def fnMerge : Function where
  pkg := "p"
  name := "F"
  Params := [("c", tBool)]
  Blocks := [
    { Instrs := [.If (.parameter "c" tBool)], Succs := [1, 2] },
    { Instrs := [.Jump], Succs := [3] },
    { Instrs := [.Jump], Succs := [3] },
    { Instrs := [.Return [intConst 5]], Succs := [] }]

/-- The declaration `type F struct { C bool }` of the source language, as
`Lsrc.Scope().Lookup("F")` finds it. -/
def srcF : Option ScopeObject :=
  some (.TypeName (.named "L0" "F" (.struct (.cons "C" tBool .nil))))

/-- The first steps of `doFunction`, up to and including the allocation
pass: the line naming the function, the check against the source type, and
one `offsets:` line per allocation. -/
def allocPhase (S : Sizes) (src : Option ScopeObject) (fn : Function) : Emit Heap :=
  Emit.bind (print (fn.text ++ "\n")) (fun _ =>
    Emit.bind (liftE (checkSource src fn)) (fun _ =>
      forInstrs (allocInstr S) fn.Blocks { allocs := [] }))

/-- A function `p.G(c bool) int` that returns 5 and has a map update in a
block that no branch reaches. -/
def fnMapUpdate : Function where
  pkg := "p"
  name := "G"
  Params := [("c", tBool)]
  Blocks := [
    { Instrs := [.Return [intConst 5]], Succs := [] },
    { Instrs := [.MapUpdate, .Return [intConst 7]], Succs := [] }]

/-- The declaration `type G struct { C bool }` of the source language. -/
def srcG : Option ScopeObject :=
  some (.TypeName (.named "L0" "G" (.struct (.cons "C" tBool .nil))))

/-- Whenever the run `m` returns, the run `m'` writes the same text and
returns the same result (`m'` may return where `m` fails). -/
def Emit.le {α : Type} (m m' : Emit α) : Prop :=
  ∀ o a, m = ⟨o, .ok a⟩ → m' = ⟨o, .ok a⟩

/-- The text `t` occurs in the text `s`. -/
def occurs (t s : String) : Prop := t.data <:+: s.data

/-- A function `p.Z(ZERO int) int` that returns its parameter `ZERO`. -/
def fnReturnParam : Function where
  pkg := "p"
  name := "Z"
  Params := [("ZERO", tInt)]
  Blocks := [{ Instrs := [.Return [.parameter "ZERO" tInt]], Succs := [] }]

/-- A function `p.N() *int` that returns the static zero constant. -/
def fnReturnNil : Function where
  pkg := "p"
  name := "N"
  Params := []
  Blocks := [{ Instrs := [.Return [.const none (.pointer tInt)]], Succs := [] }]

/-- The texts of `l`, each preceded by the separator `sep`. -/
def sepTail (sep : String) : List String → String
  | [] => ""
  | a :: rest => sep ++ a ++ sepTail sep rest

/-- The type `[2]int`. -/
def tInts : Ty := .array tInt 2

/-- A local variable of type `[2]int`, the backing array of a slice
literal. -/
def allocInts : Alloc := { id := 3, typ := .pointer tInts }

/-- The slice `ints[:]` of type `[]int` over the variable of type
`[2]int`. -/
def sliceInts : Value := .slice (.alloc allocInts) (.slice tInt)

/-- The heap in which only element 0 of the `[2]int` variable has been
stored to (with 5). -/
def heapInts5 : Heap :=
  ⟨[(allocInts, ⟨tInts, [(0, some (intConst 5)), (8, none)]⟩)]⟩

/-- The heap in which 5 and 7 have been stored to the elements of the
`[2]int` variable. -/
def heapInts57 : Heap :=
  ⟨[(allocInts, ⟨tInts, [(0, some (intConst 5)), (8, some (intConst 7))]⟩)]⟩

/-- The instructions that the second loop of `do` rejects as not
supported. -/
def isRejected : Instr → Bool
  | .MapUpdate => true
  | .Go => true
  | .Defer => true
  | .Send => true
  | .RunDefers => true
  | .value (.makeChan _) => true
  | .value (.makeMap _) => true
  | .value (.select _) => true
  | _ => false

/-- The type `<-chan int`. -/
def tChan : Ty := .other "<-chan int"

/-- The channel receive `<-ch` from the parameter `ch`. -/
def recvCh : Value := .unOp .ARROW (.parameter "ch" tChan) tInt

/-- A function `p.R(ch <-chan int) int` that returns `<-ch`. -/
def fnRecv : Function where
  pkg := "p"
  name := "R"
  Params := [("ch", tChan)]
  Blocks := [{ Instrs := [.value recvCh, .Return [recvCh]], Succs := [] }]

/-- The declaration `type R struct { Ch <-chan int }` of the source
language. -/
def srcR : Option ScopeObject :=
  some (.TypeName (.named "L0" "R" (.struct (.cons "Ch" tChan .nil))))

/-- The parameter `q` of type `*int`. -/
def paramQ : Value := .parameter "q" (.pointer tInt)

/-- The parameter `s` of type `[]int`. -/
def paramS : Value := .parameter "s" (.slice tInt)

/-- The call `f(5, 7)` of a function `f`. -/
def callF : Value :=
  .call (.function "f" (.other "func(int, int) int"))
    (.cons (intConst 5) (.cons (intConst 7) .nil)) tInt

/-- Modelled from the spec: the layout provider is `types.SizesFor("gc",
"amd64")` of `go/types`, which is not part of the repository; the
specification gives its contract only.  For the fields `l` of a struct, in
declaration order: `OffsetsOf` yields one offset per field, `SizeOf` yields a
number of bytes, and the offsets do not overlap given each field's size,
`offset[i+1] ≥ offset[i] + size(field i)`. -/
def Sizes.Guarantee (S : Sizes) (l : List Ty) : Prop :=
  (S.Offsetsof l).length = l.length ∧
  (∀ t ∈ l, 0 ≤ S.Sizeof t) ∧
  ∀ i, i + 1 < l.length →
    (S.Offsetsof l).getD i 0 + S.Sizeof (l.getD i (.other "")) ≤ (S.Offsetsof l).getD (i + 1) 0

/-- The fields of `struct { A int; S []int; B int }`. -/
def fieldsASB : Fields := .cons "A" tInt (.cons "S" (.slice tInt) (.cons "B" tInt .nil))

/-! ## Definitions for the indentation of `walk` -/

/-- The indentation of `k` levels: `k` tabs. -/
def tabs : Nat → String
  | 0 => ""
  | k + 1 => "\t" ++ tabs k

/-- The block reached from the block `b` along `path`, with the number of
conditional branches passed on the way: a step of the path is the index of
the successor taken, 0 or 1 at a block that ends in `If` (one branch deeper)
and 0 at a block that ends in `Jump` (same depth). -/
def descend (fn : Function) : List Nat → Nat → Option (Nat × Nat)
  | [], b => some (b, 0)
  | i :: path, b =>
    match fn.Blocks.get? b with
    | none => none
    | some blk =>
      match blk.Instrs.getLast? with
      | some (.If _) =>
        if i ≤ 1 then
          match blk.Succs.get? i with
          | some s => (descend fn path s).map (fun r => (r.1, r.2 + 1))
          | none => none
        else none
      | some .Jump =>
        if i = 0 then
          match blk.Succs.get? 0 with
          | some s => descend fn path s
          | none => none
        else none
      | _ => none

/-- What a run of `walk` on a block at the indentation `indent` that returns
has done, by the last instruction of the block: the texts written and the
runs on the successors, each with the indentation it starts and ends with. -/
def WalkShape (S : Sizes) (h : Heap) (fn : Function) (m : Nat) (blk : Block)
    (indent out : String) : Instr → Prop
  | .If cond => ∃ s₀ s₁ c t e, blk.Succs.get? 0 = some s₀ ∧ blk.Succs.get? 1 = some s₁ ∧
      printExpr S fn.pkg h m cond = ⟨c, .ok ()⟩ ∧
      walk S h fn m s₀ (indent ++ "\t") = ⟨t, .ok (indent ++ "\t")⟩ ∧
      walk S h fn m s₁ (indent ++ "\t") = ⟨e, .ok (indent ++ "\t")⟩ ∧
      out = ifText indent c t e ++ "\n"
  | .Jump => ∃ s, blk.Succs.get? 0 = some s ∧ walk S h fn m s indent = ⟨out, .ok indent⟩
  | .Panic x => ∃ sx, printExpr S fn.pkg h m x = ⟨sx, .ok ()⟩ ∧
      out = indent ++ "panic(" ++ sx ++ ")\n"
  | .Return results => ∃ r sx, results.get? 0 = some r ∧
      (if isZero r then print "ZERO" else printExpr S fn.pkg h m r) = ⟨sx, .ok ()⟩ ∧
      out = returnText indent sx
  | _ => False

/-- A function `p.F(c, d bool) int` with an `if` nested in the first branch
of an `if`: the blocks 3 and 4 return 5 and 6 two branches deep, block 2
returns 7 one branch deep. -/
def fnNested : Function where
  pkg := "p"
  name := "F"
  Params := [("c", tBool), ("d", tBool)]
  Blocks := [
    { Instrs := [.If (.parameter "c" tBool)], Succs := [1, 2] },
    { Instrs := [.If (.parameter "d" tBool)], Succs := [3, 4] },
    { Instrs := [.Return [intConst 7]], Succs := [] },
    { Instrs := [.Return [intConst 5]], Succs := [] },
    { Instrs := [.Return [intConst 6]], Succs := [] }]

/-! ## Definitions for the last instruction of a block -/

/-- The last instructions that `walk` has a case for. -/
def isTerminator : Instr → Bool
  | .If _ => true
  | .Jump => true
  | .Return _ => true
  | .Panic _ => true
  | _ => false

/-- The value that `walk` passes to `printExpr` for the last instruction of
a block: the condition of an `If`, the value of a `Panic`, the first result
of a `Return`. -/
def Instr.operand : Instr → Option Value
  | .If cond => some cond
  | .Panic x => some x
  | .Return results => results.get? 0
  | _ => none

/-- The load `*q` through the parameter `q`. -/
def derefQ : Value := .unOp .MUL paramQ tInt

/-- A function `p.D(q *int) int` that returns `*q`. -/
def fnDerefQ : Function where
  pkg := "p"
  name := "D"
  Params := [("q", .pointer tInt)]
  Blocks := [{ Instrs := [.value derefQ, .Return [derefQ]], Succs := [] }]

/-- A function `p.P(e error) int` whose body is `panic(e)`. -/
def fnPanic : Function where
  pkg := "p"
  name := "P"
  Params := [("e", .other "error")]
  Blocks := [{ Instrs := [.Panic (.parameter "e" (.other "error"))], Succs := [] }]

/-! ## Definitions for termination -/

/-- Unless the run `m` ends with an exhausted step budget, the run `m'` is
the same run: it writes the same text and ends the same way. -/
def Emit.stable {α : Type} (m m' : Emit α) : Prop :=
  m.res ≠ .error .outOfFuel → m' = m

/-- A function `p.L() int` whose body is `for {}`: the entry block jumps to
block 1, which jumps to itself. -/
def fnLoop : Function where
  pkg := "p"
  name := "L"
  Params := []
  Blocks := [{ Instrs := [.Jump], Succs := [1] }, { Instrs := [.Jump], Succs := [1] }]

/-- The declaration `type L struct {}` of the source language. -/
def srcL : Option ScopeObject :=
  some (.TypeName (.named "L0" "L" (.struct .nil)))

/-! ## Definitions for the results of a `Return` -/

/-- A function `p.R2() (int, int)` whose body is `return 5, 7`. -/
def fnReturn2 : Function where
  pkg := "p"
  name := "R2"
  Params := []
  Blocks := [{ Instrs := [.Return [intConst 5, intConst 7]], Succs := [] }]

/-- A function `p.R1() int` whose body is `return 5`. -/
def fnReturn1 : Function where
  pkg := "p"
  name := "R1"
  Params := []
  Blocks := [{ Instrs := [.Return [intConst 5]], Succs := [] }]

/-! ## Definitions for the order of the stores -/

/-- The part of `heap.store` after the address is resolved to the slot
`offset` of `alloc`. -/
def putSlot (h : Heap) (alloc : Alloc) (offset : Int) (val : Value) : Except Err Heap :=
  match mapGet h.allocs alloc with
  | none => .error .noAllocation
  | some cell =>
    match mapGet cell.elems offset with
    | none => .error .offsetNotValid
    | some (some _) => .error .alreadyInitialized
    | some none => .ok ⟨mapSet h.allocs alloc ⟨cell.typ, mapSet cell.elems offset (some val)⟩⟩

/-- What an instruction does to the heap in the store pass: fail whatever
the heap is, leave the heap as it is, or write a slot. -/
inductive Act where
  | failWith (e : Err)
  | skip
  | put (alloc : Alloc) (offset : Int) (val : Value)

/-- The effect of an `Act` on a heap. -/
def Act.run : Act → Heap → Except Err Heap
  | .failWith e, _ => .error e
  | .skip, h => .ok h
  | .put alloc offset val, h => putSlot h alloc offset val

/-- Two runs agree: both return, with the same heap, or both fail. -/
def Agree {β : Type} (r r' : Except Err β) : Prop :=
  match r, r' with
  | .ok a, .ok b => a = b
  | .error _, .error _ => True
  | _, _ => False

/-- What `storeInstr` does for an instruction, with the address of a store
resolved. -/
def actOf (S : Sizes) : Instr → Act
  | .MapUpdate => .failWith .notSupported
  | .Go => .failWith .notSupported
  | .Defer => .failWith .notSupported
  | .Send => .failWith .notSupported
  | .value (.makeChan _) => .failWith .notSupported
  | .value (.makeMap _) => .failWith .notSupported
  | .RunDefers => .failWith .notSupported
  | .value (.select _) => .failWith .notSupported
  | .Store addr val =>
    match evalPtr S addr 0 with
    | .error e => .failWith e
    | .ok (alloc, offset) => .put alloc offset val
  | _ => .skip

/-- The store `*t.A = 5` on the allocation of a `T`. -/
def storeA5 : Instr := .Store addrA (intConst 5)

/-- The store `*t.B = 7` on the allocation of a `T`. -/
def storeB7 : Instr := .Store addrB (intConst 7)

/-! ## Definitions for leaf addresses -/

/-- The type is a scalar or reference: its underlying type is neither a
struct nor an array, so it takes one slot. -/
def isLeaf (T : Ty) : Bool :=
  match T.Underlying with
  | .struct _ => false
  | .array _ _ => false
  | _ => true

/-- A chain of in-bounds projections from an allocation, as the
specification reads it: the root is an `Alloc` of pointer type, a
`FieldAddr` projects a field that the struct under its base has, an
`IndexAddr` has an integer constant index `0 ≤ n < len` (in the range of
`int`) into an array whose element has a size other than `0`, and the type
of every projection is the pointer to what it projects.  The result is the
root and the type that the address points to; `none` for any other value. -/
def addrPath (S : Sizes) : Value → Option (Alloc × Ty)
  | .alloc a =>
    match a.typ with
    | .pointer T => some (a, T)
    | _ => none
  | .fieldAddr x field t =>
    match addrPath S x with
    | some (a, U) =>
      match U.Underlying with
      | .struct fs =>
        match fs.get? field with
        | some (_, tf) => if t = .pointer tf then some (a, tf) else none
        | none => none
      | _ => none
    | none => none
  | .indexAddr x (.const (some (.int n)) _) t =>
    match addrPath S x with
    | some (a, U) =>
      match U.Underlying with
      | .array elem len =>
        if t = .pointer elem ∧ 0 ≤ n ∧ n < len ∧ InInt64 n ∧ S.Sizeof elem ≠ 0 then
          some (a, elem)
        else none
      | _ => none
    | none => none
  | _ => none

/-! ## Definitions for the layout of leaf paths -/

/-- One projection of an address chain: a field of a struct or a constant
index into an array. -/
inductive Step where
  | field (i : Nat)
  | index (n : Int)
  deriving DecidableEq, Repr

/-- The projections of an address chain, from the root outwards. -/
def pathSteps : Value → List Step
  | .fieldAddr x field _ => pathSteps x ++ [.field field]
  | .indexAddr x (.const (some (.int n)) _) _ => pathSteps x ++ [.index n]
  | _ => []

/-- The offset (without wrapping) and the type that in-bounds projections
lead to inside a value of type `T`. -/
def resolve (S : Sizes) : Ty → List Step → Option (Int × Ty)
  | T, [] => some (0, T)
  | T, .field f :: rest =>
    match T.Underlying with
    | .struct fs =>
      match fs.get? f, (S.Offsetsof fs.types).get? f with
      | some (_, tf), some o =>
        match resolve S tf rest with
        | some (d, U) => some (o + d, U)
        | none => none
      | _, _ => none
    | _ => none
  | T, .index n :: rest =>
    match T.Underlying with
    | .array elem len =>
      if 0 ≤ n ∧ n < len then
        match resolve S elem rest with
        | some (d, U) => some (n * S.Sizeof elem + d, U)
        | none => none
      else none
    | _ => none

mutual
/-- The layout of a type that takes `size` bytes does not overlap, as the
specification assumes it: a scalar or reference has a positive size; the
size of an array is its length times the size of its element, whose layout
does not overlap; the fields of a struct have one offset each, every field
starts at or after the end of the one before it, the size of the struct
covers them all, and the layout of no field overlaps. -/
def goodLayoutAt (S : Sizes) (size : Int) : Ty → Bool
  | .named _ _ u => goodLayoutAt S size u
  | .array elem len =>
    decide (0 ≤ len) && decide (size = len * S.Sizeof elem) &&
      goodLayoutAt S (S.Sizeof elem) elem
  | .struct fs => goodFields S 0 size (S.Offsetsof fs.types) fs
  | .basic _ => decide (0 < size)
  | .pointer _ => decide (0 < size)
  | .slice _ => decide (0 < size)
  | .other _ => decide (0 < size)
/-- The fields `fs` with the offsets `offs` lie one after the other between
`start` and `size`. -/
def goodFields (S : Sizes) (start size : Int) : List Int → Fields → Bool
  | [], .nil => decide (start ≤ size)
  | o :: offs, .cons _ t rest =>
    decide (start ≤ o) && goodLayoutAt S (S.Sizeof t) t &&
      goodFields S (o + S.Sizeof t) size offs rest
  | _, _ => false
end

/-- The layout of `T` does not overlap. -/
def goodLayout (S : Sizes) (T : Ty) : Bool := goodLayoutAt S (S.Sizeof T) T

/-- The address `&arr[1].B`. -/
def addrElem1B : Value :=
  .fieldAddr (.indexAddr (.alloc allocArr) (intConst 1) (.pointer tT)) 1 (.pointer tInt)

/-! ## Definitions for the termination of `printExpr` and `walk` -/

/-- The values that the loops over `keys(c.elems)` of `printExpr` print: the
contents of the populated slots of the cell, in ascending order of their
offsets. -/
def cellValues (c : Cell) : List Value :=
  (keys c.elems).filterMap (fun o => (mapGet c.elems o).join)

/-- The values that the `heap.load` path of a dereference prints: the
content of the slot when it is populated, the operand when it is not. -/
def loadChildren (S : Sizes) (h : Heap) (x : Value) : List Value :=
  match h.load S x with
  | .error _ => []
  | .ok (w, true) => w.toList
  | .ok (_, false) => [x]

/-- The values on which `printExpr(v)` calls itself: operands, the contents
of the cell behind a composite or slice literal, and the content of the
populated slot behind a dereference. -/
def children (S : Sizes) (h : Heap) : Value → List Value
  | .call fn args _ => fn :: args.toList
  | .extract tuple index _ =>
    match decide (index = 1), tuple with
    | true, .typeAssert x _ _ => [x]
    | _, _ => [tuple]
  | .makeInterface x _ => [x]
  | .slice x _ =>
    match x with
    | .alloc a =>
      match mapGet h.allocs a with
      | some c => cellValues c
      | none => []
    | _ => []
  | .fieldAddr x _ _ => [x]
  | .unOp op x _ =>
    match op with
    | .MUL =>
      match x with
      | .alloc a =>
        match mapGet h.allocs a with
        | some c => cellValues c
        | none => loadChildren S h x
      | _ => loadChildren S h x
    | _ => [x]
  | _ => []

/-- The value `v` leads to `w`: `printExpr(v)` calls `printExpr(w)`. -/
def Follows (S : Sizes) (h : Heap) (v w : Value) : Prop := w ∈ children S h v

/-- The content of the slot `offset` of the allocation `a`, when the slot
is populated. -/
def stored (h : Heap) (a : Alloc) (offset : Int) : Option Value :=
  match mapGet h.allocs a with
  | some c => (mapGet c.elems offset).join
  | none => none

/-- The values in the slots of the heap. -/
def Heap.values (h : Heap) : List Value :=
  h.allocs.flatMap (fun p => p.2.elems.filterMap (fun q => q.2))

/-- The block `s` is a successor of the block `b`. -/
def SuccOf (fn : Function) (b s : Nat) : Prop :=
  ∃ blk, fn.Blocks.get? b = some blk ∧ s ∈ blk.Succs

/-- The run does not stop for lack of steps. -/
def Emit.ends {α : Type} (m : Emit α) : Prop := m.res ≠ .error .outOfFuel

end Passify

namespace Mklang

open Passify

/-! ## mklang.go -/

/-- A `types.Type`, as far as `extend` looks at it: a pointer type, a type
parameter, a struct type, a named type, or any other type (given by its
printed form). -/
inductive GoType where
  | pointer (elem : GoType)
  | typeParam (name : String)
  | struct (text : String)
  | named (name : String)
  | other (text : String)
  deriving DecidableEq, Repr

/-- A `*types.Signature`: the printed parameter list, the result types, and
the printed form of `sig.Results()`. -/
structure Signature where
  params : String
  results : List GoType
  resultsText : String
  deriving DecidableEq, Repr

/-- An explicitly declared method of an interface (`*types.Func`). -/
structure Method where
  name : String
  sig : Signature
  deriving DecidableEq, Repr

/-- A `*types.Interface`: whether it is implicit, its embedded types and its
explicitly declared methods. -/
structure Iface where
  implicit : Bool
  embeddeds : List GoType
  methods : List Method
  deriving DecidableEq, Repr

/-- The constraint of a type parameter: a named type (a command), an
interface, or anything else. -/
inductive Constraint where
  | named (name : String)
  | iface (i : Iface)
  | other
  deriving DecidableEq, Repr

/-- A `*types.TypeParam` of the type parameter list of a language. -/
structure TypeParam where
  name : String
  constraint : Constraint
  deriving DecidableEq, Repr

/-- Go `Define`: a `*term` or a `*nonterm`.  The maps `map[string]bool` are
kept with their values; a `nil` map is the empty map (no `nil` map is
written to: `copy`, `dup` and the literals of `extend` make the maps, and
`flood` makes `isAlso` before it writes to it). -/
inductive Define where
  | term (pass : String) (isAlso : List (String × Bool))
  | nonterm (embeds : List (String × Bool)) (cons : List (String × Signature))
      (str : Option String) (isAlso : List (String × Bool))
  deriving DecidableEq, Repr

/-- Go `lang`. -/
structure Lang where
  name : String
  defs : List (String × Define)
  deriving DecidableEq, Repr

/-- Go `term.copy` and `nonterm.copy`: a new object with the same content
and no `isAlso`. -/
def Define.copy : Define → Define
  | .term pass _ => .term pass []
  | .nonterm embeds cons str _ => .nonterm embeds cons str []

/-- Go `delete(m, k)`. -/
def mapDelete {β : Type} (m : List (String × β)) (k : String) : List (String × β) :=
  m.filter (fun p => decide (p.1 ≠ k))

/-- The loop that strips the pointers off an embedded type: the number of
pointers and the type below them. -/
def stripPointers : GoType → Nat × GoType
  | .pointer e => ((stripPointers e).1 + 1, (stripPointers e).2)
  | t => (0, t)

/-- The first loop of `extend`: sort the type parameters into `commands`
(named constraints) and `delta` (interface constraints). -/
def scanParams : List TypeParam → List (String × List String) → List (String × Iface) →
    Except Err (List (String × List String) × List (String × Iface))
  | [], commands, delta => .ok (commands, delta)
  | tparam :: rest, commands, delta =>
    match tparam.constraint with
    | .named command =>
      scanParams rest
        (mapSet commands command ((mapGet commands command).getD [] ++ [tparam.name])) delta
    | .iface i => scanParams rest commands (delta ++ [(tparam.name, i)])
    | .other => .error .runtimePanic

/-- The closure `take` of `extend`: the names given to a command, and the
commands without it. -/
def take (commands : List (String × List String)) (key : String) :
    List String × List (String × List String) :=
  ((mapGet commands key).getD [], mapDelete commands key)

/-- The loop over `take("inherit")`. -/
def inheritLoop (defs : List (String × Define)) : List String → Emit Unit
  | [] => pure ()
  | defName :: rest =>
    match mapGet defs defName with
    | none => Emit.bind (print ("cannot inherit undefined " ++ defName ++ "\n"))
        (fun _ => inheritLoop defs rest)
    | some _ => inheritLoop defs rest

/-- The loop over `take("define")`. -/
def defineLoop (langName : String) :
    List String → List (String × Define) → Emit (List (String × Define))
  | [], defs => pure defs
  | defName :: rest, defs =>
    match mapGet defs defName with
    | none => defineLoop langName rest (mapSet defs defName (.term langName []))
    | some _ => Emit.bind (print (defName ++ " is already defined\n"))
        (fun _ => defineLoop langName rest defs)

/-- The loop over `take("redefine")`. -/
def redefineLoop (langName : String) :
    List String → List (String × Define) → Emit (List (String × Define))
  | [], defs => pure defs
  | defName :: rest, defs =>
    match mapGet defs defName with
    | some (.term _ _) => redefineLoop langName rest (mapSet defs defName (.term langName []))
    | _ => Emit.bind (print (defName ++ " is not a defined non-terminal\n"))
        (fun _ => redefineLoop langName rest defs)

/-- The names of the embedded types of an interface, whatever the number of
pointers; an embedded type that is not a type parameter below its pointers
fails the type assertion. -/
def embedNames : List GoType → Except Err (List String)
  | [] => .ok []
  | t :: rest =>
    match (stripPointers t).2 with
    | .typeParam name =>
      match embedNames rest with
      | .ok names => .ok (name :: names)
      | .error e => .error e
    | _ => .error .runtimePanic

/-- The loop that collects `embedClobbers` and `consClobbers` from the
deltas that are not implicit. -/
def clobbers : List (String × Iface) → Except Err (List String × List String)
  | [] => .ok ([], [])
  | (_, iface) :: rest =>
    if iface.implicit then clobbers rest
    else
      match embedNames iface.embeddeds with
      | .error e => .error e
      | .ok names =>
        match clobbers rest with
        | .error e => .error e
        | .ok (ec, cc) => .ok (names ++ ec, iface.methods.map Method.name ++ cc)

/-- The body of the loop that deletes the clobbered names from a
definition. -/
def Define.clobber (embedClobbers consClobbers : List String) : Define → Define
  | .nonterm embeds cons str isAlso =>
    .nonterm (embedClobbers.foldl mapDelete embeds) (consClobbers.foldl mapDelete cons) str isAlso
  | d => d

/-- Go `nt.embeds[embedName] = true` for the non-terminal `defName`. -/
def setEmbed (defs : List (String × Define)) (defName embedName : String) :
    List (String × Define) :=
  match mapGet defs defName with
  | some (.nonterm embeds cons str isAlso) =>
    mapSet defs defName (.nonterm (mapSet embeds embedName true) cons str isAlso)
  | _ => defs

/-- Go `nt.cons[conName] = sig` for the non-terminal `defName`. -/
def setCon (defs : List (String × Define)) (defName conName : String) (sig : Signature) :
    List (String × Define) :=
  match mapGet defs defName with
  | some (.nonterm embeds cons str isAlso) =>
    mapSet defs defName (.nonterm embeds (mapSet cons conName sig) str isAlso)
  | _ => defs

/-- Go `nt.str = s` for the non-terminal `defName`. -/
def setStr (defs : List (String × Define)) (defName : String) (s : String) :
    List (String × Define) :=
  match mapGet defs defName with
  | some (.nonterm embeds cons _ isAlso) =>
    mapSet defs defName (.nonterm embeds cons (some s) isAlso)
  | _ => defs

/-- The loop over the embedded types of a delta; `hasNt` says that `nt` is
not `nil`.  A write through a `nil` `nt` is a run-time panic. -/
def deltaEmbeds (defName : String) (hasNt : Bool) :
    List GoType → List (String × Define) → Except Err (List (String × Define))
  | [], defs => .ok defs
  | typ :: rest, defs =>
    match stripPointers typ with
    | (ptrs, .typeParam embedName) =>
      if ptrs = 1 then
        if hasNt then deltaEmbeds defName hasNt rest (setEmbed defs defName embedName)
        else .error .runtimePanic
      else deltaEmbeds defName hasNt rest defs
    | _ => .error .runtimePanic

/-- The loop over the methods of a delta. -/
def deltaMethods (defName : String) (hasNt : Bool) :
    List Method → List (String × Define) → Emit (List (String × Define))
  | [], defs => pure defs
  | con :: rest, defs =>
    match con.sig.results with
    | [] =>
      if hasNt then deltaMethods defName hasNt rest (setCon defs defName con.name con.sig)
      else fail .runtimePanic
    | [.named name] =>
      if name ≠ "omit" then
        Emit.bind (print ("unexpected signature result: " ++ con.sig.resultsText ++ "\n"))
          (fun _ => deltaMethods defName hasNt rest defs)
      else deltaMethods defName hasNt rest defs
    | [_] => fail .runtimePanic
    | _ =>
      Emit.bind (print ("unexpected signature result: " ++ con.sig.resultsText ++ "\n"))
        (fun _ => deltaMethods defName hasNt rest defs)

/-- The body of the loop over `delta` for one type parameter. -/
def applyDelta (defs : List (String × Define)) (d : String × Iface) :
    Emit (List (String × Define)) :=
  let defName := d.1
  let iface := d.2
  let body (defs : List (String × Define)) (hasNt : Bool) : Emit (List (String × Define)) :=
    if iface.implicit then
      if hasNt then
        match iface.embeddeds.get? 0 with
        | some (.struct s) => pure (setStr defs defName s)
        | _ => fail .runtimePanic
      else fail .runtimePanic
    else
      match deltaEmbeds defName hasNt iface.embeddeds defs with
      | .error e => fail e
      | .ok defs => deltaMethods defName hasNt iface.methods defs
  match mapGet defs defName with
  | none => body (mapSet defs defName (.nonterm [] [] none [])) true
  | some (.nonterm _ _ _ _) => body defs true
  | some (.term _ _) =>
    Emit.bind (print (defName ++ " is already a terminal\n")) (fun _ => body defs false)

/-- The loop `for _, typ := range delta` that applies the deltas. -/
def deltaLoop : List (String × Iface) → List (String × Define) → Emit (List (String × Define))
  | [], defs => pure defs
  | d :: rest, defs => Emit.bind (applyDelta defs d) (fun defs => deltaLoop rest defs)

/-- Go `extend` up to and including the loop over `take("omit")`: the
definitions before `flood` runs, and the commands that are left. -/
def extendPre (L0 : Lang) (langName : String) (tparams : List TypeParam) :
    Emit (List (String × Define) × List (String × List String)) :=
  let defs := L0.defs.map (fun p => (p.1, p.2.copy))
  match scanParams tparams [] [] with
  | .error e => fail e
  | .ok (commands, delta) =>
    let inh := take commands "inherit"
    Emit.bind (inheritLoop defs inh.1) (fun _ =>
      let dfn := take inh.2 "define"
      Emit.bind (defineLoop langName dfn.1 defs) (fun defs =>
        let rdf := take dfn.2 "redefine"
        Emit.bind (redefineLoop langName rdf.1 defs) (fun defs =>
          Emit.bind (liftE (clobbers delta)) (fun cl =>
            let defs := defs.map (fun p => (p.1, p.2.clobber cl.1 cl.2))
            Emit.bind (deltaLoop delta defs) (fun defs =>
              let om := take rdf.2 "omit"
              Emit.pure (om.1.foldl mapDelete defs, om.2))))))

/-- The body of the loop `for embedName := range nt.embeds` of `flood`;
`rec` is the recursive call of `flood`. -/
def floodEmbed (also : String)
    (rec : List (String × Define) → String → Option (List (String × Define)))
    (defs : List (String × Define)) (embedName : String) : Option (List (String × Define)) :=
  match mapGet defs embedName with
  | some (.term pass isAlso) =>
    some (mapSet defs embedName (.term pass (mapSet isAlso also true)))
  | some (.nonterm _ _ _ _) => rec defs embedName
  | none => some defs

/-- Go `flood(nt, also)`, the closure of `extend`, on the non-terminal named
`n`.  The map `nt.embeds` is ranged over in the order `sh` gives; the first
argument bounds the depth of the recursion (`none`: bound reached). -/
def flood (sh : List String → List String) (also : String) :
    Nat → List (String × Define) → String → Option (List (String × Define))
  | 0, _, _ => none
  | fuel + 1, defs, n =>
    match mapGet defs n with
    | some (.nonterm embeds cons str isAlso) =>
      if (mapGet isAlso also).getD false then some defs
      else
        (sh (embeds.map Prod.fst)).foldlM (floodEmbed also (flood sh also fuel))
          (mapSet defs n (.nonterm embeds cons str (mapSet isAlso also true)))
    | _ => some defs

/-- The body of the loop `for defName, def := range L.defs`: a non-terminal
is flooded with its own name. -/
def floodDef (sh : List String → List String) (fuel : Nat) (defs : List (String × Define))
    (defName : String) : Option (List (String × Define)) :=
  match mapGet defs defName with
  | some (.nonterm _ _ _ _) => flood sh defName fuel defs defName
  | _ => some defs

/-- The loop `for defName, def := range L.defs` that floods every
non-terminal with its own name; the map is ranged over in the order `sh`
gives. -/
def floodAll (sh : List String → List String) (fuel : Nat) (defs : List (String × Define)) :
    Option (List (String × Define)) :=
  (sh (defs.map Prod.fst)).foldlM (floodDef sh fuel) defs

/-- Go `%v` of the map `commands`: the entries in the order of their keys. -/
def fmtCommands (commands : List (String × List String)) : String :=
  "map[" ++ " ".intercalate
    (((commands.map Prod.fst).insertionSort (fun a b => decide (a < b) || decide (a = b))).map
      (fun k => k ++ ":[" ++ " ".intercalate ((mapGet commands k).getD []) ++ "]")) ++ "]"

/-- Go `(L0 lang).extend(langName, tparams)`. -/
def extend (sh : List String → List String) (fuel : Nat) (L0 : Lang) (langName : String)
    (tparams : List TypeParam) : Emit Lang :=
  Emit.bind (extendPre L0 langName tparams) (fun r =>
    match floodAll sh fuel r.1 with
    | none => fail .outOfFuel
    | some defs =>
      Emit.bind (if r.2.length ≠ 0 then print ("unknown commands: " ++ fmtCommands r.2 ++ "\n")
        else Emit.pure ()) (fun _ => Emit.pure ⟨langName, defs⟩))

/-! ## Definitions used to state the properties of `extend` -/

/-- The map `isAlso` of a definition. -/
def Define.isAlso : Define → List (String × Bool)
  | .term _ isAlso => isAlso
  | .nonterm _ _ _ isAlso => isAlso

/-- The names in the map `embeds` of a non-terminal (a terminal has none). -/
def Define.embedKeys : Define → List String
  | .term _ _ => []
  | .nonterm embeds _ _ _ => embeds.map Prod.fst

/-- The map `cons` of a non-terminal (a terminal has none). -/
def Define.consMap : Define → List (String × Signature)
  | .term _ _ => []
  | .nonterm _ cons _ _ => cons

/-- The definition is a `*nonterm`. -/
def Define.isNonterm : Define → Bool
  | .term _ _ => false
  | .nonterm _ _ _ _ => true

/-- The definition with `isAlso[also] = true`. -/
def Define.mark (also : String) : Define → Define
  | .term pass isAlso => .term pass (mapSet isAlso also true)
  | .nonterm embeds cons str isAlso => .nonterm embeds cons str (mapSet isAlso also true)

/-- The name `N` is in the `isAlso` of the definition named `D`. -/
def isAlsoOf (defs : List (String × Define)) (D N : String) : Bool :=
  match mapGet defs D with
  | some d => (mapGet d.isAlso N).getD false
  | none => false

/-- The name `N` is defined as a non-terminal. -/
def isNontermIn (defs : List (String × Define)) (N : String) : Bool :=
  match mapGet defs N with
  | some d => d.isNonterm
  | none => false

/-- An embeds edge of the language: `m` is a non-terminal that embeds `e`,
and `e` is defined. -/
def Edge (defs : List (String × Define)) (m e : String) : Prop :=
  ∃ d, mapGet defs m = some d ∧ d.isNonterm = true ∧ e ∈ d.embedKeys ∧
    (mapGet defs e).isSome = true

/-- The definition `D` is `N`, or is reached from `N` by embeds edges (each
of them leaves a non-terminal, so that a terminal is an end point). -/
inductive Reach (defs : List (String × Define)) : String → String → Prop where
  | refl (n : String) : Reach defs n n
  | step {n m e : String} : Reach defs n m → Edge defs m e → Reach defs n e

/-- The two maps of definitions have the same names in the same order and,
under each name, the same definition up to `isAlso`. -/
def Shape (defs defs' : List (String × Define)) : Prop :=
  defs'.map Prod.fst = defs.map Prod.fst ∧
  ∀ n, (mapGet defs' n).map Define.copy = (mapGet defs n).map Define.copy

/-- The number of non-terminals that `also` has not reached yet. -/
def unmarked (also : String) (defs : List (String × Define)) : Nat :=
  (defs.map Prod.fst).countP (fun m => isNontermIn defs m && !isAlsoOf defs m also)

/-- What a run of `flood` for `also` from the names in `starts` has done to
the definitions: they keep their shape and their marks for other names; marks
are only added; the starts are marked; every non-terminal that has got its
mark in the run has all its embeds edges marked; and the new marks lie in
every set that holds the starts and is closed under embeds edges. -/
def FloodPost (also : String) (defs defs' : List (String × Define))
    (starts : String → Prop) : Prop :=
  Shape defs defs' ∧
  (∀ D a, a ≠ also → isAlsoOf defs' D a = isAlsoOf defs D a) ∧
  (∀ D, isAlsoOf defs D also = true → isAlsoOf defs' D also = true) ∧
  (∀ s, starts s → isAlsoOf defs' s also = true) ∧
  (∀ m, isNontermIn defs m = true → isAlsoOf defs' m also = true →
    isAlsoOf defs m also = false → ∀ e, Edge defs m e → isAlsoOf defs' e also = true) ∧
  (∀ P : String → Prop, (∀ s, starts s → P s) → (∀ m e, P m → Edge defs m e → P e) →
    ∀ D, isAlsoOf defs' D also = true → isAlsoOf defs D also = false → P D)

/-- The names in the `embeds` of the definition named `N` (none when `N` is
a terminal or is not defined). -/
def embedsAt (defs : List (String × Define)) (N : String) : List String :=
  match mapGet defs N with
  | some d => d.embedKeys
  | none => []

/-- The map `cons` of the definition named `N` (empty when `N` is a terminal
or is not defined). -/
def consAt (defs : List (String × Define)) (N : String) : List (String × Signature) :=
  match mapGet defs N with
  | some d => d.consMap
  | none => []

/-- No definition has an entry in its `isAlso`. -/
def Clean (defs : List (String × Define)) : Prop :=
  ∀ N d, mapGet defs N = some d → d.isAlso = []

/-- The deltas of an extension: the type parameters with an interface
constraint, in order. -/
def deltasOf (tparams : List TypeParam) : List (String × Iface) :=
  tparams.filterMap (fun tp =>
    match tp.constraint with
    | .iface i => some (tp.name, i)
    | _ => none)

/-- The names that a list of embedded types embeds with exactly one pointer
level. -/
def own1 (l : List GoType) : List String :=
  l.filterMap (fun t =>
    if (stripPointers t).1 = 1 then
      match (stripPointers t).2 with
      | .typeParam e => some e
      | _ => none
    else none)

/-- The names that a list of embedded types embeds at any pointer depth. -/
def anyEmbeds (l : List GoType) : List String :=
  l.filterMap (fun t =>
    match (stripPointers t).2 with
    | .typeParam e => some e
    | _ => none)

/-- The names of the methods of a list that are declared without a
result. -/
def ownM (l : List Method) : List String :=
  (l.filter (fun m => decide (m.sig.results = []))).map Method.name

/-- The names that the own delta of `N` embeds with exactly one pointer
level. -/
def ownEmbeds (delta : List (String × Iface)) (N : String) : List String :=
  delta.flatMap (fun d => if d.1 = N ∧ d.2.implicit = false then own1 d.2.embeddeds else [])

/-- The methods that the own delta of `N` declares without a result. -/
def ownCons (delta : List (String × Iface)) (N : String) : List String :=
  delta.flatMap (fun d => if d.1 = N ∧ d.2.implicit = false then ownM d.2.methods else [])

/-- Every name embedded at any pointer depth in the delta of any
non-terminal. -/
def allEmbeds (delta : List (String × Iface)) : List String :=
  delta.flatMap (fun d => if d.2.implicit = false then anyEmbeds d.2.embeddeds else [])

/-- Every name that appears as a method in the delta of any non-terminal. -/
def allMethods (delta : List (String × Iface)) : List String :=
  delta.flatMap (fun d => if d.2.implicit = false then d.2.methods.map Method.name else [])

/-- What a part of `extend` has done to the definitions: `E N` are the names
added to the embeds of `N`, `M N` the constructors set in `N`; nothing else
changes in an `embeds` or `cons`, no `isAlso` gets an entry, and a
non-terminal remains one. -/
def Evo (d d' : List (String × Define)) (E M : String → List String) : Prop :=
  (Clean d → Clean d') ∧
  (∀ N, isNontermIn d N = true → isNontermIn d' N = true) ∧
  (∀ N e, e ∈ embedsAt d' N ↔ e ∈ embedsAt d N ∨ e ∈ E N) ∧
  (∀ N m, m ∉ M N → mapGet (consAt d' N) m = mapGet (consAt d N) m) ∧
  (∀ N m, m ∈ M N → (mapGet (consAt d' N) m).isSome = true)

/-! ## Example languages -/

/-- A constructor signature with the given parameters and no result. -/
def sigOf (params : String) : Signature := ⟨params, [], "()"⟩

/-- The signature `() omit`. -/
def sigOmit : Signature := ⟨"()", [.named "omit"], "(omit)"⟩

/-- A small source language: a terminal `Primitive` and the non-terminals
`Expr` (which embeds `Primitive` and `Const`), `Const` and `Datum` (which
embeds `Const`). -/
def exL0 : Lang := ⟨"Lsrc", [
  ("Primitive", .term "Lsrc" [("Expr", true)]),
  ("Expr", .nonterm [("Primitive", true), ("Const", true)]
    [("IfThen", sigOf "(Cond, Then Expr)"), ("If", sigOf "(Cond, Then, Else Expr)")] none
    [("Expr", true)]),
  ("Const", .nonterm [] [("True", sigOf "()")] none
    [("Expr", true), ("Const", true), ("Datum", true)]),
  ("Datum", .nonterm [("Const", true)] [("Pair", sigOf "(Car, Cdr Datum)")] none
    [("Datum", true)])]⟩

/-- The type parameters of the extension
`L1[Primitive redefine, Expr interface{ *Primitive; **Const; IfThen() omit },
Datum interface{ *Const }]`. -/
def exParams : List TypeParam := [
  ⟨"Primitive", .named "redefine"⟩,
  ⟨"Expr", .iface ⟨false,
    [.pointer (.typeParam "Primitive"), .pointer (.pointer (.typeParam "Const"))],
    [⟨"IfThen", sigOmit⟩]⟩⟩,
  ⟨"Datum", .iface ⟨false, [.pointer (.typeParam "Const")], []⟩⟩]

/-- The definitions of the extension of `exL0` by `exParams` before `flood`
runs, with the commands that are left. -/
def exPre : List (String × Define) × List (String × List String) :=
  ([("Primitive", .term "L1" []),
    ("Expr", .nonterm [("Primitive", true)] [("If", sigOf "(Cond, Then, Else Expr)")] none []),
    ("Const", .nonterm [] [("True", sigOf "()")] none []),
    ("Datum", .nonterm [("Const", true)] [("Pair", sigOf "(Car, Cdr Datum)")] none [])], [])

/-- The extension of `exL0` by `exParams`. -/
def exL1 : Lang := ⟨"L1", [
  ("Primitive", .term "L1" [("Expr", true)]),
  ("Expr", .nonterm [("Primitive", true)] [("If", sigOf "(Cond, Then, Else Expr)")] none
    [("Expr", true)]),
  ("Const", .nonterm [] [("True", sigOf "()")] none [("Const", true), ("Datum", true)]),
  ("Datum", .nonterm [("Const", true)] [("Pair", sigOf "(Car, Cdr Datum)")] none
    [("Datum", true)])]⟩

/-! ## Definitions for the uniqueness of constructors -/

/-- Every constructor name is in the constructor set of at most one
definition. -/
def UniqueCons (defs : List (String × Define)) : Prop :=
  ∀ N₁ N₂ m, (mapGet (consAt defs N₁) m).isSome = true →
    (mapGet (consAt defs N₂) m).isSome = true → N₁ = N₂

/-- A check that implies `UniqueCons`: two entries that have a constructor
name in common have the same name. -/
def uniqueConsCheck (defs : List (String × Define)) : Bool :=
  defs.all (fun p => defs.all (fun q =>
    p.2.consMap.all (fun c => !(q.2.consMap.map Prod.fst).contains c.1 || decide (p.1 = q.1))))

/-- No constructor name is declared without a result in the deltas of two
different names. -/
def DisjointDeltas (delta : List (String × Iface)) : Prop :=
  ∀ N₁ N₂ m, m ∈ ownCons delta N₁ → m ∈ ownCons delta N₂ → N₁ = N₂

/-- The empty language, the value of `var L lang`. -/
def emptyLang : Lang := ⟨"", []⟩

/-- The type parameters of the extension `L2[Datum interface{ If(X Datum) }]`,
which declares under `Datum` a constructor name that `Expr` has in `exL0`. -/
def exParamsMove : List TypeParam := [
  ⟨"Datum", .iface ⟨false, [], [⟨"If", sigOf "(X Datum)"⟩]⟩⟩]

/-- The extension of `exL0` by `exParamsMove`: `If` is a constructor of
`Datum` and no longer one of `Expr`. -/
def exL2 : Lang := ⟨"L2", [
  ("Primitive", .term "Lsrc" [("Expr", true)]),
  ("Expr", .nonterm [("Primitive", true), ("Const", true)]
    [("IfThen", sigOf "(Cond, Then Expr)")] none [("Expr", true)]),
  ("Const", .nonterm [] [("True", sigOf "()")] none
    [("Expr", true), ("Const", true), ("Datum", true)]),
  ("Datum", .nonterm [("Const", true)]
    [("Pair", sigOf "(Car, Cdr Datum)"), ("If", sigOf "(X Datum)")] none
    [("Datum", true)])]⟩

/-! ## Definitions for the run-time faults of `extend` -/

/-- The name is defined as a terminal. -/
def isTermIn (defs : List (String × Define)) (N : String) : Bool :=
  match mapGet defs N with
  | some (.term _ _) => true
  | _ => false

/-- The names that the type parameter list gives to a command. -/
def commandNames (tparams : List TypeParam) (command : String) : List String :=
  tparams.filterMap (fun tp =>
    match tp.constraint with
    | .named c => if c = command then some tp.name else none
    | _ => none)

/-- The type is a type parameter below its pointers. -/
def embedsParam (t : GoType) : Bool :=
  match (stripPointers t).2 with
  | .typeParam _ => true
  | _ => false

/-- The results of a method that the type assertion on a single result
accepts: no result, one result of a named type, or several results. -/
def resultsOK : List GoType → Bool
  | [] => true
  | [.named _] => true
  | [_] => false
  | _ => true

/-- The interface has the shape that the type assertions of `extend`
expect: an implicit interface wraps a struct type; in any other interface
every embedded type is a type parameter below its pointers and every method
has results that `resultsOK` accepts. -/
def wellShaped (i : Iface) : Bool :=
  if i.implicit then
    match i.embeddeds.get? 0 with
    | some (.struct _) => true
    | _ => false
  else i.embeddeds.all embedsParam && i.methods.all (fun m => resultsOK m.sig.results)

/-- The conditions under which `extend` is shown to complete: every
constraint is a named command or a well-shaped interface, and no parameter
with an interface constraint names a terminal of the previous language or a
name that the extension gives to `define`. -/
def extendOK (L0 : Lang) (tparams : List TypeParam) : Bool :=
  tparams.all (fun tp =>
    match tp.constraint with
    | .named _ => true
    | .iface i => wellShaped i && !isTermIn L0.defs tp.name &&
        !(commandNames tparams "define").contains tp.name
    | .other => false)

/-- The type parameters of `L9[Expr interface{ int }]`. -/
def exParamsInt : List TypeParam := [⟨"Expr", .iface ⟨false, [.other "int"], []⟩⟩]

/-- The type parameters of `L9[Primitive interface{ Void() }]`; `Primitive`
is a terminal of `exL0`. -/
def exParamsTerm : List TypeParam := [
  ⟨"Primitive", .iface ⟨false, [], [⟨"Void", sigOf "()"⟩]⟩⟩]

/-! ## `extend` on the objects of the Go heap

The definitions above give `extend` as a function of the content of the
previous language.  The definitions here follow the same code object by
object: a map, a `*term` and a `*nonterm` is a cell of a store and is
referred to by its address, so that two references to one object are seen
as such.  The messages that `extend` prints are left out (they are in
`extend` above); they do not touch the store. -/

/-- An object of the Go heap that `extend` uses: a `map[string]bool`
(`embeds`, `isAlso`), a `map[string]*types.Signature` (`cons`), a
`map[string]Define` whose values are addresses of `term` and `nonterm`
objects, a `term` and a `nonterm`.  A field that holds a map holds `none`
for the `nil` map and the address of the map otherwise. -/
inductive Obj where
  | boolMap (m : List (String × Bool))
  | sigMap (m : List (String × Signature))
  | defMap (m : List (String × Nat))
  | term (pass : String) (isAlso : Option Nat)
  | nonterm (embeds cons : Option Nat) (str : Option String) (isAlso : Option Nat)
  deriving DecidableEq, Repr

/-- The store: the object at each address. -/
abbrev Mem := List Obj

/-- A value of Go type `lang`: the name and the reference to the map
`defs` (`none` for the `nil` map of the zero value). -/
structure LangRef where
  name : String
  defs : Option Nat
  deriving DecidableEq, Repr

/-- A new object (`make`, `&term{...}`, `&nonterm{...}`, or the copy that
a value receiver is): the store with the object and its address. -/
def allocObj (m : Mem) (o : Obj) : Mem × Nat := (m ++ [o], m.length)

/-- A write to the object at address `a`: `f` gives the new content, or
`none` when the object is not of the kind that the write expects (the Go
type system excludes that; the model ends the run). -/
def updateObj (m : Mem) (a : Nat) (f : Obj → Option Obj) : Except Err Mem :=
  match m.get? a with
  | some o =>
    match f o with
    | some o' => .ok (m.set a o')
    | none => .error .runtimePanic
  | none => .error .runtimePanic

/-- The content of a `map[string]bool`; a `nil` map reads as empty. -/
def readBools (m : Mem) : Option Nat → List (String × Bool)
  | none => []
  | some a =>
    match m.get? a with
    | some (.boolMap x) => x
    | _ => []

/-- The content of a `map[string]*types.Signature`. -/
def readSigs (m : Mem) : Option Nat → List (String × Signature)
  | none => []
  | some a =>
    match m.get? a with
    | some (.sigMap x) => x
    | _ => []

/-- The content of a `map[string]Define`. -/
def readDefs (m : Mem) : Option Nat → List (String × Nat)
  | none => []
  | some a =>
    match m.get? a with
    | some (.defMap x) => x
    | _ => []

/-- Go `mp[k] = true` on a `map[string]bool`. -/
def setBool (k : String) : Obj → Option Obj
  | .boolMap x => some (.boolMap (mapSet x k true))
  | _ => none

/-- Go `delete(mp, k)` on a `map[string]bool`. -/
def delBool (k : String) : Obj → Option Obj
  | .boolMap x => some (.boolMap (mapDelete x k))
  | _ => none

/-- Go `mp[k] = sig` on a `map[string]*types.Signature`. -/
def setSig (k : String) (sig : Signature) : Obj → Option Obj
  | .sigMap x => some (.sigMap (mapSet x k sig))
  | _ => none

/-- Go `delete(mp, k)` on a `map[string]*types.Signature`. -/
def delSig (k : String) : Obj → Option Obj
  | .sigMap x => some (.sigMap (mapDelete x k))
  | _ => none

/-- Go `L.defs[k] = def`. -/
def setDef (k : String) (a : Nat) : Obj → Option Obj
  | .defMap x => some (.defMap (mapSet x k a))
  | _ => none

/-- Go `delete(L.defs, k)`. -/
def delDef (k : String) : Obj → Option Obj
  | .defMap x => some (.defMap (mapDelete x k))
  | _ => none

/-- Go `nt.str = s`. -/
def setStrField (s : String) : Obj → Option Obj
  | .nonterm e c _ ia => some (.nonterm e c (some s) ia)
  | _ => none

/-- Go `def.isAlso = mp` on a `term` or `nonterm`. -/
def setIsAlsoField (r : Nat) : Obj → Option Obj
  | .term pass _ => some (.term pass (some r))
  | .nonterm e c s _ => some (.nonterm e c s (some r))
  | _ => none

/-- A write `mp[k] = v` through a map field: a `nil` map makes Go panic. -/
def writeMap (m : Mem) (r : Option Nat) (f : Obj → Option Obj) : Except Err Mem :=
  match r with
  | none => .error .runtimePanic
  | some a => updateObj m a f

/-- A `delete(mp, k)` through a map field: nothing happens on a `nil`
map. -/
def deleteMap (m : Mem) (r : Option Nat) (f : Obj → Option Obj) : Except Err Mem :=
  match r with
  | none => .ok m
  | some a => updateObj m a f

/-- Go `term.copy` and `nonterm.copy`, called through the reference `a`:
the value receiver is a new object with the fields of the old one; `dup`
gives it new maps `embeds` and `cons` with the entries of the old ones;
`isAlso` is set to `nil`. -/
def copyDef (m : Mem) (a : Nat) : Except Err (Mem × Nat) :=
  match m.get? a with
  | some (.term pass _) => .ok (allocObj m (.term pass none))
  | some (.nonterm e c s _) =>
    let m₁ := allocObj m (.boolMap (readBools m e))
    let m₂ := allocObj m₁.1 (.sigMap (readSigs m₁.1 c))
    .ok (allocObj m₂.1 (.nonterm (some m₁.2) (some m₂.2) s none))
  | _ => .error .runtimePanic

/-- The loop `for defName, def := range L0.defs` that fills the new map
at address `D`. -/
def copyLoop (D : Nat) : List (String × Nat) → Mem → Except Err Mem
  | [], m => .ok m
  | (defName, a) :: rest, m =>
    match copyDef m a with
    | .error e => .error e
    | .ok (m₁, a') =>
      match updateObj m₁ D (setDef defName a') with
      | .error e => .error e
      | .ok m₂ => copyLoop D rest m₂

/-- The loop over `take("define")`. -/
def defineLoopRef (langName : String) (D : Nat) : List String → Mem → Except Err Mem
  | [], m => .ok m
  | defName :: rest, m =>
    match mapGet (readDefs m (some D)) defName with
    | none =>
      let m₁ := allocObj m (.term langName none)
      match updateObj m₁.1 D (setDef defName m₁.2) with
      | .error e => .error e
      | .ok m₂ => defineLoopRef langName D rest m₂
    | some _ => defineLoopRef langName D rest m

/-- The loop over `take("redefine")`. -/
def redefineLoopRef (langName : String) (D : Nat) : List String → Mem → Except Err Mem
  | [], m => .ok m
  | defName :: rest, m =>
    match (mapGet (readDefs m (some D)) defName).bind m.get? with
    | some (.term _ _) =>
      let m₁ := allocObj m (.term langName none)
      match updateObj m₁.1 D (setDef defName m₁.2) with
      | .error e => .error e
      | .ok m₂ => redefineLoopRef langName D rest m₂
    | _ => redefineLoopRef langName D rest m

/-- The body of the loop `for _, def := range L.defs` that deletes the
clobbered names, for the definition at address `a`. -/
def clobberDef (embedClobbers consClobbers : List String) (m : Mem) (a : Nat) :
    Except Err Mem :=
  match m.get? a with
  | some (.nonterm e c _ _) =>
    match embedClobbers.foldlM (fun m k => deleteMap m e (delBool k)) m with
    | .error err => .error err
    | .ok m₁ => consClobbers.foldlM (fun m k => deleteMap m c (delSig k)) m₁
  | _ => .ok m

/-- The loop `for _, def := range L.defs` that deletes the clobbered
names; the map is ranged over in the order `sh` gives. -/
def clobberLoop (sh : List String → List String) (embedClobbers consClobbers : List String)
    (D : Nat) (m : Mem) : Except Err Mem :=
  (sh ((readDefs m (some D)).map Prod.fst)).foldlM
    (fun m k =>
      match mapGet (readDefs m (some D)) k with
      | some a => clobberDef embedClobbers consClobbers m a
      | none => .ok m) m

/-- The embeds field of the `nonterm` behind `nt`; a `nil` `nt` makes Go
panic. -/
def embedsOf (m : Mem) (nt : Option Nat) : Except Err (Option Nat) :=
  match nt.bind m.get? with
  | some (.nonterm e _ _ _) => .ok e
  | _ => .error .runtimePanic

/-- The cons field of the `nonterm` behind `nt`. -/
def consOf (m : Mem) (nt : Option Nat) : Except Err (Option Nat) :=
  match nt.bind m.get? with
  | some (.nonterm _ c _ _) => .ok c
  | _ => .error .runtimePanic

/-- The loop over the embedded types of a delta. -/
def deltaEmbedsRef (nt : Option Nat) : List GoType → Mem → Except Err Mem
  | [], m => .ok m
  | typ :: rest, m =>
    match stripPointers typ with
    | (ptrs, .typeParam embedName) =>
      if ptrs = 1 then
        match embedsOf m nt with
        | .error e => .error e
        | .ok r =>
          match writeMap m r (setBool embedName) with
          | .error e => .error e
          | .ok m₁ => deltaEmbedsRef nt rest m₁
      else deltaEmbedsRef nt rest m
    | _ => .error .runtimePanic

/-- The loop over the methods of a delta. -/
def deltaMethodsRef (nt : Option Nat) : List Method → Mem → Except Err Mem
  | [], m => .ok m
  | con :: rest, m =>
    match con.sig.results with
    | [] =>
      match consOf m nt with
      | .error e => .error e
      | .ok r =>
        match writeMap m r (setSig con.name con.sig) with
        | .error e => .error e
        | .ok m₁ => deltaMethodsRef nt rest m₁
    | [.named _] => deltaMethodsRef nt rest m
    | [_] => .error .runtimePanic
    | _ => deltaMethodsRef nt rest m

/-- The `switch def := L.defs[defName].(type)` of the loop over `delta`:
the store and `nt` after it. -/
def findNt (D : Nat) (m : Mem) (defName : String) : Except Err (Mem × Option Nat) :=
  match mapGet (readDefs m (some D)) defName with
  | none =>
    let m₁ := allocObj m (.boolMap [])
    let m₂ := allocObj m₁.1 (.sigMap [])
    let m₃ := allocObj m₂.1 (.nonterm (some m₁.2) (some m₂.2) none none)
    match updateObj m₃.1 D (setDef defName m₃.2) with
    | .error e => .error e
    | .ok m₄ => .ok (m₄, some m₃.2)
  | some a =>
    match m.get? a with
    | some (.nonterm _ _ _ _) => .ok (m, some a)
    | some (.term _ _) => .ok (m, none)
    | _ => .error .runtimePanic

/-- The body of the loop over `delta` for one type parameter. -/
def applyDeltaRef (D : Nat) (m : Mem) (d : String × Iface) : Except Err Mem :=
  match findNt D m d.1 with
  | .error e => .error e
  | .ok (m₁, nt) =>
    if d.2.implicit then
      match nt, d.2.embeddeds.get? 0 with
      | some a, some (.struct s) => updateObj m₁ a (setStrField s)
      | _, _ => .error .runtimePanic
    else
      match deltaEmbedsRef nt d.2.embeddeds m₁ with
      | .error e => .error e
      | .ok m₂ => deltaMethodsRef nt d.2.methods m₂

/-- The statements `if def.isAlso == nil` ... `def.isAlso = make(...)` and
`def.isAlso[also] = true` on the `term` or `nonterm` at address `a`. -/
def markRef (m : Mem) (a : Nat) (also : String) : Except Err Mem :=
  match m.get? a with
  | some (.term _ (some r)) => updateObj m r (setBool also)
  | some (.nonterm _ _ _ (some r)) => updateObj m r (setBool also)
  | some (.term _ none) =>
    let m₁ := allocObj m (.boolMap [])
    match updateObj m₁.1 a (setIsAlsoField m₁.2) with
    | .error e => .error e
    | .ok m₂ => updateObj m₂ m₁.2 (setBool also)
  | some (.nonterm _ _ _ none) =>
    let m₁ := allocObj m (.boolMap [])
    match updateObj m₁.1 a (setIsAlsoField m₁.2) with
    | .error e => .error e
    | .ok m₂ => updateObj m₂ m₁.2 (setBool also)
  | _ => .error .runtimePanic

/-- The body of the loop `for embedName := range nt.embeds` of `flood`;
`rec` is the recursive call of `flood`. -/
def floodEmbedRef (D : Nat) (also : String) (rec : Mem → Nat → Except Err Mem) (m : Mem)
    (embedName : String) : Except Err Mem :=
  match mapGet (readDefs m (some D)) embedName with
  | none => .ok m
  | some a =>
    match m.get? a with
    | some (.term _ _) => markRef m a also
    | some (.nonterm _ _ _ _) => rec m a
    | _ => .ok m

/-- Go `flood(nt, also)` on the `nonterm` at address `nt`; the first
argument bounds the depth of the recursion. -/
def floodRef (sh : List String → List String) (D : Nat) (also : String) :
    Nat → Mem → Nat → Except Err Mem
  | 0, _, _ => .error .outOfFuel
  | fuel + 1, m, nt =>
    match m.get? nt with
    | some (.nonterm e _ _ ia) =>
      if (mapGet (readBools m ia) also).getD false then .ok m
      else
        match markRef m nt also with
        | .error err => .error err
        | .ok m₁ =>
          (sh ((readBools m₁ e).map Prod.fst)).foldlM
            (floodEmbedRef D also (floodRef sh D also fuel)) m₁
    | _ => .error .runtimePanic

/-- The loop `for defName, def := range L.defs` that floods every
non-terminal with its own name. -/
def floodAllRef (sh : List String → List String) (fuel : Nat) (D : Nat) (m : Mem) :
    Except Err Mem :=
  (sh ((readDefs m (some D)).map Prod.fst)).foldlM
    (fun m defName =>
      match mapGet (readDefs m (some D)) defName with
      | none => .ok m
      | some a =>
        match m.get? a with
        | some (.nonterm _ _ _ _) => floodRef sh D defName fuel m a
        | _ => .ok m) m

/-- The entries of the map `L0.defs` in the order in which the first loop
of `extend` ranges over them. -/
def entriesOf (sh : List String → List String) (m : Mem) (r : Option Nat) :
    List (String × Nat) :=
  (sh ((readDefs m r).map Prod.fst)).filterMap
    (fun k => (mapGet (readDefs m r) k).map (fun a => (k, a)))

/-- Go `(L0 lang).extend(langName, tparams)` on the store `m`: the store
after the call and the language it returns. -/
def extendRef (sh : List String → List String) (fuel : Nat) (m : Mem) (L0 : LangRef)
    (langName : String) (tparams : List TypeParam) : Except Err (Mem × LangRef) :=
  let m₀ := allocObj m (.defMap [])
  let D := m₀.2
  match copyLoop D (entriesOf sh m L0.defs) m₀.1 with
  | .error e => .error e
  | .ok m₁ =>
    match scanParams tparams [] [] with
    | .error e => .error e
    | .ok (commands, delta) =>
      let inh := take commands "inherit"
      let dfn := take inh.2 "define"
      match defineLoopRef langName D dfn.1 m₁ with
      | .error e => .error e
      | .ok m₂ =>
        let rdf := take dfn.2 "redefine"
        match redefineLoopRef langName D rdf.1 m₂ with
        | .error e => .error e
        | .ok m₃ =>
          match clobbers delta with
          | .error e => .error e
          | .ok cl =>
            match clobberLoop sh cl.1 cl.2 D m₃ with
            | .error e => .error e
            | .ok m₄ =>
              match delta.foldlM (applyDeltaRef D) m₄ with
              | .error e => .error e
              | .ok m₅ =>
                let om := take rdf.2 "omit"
                match om.1.foldlM (fun m k => updateObj m D (delDef k)) m₅ with
                | .error e => .error e
                | .ok m₆ =>
                  match floodAllRef sh fuel D m₆ with
                  | .error e => .error e
                  | .ok m₇ => .ok (m₇, ⟨langName, some D⟩)

/-- The content of a language in the store: its definitions with the
content of their maps. -/
def readLang (m : Mem) (L : LangRef) : List (String × Define) :=
  (readDefs m L.defs).filterMap (fun p =>
    match m.get? p.2 with
    | some (.term pass ia) => some (p.1, .term pass (readBools m ia))
    | some (.nonterm e c s ia) =>
      some (p.1, .nonterm (readBools m e) (readSigs m c) s (readBools m ia))
    | _ => none)

/-- The reference is `nil` or an address of the store. -/
def validRef (m : Mem) : Option Nat → Bool
  | none => true
  | some a => decide (a < m.length)

/-- Every reference of the language is `nil` or an address of the store. -/
def LangRef.valid (m : Mem) (L : LangRef) : Bool :=
  validRef m L.defs && (readDefs m L.defs).all (fun p =>
    decide (p.2 < m.length) &&
    match m.get? p.2 with
    | some (.term _ ia) => validRef m ia
    | some (.nonterm e c _ ia) => validRef m e && validRef m c && validRef m ia
    | _ => true)

/-- The language `exL0` in a store: the maps and definitions of `Primitive`
(addresses 0 and 1), `Expr` (2 to 5), `Const` (6 to 9) and `Datum` (10 to
13), and the map `defs` at address 14. -/
def exMem : Mem := [
  .boolMap [("Expr", true)],
  .term "Lsrc" (some 0),
  .boolMap [("Primitive", true), ("Const", true)],
  .sigMap [("IfThen", sigOf "(Cond, Then Expr)"), ("If", sigOf "(Cond, Then, Else Expr)")],
  .boolMap [("Expr", true)],
  .nonterm (some 2) (some 3) none (some 4),
  .boolMap [],
  .sigMap [("True", sigOf "()")],
  .boolMap [("Expr", true), ("Const", true), ("Datum", true)],
  .nonterm (some 6) (some 7) none (some 8),
  .boolMap [("Const", true)],
  .sigMap [("Pair", sigOf "(Car, Cdr Datum)")],
  .boolMap [("Datum", true)],
  .nonterm (some 10) (some 11) none (some 12),
  .defMap [("Primitive", 1), ("Expr", 5), ("Const", 9), ("Datum", 13)]]

/-- The language `exL0` as a value of type `lang` in the store `exMem`. -/
def exRef : LangRef := ⟨"Lsrc", some 14⟩

/-- The reference is `nil` or an address from `n` on. -/
def freshRef (n : Nat) (r : Option Nat) : Prop := ∀ a, r = some a → n ≤ a

/-- The object refers to addresses from `n` on only. -/
def Obj.refsFrom (n : Nat) : Obj → Prop
  | .boolMap _ => True
  | .sigMap _ => True
  | .defMap x => ∀ k a, mapGet x k = some a → n ≤ a
  | .term _ ia => freshRef n ia
  | .nonterm e c _ ia => freshRef n e ∧ freshRef n c ∧ freshRef n ia

/-- The store `m` comes from the store `m₀` by new objects only: every
object of `m₀` is in `m` as it was, and the objects of `m` that are not in
`m₀` refer to such objects only. -/
def Extends (m₀ m : Mem) : Prop :=
  m₀.length ≤ m.length ∧ (∀ a, a < m₀.length → m.get? a = m₀.get? a) ∧
    ∀ a o, m₀.length ≤ a → m.get? a = some o → o.refsFrom m₀.length

/-- The store after the extension of `exRef` by `exParams` in the store
`exMem`: the objects of `exMem`, the map `defs` of the new language at
address 15, and the copies and new objects of its definitions. -/
def exMem1 : Mem := exMem ++ [
  .defMap [("Primitive", 26), ("Expr", 19), ("Const", 22), ("Datum", 25)],
  .term "Lsrc" none,
  .boolMap [("Primitive", true)],
  .sigMap [("If", sigOf "(Cond, Then, Else Expr)")],
  .nonterm (some 17) (some 18) none (some 27),
  .boolMap [],
  .sigMap [("True", sigOf "()")],
  .nonterm (some 20) (some 21) none (some 29),
  .boolMap [("Const", true)],
  .sigMap [("Pair", sigOf "(Car, Cdr Datum)")],
  .nonterm (some 23) (some 24) none (some 30),
  .term "L1" (some 28),
  .boolMap [("Expr", true)],
  .boolMap [("Expr", true)],
  .boolMap [("Const", true), ("Datum", true)],
  .boolMap [("Datum", true)]]

end Mklang

namespace Builtin

/-! ## builtin.go -/

/-- What the doc comment of `Zip` says the function returns (this follows
the words of the comment, not the body): the slice of the `fn(s1[i], s2[i])`
and `true` when `len(s1) == len(s2)`, and `nil, false` otherwise.  A slice is
a list and the `nil` slice is `none`. -/
def zipSpec {In1 In2 Out : Type} (s1 : List In1) (s2 : List In2) (fn : In1 → In2 → Out) :
    Option (List Out) × Bool :=
  if s1.length = s2.length then (some (List.zipWith fn s1 s2), true) else (none, false)

/-- Go `Zip(s1, s2, fn)` (builtin.go): the body is `panic(0)`, so the call
ends in a run-time panic whatever its arguments are and returns nothing. -/
def Zip {In1 In2 Out : Type} (_s1 : List In1) (_s2 : List In2) (_fn : In1 → In2 → Out) :
    Except Passify.Err (Option (List Out) × Bool) :=
  .error .runtimePanic

end Builtin

namespace Passify

/-! ## Lemmas -/

theorem wrap64_idem (a : Int) : wrap64 (wrap64 a) = wrap64 a := by
  unfold wrap64; omega

theorem wrap64_add_left (a b : Int) : wrap64 (wrap64 a + b) = wrap64 (a + b) := by
  unfold wrap64; omega

theorem wrap64_add_right (a b : Int) : wrap64 (a + wrap64 b) = wrap64 (a + b) := by
  unfold wrap64; omega

theorem wrap64_of_inInt64 (n : Int) (h : InInt64 n) : wrap64 n = n := by
  unfold InInt64 at h; unfold wrap64; omega

theorem mapGet_mapSet_self {κ β : Type} [DecidableEq κ] (m : List (κ × β)) (k : κ) (v : β) :
    mapGet (mapSet m k v) k = some v := by
  induction m with
  | nil => simp [mapSet, mapGet]
  | cons p rest ih =>
    obtain ⟨k', v'⟩ := p
    by_cases hk : k' = k
    · simp [mapSet, mapGet, hk]
    · simp [mapSet, mapGet, hk, ih]

theorem mapGet_mapSet_other {κ β : Type} [DecidableEq κ] (m : List (κ × β)) (k j : κ) (v : β)
    (hj : j ≠ k) : mapGet (mapSet m k v) j = mapGet m j := by
  induction m with
  | nil => simp [mapSet, mapGet, Ne.symm hj]
  | cons p rest ih =>
    obtain ⟨k', v'⟩ := p
    by_cases hk : k' = k
    · subst hk
      simp [mapSet, mapGet, Ne.symm hj]
    · by_cases hkj : k' = j
      · subst hkj
        simp [mapSet, mapGet, hk]
      · simp [mapSet, mapGet, hk, hkj, ih]

theorem wordOffsets_length (start : Int) (l : List Ty) :
    (wordOffsets start l).length = l.length := by
  induction l generalizing start with
  | nil => rfl
  | cons t rest ih => simp [wordOffsets, ih]

theorem wordSizes_onePerField : wordSizes.OnePerField :=
  fun l => wordOffsets_length 0 l

theorem add64_zero_left (n : Int) (h : InInt64 n) : add64 0 n = n := by
  unfold add64; rw [Int.zero_add]; exact wrap64_of_inInt64 n h

theorem emit_bind_def {α β : Type} (m : Emit α) (f : α → Emit β) :
    (m >>= f) = Emit.bind m f := rfl

theorem emit_pure_def {α : Type} (a : α) : (pure a : Emit α) = Emit.pure a := rfl

theorem Emit.ext {α : Type} {a b : Emit α} (ho : a.out = b.out) (hr : a.res = b.res) :
    a = b := by
  cases a; cases b; simp_all

theorem printExpr_const (S : Sizes) (pkg : String) (h : Heap) (n : Nat) (c : Constant)
    (t : Ty) : printExpr S pkg h (n + 1) (.const (some c) t) = print c.text := by
  simp [printExpr]

theorem printExpr_deref_alloc (S : Sizes) (pkg : String) (h : Heap) (n : Nat) (a : Alloc)
    (c : Cell) (t : Ty) (hc : mapGet h.allocs a = some c) :
    printExpr S pkg h (n + 1) (.unOp .MUL (.alloc a) t) =
      Emit.bind (print (typeString (some pkg) c.typ ++ "\x7b")) (fun _ =>
        Emit.bind (printCellElems (printNilable (printExpr S pkg h n)) c.elems 0 (keys c.elems))
          (fun _ => print "\x7d")) := by
  simp [printExpr, hc, emit_bind_def]

theorem store_at (S : Sizes) (h : Heap) (addr val : Value) (alloc : Alloc) (offset : Int)
    (cell : Cell) (hr : evalPtr S addr 0 = .ok (alloc, offset))
    (hcell : mapGet h.allocs alloc = some cell)
    (hslot : mapGet cell.elems offset = some none) :
    h.store S addr val =
      .ok ⟨mapSet h.allocs alloc ⟨cell.typ, mapSet cell.elems offset (some val)⟩⟩ := by
  simp [Heap.store, hr, hcell, hslot]

/-! ## C1: write-once -/

/-- C1. Write-once: when two stores resolve to the same (allocation, offset)
and that offset is a declared, still empty slot of the registered cell, the
first `heap.store` succeeds, the second one fails with the fatal "already
initialized", and the slot still holds the value of the first store (a load
of it returns that value, populated). -/
theorem store_write_once (S : Sizes) (h : Heap) (addr₁ addr₂ val₁ val₂ : Value)
    (alloc : Alloc) (offset : Int) (cell : Cell)
    (hr₁ : evalPtr S addr₁ 0 = .ok (alloc, offset))
    (hr₂ : evalPtr S addr₂ 0 = .ok (alloc, offset))
    (hcell : mapGet h.allocs alloc = some cell)
    (hslot : mapGet cell.elems offset = some none) :
    ∃ h₁, h.store S addr₁ val₁ = .ok h₁ ∧
      h₁.store S addr₂ val₂ = .error .alreadyInitialized ∧
      h₁.load S addr₂ = .ok (some val₁, true) := by
  refine ⟨{ allocs := mapSet h.allocs alloc
              { cell with elems := mapSet cell.elems offset (some val₁) } }, ?_, ?_, ?_⟩
  · simp [Heap.store, hr₁, hcell, hslot]
  · simp [Heap.store, hr₂, mapGet_mapSet_self]
  · simp [Heap.load, hr₂, mapGet_mapSet_self]

/-- C1 at a concrete input: two stores to `&t.A` of a fresh variable of
type `T`. -/
theorem store_write_once_witness :
    ∃ h₁, heapT.store wordSizes addrA (intConst 5) = .ok h₁ ∧
      h₁.store wordSizes addrA (intConst 7) = .error .alreadyInitialized ∧
      h₁.load wordSizes addrA = .ok (some (intConst 5), true) :=
  store_write_once wordSizes heapT addrA addrA (intConst 5) (intConst 7) allocT 0
    { typ := tT, elems := [(0, none), (8, none)] } (by rfl) (by rfl) (by rfl) (by rfl)

/-! ## C4: slot flattening -/

theorem declares_loop (f : List (Int × Option Value) → Nat → Except Err (List (Int × Option Value)))
    (g : Nat → List Int)
    (hf : ∀ i m₀, Declares m₀ (f m₀ i) (g i)) :
    ∀ (l : List Nat) (m₀ : List (Int × Option Value)),
      Declares m₀ (l.foldlM f m₀) (l.flatMap g) := by
  intro l
  induction l with
  | nil => intro m₀; exact ⟨m₀, rfl, by simp⟩
  | cons i rest ih =>
    intro m₀
    obtain ⟨m₁, h₁, hm₁⟩ := hf i m₀
    obtain ⟨m₂, h₂, hm₂⟩ := ih m₁
    refine ⟨m₂, ?_, ?_⟩
    · rw [List.foldlM_cons, h₁]
      exact h₂
    · intro k
      rw [hm₂ k, hm₁ k]
      by_cases h1 : k ∈ g i <;> by_cases h2 : k ∈ rest.flatMap g <;> simp [h1, h2]

theorem Fields.length_types : ∀ fs : Fields, fs.types.length = fs.length
  | .nil => rfl
  | .cons _ _ rest => by simp [Fields.types, Fields.length, Fields.length_types rest]

mutual
theorem init_declares (S : Sizes) (hS : S.OnePerField) :
    ∀ (T : Ty) (b : Int) (m₀ : List (Int × Option Value)),
      Declares m₀ (Cell.init S b T m₀) (slots S b T)
  | .named _ _ u, b, m₀ => by
    simpa [Cell.init, slots] using init_declares S hS u b m₀
  | .array elem len, b, m₀ => by
    by_cases hz : S.Sizeof elem = 0 ∨ len = 0
    · simp only [Cell.init, slots, hz, if_true]
      exact ⟨m₀, rfl, by simp⟩
    · simp only [Cell.init, slots, hz, if_false]
      exact declares_loop
        (fun m (i : Nat) => Cell.init S (add64 b (mul64 i (S.Sizeof elem))) elem m)
        (fun (i : Nat) => slots S (add64 b (mul64 i (S.Sizeof elem))) elem)
        (fun i m => init_declares S hS elem _ m) _ _
  | .struct fs, b, m₀ => by
    simp only [Cell.init, slots, offsets]
    exact initFields_declares S hS fs b (S.Offsetsof fs.types) m₀
      (by rw [hS fs.types, Fields.length_types])
  | .basic _, b, m₀ => ⟨_, rfl, fun k => by
      by_cases hk : k = b
      · subst hk; simp [slots, mapGet_mapSet_self]
      · simp [slots, hk, mapGet_mapSet_other _ _ _ _ hk]⟩
  | .pointer _, b, m₀ => ⟨_, rfl, fun k => by
      by_cases hk : k = b
      · subst hk; simp [slots, mapGet_mapSet_self]
      · simp [slots, hk, mapGet_mapSet_other _ _ _ _ hk]⟩
  | .slice _, b, m₀ => ⟨_, rfl, fun k => by
      by_cases hk : k = b
      · subst hk; simp [slots, mapGet_mapSet_self]
      · simp [slots, hk, mapGet_mapSet_other _ _ _ _ hk]⟩
  | .other _, b, m₀ => ⟨_, rfl, fun k => by
      by_cases hk : k = b
      · subst hk; simp [slots, mapGet_mapSet_self]
      · simp [slots, hk, mapGet_mapSet_other _ _ _ _ hk]⟩
theorem initFields_declares (S : Sizes) (hS : S.OnePerField) :
    ∀ (fs : Fields) (b : Int) (offs : List Int) (m₀ : List (Int × Option Value)),
      offs.length ≤ fs.length →
      Declares m₀ (Cell.initFields S b offs fs m₀) (fieldSlots S b offs fs)
  | .nil, b, [], m₀, _ => ⟨m₀, by simp [Cell.initFields], by simp [fieldSlots]⟩
  | .nil, b, _ :: _, m₀, hl => by simp [Fields.length] at hl
  | .cons _ _ _, b, [], m₀, _ => ⟨m₀, by simp [Cell.initFields], by simp [fieldSlots]⟩
  | .cons n t rest, b, o :: offs, m₀, hl => by
    obtain ⟨m₁, h₁, hm₁⟩ := init_declares S hS t (add64 b o) m₀
    obtain ⟨m₂, h₂, hm₂⟩ := initFields_declares S hS rest b offs m₁
      (by simpa [Fields.length] using hl)
    refine ⟨m₂, ?_, ?_⟩
    · simp [Cell.initFields, h₁, h₂]
    · intro k
      rw [hm₂ k, hm₁ k]
      by_cases h1 : k ∈ slots S (add64 b o) t <;>
        by_cases h2 : k ∈ fieldSlots S b offs rest <;> simp [fieldSlots, h1, h2]
end

/-- C4. Slot flattening: with a layout provider that returns one offset per
field, `heap.alloc` of an allocation of type `*T` returns and registers a
cell of type `T` whose declared offsets are exactly `slots 0 T`, each of
them unpopulated (`nil`). -/
theorem alloc_slots (S : Sizes) (hS : S.OnePerField) (h : Heap) (a : Alloc) (T : Ty)
    (ha : a.typ = .pointer T) :
    ∃ h' cell, (h.alloc S a).res = .ok h' ∧ mapGet h'.allocs a = some cell ∧
      cell.typ = T ∧
      (∀ k, (∃ v, mapGet cell.elems k = some v) ↔ k ∈ slots S 0 T) ∧
      (∀ k, k ∈ slots S 0 T → mapGet cell.elems k = some none) := by
  obtain ⟨m, hm, hget⟩ := init_declares S hS T 0 []
  refine ⟨{ allocs := mapSet h.allocs a { typ := T, elems := m } },
    { typ := T, elems := m }, ?_, mapGet_mapSet_self _ _ _, rfl, ?_, ?_⟩
  · simp [Heap.alloc, ha, hm, Emit.bind, print, Emit.pure]
  · intro k
    by_cases hk : k ∈ slots S 0 T
    · simp [hget k, hk]
    · simp [hget k, hk, mapGet]
  · intro k hk
    simp [hget k, hk]

/-- C4 at a concrete input: the variable of type `T` in the word layout. -/
theorem alloc_slots_witness :
    ∃ h' cell, (Heap.alloc wordSizes { allocs := [] } allocT).res = .ok h' ∧
      mapGet h'.allocs allocT = some cell ∧ cell.typ = tT ∧
      (∀ k, (∃ v, mapGet cell.elems k = some v) ↔ k ∈ slots wordSizes 0 tT) ∧
      (∀ k, k ∈ slots wordSizes 0 tT → mapGet cell.elems k = some none) :=
  alloc_slots wordSizes wordSizes_onePerField { allocs := [] } allocT tT rfl

/-! ## C5: when a store succeeds -/

/-- C5. The store `*addr = val` succeeds exactly when `addr` resolves to a
registered allocation and to an offset that is a declared, empty slot of its
cell; after a successful store, a load of the same address returns the
stored value with `populated = true`. -/
theorem store_ok_iff (S : Sizes) (h : Heap) (addr val : Value) :
    ((∃ h', h.store S addr val = .ok h') ↔
      ∃ alloc offset cell, evalPtr S addr 0 = .ok (alloc, offset) ∧
        mapGet h.allocs alloc = some cell ∧ mapGet cell.elems offset = some none) ∧
    (∀ h', h.store S addr val = .ok h' → h'.load S addr = .ok (some val, true)) := by
  unfold Heap.store Heap.load
  cases hr : evalPtr S addr 0 with
  | error e => simp
  | ok p =>
    obtain ⟨alloc, offset⟩ := p
    cases hc : mapGet h.allocs alloc with
    | none => simp [hc]
    | some cell =>
      cases hs : mapGet cell.elems offset with
      | none => simp [hc, hs]
      | some old =>
        cases old with
        | some w => simp [hc, hs]
        | none =>
          simp only [hc, hs]
          refine ⟨⟨fun _ => ⟨alloc, offset, cell, rfl, hc, hs⟩, fun _ => ⟨_, rfl⟩⟩, ?_⟩
          intro h' hh
          cases hh
          simp [mapGet_mapSet_self]

/-! ## C6: loads of unpopulated and undeclared offsets -/

/-- C6, as the code has it. `heap.load` fails exactly when the address does
not resolve or resolves to an allocation that is not registered.  When the
address resolves to a registered allocation, an offset that is not a
declared slot and a declared slot that is still empty give the same,
non-failing result `(nil, false)`. -/
theorem load_unpopulated (S : Sizes) (h : Heap) (v : Value) (alloc : Alloc) (offset : Int)
    (cell : Cell)
    (hr : evalPtr S v 0 = .ok (alloc, offset))
    (hcell : mapGet h.allocs alloc = some cell)
    (hslot : mapGet cell.elems offset = none ∨ mapGet cell.elems offset = some none) :
    h.load S v = .ok (none, false) := by
  rcases hslot with hs | hs <;> simp [Heap.load, hr, hcell, hs]

/-- C6 at a concrete input: a load through `&u.B`, which resolves to offset
8 of the variable of type `U`, whose only declared slot is 0. -/
theorem load_unpopulated_witness :
    heapU.load wordSizes addrUB = .ok (none, false) :=
  load_unpopulated wordSizes heapU addrUB allocU 8 { typ := tU, elems := [(0, none)] }
    (by rfl) (by rfl) (Or.inl (by rfl))

/-- C6 fails as stated: `&u.B` resolves to the registered variable of type
`U` and to offset 8, which is not a declared slot of its cell, and
`heap.load` does not fail there; it returns `(nil, false)`, the very result
of loading the declared, empty slot `&u`. -/
theorem load_undeclared_counterexample :
    (Heap.alloc wordSizes { allocs := [] } allocU).res = .ok heapU ∧
    evalPtr wordSizes addrUB 0 = .ok (allocU, 8) ∧
    (∃ cell, mapGet heapU.allocs allocU = some cell ∧ mapGet cell.elems 8 = none) ∧
    heapU.load wordSizes addrUB = .ok (none, false) ∧
    heapU.load wordSizes (.alloc allocU) = .ok (none, false) :=
  ⟨by rfl, by rfl, ⟨{ typ := tU, elems := [(0, none)] }, by rfl, by rfl⟩, by rfl, by rfl⟩

/-! ## C7: address resolution -/


theorem evalPtr_chain (S : Sizes) :
    ∀ (v : Value) (base : Int) (a : Alloc) (l : List Int),
      wrap64 base = base → chainOffsets S v = some (a, l) →
      evalPtr S v base = .ok (a, wrap64 (base + l.sum))
  | .alloc a', base, a, l, hb, h => by
    simp only [chainOffsets, Option.some.injEq, Prod.mk.injEq] at h
    obtain ⟨rfl, rfl⟩ := h
    simp [evalPtr, hb]
  | .fieldAddr x field t, base, a, l, hb, h => by
    simp only [chainOffsets] at h
    simp only [evalPtr, offsets]
    split at h
    · split at h
      · split at h
        · rename_i o a' l' ho hx
          simp only [Option.some.injEq, Prod.mk.injEq] at h
          obtain ⟨rfl, rfl⟩ := h
          rw [ho]
          simp only
          rw [evalPtr_chain S x (add64 base o) a' l' (wrap64_idem _) hx]
          simp only [add64, List.sum_cons, wrap64_add_left, add_assoc]
        · cases h
      · cases h
    · cases h
  | .indexAddr x index t, base, a, l, hb, h => by
    cases index with
    | const val tc =>
      cases val with
      | none => simp [chainOffsets] at h
      | some c =>
        cases c with
        | bool b => simp [chainOffsets] at h
        | other s => simp [chainOffsets] at h
        | int n =>
          simp only [chainOffsets] at h
          simp only [evalPtr, evalInt, Const.Int64]
          split at h
          · split at h
            · split at h
              · rename_i hn
                split at h
                · rename_i a' l' hx
                  simp only [Option.some.injEq, Prod.mk.injEq] at h
                  obtain ⟨rfl, rfl⟩ := h
                  have hn' : -9223372036854775808 ≤ n ∧ n ≤ 9223372036854775807 := hn
                  simp only [hn', and_self, if_true]
                  rw [evalPtr_chain S x (add64 base (mul64 _ n)) a' l' (wrap64_idem _) hx]
                  simp only [add64, mul64, List.sum_cons, wrap64_add_left, wrap64_add_right,
                    add_assoc, mul_comm]
                · cases h
              · cases h
            · cases h
          · cases h
    | _ => simp [chainOffsets] at h
  | .function _ _, _, _, _, _, h => by simp [chainOffsets] at h
  | .const _ _, _, _, _, _, h => by simp [chainOffsets] at h
  | .call _ _ _, _, _, _, _, h => by simp [chainOffsets] at h
  | .extract _ _ _, _, _, _, _, h => by simp [chainOffsets] at h
  | .typeAssert _ _ _, _, _, _, _, h => by simp [chainOffsets] at h
  | .makeInterface _ _, _, _, _, _, h => by simp [chainOffsets] at h
  | .parameter _ _, _, _, _, _, h => by simp [chainOffsets] at h
  | .slice _ _, _, _, _, _, h => by simp [chainOffsets] at h
  | .unOp _ _ _, _, _, _, _, h => by simp [chainOffsets] at h
  | .makeChan _, _, _, _, _, h => by simp [chainOffsets] at h
  | .makeMap _, _, _, _, _, h => by simp [chainOffsets] at h
  | .select _, _, _, _, _, h => by simp [chainOffsets] at h
  | .other _ _, _, _, _, _, h => by simp [chainOffsets] at h

/-- C7. Address resolution: for a chain of `FieldAddr` and constant-index
`IndexAddr` projections rooted at the allocation `a`, whose projections
contribute the offsets `l`, `evalPtr(chain, 0)` returns `(a, s)` with `s` the
sum of `l` as an `int64` (so the sum itself when it is in the range of an
`int64`); a bare `Alloc` resolves to `(a, 0)`. -/
theorem evalPtr_sum (S : Sizes) (v : Value) (a : Alloc) (l : List Int)
    (h : chainOffsets S v = some (a, l)) :
    evalPtr S v 0 = .ok (a, wrap64 l.sum) ∧
    (InInt64 l.sum → evalPtr S v 0 = .ok (a, l.sum)) ∧
    evalPtr S (.alloc a) 0 = .ok (a, 0) := by
  have h0 : evalPtr S v 0 = .ok (a, wrap64 l.sum) := by
    have := evalPtr_chain S v 0 a l (by decide) h
    simpa using this
  refine ⟨h0, ?_, rfl⟩
  intro hl
  rw [h0, wrap64_of_inInt64 _ hl]

/-- C7 at a concrete input: `&arr[2].B` in a `[3]T` resolves to offset
`2 * 16 + 8 = 40`. -/
theorem evalPtr_sum_witness :
    evalPtr wordSizes addrElem2B 0 = .ok (allocArr, wrap64 ([8, 32] : List Int).sum) ∧
    (InInt64 ([8, 32] : List Int).sum →
      evalPtr wordSizes addrElem2B 0 = .ok (allocArr, ([8, 32] : List Int).sum)) ∧
    evalPtr wordSizes (.alloc allocArr) 0 = .ok (allocArr, 0) :=
  evalPtr_sum wordSizes addrElem2B allocArr [8, 32] (by rfl)

/-! ## C8: when address resolution fails -/


/-- The three outcomes of `evalPtr` on a well-typed chain. -/
theorem evalPtr_outcome (S : Sizes) (hS : S.OnePerField) :
    ∀ (v : Value) (base : Int), wellTypedAddr v = true →
      (hasUnconstrainedIndex v = true ∧ evalPtr S v base = .error .unexpectedInt) ∨
      (hasUnconstrainedIndex v = false ∧ rootIsAlloc v = false ∧
        evalPtr S v base = .error .unexpectedPointer) ∨
      (hasUnconstrainedIndex v = false ∧ rootIsAlloc v = true ∧
        ∃ a off, evalPtr S v base = .ok (a, off))
  | .alloc a, base, _ => by
    simp [hasUnconstrainedIndex, rootIsAlloc, evalPtr]
  | .fieldAddr x field t, base, hw => by
    simp only [wellTypedAddr, Bool.and_eq_true] at hw
    obtain ⟨hty, hx⟩ := hw
    simp only [hasUnconstrainedIndex, rootIsAlloc, evalPtr, offsets]
    split at hty
    · split at hty
      · rename_i e he u fs hfs
        have hlt : field < (S.Offsetsof fs.types).length := by
          rw [hS fs.types, Fields.length_types]; simpa using hty
        rw [List.get?_eq_get hlt]
        exact evalPtr_outcome S hS x _ hx
      · cases hty
    · cases hty
  | .indexAddr x index t, base, hw => by
    simp only [wellTypedAddr, Bool.and_eq_true] at hw
    obtain ⟨⟨hty, hidx⟩, hx⟩ := hw
    simp only [hasUnconstrainedIndex, rootIsAlloc, evalPtr]
    split at hty
    · split at hty
      · cases index with
        | const val tc =>
          cases val with
          | none => simp at hidx
          | some c =>
            cases c with
            | int n =>
              simp only [evalInt, Const.Int64, Bool.false_or]
              by_cases hn : -9223372036854775808 ≤ n ∧ n ≤ 9223372036854775807
              · simp only [hn, and_self, if_true]
                exact evalPtr_outcome S hS x _ hx
              · simp only [hn, if_false]
                exact evalPtr_outcome S hS x _ hx
            | bool b => simp at hidx
            | other s => simp at hidx
        | _ => simp [evalInt]
      · cases hty
    · cases hty
  | .function _ _, _, _ => by simp [hasUnconstrainedIndex, rootIsAlloc, evalPtr]
  | .const _ _, _, _ => by simp [hasUnconstrainedIndex, rootIsAlloc, evalPtr]
  | .call _ _ _, _, _ => by simp [hasUnconstrainedIndex, rootIsAlloc, evalPtr]
  | .extract _ _ _, _, _ => by simp [hasUnconstrainedIndex, rootIsAlloc, evalPtr]
  | .typeAssert _ _ _, _, _ => by simp [hasUnconstrainedIndex, rootIsAlloc, evalPtr]
  | .makeInterface _ _, _, _ => by simp [hasUnconstrainedIndex, rootIsAlloc, evalPtr]
  | .parameter _ _, _, _ => by simp [hasUnconstrainedIndex, rootIsAlloc, evalPtr]
  | .slice _ _, _, _ => by simp [hasUnconstrainedIndex, rootIsAlloc, evalPtr]
  | .unOp _ _ _, _, _ => by simp [hasUnconstrainedIndex, rootIsAlloc, evalPtr]
  | .makeChan _, _, _ => by simp [hasUnconstrainedIndex, rootIsAlloc, evalPtr]
  | .makeMap _, _, _ => by simp [hasUnconstrainedIndex, rootIsAlloc, evalPtr]
  | .select _, _, _ => by simp [hasUnconstrainedIndex, rootIsAlloc, evalPtr]
  | .other _ _, _, _ => by simp [hasUnconstrainedIndex, rootIsAlloc, evalPtr]

/-- C8. On a well-typed address chain (and a layout provider that returns
one offset per field) `evalPtr` fails exactly when the chain has an
`IndexAddr` whose index is not a constant or bottoms out in a value that is
not an `Alloc`; the failure is then one of the two fatal errors, and every
other well-typed chain yields an (allocation, offset) pair. -/
theorem evalPtr_fails_iff (S : Sizes) (hS : S.OnePerField) (v : Value) (base : Int)
    (hw : wellTypedAddr v = true) :
    ((∃ e, evalPtr S v base = .error e) ↔
      (hasUnconstrainedIndex v = true ∨ rootIsAlloc v = false)) ∧
    (∀ e, evalPtr S v base = .error e → e = .unexpectedInt ∨ e = .unexpectedPointer) ∧
    (hasUnconstrainedIndex v = false → rootIsAlloc v = true →
      ∃ a off, evalPtr S v base = .ok (a, off)) := by
  rcases evalPtr_outcome S hS v base hw with ⟨hu, he⟩ | ⟨hu, hr, he⟩ | ⟨hu, hr, a, off, he⟩
  · refine ⟨⟨fun _ => Or.inl hu, fun _ => ⟨_, he⟩⟩, ?_, ?_⟩
    · intro e h; rw [he] at h; cases h; exact Or.inl rfl
    · intro hu'; rw [hu] at hu'; cases hu'
  · refine ⟨⟨fun _ => Or.inr hr, fun _ => ⟨_, he⟩⟩, ?_, ?_⟩
    · intro e h; rw [he] at h; cases h; exact Or.inr rfl
    · intro _ hr'; rw [hr] at hr'; cases hr'
  · refine ⟨⟨?_, ?_⟩, ?_, fun _ _ => ⟨a, off, he⟩⟩
    · rintro ⟨e, h⟩; rw [he] at h; cases h
    · rintro (h | h)
      · rw [hu] at h; cases h
      · rw [hr] at h; cases h
    · intro e h; rw [he] at h; cases h

/-- C8 at a concrete input: `&arr[i]` with a parameter `i` is well typed and
has an index that is not a constant. -/
theorem evalPtr_fails_iff_witness :
    ((∃ e, evalPtr wordSizes addrElemI 0 = .error e) ↔
      (hasUnconstrainedIndex addrElemI = true ∨ rootIsAlloc addrElemI = false)) ∧
    (∀ e, evalPtr wordSizes addrElemI 0 = .error e →
      e = .unexpectedInt ∨ e = .unexpectedPointer) ∧
    (hasUnconstrainedIndex addrElemI = false → rootIsAlloc addrElemI = true →
      ∃ a off, evalPtr wordSizes addrElemI 0 = .ok (a, off)) :=
  evalPtr_fails_iff wordSizes wordSizes_onePerField addrElemI 0 (by rfl)

/-! ## C2: rendering a dereferenced composite -/

/-- C2, as the code has it. For an allocation of type `T{A int; B int}`
registered with `heap.alloc` (the layout placing `A` at `oa` and `B` at a
larger `ob`), after storing 5 at the offset of `A` and 7 at the offset of
`B`, `printExpr` of the dereferenced allocation yields the type name and, in
braces, the fields in declaration order, each value preceded by its byte
offset and a colon: `T{oa: 5, ob: 7}`. -/
theorem deref_composite (S : Sizes) (h : Heap) (oa ob : Int)
    (hoff : S.Offsetsof [tInt, tInt] = [oa, ob]) (ha : InInt64 oa) (hb : InInt64 ob)
    (hlt : oa < ob) (fuel : Nat) :
    ∃ h₁ h₂ h₃, (h.alloc S allocT).res = .ok h₁ ∧
      h₁.store S addrA (intConst 5) = .ok h₂ ∧
      h₂.store S addrB (intConst 7) = .ok h₃ ∧
      printExpr S "p" h₃ (fuel + 2) derefT =
        ⟨"T\x7b" ++ fmtInt oa ++ ": 5, " ++ fmtInt ob ++ ": 7\x7d", .ok ()⟩ := by
  have hne : oa ≠ ob := ne_of_lt hlt
  have hne' : ob ≠ oa := Ne.symm hne
  have hoff' : S.Offsetsof [Ty.basic "int", Ty.basic "int"] = [oa, ob] := hoff
  have hinit : Cell.init S 0 tT [] = .ok [(oa, none), (ob, none)] := by
    simp [Cell.init, Cell.initFields, tT, tInt, offsets, Fields.types, hoff',
      add64_zero_left, ha, hb, mapSet, hne]
  have hpa : evalPtr S addrA 0 = .ok (allocT, oa) := by
    simp [evalPtr, addrA, allocT, Value.type, tT, tInt, Ty.Underlying, offsets, Fields.types,
      hoff', add64_zero_left, ha]
  have hpb : evalPtr S addrB 0 = .ok (allocT, ob) := by
    simp [evalPtr, addrB, allocT, Value.type, tT, tInt, Ty.Underlying, offsets, Fields.types,
      hoff', add64_zero_left, hb]
  refine ⟨⟨mapSet h.allocs allocT ⟨tT, [(oa, none), (ob, none)]⟩⟩,
    ⟨mapSet (mapSet h.allocs allocT ⟨tT, [(oa, none), (ob, none)]⟩) allocT
      ⟨tT, [(oa, some (intConst 5)), (ob, none)]⟩⟩,
    ⟨mapSet (mapSet (mapSet h.allocs allocT ⟨tT, [(oa, none), (ob, none)]⟩) allocT
      ⟨tT, [(oa, some (intConst 5)), (ob, none)]⟩) allocT
      ⟨tT, [(oa, some (intConst 5)), (ob, some (intConst 7))]⟩⟩, ?_, ?_, ?_, ?_⟩
  · have hty : allocT.typ = .pointer tT := rfl
    simp [Heap.alloc, hty, hinit, Emit.bind, print, Emit.pure]
  · rw [store_at S _ addrA (intConst 5) allocT oa _ hpa (mapGet_mapSet_self _ _ _)
      (by simp [mapGet])]
    simp [mapSet]
  · rw [store_at S _ addrB (intConst 7) allocT ob _ hpb (mapGet_mapSet_self _ _ _)
      (by simp [mapGet, hne])]
    simp [mapSet, hne]
  · unfold derefT
    have h5 : fmtInt 5 = "5" := by decide
    have h7 : fmtInt 7 = "7" := by decide
    have hk : ∀ x y : Option Value, keys [(oa, x), (ob, y)] = [oa, ob] := by
      intro x y
      simp [keys, List.insertionSort, List.orderedInsert, le_of_lt hlt]
    rw [printExpr_deref_alloc S "p" _ (fuel + 1) allocT _ tT (mapGet_mapSet_self _ _ _)]
    simp [hk, printCellElems, printNilable, intConst, printExpr_const, emit_bind_def, emit_pure_def,
      Emit.bind, Emit.pure, print, mapGet, hne, Constant.text, h5, h7, typeString, tT,
      String.append_assoc]
    apply String.ext
    simp [String.data_append]

/-- C2 at a concrete input: the word layout, `A` at 0 and `B` at 8. -/
theorem deref_composite_witness :
    ∃ h₁ h₂ h₃, (Heap.alloc wordSizes { allocs := [] } allocT).res = .ok h₁ ∧
      h₁.store wordSizes addrA (intConst 5) = .ok h₂ ∧
      h₂.store wordSizes addrB (intConst 7) = .ok h₃ ∧
      printExpr wordSizes "p" h₃ (0 + 2) derefT =
        ⟨"T\x7b" ++ fmtInt 0 ++ ": 5, " ++ fmtInt 8 ++ ": 7\x7d", .ok ()⟩ :=
  deref_composite wordSizes { allocs := [] } 0 8 (by rfl) (by decide) (by decide) (by decide) 0

/-- C2 fails as stated: for the variable of type `T`, registered and then
stored to as the claim describes, `printExpr` of its dereference yields
`T{0: 5, 8: 7}`, with the byte offset before each value, and not
`T{5, 7}`. -/
theorem deref_composite_counterexample :
    (Heap.alloc wordSizes { allocs := [] } allocT).res = .ok heapT ∧
    heapT.store wordSizes addrA (intConst 5) = .ok heapT5 ∧
    heapT5.store wordSizes addrB (intConst 7) = .ok heapT57 ∧
    printExpr wordSizes "p" heapT57 2 derefT = ⟨"T\x7b0: 5, 8: 7\x7d", .ok ()⟩ ∧
    (printExpr wordSizes "p" heapT57 2 derefT).out ≠ "T\x7b5, 7\x7d" :=
  ⟨by rfl, by rfl, by rfl, by rfl, by decide⟩

/-! ## Unfolding `walk` -/

theorem walk_return (S : Sizes) (h : Heap) (fn : Function) (n b : Nat) (indent : String)
    (blk : Block) (results : List Value) (r : Value)
    (hb : fn.Blocks.get? b = some blk) (hl : blk.Instrs.getLast? = some (.Return results))
    (hr : results.get? 0 = some r) :
    walk S h fn (n + 1) b indent =
      Emit.bind (print (indent ++ "return (")) (fun _ =>
        Emit.bind (if isZero r then print "ZERO" else printExpr S fn.pkg h n r) (fun _ =>
          Emit.bind (print ")\n") (fun _ => Emit.pure indent))) := by
  simp only [walk, hb, hl, hr, emit_bind_def, emit_pure_def]
  cases isZero r <;> rfl

theorem walk_if (S : Sizes) (h : Heap) (fn : Function) (n b : Nat) (indent : String)
    (blk : Block) (cond : Value) (s₀ s₁ : Nat)
    (hb : fn.Blocks.get? b = some blk) (hl : blk.Instrs.getLast? = some (.If cond))
    (h₀ : blk.Succs.get? 0 = some s₀) (h₁ : blk.Succs.get? 1 = some s₁) :
    walk S h fn (n + 1) b indent =
      Emit.bind (print (indent ++ "if (")) (fun _ =>
        Emit.bind (printExpr S fn.pkg h n cond) (fun _ =>
          Emit.bind (print ") \x7b\n") (fun _ =>
            Emit.bind (walk S h fn n s₀ (indent ++ "\t")) (fun indent' =>
              Emit.bind (print (indent ++ "\x7d else \x7b\n")) (fun _ =>
                Emit.bind (walk S h fn n s₁ indent') (fun _ =>
                  Emit.bind (print (indent ++ "\x7d\n" ++ "\n")) (fun _ =>
                    Emit.pure indent))))))) := by
  simp only [walk, hb, hl, h₀, h₁, emit_bind_def, emit_pure_def]

theorem walk_jump (S : Sizes) (h : Heap) (fn : Function) (n b : Nat) (indent : String)
    (blk : Block) (s₀ : Nat)
    (hb : fn.Blocks.get? b = some blk) (hl : blk.Instrs.getLast? = some .Jump)
    (h₀ : blk.Succs.get? 0 = some s₀) :
    walk S h fn (n + 1) b indent = walk S h fn n s₀ indent := by
  simp only [walk, hb, hl, h₀]

/-! ## The step budget -/

theorem Emit.le_refl {α : Type} (m : Emit α) : Emit.le m m := fun _ _ h => h

theorem Emit.le_trans {α : Type} {m₁ m₂ m₃ : Emit α} (h₁ : Emit.le m₁ m₂)
    (h₂ : Emit.le m₂ m₃) : Emit.le m₁ m₃ := fun o a h => h₂ o a (h₁ o a h)

theorem Emit.le_of_error {α : Type} (m' : Emit α) (o : String) (e : Err) :
    Emit.le ⟨o, .error e⟩ m' := by
  intro o' a h
  cases h

theorem Emit.le_bind {α β : Type} {m m' : Emit α} {f f' : α → Emit β}
    (hm : Emit.le m m') (hf : ∀ a, Emit.le (f a) (f' a)) :
    Emit.le (Emit.bind m f) (Emit.bind m' f') := by
  intro o b h
  obtain ⟨mo, mr⟩ := m
  cases mr with
  | error e => simp [Emit.bind] at h
  | ok a =>
    have hm' := hm mo a rfl
    have hfa : f a = ⟨(f a).out, .ok b⟩ := by
      simp only [Emit.bind] at h
      have := congrArg Emit.res h
      simp only at this
      exact Emit.ext rfl this
    have hf' := hf a _ b hfa
    rw [hm'] at *
    simp only [Emit.bind] at h ⊢
    rw [hf']
    rw [hfa] at h
    exact h

theorem printNilable_le {pe pe' : Value → Emit Unit} (hpe : ∀ v, Emit.le (pe v) (pe' v))
    (o : Option Value) : Emit.le (printNilable pe o) (printNilable pe' o) := by
  cases o with
  | none => exact Emit.le_refl _
  | some w => exact hpe w

theorem printArgs_le {pe pe' : Value → Emit Unit} (hpe : ∀ v, Emit.le (pe v) (pe' v)) :
    ∀ (args : Args) (i : Nat), Emit.le (printArgs pe i args) (printArgs pe' i args)
  | .nil, _ => Emit.le_refl _
  | .cons arg rest, i => by
    simp only [printArgs, emit_bind_def]
    split <;> exact Emit.le_bind (Emit.le_refl _) (fun _ =>
      Emit.le_bind (hpe arg) (fun _ => printArgs_le hpe rest (i + 1)))

theorem printSliceElems_le {pe pe' : Option Value → Emit Unit}
    (hpe : ∀ v, Emit.le (pe v) (pe' v)) (elems : List (Int × Option Value)) :
    ∀ (l : List Int) (i : Nat),
      Emit.le (printSliceElems pe elems i l) (printSliceElems pe' elems i l) := by
  intro l
  induction l with
  | nil => intro i; exact Emit.le_refl _
  | cons offset rest ih =>
    intro i
    simp only [printSliceElems, emit_bind_def]
    split <;> exact Emit.le_bind (Emit.le_refl _) (fun _ =>
      Emit.le_bind (hpe _) (fun _ => ih (i + 1)))

theorem printCellElems_le {pe pe' : Option Value → Emit Unit}
    (hpe : ∀ v, Emit.le (pe v) (pe' v)) (elems : List (Int × Option Value)) :
    ∀ (l : List Int) (i : Nat),
      Emit.le (printCellElems pe elems i l) (printCellElems pe' elems i l) := by
  intro l
  induction l with
  | nil => intro i; exact Emit.le_refl _
  | cons offset rest ih =>
    intro i
    simp only [printCellElems, emit_bind_def]
    split <;> exact Emit.le_bind (Emit.le_refl _) (fun _ =>
      Emit.le_bind (Emit.le_refl _) (fun _ =>
        Emit.le_bind (hpe _) (fun _ => ih (i + 1))))

theorem printExpr_le_succ (S : Sizes) (pkg : String) (h : Heap) :
    ∀ (n : Nat) (v : Value), Emit.le (printExpr S pkg h n v) (printExpr S pkg h (n + 1) v) := by
  intro n
  induction n with
  | zero => intro v; exact Emit.le_of_error _ _ _
  | succ n ih =>
    intro v
    have ihN := printNilable_le ih
    cases v with
    | function name t => exact Emit.le_refl _
    | const val t => exact Emit.le_refl _
    | call fn args t =>
      simp only [printExpr, emit_bind_def]
      exact Emit.le_bind (ih fn) (fun _ => Emit.le_bind (Emit.le_refl _) (fun _ =>
        Emit.le_bind (printArgs_le ih args 0) (fun _ => Emit.le_refl _)))
    | extract tuple index t =>
      simp only [printExpr, emit_bind_def]
      split
      · rename_i x hidx
        exact Emit.le_bind (Emit.le_refl _) (fun _ => Emit.le_bind (ih _) (fun _ =>
          Emit.le_refl _))
      · exact Emit.le_bind (ih _) (fun _ => Emit.le_refl _)
    | makeInterface x t => simp only [printExpr]; exact ih x
    | parameter name t => exact Emit.le_refl _
    | slice x t =>
      simp only [printExpr, emit_bind_def]
      split
      · split
        · exact Emit.le_bind (Emit.le_refl _) (fun _ =>
            Emit.le_bind (printSliceElems_le ihN _ _ 0) (fun _ => Emit.le_refl _))
        · exact Emit.le_refl _
      · exact Emit.le_refl _
    | fieldAddr x field t =>
      simp only [printExpr, emit_bind_def]
      exact Emit.le_bind (ih x) (fun _ => Emit.le_refl _)
    | unOp op x t =>
      have hgen : Emit.le
          (Emit.bind (print (op.text ++ " ")) (fun _ => printExpr S pkg h n x))
          (Emit.bind (print (op.text ++ " ")) (fun _ => printExpr S pkg h (n + 1) x)) :=
        Emit.le_bind (Emit.le_refl _) (fun _ => ih x)
      have hload : Emit.le
          (match h.load S x with
            | .error e => fail e
            | .ok (w, true) => printNilable (printExpr S pkg h n) w
            | .ok (_, false) =>
              Emit.bind (print (op.text ++ " ")) (fun _ => printExpr S pkg h n x))
          (match h.load S x with
            | .error e => fail e
            | .ok (w, true) => printNilable (printExpr S pkg h (n + 1)) w
            | .ok (_, false) =>
              Emit.bind (print (op.text ++ " ")) (fun _ => printExpr S pkg h (n + 1) x)) := by
        split
        · exact Emit.le_refl _
        · exact ihN _
        · exact hgen
      cases op with
      | MUL =>
        simp only [printExpr, emit_bind_def]
        split
        · split
          · exact Emit.le_bind (Emit.le_refl _) (fun _ =>
              Emit.le_bind (printCellElems_le ihN _ _ 0) (fun _ => Emit.le_refl _))
          · exact Emit.le_bind (Emit.le_refl _) (fun _ => hload)
        · exact hload
      | ARROW => simp only [printExpr, emit_bind_def]; exact hgen
      | SUB => simp only [printExpr, emit_bind_def]; exact hgen
      | NOT => simp only [printExpr, emit_bind_def]; exact hgen
      | XOR => simp only [printExpr, emit_bind_def]; exact hgen
    | typeAssert x a t => exact Emit.le_refl _
    | alloc a => exact Emit.le_refl _
    | indexAddr x i t => exact Emit.le_refl _
    | makeChan t => exact Emit.le_refl _
    | makeMap t => exact Emit.le_refl _
    | select t => exact Emit.le_refl _
    | other k t => exact Emit.le_refl _

theorem printExpr_le (S : Sizes) (pkg : String) (h : Heap) (v : Value) {n m : Nat}
    (hnm : n ≤ m) : Emit.le (printExpr S pkg h n v) (printExpr S pkg h m v) := by
  induction hnm with
  | refl => exact Emit.le_refl _
  | step _ ih => exact Emit.le_trans ih (printExpr_le_succ S pkg h _ v)

theorem walk_le_succ (S : Sizes) (h : Heap) (fn : Function) :
    ∀ (n b : Nat) (indent : String),
      Emit.le (walk S h fn n b indent) (walk S h fn (n + 1) b indent) := by
  intro n
  induction n with
  | zero => intro b indent; exact Emit.le_of_error _ _ _
  | succ n ih =>
    intro b indent
    have hpe := printExpr_le_succ S fn.pkg h n
    have hsucc : ∀ (o : Option Nat) (i : String), Emit.le
        (match o with
          | some s => walk S h fn n s i
          | none => fail .runtimePanic)
        (match o with
          | some s => walk S h fn (n + 1) s i
          | none => fail .runtimePanic) := by
      intro o i
      cases o with
      | none => exact Emit.le_refl _
      | some s => exact ih s i
    rw [walk, walk]
    simp only
    split
    · exact Emit.le_refl _
    · split
      · exact Emit.le_refl _
      · simp only [emit_bind_def]
        exact Emit.le_bind (Emit.le_refl _) (fun _ => Emit.le_bind (hpe _) (fun _ =>
          Emit.le_bind (Emit.le_refl _) (fun _ => Emit.le_bind (hsucc _ _) (fun _ =>
            Emit.le_bind (Emit.le_refl _) (fun _ => Emit.le_bind (hsucc _ _) (fun _ =>
              Emit.le_refl _))))))
      · exact hsucc _ _
      · simp only [emit_bind_def]
        exact Emit.le_bind (Emit.le_refl _) (fun _ => Emit.le_bind (hpe _) (fun _ =>
          Emit.le_refl _))
      · simp only [emit_bind_def]
        refine Emit.le_bind (Emit.le_refl _) (fun _ => ?_)
        split
        · exact Emit.le_refl _
        · split
          · exact Emit.le_refl _
          · exact Emit.le_bind (hpe _) (fun _ => Emit.le_refl _)
      · exact Emit.le_refl _

theorem walk_le (S : Sizes) (h : Heap) (fn : Function) (b : Nat) (indent : String) {n m : Nat}
    (hnm : n ≤ m) : Emit.le (walk S h fn n b indent) (walk S h fn m b indent) := by
  induction hnm with
  | refl => exact Emit.le_refl _
  | step _ ih => exact Emit.le_trans ih (walk_le_succ S h fn _ b indent)

/-! ## C3: a branch to two returns -/

/-- The exact text `walk` writes for a branch to two returning blocks. -/
theorem walk_branch_text (S : Sizes) (h : Heap) (fn : Function) (n entry bx bt : Nat)
    (indent : String) (blk blkX blkY : Block) (cond X Y : Value) (resX resY : List Value)
    (c x y : String)
    (hb : fn.Blocks.get? entry = some blk) (hl : blk.Instrs.getLast? = some (.If cond))
    (h₀ : blk.Succs.get? 0 = some bx) (h₁ : blk.Succs.get? 1 = some bt)
    (hbx : fn.Blocks.get? bx = some blkX)
    (hlx : blkX.Instrs.getLast? = some (.Return resX)) (hrx : resX.get? 0 = some X)
    (hby : fn.Blocks.get? bt = some blkY)
    (hly : blkY.Instrs.getLast? = some (.Return resY)) (hry : resY.get? 0 = some Y)
    (hc : printExpr S fn.pkg h (n + 1) cond = ⟨c, .ok ()⟩)
    (hx : (if isZero X then print "ZERO" else printExpr S fn.pkg h n X) = ⟨x, .ok ()⟩)
    (hy : (if isZero Y then print "ZERO" else printExpr S fn.pkg h n Y) = ⟨y, .ok ()⟩) :
    walk S h fn (n + 2) entry indent =
      ⟨ifText indent c (returnText (indent ++ "\t") x) (returnText (indent ++ "\t") y) ++ "\n",
        .ok indent⟩ := by
  rw [walk_if S h fn (n + 1) entry indent blk cond bx bt hb hl h₀ h₁, hc,
    walk_return S h fn n bx (indent ++ "\t") blkX resX X hbx hlx hrx, hx]
  simp only [Emit.bind, print, Emit.pure]
  rw [walk_return S h fn n bt (indent ++ "\t") blkY resY Y hby hly hry, hy]
  apply Emit.ext
  · apply String.ext
    simp [Emit.bind, Emit.pure, print, ifText, returnText, String.data_append]
  · simp [Emit.bind, Emit.pure, print]

/-- C3, as the code has it. For an entry block ending in `If(cond)` whose
successors end in `Return(X)` and `Return(Y)`, `walk` called at indentation
`indent` (which `do` starts at one tab) renders, with any sufficient step
budget, the `if (`, `} else {` and closing-brace lines at `indent` and the
two `return` lines one tab deeper, the then-branch before the else-branch;
`c` is the rendering of `cond` by `printExpr`, and `x`, `y` are `ZERO` for a
static zero constant and the rendering by `printExpr` otherwise.  After the
line of the closing brace only newlines follow (their number is left open
here).  The indentation in effect afterwards is `indent` again. -/
theorem walk_branch_returns (S : Sizes) (h : Heap) (fn : Function) (entry bx bt : Nat)
    (indent : String) (blk blkX blkY : Block) (cond X Y : Value) (resX resY : List Value)
    (c x y : String) (kc kx ky fuel : Nat)
    (hb : fn.Blocks.get? entry = some blk) (hl : blk.Instrs.getLast? = some (.If cond))
    (h₀ : blk.Succs.get? 0 = some bx) (h₁ : blk.Succs.get? 1 = some bt)
    (hbx : fn.Blocks.get? bx = some blkX)
    (hlx : blkX.Instrs.getLast? = some (.Return resX)) (hrx : resX.get? 0 = some X)
    (hby : fn.Blocks.get? bt = some blkY)
    (hly : blkY.Instrs.getLast? = some (.Return resY)) (hry : resY.get? 0 = some Y)
    (hc : printExpr S fn.pkg h kc cond = ⟨c, .ok ()⟩)
    (hx : (if isZero X then print "ZERO" else printExpr S fn.pkg h kx X) = ⟨x, .ok ()⟩)
    (hy : (if isZero Y then print "ZERO" else printExpr S fn.pkg h ky Y) = ⟨y, .ok ()⟩)
    (hfuel : max kc (max kx ky) + 2 ≤ fuel) :
    ∃ rest, walk S h fn fuel entry indent =
        ⟨ifText indent c (returnText (indent ++ "\t") x) (returnText (indent ++ "\t") y) ++ rest,
          .ok indent⟩ ∧
      ∀ ch ∈ rest.data, ch = '\n' := by
  obtain ⟨n, rfl⟩ : ∃ n, fuel = n + 2 := ⟨fuel - 2, by omega⟩
  have hkc : kc ≤ n + 1 := by omega
  have hkx : kx ≤ n := by omega
  have hky : ky ≤ n := by omega
  have hc' := printExpr_le S fn.pkg h cond hkc c () hc
  have hx' : (if isZero X then print "ZERO" else printExpr S fn.pkg h n X) = ⟨x, .ok ()⟩ := by
    cases hz : isZero X
    · rw [hz] at hx
      exact printExpr_le S fn.pkg h X hkx x () hx
    · rw [hz] at hx
      exact hx
  have hy' : (if isZero Y then print "ZERO" else printExpr S fn.pkg h n Y) = ⟨y, .ok ()⟩ := by
    cases hz : isZero Y
    · rw [hz] at hy
      exact printExpr_le S fn.pkg h Y hky y () hy
    · rw [hz] at hy
      exact hy
  exact ⟨"\n", walk_branch_text S h fn n entry bx bt indent blk blkX blkY cond X Y resX resY
    c x y hb hl h₀ h₁ hbx hlx hrx hby hly hry hc' hx' hy', by simp⟩

/-- C3 at a concrete input: the function `fnBranch`, walked as `do` does. -/
theorem walk_branch_returns_witness :
    ∃ rest, walk wordSizes { allocs := [] } fnBranch 3 0 "\t" =
        ⟨ifText "\t" "PARAM.c" (returnText ("\t" ++ "\t") "5") (returnText ("\t" ++ "\t") "7")
          ++ rest, .ok "\t"⟩ ∧
      ∀ ch ∈ rest.data, ch = '\n' :=
  walk_branch_returns wordSizes { allocs := [] } fnBranch 0 1 2 "\t"
    { Instrs := [.If (.parameter "c" tBool)], Succs := [1, 2] }
    { Instrs := [.Return [intConst 5]], Succs := [] }
    { Instrs := [.Return [intConst 7]], Succs := [] }
    (.parameter "c" tBool) (intConst 5) (intConst 7) [intConst 5] [intConst 7]
    "PARAM.c" "5" "7" 1 1 1 3 (by rfl) (by rfl) (by rfl) (by rfl) (by rfl) (by rfl) (by rfl)
    (by rfl) (by rfl) (by rfl) (by rfl) (by rfl) (by rfl) (by decide)

/-- C3 fails as stated: for `fnBranch`, whose entry block branches to
`return 5` and `return 7`, `walk` on the entry block, called as `do` calls
it, writes every line one tab deeper than the claim says (and a blank line
at the end). -/
theorem walk_branch_counterexample :
    walk wordSizes { allocs := [] } fnBranch 3 0 "\t" =
      ⟨"\tif (PARAM.c) \x7b\n\t\treturn (5)\n\t\x7d else \x7b\n\t\treturn (7)\n\t\x7d\n\n",
        .ok "\t"⟩ ∧
    (walk wordSizes { allocs := [] } fnBranch 3 0 "\t").out ≠
      "if (PARAM.c) \x7b\n\treturn (5)\n\x7d else \x7b\n\treturn (7)\n\x7d\n" :=
  ⟨by rfl, by decide⟩

/-! ## C9: blocks with two predecessors -/

/-- The exact text `walk` writes when both branches jump to one block. -/
theorem walk_merge_text (S : Sizes) (h : Heap) (fn : Function) (n entry b₁ b₂ s : Nat)
    (indent : String) (blk blk₁ blk₂ : Block) (cond : Value) (c R : String)
    (hb : fn.Blocks.get? entry = some blk) (hl : blk.Instrs.getLast? = some (.If cond))
    (h₀ : blk.Succs.get? 0 = some b₁) (h₁ : blk.Succs.get? 1 = some b₂)
    (hb₁ : fn.Blocks.get? b₁ = some blk₁) (hl₁ : blk₁.Instrs.getLast? = some .Jump)
    (hs₁ : blk₁.Succs.get? 0 = some s)
    (hb₂ : fn.Blocks.get? b₂ = some blk₂) (hl₂ : blk₂.Instrs.getLast? = some .Jump)
    (hs₂ : blk₂.Succs.get? 0 = some s)
    (hc : printExpr S fn.pkg h (n + 1) cond = ⟨c, .ok ()⟩)
    (hR : walk S h fn n s (indent ++ "\t") = ⟨R, .ok (indent ++ "\t")⟩) :
    walk S h fn (n + 2) entry indent = ⟨ifText indent c R R ++ "\n", .ok indent⟩ := by
  rw [walk_if S h fn (n + 1) entry indent blk cond b₁ b₂ hb hl h₀ h₁, hc,
    walk_jump S h fn n b₁ (indent ++ "\t") blk₁ s hb₁ hl₁ hs₁, hR]
  simp only [Emit.bind, print, Emit.pure]
  rw [walk_jump S h fn n b₂ (indent ++ "\t") blk₂ s hb₂ hl₂ hs₂, hR]
  apply Emit.ext
  · apply String.ext
    simp [ifText, String.data_append]
  · rfl

/-- C9, as the code has it. `walk` has no check on the number of
predecessors of a block.  When both branches of an `If` jump, from two
distinct blocks, to the same block `s`, and `s` renders as `R`, the
reconstruction does not fail: with any sufficient step budget it renders
the if-construct with `R` once in the then-branch and once more in the
else-branch. -/
theorem walk_merge (S : Sizes) (h : Heap) (fn : Function) (entry b₁ b₂ s : Nat)
    (indent : String) (blk blk₁ blk₂ : Block) (cond : Value) (c R : String)
    (kc kr fuel : Nat) (_hne : b₁ ≠ b₂)
    (hb : fn.Blocks.get? entry = some blk) (hl : blk.Instrs.getLast? = some (.If cond))
    (h₀ : blk.Succs.get? 0 = some b₁) (h₁ : blk.Succs.get? 1 = some b₂)
    (hb₁ : fn.Blocks.get? b₁ = some blk₁) (hl₁ : blk₁.Instrs.getLast? = some .Jump)
    (hs₁ : blk₁.Succs.get? 0 = some s)
    (hb₂ : fn.Blocks.get? b₂ = some blk₂) (hl₂ : blk₂.Instrs.getLast? = some .Jump)
    (hs₂ : blk₂.Succs.get? 0 = some s)
    (hc : printExpr S fn.pkg h kc cond = ⟨c, .ok ()⟩)
    (hR : walk S h fn kr s (indent ++ "\t") = ⟨R, .ok (indent ++ "\t")⟩)
    (hfuel : max kc kr + 2 ≤ fuel) :
    ∃ rest, walk S h fn fuel entry indent = ⟨ifText indent c R R ++ rest, .ok indent⟩ ∧
      ∀ ch ∈ rest.data, ch = '\n' := by
  obtain ⟨n, rfl⟩ : ∃ n, fuel = n + 2 := ⟨fuel - 2, by omega⟩
  have hkc : kc ≤ n + 1 := by omega
  have hkr : kr ≤ n := by omega
  have hc' := printExpr_le S fn.pkg h cond hkc c () hc
  have hR' := walk_le S h fn s (indent ++ "\t") hkr R _ hR
  exact ⟨"\n", walk_merge_text S h fn n entry b₁ b₂ s indent blk blk₁ blk₂ cond c R
    hb hl h₀ h₁ hb₁ hl₁ hs₁ hb₂ hl₂ hs₂ hc' hR', by simp⟩

/-- C9 at a concrete input: the function `fnMerge`, whose block 3 is the
target of the jumps of blocks 1 and 2. -/
theorem walk_merge_witness :
    ∃ rest, walk wordSizes { allocs := [] } fnMerge 4 0 "\t" =
        ⟨ifText "\t" "PARAM.c" "\t\treturn (5)\n" "\t\treturn (5)\n" ++ rest, .ok "\t"⟩ ∧
      ∀ ch ∈ rest.data, ch = '\n' :=
  walk_merge wordSizes { allocs := [] } fnMerge 0 1 2 3 "\t"
    { Instrs := [.If (.parameter "c" tBool)], Succs := [1, 2] }
    { Instrs := [.Jump], Succs := [3] } { Instrs := [.Jump], Succs := [3] }
    (.parameter "c" tBool) "PARAM.c" "\t\treturn (5)\n" 1 2 4 (by decide)
    (by rfl) (by rfl) (by rfl) (by rfl) (by rfl) (by rfl) (by rfl) (by rfl) (by rfl) (by rfl)
    (by rfl) (by rfl) (by decide)

/-- C9 fails as stated: in `fnMerge` block 3 is reached from the entry
through the two distinct predecessors 1 and 2, and the reconstruction raises
no error: `doFunction` returns normally and its output holds the rendering
of block 3 (`return (5)`) once per path. -/
theorem walk_merge_counterexample :
    fnMerge.Blocks.get? 1 = some { Instrs := [.Jump], Succs := [3] } ∧
    fnMerge.Blocks.get? 2 = some { Instrs := [.Jump], Succs := [3] } ∧
    doFunction wordSizes srcF fnMerge 4 =
      ⟨"p.F\n\x7b\x7b\x7b\n\tif (PARAM.c) \x7b\n\t\treturn (5)\n\t\x7d else \x7b\n\t\treturn (5)\n\t\x7d\n\n\x7d\x7d\x7d\n",
        .ok ()⟩ :=
  ⟨by rfl, by rfl, by rfl⟩

/-! ## C10: rejection of a map update -/

theorem Emit.bind_res {α β : Type} (m : Emit α) (f : α → Emit β) :
    (Emit.bind m f).res = match m.res with
      | .ok a => (f a).res
      | .error e => .error e := by
  unfold Emit.bind; cases m.res <;> rfl

theorem Emit.bind_out_of_error {α β : Type} (m : Emit α) (f : α → Emit β) (e : Err)
    (h : m.res = .error e) : (Emit.bind m f).out = m.out := by
  unfold Emit.bind; rw [h]

theorem Emit.bind_out_of_ok {α β : Type} (m : Emit α) (f : α → Emit β) (a : α)
    (h : m.res = .ok a) : (Emit.bind m f).out = m.out ++ (f a).out := by
  unfold Emit.bind; rw [h]

/-- A failure of a loop is a failure of one of its iterations. -/
theorem foldlM_res_error {α β : Type} (f : β → α → Emit β) (P : Err → Prop) :
    ∀ (l : List α), (∀ b, ∀ a ∈ l, ∀ e, (f b a).res = .error e → P e) →
      ∀ b e, (l.foldlM f b).res = .error e → P e := by
  intro l
  induction l with
  | nil => intro _ b e h; cases h
  | cons a rest ih =>
    intro hf b e h
    rw [List.foldlM_cons, emit_bind_def, Emit.bind_res] at h
    cases hfa : (f b a).res with
    | error e' =>
      rw [hfa] at h
      cases h
      exact hf b a (List.mem_cons_self _ _) _ hfa
    | ok b' =>
      rw [hfa] at h
      exact ih (fun b a ha => hf b a (List.mem_cons_of_mem _ ha)) b' e h

/-- A loop whose iterations write nothing writes nothing. -/
theorem foldlM_out_empty {α β : Type} (f : β → α → Emit β) (hf : ∀ b a, (f b a).out = "") :
    ∀ (l : List α) (b : β), (l.foldlM f b).out = "" := by
  intro l
  induction l with
  | nil => intro b; rfl
  | cons a rest ih =>
    intro b
    rw [List.foldlM_cons, emit_bind_def]
    cases hfa : (f b a).res with
    | error e => rw [Emit.bind_out_of_error _ _ e hfa, hf]
    | ok b' => rw [Emit.bind_out_of_ok _ _ b' hfa, hf, ih]; rfl

/-- A loop with an iteration that always fails, fails. -/
theorem foldlM_fails {α β : Type} (f : β → α → Emit β) (a₀ : α)
    (hf : ∀ b, ∃ e, (f b a₀).res = .error e) :
    ∀ (l : List α), a₀ ∈ l → ∀ b, ∃ e, (l.foldlM f b).res = .error e := by
  intro l
  induction l with
  | nil => intro h; cases h
  | cons a rest ih =>
    intro hmem b
    rw [List.foldlM_cons, emit_bind_def, Emit.bind_res]
    cases hfa : (f b a).res with
    | error e => exact ⟨e, rfl⟩
    | ok b' =>
      rcases List.mem_cons.mp hmem with h | h
      · subst h
        obtain ⟨e, he⟩ := hf b
        rw [he] at hfa; cases hfa
      · exact ih h b'

theorem storeInstr_out (S : Sizes) (h : Heap) (i : Instr) : (storeInstr S h i).out = "" := by
  unfold storeInstr
  split <;> rfl

theorem storePass_out (S : Sizes) (blocks : List Block) (h : Heap) :
    (forInstrs (storeInstr S) blocks h).out = "" :=
  foldlM_out_empty (fun h (b : Block) => b.Instrs.foldlM (storeInstr S) h)
    (fun b blk => foldlM_out_empty _ (storeInstr_out S) blk.Instrs b) blocks h

theorem storePass_fails (S : Sizes) (blocks : List Block) (blk : Block) (hblk : blk ∈ blocks)
    (hm : Instr.MapUpdate ∈ blk.Instrs) (h : Heap) :
    ∃ e, (forInstrs (storeInstr S) blocks h).res = .error e :=
  foldlM_fails (fun h (b : Block) => b.Instrs.foldlM (storeInstr S) h) blk
    (fun b => foldlM_fails (storeInstr S) Instr.MapUpdate (fun _ => ⟨_, rfl⟩) blk.Instrs hm b)
    blocks hblk h

theorem except_foldlM_error {α β : Type} (f : β → α → Except Err β) (P : Err → Prop)
    (hf : ∀ b a e, f b a = .error e → P e) :
    ∀ (l : List α) (b : β) (e : Err), l.foldlM f b = .error e → P e := by
  intro l
  induction l with
  | nil => intro b e h; cases h
  | cons a rest ih =>
    intro b e h
    rw [List.foldlM_cons] at h
    cases hfa : f b a with
    | error e' =>
      rw [hfa] at h
      cases h
      exact hf b a _ hfa
    | ok b' =>
      rw [hfa] at h
      exact ih b' e h

mutual
theorem init_error (S : Sizes) :
    ∀ (T : Ty) (b : Int) (m : List (Int × Option Value)) (e : Err),
      Cell.init S b T m = .error e → e = .runtimePanic
  | .named _ _ u, b, m, e, h => by
    simp only [Cell.init] at h
    exact init_error S u b m e h
  | .array elem len, b, m, e, h => by
    simp only [Cell.init] at h
    split at h
    · cases h
    · exact except_foldlM_error
        (fun m (i : Nat) => Cell.init S (add64 b (mul64 i (S.Sizeof elem))) elem m)
        (fun e => e = .runtimePanic) (fun m i e he => init_error S elem _ m e he) _ _ _ h
  | .struct fs, b, m, e, h => by
    simp only [Cell.init] at h
    exact initFields_error S fs b _ m e h
  | .basic _, _, _, _, h => by simp [Cell.init] at h
  | .pointer _, _, _, _, h => by simp [Cell.init] at h
  | .slice _, _, _, _, h => by simp [Cell.init] at h
  | .other _, _, _, _, h => by simp [Cell.init] at h
theorem initFields_error (S : Sizes) :
    ∀ (fs : Fields) (b : Int) (offs : List Int) (m : List (Int × Option Value)) (e : Err),
      Cell.initFields S b offs fs m = .error e → e = .runtimePanic
  | .nil, _, [], _, _, h => by simp [Cell.initFields] at h
  | .nil, _, _ :: _, _, _, h => by
    simp only [Cell.initFields] at h
    cases h; rfl
  | .cons _ _ _, _, [], _, _, h => by simp [Cell.initFields] at h
  | .cons _ t rest, b, o :: offs, m, e, h => by
    simp only [Cell.initFields] at h
    split at h
    · rename_i m' hm'
      exact initFields_error S rest b offs m' e h
    · rename_i e' he'
      cases h
      exact init_error S t _ m e he'
end

theorem evalPtr_error (S : Sizes) :
    ∀ (v : Value) (base : Int) (e : Err), evalPtr S v base = .error e → e ≠ .outOfFuel
  | .alloc _, _, _, h => by simp [evalPtr] at h
  | .fieldAddr x field _, base, e, h => by
    simp only [evalPtr] at h
    split at h
    · split at h
      · split at h
        · exact evalPtr_error S x _ e h
        · cases h; decide
      · cases h; decide
    · cases h; decide
  | .indexAddr x index _, base, e, h => by
    simp only [evalPtr] at h
    split at h
    · split at h
      · split at h
        · exact evalPtr_error S x _ e h
        · rename_i err herr
          cases h
          cases index with
          | const val tc =>
            simp only [evalInt, Const.Int64] at herr
            split at herr
            · split at herr <;> cases herr
            · cases herr; decide
          | _ => simp only [evalInt] at herr; cases herr; decide
      · cases h; decide
    · cases h; decide
  | .function _ _, _, _, h => by simp only [evalPtr] at h; cases h; decide
  | .const _ _, _, _, h => by simp only [evalPtr] at h; cases h; decide
  | .call _ _ _, _, _, h => by simp only [evalPtr] at h; cases h; decide
  | .extract _ _ _, _, _, h => by simp only [evalPtr] at h; cases h; decide
  | .typeAssert _ _ _, _, _, h => by simp only [evalPtr] at h; cases h; decide
  | .makeInterface _ _, _, _, h => by simp only [evalPtr] at h; cases h; decide
  | .parameter _ _, _, _, h => by simp only [evalPtr] at h; cases h; decide
  | .slice _ _, _, _, h => by simp only [evalPtr] at h; cases h; decide
  | .unOp _ _ _, _, _, h => by simp only [evalPtr] at h; cases h; decide
  | .makeChan _, _, _, h => by simp only [evalPtr] at h; cases h; decide
  | .makeMap _, _, _, h => by simp only [evalPtr] at h; cases h; decide
  | .select _, _, _, h => by simp only [evalPtr] at h; cases h; decide
  | .other _ _, _, _, h => by simp only [evalPtr] at h; cases h; decide

theorem store_error (S : Sizes) (h : Heap) (addr val : Value) (e : Err)
    (he : h.store S addr val = .error e) : e ≠ .outOfFuel := by
  unfold Heap.store at he
  split at he
  · rename_i e' hp
    cases he
    exact evalPtr_error S addr 0 e hp
  · split at he
    · cases he; decide
    · split at he
      · cases he; decide
      · cases he; decide
      · cases he

theorem alloc_error (S : Sizes) (h : Heap) (a : Alloc) (e : Err)
    (he : (h.alloc S a).res = .error e) : e ≠ .outOfFuel := by
  unfold Heap.alloc at he
  split at he
  · split at he
    · simp [Emit.bind, print, Emit.pure] at he
    · rename_i e' hinit
      simp only [fail] at he
      cases he
      rw [init_error S _ _ _ _ hinit]
      decide
  · simp only [fail] at he
    cases he; decide

theorem checkSource_error (src : Option ScopeObject) (fn : Function) (e : Err)
    (he : checkSource src fn = .error e) : e ≠ .outOfFuel := by
  unfold checkSource at he
  split at he
  · split at he
    · split at he
      · cases he; decide
      · cases he
    · cases he
  · cases he; decide

theorem Emit.bind_assoc {α β γ : Type} (m : Emit α) (f : α → Emit β) (g : β → Emit γ) :
    Emit.bind (Emit.bind m f) g = Emit.bind m (fun a => Emit.bind (f a) g) := by
  obtain ⟨o, r⟩ := m
  cases r with
  | error e => rfl
  | ok a =>
    simp only [Emit.bind]
    cases (f a).res with
    | error e => rfl
    | ok b => simp [String.append_assoc]

theorem storeInstr_error (S : Sizes) (h : Heap) (i : Instr) (e : Err)
    (he : (storeInstr S h i).res = .error e) : e ≠ .outOfFuel := by
  unfold storeInstr at he
  split at he
  any_goals (cases he; decide)
  · exact store_error S h _ _ e he
  · cases he

theorem storeInstr_error_noStore (S : Sizes) (h : Heap) (i : Instr) (e : Err)
    (hi : ∀ addr val, i ≠ Instr.Store addr val)
    (he : (storeInstr S h i).res = .error e) : e = .notSupported := by
  unfold storeInstr at he
  split at he
  any_goals (cases he; rfl)
  · exact absurd rfl (hi _ _)
  · cases he

theorem allocInstr_error (S : Sizes) (h : Heap) (i : Instr) (e : Err)
    (he : (allocInstr S h i).res = .error e) : e ≠ .outOfFuel := by
  unfold allocInstr at he
  split at he
  · exact alloc_error S h _ e he
  · cases he

theorem allocPhase_error (S : Sizes) (src : Option ScopeObject) (fn : Function) (e : Err)
    (he : (allocPhase S src fn).res = .error e) : e ≠ .outOfFuel := by
  unfold allocPhase at he
  rw [Emit.bind_res] at he
  simp only [print] at he
  rw [Emit.bind_res] at he
  cases hc : checkSource src fn with
  | error e' =>
    simp only [liftE, hc] at he
    cases he
    exact checkSource_error src fn e hc
  | ok u =>
    simp only [liftE, hc] at he
    exact foldlM_res_error (fun h (b : Block) => b.Instrs.foldlM (allocInstr S) h)
      (fun e => e ≠ .outOfFuel) fn.Blocks
      (fun b blk _ e he => foldlM_res_error (allocInstr S) (fun e => e ≠ .outOfFuel) blk.Instrs
        (fun h i _ e he => allocInstr_error S h i e he) b e he) _ e he

theorem doFunction_eq (S : Sizes) (src : Option ScopeObject) (fn : Function) (fuel : Nat) :
    doFunction S src fn fuel =
      Emit.bind (allocPhase S src fn) (fun h =>
        Emit.bind (forInstrs (storeInstr S) fn.Blocks h) (fun h =>
          Emit.bind (print "\x7b\x7b\x7b\n") (fun _ =>
            Emit.bind (walk S h fn fuel 0 "\t") (fun _ => print "\x7d\x7d\x7d\n")))) := by
  simp only [doFunction, allocPhase, emit_bind_def, Emit.bind_assoc]

/-- C10, as the code has it. A function with a `MapUpdate` in any block,
reachable or not, is rejected by a fatal error before the body is rendered:
for every step budget the run ends in the same failure (which is not an
exhausted budget), after having written only the line that names the
function and the `offsets:` line of each allocation registered until then.
When the source check and the allocation pass succeed and the function has
no store, the failure is the fatal "not supported". -/
theorem mapUpdate_rejected (S : Sizes) (src : Option ScopeObject) (fn : Function)
    (blk : Block) (hblk : blk ∈ fn.Blocks) (hm : Instr.MapUpdate ∈ blk.Instrs) :
    ∃ e, e ≠ .outOfFuel ∧
      (∀ fuel, doFunction S src fn fuel = ⟨(allocPhase S src fn).out, .error e⟩) ∧
      ((∃ h, (allocPhase S src fn).res = .ok h) →
        (∀ b ∈ fn.Blocks, ∀ addr val, Instr.Store addr val ∉ b.Instrs) →
        e = .notSupported) := by
  cases ha : (allocPhase S src fn).res with
  | error e =>
    refine ⟨e, allocPhase_error S src fn e ha, ?_, ?_⟩
    · intro fuel
      rw [doFunction_eq]
      apply Emit.ext
      · exact Emit.bind_out_of_error _ _ e ha
      · rw [Emit.bind_res, ha]
    · rintro ⟨h, hh⟩; cases hh
  | ok h =>
    obtain ⟨e, he⟩ := storePass_fails S fn.Blocks blk hblk hm h
    have hstore : ∀ (P : Err → Prop),
        (∀ b ∈ fn.Blocks, ∀ i ∈ b.Instrs, ∀ h e, (storeInstr S h i).res = .error e → P e) →
        P e := fun P hP =>
      foldlM_res_error (fun h (b : Block) => b.Instrs.foldlM (storeInstr S) h) P fn.Blocks
        (fun h b hb e he => foldlM_res_error (storeInstr S) P b.Instrs
          (fun h i hi e he => hP b hb i hi h e he) h e he) h e he
    refine ⟨e, hstore _ (fun _ _ i _ h e he => storeInstr_error S h i e he), ?_, ?_⟩
    · intro fuel
      rw [doFunction_eq]
      apply Emit.ext
      · rw [Emit.bind_out_of_ok _ _ h ha, Emit.bind_out_of_error _ _ e he, storePass_out]
        simp
      · rw [Emit.bind_res, ha]
        simp only
        rw [Emit.bind_res, he]
    · intro _ hns
      exact hstore _ (fun b hb i hi h e he =>
        storeInstr_error_noStore S h i e (fun addr val hEq => hns b hb addr val (hEq ▸ hi)) he)

/-- C10 at a concrete input: the function `fnMapUpdate`, whose second block
holds the map update. -/
theorem mapUpdate_rejected_witness :
    ∃ e, e ≠ .outOfFuel ∧
      (∀ fuel, doFunction wordSizes srcG fnMapUpdate fuel =
        ⟨(allocPhase wordSizes srcG fnMapUpdate).out, .error e⟩) ∧
      ((∃ h, (allocPhase wordSizes srcG fnMapUpdate).res = .ok h) →
        (∀ b ∈ fnMapUpdate.Blocks, ∀ addr val, Instr.Store addr val ∉ b.Instrs) →
        e = .notSupported) :=
  mapUpdate_rejected wordSizes srcG fnMapUpdate
    { Instrs := [.MapUpdate, .Return [intConst 7]], Succs := [] } (by decide) (by decide)

/-- C10 fails as stated: `fnMapUpdate` has one map update, in a block that
the entry block does not reach; it is rejected as not supported, and by then
the line `p.G` naming the function has been written. -/
theorem mapUpdate_counterexample :
    doFunction wordSizes srcG fnMapUpdate 5 = ⟨"p.G\n", .error .notSupported⟩ ∧
    (doFunction wordSizes srcG fnMapUpdate 5).out ≠ "" :=
  ⟨by rfl, by decide⟩

/-! ## Unfolding the rendering rules -/

theorem printExpr_of_le (S : Sizes) (pkg : String) (h : Heap) (v : Value) (k fuel : Nat)
    (s : String) (hk : k ≤ fuel) (hv : printExpr S pkg h k v = ⟨s, .ok ()⟩) :
    printExpr S pkg h fuel v = ⟨s, .ok ()⟩ :=
  printExpr_le S pkg h v hk s () hv

theorem printExpr_probe (S : Sizes) (pkg : String) (h : Heap) (n : Nat) (x : Value)
    (T tt t : Ty) :
    printExpr S pkg h (n + 1) (.extract (.typeAssert x T tt) 1 t) =
      Emit.bind (print ("is[" ++ typeString none T ++ "]?(")) (fun _ =>
        Emit.bind (printExpr S pkg h n x) (fun _ => print ")")) := by
  simp [printExpr, emit_bind_def]

theorem printExpr_extract_other (S : Sizes) (pkg : String) (h : Heap) (n : Nat)
    (tuple : Value) (index : Nat) (t : Ty)
    (hother : index ≠ 1 ∨ ∀ x T tt, tuple ≠ .typeAssert x T tt) :
    printExpr S pkg h (n + 1) (.extract tuple index t) =
      Emit.bind (printExpr S pkg h n tuple) (fun _ => print ("@" ++ toString index)) := by
  simp only [printExpr, emit_bind_def]
  split
  · rename_i x T tt hidx
    rcases hother with hi | ht
    · simp [hi] at hidx
    · exact absurd rfl (ht x T tt)
  · rfl

theorem printExpr_unOp_other (S : Sizes) (pkg : String) (h : Heap) (n : Nat) (op : Token)
    (x : Value) (t : Ty) (hop : op ≠ .MUL) :
    printExpr S pkg h (n + 1) (.unOp op x t) =
      Emit.bind (print (op.text ++ " ")) (fun _ => printExpr S pkg h n x) := by
  cases op with
  | MUL => exact absurd rfl hop
  | ARROW => simp [printExpr, emit_bind_def]
  | SUB => simp [printExpr, emit_bind_def]
  | NOT => simp [printExpr, emit_bind_def]
  | XOR => simp [printExpr, emit_bind_def]

theorem printExpr_deref_load (S : Sizes) (pkg : String) (h : Heap) (n : Nat) (x : Value)
    (t : Ty) (hx : ∀ al, x ≠ .alloc al) :
    printExpr S pkg h (n + 1) (.unOp .MUL x t) =
      match h.load S x with
      | .error e => fail e
      | .ok (w, true) => printNilable (printExpr S pkg h n) w
      | .ok (_, false) =>
        Emit.bind (print (Token.MUL.text ++ " ")) (fun _ => printExpr S pkg h n x) := by
  cases x with
  | alloc al => exact absurd rfl (hx al)
  | _ => simp [printExpr, emit_bind_def]

theorem printExpr_deref_unknown (S : Sizes) (pkg : String) (h : Heap) (n : Nat) (a : Alloc)
    (t : Ty) (ha : mapGet h.allocs a = none) :
    printExpr S pkg h (n + 1) (.unOp .MUL (.alloc a) t) =
      ⟨"unknown alloc: " ++ a.text pkg ++ "\n", .error .noAllocation⟩ := by
  simp [printExpr, emit_bind_def, ha, Heap.load, evalPtr, Emit.bind, print, fail]

theorem intercalate_go_eq (sep : String) :
    ∀ (l : List String) (acc : String),
      String.intercalate.go acc sep l = acc ++ sepTail sep l := by
  intro l
  induction l with
  | nil => intro acc; simp [String.intercalate.go, sepTail]
  | cons a rest ih =>
    intro acc
    simp [String.intercalate.go, sepTail, ih, String.append_assoc]

theorem intercalate_cons (sep a : String) (l : List String) :
    sep.intercalate (a :: l) = a ++ sepTail sep l := by
  simp [String.intercalate, intercalate_go_eq]

theorem printCellElems_tail (pe : Option Value → Emit Unit) (elems : List (Int × Option Value))
    (r : Int → String) :
    ∀ (l : List Int) (i : Nat), 0 < i →
      (∀ o ∈ l, pe (mapGet elems o).join = ⟨r o, .ok ()⟩) →
      printCellElems pe elems i l =
        ⟨sepTail ", " (l.map fun o => fmtInt o ++ ": " ++ r o), .ok ()⟩ := by
  intro l
  induction l with
  | nil => intro i _ _; rfl
  | cons o rest ih =>
    intro i hi hr
    have hpos : i > 0 := hi
    simp only [printCellElems, emit_bind_def, hpos, if_true]
    rw [hr o (List.mem_cons_self _ _),
      ih (i + 1) (Nat.succ_pos _) (fun o' ho' => hr o' (List.mem_cons_of_mem _ ho'))]
    apply Emit.ext
    · apply String.ext
      simp [Emit.bind, print, sepTail, String.data_append]
    · rfl

theorem printCellElems_render (pe : Option Value → Emit Unit)
    (elems : List (Int × Option Value)) (r : Int → String) (l : List Int)
    (hr : ∀ o ∈ l, pe (mapGet elems o).join = ⟨r o, .ok ()⟩) :
    printCellElems pe elems 0 l =
      ⟨", ".intercalate (l.map fun o => fmtInt o ++ ": " ++ r o), .ok ()⟩ := by
  cases l with
  | nil => rfl
  | cons o rest =>
    simp only [printCellElems, emit_bind_def, gt_iff_lt, Nat.lt_irrefl, if_false]
    rw [hr o (List.mem_cons_self _ _),
      printCellElems_tail pe elems r rest 1 (by decide)
        (fun o' ho' => hr o' (List.mem_cons_of_mem _ ho')),
      List.map_cons, intercalate_cons]
    apply Emit.ext
    · apply String.ext
      simp [Emit.bind, print, emit_pure_def, Emit.pure, String.data_append]
    · rfl

theorem printSliceElems_tail (pe : Option Value → Emit Unit)
    (elems : List (Int × Option Value)) (r : Int → String) :
    ∀ (l : List Int) (i : Nat), 0 < i →
      (∀ o ∈ l, pe (mapGet elems o).join = ⟨r o, .ok ()⟩) →
      printSliceElems pe elems i l = ⟨sepTail ", " (l.map r), .ok ()⟩ := by
  intro l
  induction l with
  | nil => intro i _ _; rfl
  | cons o rest ih =>
    intro i hi hr
    have hpos : i > 0 := hi
    simp only [printSliceElems, emit_bind_def, hpos, if_true]
    rw [hr o (List.mem_cons_self _ _),
      ih (i + 1) (Nat.succ_pos _) (fun o' ho' => hr o' (List.mem_cons_of_mem _ ho'))]
    apply Emit.ext
    · apply String.ext
      simp [Emit.bind, print, sepTail, String.data_append]
    · rfl

theorem printSliceElems_render (pe : Option Value → Emit Unit)
    (elems : List (Int × Option Value)) (r : Int → String) (l : List Int)
    (hr : ∀ o ∈ l, pe (mapGet elems o).join = ⟨r o, .ok ()⟩) :
    printSliceElems pe elems 0 l = ⟨", ".intercalate (l.map r), .ok ()⟩ := by
  cases l with
  | nil => rfl
  | cons o rest =>
    simp only [printSliceElems, emit_bind_def, gt_iff_lt, Nat.lt_irrefl, if_false]
    rw [hr o (List.mem_cons_self _ _),
      printSliceElems_tail pe elems r rest 1 (by decide)
        (fun o' ho' => hr o' (List.mem_cons_of_mem _ ho')),
      List.map_cons, intercalate_cons]
    apply Emit.ext
    · apply String.ext
      simp [Emit.bind, print, emit_pure_def, Emit.pure, String.data_append]
    · rfl

theorem printNilable_of_le (S : Sizes) (pkg : String) (h : Heap) (o : Option Value)
    (k n : Nat) (s : String) (hk : k ≤ n)
    (ho : printNilable (printExpr S pkg h k) o = ⟨s, .ok ()⟩) :
    printNilable (printExpr S pkg h n) o = ⟨s, .ok ()⟩ :=
  printNilable_le (fun v => printExpr_le S pkg h v hk) o s () ho

theorem printExpr_slice_alloc (S : Sizes) (pkg : String) (h : Heap) (n : Nat) (a : Alloc)
    (c : Cell) (typ : Ty) (hc : mapGet h.allocs a = some c) :
    printExpr S pkg h (n + 1) (.slice (.alloc a) typ) =
      Emit.bind (print (typeString none typ ++ "\x7b")) (fun _ =>
        Emit.bind (printSliceElems (printNilable (printExpr S pkg h n)) c.elems 0 (keys c.elems))
          (fun _ => print "\x7d")) := by
  simp [printExpr, hc, emit_bind_def]

theorem keys_sorted {β : Type} (m : List (Int × β)) : List.Sorted (· ≤ ·) (keys m) :=
  List.sorted_insertionSort _ _

theorem keys_length {β : Type} (m : List (Int × β)) : (keys m).length = m.length := by
  simp [keys, List.length_insertionSort]

/-- The rendering of the dereference of an allocation with a known cell. -/
theorem deref_alloc_render (S : Sizes) (pkg : String) (h : Heap) (a : Alloc) (c : Cell)
    (t : Ty) (k fuel : Nat) (r : Int → String)
    (hc : mapGet h.allocs a = some c)
    (hr : ∀ o ∈ keys c.elems,
      printNilable (printExpr S pkg h k) (mapGet c.elems o).join = ⟨r o, .ok ()⟩)
    (hfuel : k + 1 ≤ fuel) :
    printExpr S pkg h fuel (.unOp .MUL (.alloc a) t) =
      ⟨typeString (some pkg) c.typ ++ "\x7b" ++
        ", ".intercalate ((keys c.elems).map fun o => fmtInt o ++ ": " ++ r o) ++ "\x7d",
        .ok ()⟩ := by
  obtain ⟨n, rfl⟩ : ∃ n, fuel = n + 1 := ⟨fuel - 1, by omega⟩
  rw [printExpr_deref_alloc S pkg h n a c t hc,
    printCellElems_render _ c.elems r (keys c.elems)
      (fun o ho => printNilable_of_le S pkg h _ k n _ (by omega) (hr o ho))]
  apply Emit.ext
  · apply String.ext
    simp [Emit.bind, print, String.data_append]
  · rfl

/-- The rendering of a slice over an allocation with a known cell. -/
theorem slice_alloc_render (S : Sizes) (pkg : String) (h : Heap) (a : Alloc) (c : Cell)
    (typ : Ty) (k fuel : Nat) (r : Int → String)
    (hc : mapGet h.allocs a = some c)
    (hr : ∀ o ∈ keys c.elems,
      printNilable (printExpr S pkg h k) (mapGet c.elems o).join = ⟨r o, .ok ()⟩)
    (hfuel : k + 1 ≤ fuel) :
    printExpr S pkg h fuel (.slice (.alloc a) typ) =
      ⟨typeString none typ ++ "\x7b" ++ ", ".intercalate ((keys c.elems).map r) ++ "\x7d",
        .ok ()⟩ := by
  obtain ⟨n, rfl⟩ : ∃ n, fuel = n + 1 := ⟨fuel - 1, by omega⟩
  rw [printExpr_slice_alloc S pkg h n a c typ hc,
    printSliceElems_render _ c.elems r (keys c.elems)
      (fun o ho => printNilable_of_le S pkg h _ k n _ (by omega) (hr o ho))]
  apply Emit.ext
  · apply String.ext
    simp [Emit.bind, print, String.data_append]
  · rfl

theorem nil_marker (S : Sizes) (pkg : String) (h : Heap) (k : Nat) (o : Option Value)
    (s : String) (ho : o = none)
    (hr : printNilable (printExpr S pkg h k) o = ⟨s, .ok ()⟩) : s = "[[<nil>]]" := by
  subst ho
  have := congrArg Emit.out hr
  simpa [printNilable, print] using this.symm

/-! ## C11: rejection of effect instructions -/

theorem storeInstr_rejected (S : Sizes) (h : Heap) (i : Instr) (hi : isRejected i = true) :
    (storeInstr S h i).res = .error .notSupported := by
  unfold isRejected at hi
  split at hi <;> first | rfl | cases hi

theorem storePass_fails_of (S : Sizes) (blocks : List Block) (blk : Block)
    (hblk : blk ∈ blocks) (i : Instr) (hi : i ∈ blk.Instrs) (hrej : isRejected i = true)
    (h : Heap) : ∃ e, (forInstrs (storeInstr S) blocks h).res = .error e :=
  foldlM_fails (fun h (b : Block) => b.Instrs.foldlM (storeInstr S) h) blk
    (fun b => foldlM_fails (storeInstr S) i
      (fun h' => ⟨_, storeInstr_rejected S h' i hrej⟩) blk.Instrs hi b)
    blocks hblk h

/-- The instructions that the second loop of `do` names (a map update, a
goroutine spawn, a deferred call, `RunDefers`, a channel send, `MakeChan`,
`MakeMap`, a select) are rejected wherever they stand: the run ends, for
every step budget, in the same failure before anything of the body is
rendered. -/
theorem effects_rejected (S : Sizes) (src : Option ScopeObject) (fn : Function)
    (blk : Block) (hblk : blk ∈ fn.Blocks) (i : Instr) (hi : i ∈ blk.Instrs)
    (hrej : isRejected i = true) :
    ∃ e, e ≠ .outOfFuel ∧
      ∀ fuel, doFunction S src fn fuel = ⟨(allocPhase S src fn).out, .error e⟩ := by
  cases ha : (allocPhase S src fn).res with
  | error e =>
    refine ⟨e, allocPhase_error S src fn e ha, ?_⟩
    intro fuel
    rw [doFunction_eq]
    apply Emit.ext
    · exact Emit.bind_out_of_error _ _ e ha
    · rw [Emit.bind_res, ha]
  | ok h =>
    obtain ⟨e, he⟩ := storePass_fails_of S fn.Blocks blk hblk i hi hrej h
    have hne : e ≠ .outOfFuel :=
      foldlM_res_error (fun h (b : Block) => b.Instrs.foldlM (storeInstr S) h)
        (fun e => e ≠ .outOfFuel) fn.Blocks
        (fun h b _ e he => foldlM_res_error (storeInstr S) (fun e => e ≠ .outOfFuel) b.Instrs
          (fun h i _ e he => storeInstr_error S h i e he) h e he) h e he
    refine ⟨e, hne, ?_⟩
    intro fuel
    rw [doFunction_eq]
    apply Emit.ext
    · rw [Emit.bind_out_of_ok _ _ h ha, Emit.bind_out_of_error _ _ e he, storePass_out]
      simp
    · rw [Emit.bind_res, ha]
      simp only
      rw [Emit.bind_res, he]

/-- C11, the code at the failing input: `fnRecv` contains the channel
receive `<-ch`; `doFunction` does not reject it, `walk` is called on the
entry block and the receive is rendered. -/
theorem receive_not_rejected :
    doFunction wordSizes srcR fnRecv 3 =
      ⟨"p.R\n\x7b\x7b\x7b\n\treturn (<- PARAM.ch)\n\x7d\x7d\x7d\n", .ok ()⟩ :=
  by rfl

/-! ## C12: the zero-return marker -/

/-- C12. Zero-return marker: for a block whose last instruction is a
`Return` of the static zero constant (a `Const` whose value is `nil`), `walk`
renders, with any step budget of at least one, `return (ZERO)` and a
newline at the current indentation, and leaves the indentation as it was. -/
theorem walk_return_zero (S : Sizes) (h : Heap) (fn : Function) (fuel b : Nat)
    (indent : String) (blk : Block) (results : List Value) (t : Ty)
    (hb : fn.Blocks.get? b = some blk) (hl : blk.Instrs.getLast? = some (.Return results))
    (hr : results.get? 0 = some (.const none t)) (hfuel : 1 ≤ fuel) :
    walk S h fn fuel b indent = ⟨indent ++ "return (ZERO)\n", .ok indent⟩ := by
  obtain ⟨n, rfl⟩ : ∃ n, fuel = n + 1 := ⟨fuel - 1, by omega⟩
  rw [walk_return S h fn n b indent blk results _ hb hl hr]
  apply Emit.ext
  · apply String.ext
    simp [isZero, Emit.bind, Emit.pure, print, String.data_append]
  · simp [isZero, Emit.bind, Emit.pure, print]

/-- C12 at a concrete input: the function `fnReturnNil`. -/
theorem walk_return_zero_witness :
    walk wordSizes { allocs := [] } fnReturnNil 1 0 "\t" = ⟨"\t" ++ "return (ZERO)\n", .ok "\t"⟩ :=
  walk_return_zero wordSizes { allocs := [] } fnReturnNil 1 0 "\t"
    { Instrs := [.Return [.const none (.pointer tInt)]], Succs := [] }
    [.const none (.pointer tInt)] (.pointer tInt) (by rfl) (by rfl) (by rfl) (by decide)

/-! ## C13: returns of other values -/

theorem infix_of_append_left {α : Type} (c : α) (cs a b : List α) (hc : c ∉ a)
    (h : (c :: cs) <:+: a ++ b) : (c :: cs) <:+: b := by
  induction a with
  | nil => simpa using h
  | cons d a' ih =>
    rw [List.cons_append, List.infix_cons_iff] at h
    rcases h with h | h
    · rw [List.cons_prefix_cons] at h
      exact absurd (h.1 ▸ List.mem_cons_self _ _) hc
    · exact ih (fun hm => hc (List.mem_cons_of_mem _ hm)) h

theorem infix_of_append_right {α : Type} (p b q : List α) (c : α) (hp : p.getLast? = some c)
    (hc : c ∉ q) (h : p <:+: b ++ q) : p <:+: b := by
  have hrev : p.reverse <:+: q.reverse ++ b.reverse := by
    rw [← List.reverse_append]; exact List.reverse_infix.mpr h
  obtain ⟨cs, hcs⟩ : ∃ cs, p.reverse = c :: cs := by
    cases hpr : p.reverse with
    | nil =>
      have : p = [] := by simpa using hpr
      subst this; simp at hp
    | cons d cs =>
      have : p = (d :: cs).reverse := by rw [← hpr, List.reverse_reverse]
      subst this
      simp at hp
      exact ⟨cs, by rw [hp]⟩
  rw [hcs] at hrev
  have := infix_of_append_left c cs q.reverse b.reverse (by simpa using hc) hrev
  rw [← hcs] at this
  exact List.reverse_infix.mp this

/-- C13, as the code has it. For a block whose last instruction is a
`Return` of a value that is not the static zero constant, `walk` renders
`return (`, the rendering of the value by `printExpr`, `)` and a newline at
the current indentation; the marker is never substituted, so (the
indentation being tabs) the text `ZERO` occurs in the line only if it occurs
in the rendering of the value. -/
theorem walk_return_value (S : Sizes) (h : Heap) (fn : Function) (k fuel b : Nat)
    (indent : String) (blk : Block) (results : List Value) (r : Value) (x : String)
    (hb : fn.Blocks.get? b = some blk) (hl : blk.Instrs.getLast? = some (.Return results))
    (hr : results.get? 0 = some r) (hz : isZero r = false)
    (hx : printExpr S fn.pkg h k r = ⟨x, .ok ()⟩) (hfuel : k + 1 ≤ fuel) :
    walk S h fn fuel b indent = ⟨indent ++ "return (" ++ x ++ ")\n", .ok indent⟩ ∧
    ((∀ ch ∈ indent.data, ch = '\t') →
      occurs "ZERO" (indent ++ "return (" ++ x ++ ")\n") → occurs "ZERO" x) := by
  obtain ⟨n, rfl⟩ : ∃ n, fuel = n + 1 := ⟨fuel - 1, by omega⟩
  constructor
  · rw [walk_return S h fn n b indent blk results r hb hl hr, hz,
      if_neg (by simp), printExpr_of_le S fn.pkg h r k n x (by omega) hx]
    apply Emit.ext
    · apply String.ext
      simp [Emit.bind, Emit.pure, print, String.data_append]
    · rfl
  · intro htabs hocc
    unfold occurs at hocc ⊢
    have hdata : (indent ++ "return (" ++ x ++ ")\n").data =
        (indent.data ++ "return (".data) ++ (x.data ++ ")\n".data) := by
      simp [String.data_append]
    rw [hdata] at hocc
    have hZ : 'Z' ∉ indent.data ++ "return (".data := by
      intro hm
      rcases List.mem_append.mp hm with hm | hm
      · have := htabs _ hm
        revert this; decide
      · revert hm; decide
    have h₁ := infix_of_append_left 'Z' ['E', 'R', 'O'] _ _ hZ hocc
    exact infix_of_append_right "ZERO".data x.data ")\n".data 'O' (by rfl) (by decide) h₁

/-- C13 at a concrete input: `return 5`. -/
theorem walk_return_value_witness :
    walk wordSizes { allocs := [] } fnBranch 2 1 "\t" =
      ⟨"\t" ++ "return (" ++ "5" ++ ")\n", .ok "\t"⟩ ∧
    ((∀ ch ∈ "\t".data, ch = '\t') →
      occurs "ZERO" ("\t" ++ "return (" ++ "5" ++ ")\n") → occurs "ZERO" "5") :=
  walk_return_value wordSizes { allocs := [] } fnBranch 1 2 1 "\t"
    { Instrs := [.Return [intConst 5]], Succs := [] } [intConst 5] (intConst 5) "5"
    (by rfl) (by rfl) (by rfl) (by rfl) (by rfl) (by decide)

/-- C13 fails as stated: `fnReturnParam` returns its parameter named `ZERO`,
which is not the static zero constant, and the text `walk` renders for that
return, `return (PARAM.ZERO)`, contains the literal text `ZERO`. -/
theorem walk_return_value_counterexample :
    isZero (.parameter "ZERO" tInt) = false ∧
    walk wordSizes { allocs := [] } fnReturnParam 2 0 "\t" =
      ⟨"\treturn (PARAM.ZERO)\n", .ok "\t"⟩ ∧
    occurs "ZERO" (walk wordSizes { allocs := [] } fnReturnParam 2 0 "\t").out :=
  ⟨by rfl, by rfl, ⟨"\treturn (PARAM.".data, ")\n".data, by rfl⟩⟩

/-! ## C14: type-assertion probes -/

/-- C14. Probe recognition: with `k` a step budget that renders the inner
value and `fuel` any larger budget, `printExpr` of
`Extract(TypeAssert(T, x), 1)` is `is[T]?(` followed by the rendering of `x`
and `)`; for every other `Extract` (an index other than 1, or a tuple that
is not a `TypeAssert`) it is the rendering of the tuple followed by `@` and
the index. -/
theorem printExpr_extract (S : Sizes) (pkg : String) (h : Heap) (k fuel : Nat)
    (hfuel : k + 1 ≤ fuel) :
    (∀ (x : Value) (T tt t : Ty) (sx : String),
      printExpr S pkg h k x = ⟨sx, .ok ()⟩ →
      printExpr S pkg h fuel (.extract (.typeAssert x T tt) 1 t) =
        ⟨"is[" ++ typeString none T ++ "]?(" ++ sx ++ ")", .ok ()⟩) ∧
    (∀ (tuple : Value) (index : Nat) (t : Ty) (st : String),
      (index ≠ 1 ∨ ∀ x T tt, tuple ≠ .typeAssert x T tt) →
      printExpr S pkg h k tuple = ⟨st, .ok ()⟩ →
      printExpr S pkg h fuel (.extract tuple index t) =
        ⟨st ++ "@" ++ toString index, .ok ()⟩) := by
  obtain ⟨n, rfl⟩ : ∃ n, fuel = n + 1 := ⟨fuel - 1, by omega⟩
  have hk : k ≤ n := by omega
  constructor
  · intro x T tt t sx hx
    rw [printExpr_probe, printExpr_of_le S pkg h x k n sx hk hx]
    apply Emit.ext
    · apply String.ext
      simp [Emit.bind, print, String.data_append]
    · rfl
  · intro tuple index t st hother ht
    rw [printExpr_extract_other S pkg h n tuple index t hother,
      printExpr_of_le S pkg h tuple k n st hk ht]
    apply Emit.ext
    · apply String.ext
      simp [Emit.bind, print, String.data_append]
    · rfl

/-- C14 at a concrete input: the budgets 1 and 2 on the empty heap. -/
theorem printExpr_extract_witness :
    (∀ (x : Value) (T tt t : Ty) (sx : String),
      printExpr wordSizes "p" { allocs := [] } 1 x = ⟨sx, .ok ()⟩ →
      printExpr wordSizes "p" { allocs := [] } 2 (.extract (.typeAssert x T tt) 1 t) =
        ⟨"is[" ++ typeString none T ++ "]?(" ++ sx ++ ")", .ok ()⟩) ∧
    (∀ (tuple : Value) (index : Nat) (t : Ty) (st : String),
      (index ≠ 1 ∨ ∀ x T tt, tuple ≠ .typeAssert x T tt) →
      printExpr wordSizes "p" { allocs := [] } 1 tuple = ⟨st, .ok ()⟩ →
      printExpr wordSizes "p" { allocs := [] } 2 (.extract tuple index t) =
        ⟨st ++ "@" ++ toString index, .ok ()⟩) :=
  printExpr_extract wordSizes "p" { allocs := [] } 1 2 (by decide)

/-! ## C15, C16, C17: composite and sequence literals -/

/-- C15, as the code has it. When `printExpr` renders the dereference of an
allocation with a known cell, the composite literal lists every declared
slot of the cell, in ascending-offset order and each annotated with its
offset, whether the slot is populated or not: `r o` being the rendering of
slot `o`, the text is the type name, `{`, the entries `o: r o` separated by
`, `, and `}`; an unpopulated slot is listed with the marker `[[<nil>]]`. -/
theorem deref_lists_every_slot (S : Sizes) (pkg : String) (h : Heap) (a : Alloc) (c : Cell)
    (t : Ty) (k fuel : Nat) (r : Int → String)
    (hc : mapGet h.allocs a = some c)
    (hr : ∀ o ∈ keys c.elems,
      printNilable (printExpr S pkg h k) (mapGet c.elems o).join = ⟨r o, .ok ()⟩)
    (hfuel : k + 1 ≤ fuel) :
    printExpr S pkg h fuel (.unOp .MUL (.alloc a) t) =
      ⟨typeString (some pkg) c.typ ++ "\x7b" ++
        ", ".intercalate ((keys c.elems).map fun o => fmtInt o ++ ": " ++ r o) ++ "\x7d",
        .ok ()⟩ ∧
    (∀ o ∈ keys c.elems, (mapGet c.elems o).join = none → r o = "[[<nil>]]") ∧
    List.Sorted (· ≤ ·) (keys c.elems) :=
  ⟨deref_alloc_render S pkg h a c t k fuel r hc hr hfuel,
    fun o ho hn => nil_marker S pkg h k _ _ hn (hr o ho), keys_sorted _⟩

/-- C15 at a concrete input: the variable of type `T` with only `A`
stored. -/
theorem deref_lists_every_slot_witness :
    printExpr wordSizes "p" heapT5 2 (.unOp .MUL (.alloc allocT) tT) =
      ⟨typeString (some "p") tT ++ "\x7b" ++
        ", ".intercalate ((keys [(0, some (intConst 5)), (8, (none : Option Value))]).map
          fun o => fmtInt o ++ ": " ++ (if o = 0 then "5" else "[[<nil>]]")) ++ "\x7d",
        .ok ()⟩ ∧
    (∀ o ∈ keys [(0, some (intConst 5)), (8, (none : Option Value))],
      (mapGet [(0, some (intConst 5)), (8, (none : Option Value))] o).join = none →
      (if o = 0 then "5" else "[[<nil>]]") = "[[<nil>]]") ∧
    List.Sorted (· ≤ ·) (keys [(0, some (intConst 5)), (8, (none : Option Value))]) :=
  deref_lists_every_slot wordSizes "p" heapT5 allocT
    ⟨tT, [(0, some (intConst 5)), (8, none)]⟩ tT 1 2
    (fun o => if o = 0 then "5" else "[[<nil>]]") (by rfl)
    (by
      intro o ho
      have ho' : o = 0 ∨ o = 8 := by
        simpa [keys, List.insertionSort, List.orderedInsert] using ho
      rcases ho' with rfl | rfl <;> rfl)
    (by decide)

/-- C15 fails as stated: in the cell of the variable of type `T` only slot 0
is populated, and the composite literal that `printExpr` renders for its
dereference has an entry for the unpopulated slot 8 too. -/
theorem deref_unpopulated_counterexample :
    mapGet heapT5.allocs allocT = some ⟨tT, [(0, some (intConst 5)), (8, none)]⟩ ∧
    printExpr wordSizes "p" heapT5 2 derefT =
      ⟨"T\x7b0: 5, 8: [[<nil>]]\x7d", .ok ()⟩ :=
  ⟨by rfl, by rfl⟩

/-- C16, as the code has it. Rendering a slice whose base is an allocation
with a known cell that has an unpopulated declared slot is not an error:
`printExpr` returns normally and produces the sequence literal over all
declared slots, with the marker `[[<nil>]]` in the place of each unpopulated
one (`r o` is the rendering of slot `o`). -/
theorem slice_over_unpopulated (S : Sizes) (pkg : String) (h : Heap) (a : Alloc) (c : Cell)
    (typ : Ty) (k fuel : Nat) (r : Int → String)
    (hc : mapGet h.allocs a = some c)
    (_hun : ∃ o ∈ keys c.elems, (mapGet c.elems o).join = none)
    (hr : ∀ o ∈ keys c.elems,
      printNilable (printExpr S pkg h k) (mapGet c.elems o).join = ⟨r o, .ok ()⟩)
    (hfuel : k + 1 ≤ fuel) :
    printExpr S pkg h fuel (.slice (.alloc a) typ) =
      ⟨typeString none typ ++ "\x7b" ++ ", ".intercalate ((keys c.elems).map r) ++ "\x7d",
        .ok ()⟩ ∧
    (∀ o ∈ keys c.elems, (mapGet c.elems o).join = none → r o = "[[<nil>]]") :=
  ⟨slice_alloc_render S pkg h a c typ k fuel r hc hr hfuel,
    fun o ho hn => nil_marker S pkg h k _ _ hn (hr o ho)⟩

/-- C16 at a concrete input: the slice over the `[2]int` variable with only
element 0 stored. -/
theorem slice_over_unpopulated_witness :
    printExpr wordSizes "p" heapInts5 2 (.slice (.alloc allocInts) (.slice tInt)) =
      ⟨typeString none (.slice tInt) ++ "\x7b" ++
        ", ".intercalate ((keys [(0, some (intConst 5)), (8, (none : Option Value))]).map
          fun o => if o = 0 then "5" else "[[<nil>]]") ++ "\x7d", .ok ()⟩ ∧
    (∀ o ∈ keys [(0, some (intConst 5)), (8, (none : Option Value))],
      (mapGet [(0, some (intConst 5)), (8, (none : Option Value))] o).join = none →
      (if o = 0 then "5" else "[[<nil>]]") = "[[<nil>]]") :=
  slice_over_unpopulated wordSizes "p" heapInts5 allocInts
    ⟨tInts, [(0, some (intConst 5)), (8, none)]⟩ (.slice tInt) 1 2
    (fun o => if o = 0 then "5" else "[[<nil>]]") (by rfl)
    ⟨8, by decide, by rfl⟩
    (by
      intro o ho
      have ho' : o = 0 ∨ o = 8 := by
        simpa [keys, List.insertionSort, List.orderedInsert] using ho
      rcases ho' with rfl | rfl <;> rfl)
    (by decide)

/-- C16 fails as stated: the cell of the `[2]int` variable has the
unpopulated slot 8, and `printExpr` of the slice over it is no fatal error:
it returns normally with the sequence literal `[]int{5, [[<nil>]]}`. -/
theorem slice_unpopulated_counterexample :
    mapGet heapInts5.allocs allocInts = some ⟨tInts, [(0, some (intConst 5)), (8, none)]⟩ ∧
    printExpr wordSizes "p" heapInts5 2 sliceInts =
      ⟨"[]int\x7b5, [[<nil>]]\x7d", .ok ()⟩ :=
  ⟨by rfl, by rfl⟩

/-- C17. For a slice whose base is an allocation with a known cell in which
every declared slot is populated (`vals o` being the value of slot `o` and
`r o` its rendering), `printExpr` yields the text of the type of the slice,
`{`, the renderings of the slot values in ascending byte-offset order
separated by `, `, and `}`; the number of listed elements is the number of
declared slots. -/
theorem slice_populated (S : Sizes) (pkg : String) (h : Heap) (a : Alloc) (c : Cell)
    (typ : Ty) (k fuel : Nat) (vals : Int → Value) (r : Int → String)
    (hc : mapGet h.allocs a = some c)
    (hpop : ∀ o ∈ keys c.elems, mapGet c.elems o = some (some (vals o)))
    (hr : ∀ o ∈ keys c.elems, printExpr S pkg h k (vals o) = ⟨r o, .ok ()⟩)
    (hfuel : k + 1 ≤ fuel) :
    printExpr S pkg h fuel (.slice (.alloc a) typ) =
      ⟨typeString none typ ++ "\x7b" ++ ", ".intercalate ((keys c.elems).map r) ++ "\x7d",
        .ok ()⟩ ∧
    ((keys c.elems).map r).length = c.elems.length ∧
    List.Sorted (· ≤ ·) (keys c.elems) := by
  refine ⟨slice_alloc_render S pkg h a c typ k fuel r hc ?_ hfuel, ?_, keys_sorted _⟩
  · intro o ho
    rw [hpop o ho]
    exact hr o ho
  · rw [List.length_map, keys_length]

/-- C17 at a concrete input: the slice over the `[2]int` variable holding 5
and 7. -/
theorem slice_populated_witness :
    printExpr wordSizes "p" heapInts57 2 (.slice (.alloc allocInts) (.slice tInt)) =
      ⟨typeString none (.slice tInt) ++ "\x7b" ++
        ", ".intercalate ((keys [(0, some (intConst 5)), (8, some (intConst 7))]).map
          fun o => if o = 0 then "5" else "7") ++ "\x7d", .ok ()⟩ ∧
    ((keys [(0, some (intConst 5)), (8, some (intConst 7))]).map
      fun o => if o = 0 then "5" else "7").length =
      [((0 : Int), some (intConst 5)), (8, some (intConst 7))].length ∧
    List.Sorted (· ≤ ·) (keys [(0, some (intConst 5)), (8, some (intConst 7))]) :=
  slice_populated wordSizes "p" heapInts57 allocInts
    ⟨tInts, [(0, some (intConst 5)), (8, some (intConst 7))]⟩ (.slice tInt) 1 2
    (fun o => if o = 0 then intConst 5 else intConst 7)
    (fun o => if o = 0 then "5" else "7") (by rfl)
    (by
      intro o ho
      have ho' : o = 0 ∨ o = 8 := by
        simpa [keys, List.insertionSort, List.orderedInsert] using ho
      rcases ho' with rfl | rfl <;> rfl)
    (by
      intro o ho
      have ho' : o = 0 ∨ o = 8 := by
        simpa [keys, List.insertionSort, List.orderedInsert] using ho
      rcases ho' with rfl | rfl <;> rfl)
    (by decide)

/-! ## C18, C19, C20: dereferences, unary operations, silent slices -/

/-- C18. Pointer-indirection elision: for an address `a` that is not a bare
allocation (a `FieldAddr`/`IndexAddr` chain) and for which `heap.load`
returns a populated slot holding `v`, `printExpr` of the dereference of `a`
is `printExpr` of `v` (with one step less), so the dereference renders
exactly as `v` renders. -/
theorem deref_elides (S : Sizes) (pkg : String) (h : Heap) (a v : Value) (t : Ty)
    (ha : ∀ al, a ≠ .alloc al) (hl : h.load S a = .ok (some v, true)) :
    (∀ n, printExpr S pkg h (n + 1) (.unOp .MUL a t) = printExpr S pkg h n v) ∧
    (∀ k fuel s, printExpr S pkg h k v = ⟨s, .ok ()⟩ → k + 1 ≤ fuel →
      printExpr S pkg h fuel (.unOp .MUL a t) = ⟨s, .ok ()⟩) := by
  have hstep : ∀ n, printExpr S pkg h (n + 1) (.unOp .MUL a t) = printExpr S pkg h n v := by
    intro n
    rw [printExpr_deref_load S pkg h n a t ha, hl]
    rfl
  refine ⟨hstep, ?_⟩
  intro k fuel s hv hfuel
  obtain ⟨n, rfl⟩ : ∃ n, fuel = n + 1 := ⟨fuel - 1, by omega⟩
  rw [hstep n]
  exact printExpr_of_le S pkg h v k n s (by omega) hv

/-- C18 at a concrete input: the load `*&t.A` after `t.A = 5; t.B = 7`. -/
theorem deref_elides_witness :
    (∀ n, printExpr wordSizes "p" heapT57 (n + 1) (.unOp .MUL addrA tInt) =
      printExpr wordSizes "p" heapT57 n (intConst 5)) ∧
    (∀ k fuel s, printExpr wordSizes "p" heapT57 k (intConst 5) = ⟨s, .ok ()⟩ → k + 1 ≤ fuel →
      printExpr wordSizes "p" heapT57 fuel (.unOp .MUL addrA tInt) = ⟨s, .ok ()⟩) :=
  deref_elides wordSizes "p" heapT57 addrA (intConst 5) tInt
    (by intro al hal; cases hal) (by rfl)

/-- C19, as the code has it. A unary operation with an operator other than
the dereference renders as the operator text, one space and the rendering
of the operand.  A dereference renders that way (`* ` and the operand) when
its operand is not a bare allocation and `heap.load` of the operand returns
`populated = false`.  A dereference whose operand `heap.load` cannot resolve
(such as a `Parameter`) fails with the failure of `heap.load` and writes
nothing, and the dereference of an allocation that is not registered writes
the `unknown alloc` line and fails. -/
theorem unOp_generic (S : Sizes) (pkg : String) (h : Heap) (x : Value) (t : Ty)
    (k fuel : Nat) (s : String)
    (hx : printExpr S pkg h k x = ⟨s, .ok ()⟩) (hfuel : k + 1 ≤ fuel) :
    (∀ op, op ≠ .MUL → printExpr S pkg h fuel (.unOp op x t) = ⟨op.text ++ " " ++ s, .ok ()⟩) ∧
    ((∀ al, x ≠ .alloc al) → (∃ w, h.load S x = .ok (w, false)) →
      printExpr S pkg h fuel (.unOp .MUL x t) = ⟨"* " ++ s, .ok ()⟩) ∧
    (∀ e, (∀ al, x ≠ .alloc al) → h.load S x = .error e →
      printExpr S pkg h fuel (.unOp .MUL x t) = ⟨"", .error e⟩) ∧
    (∀ a, mapGet h.allocs a = none →
      printExpr S pkg h fuel (.unOp .MUL (.alloc a) t) =
        ⟨"unknown alloc: " ++ a.text pkg ++ "\n", .error .noAllocation⟩) := by
  obtain ⟨n, rfl⟩ : ∃ n, fuel = n + 1 := ⟨fuel - 1, by omega⟩
  have hx' := printExpr_of_le S pkg h x k n s (by omega) hx
  refine ⟨?_, ?_, ?_, ?_⟩
  · intro op hop
    rw [printExpr_unOp_other S pkg h n op x t hop, hx']
    apply Emit.ext
    · apply String.ext
      simp [Emit.bind, print, String.data_append]
    · rfl
  · rintro hna ⟨w, hw⟩
    rw [printExpr_deref_load S pkg h n x t hna, hw]
    simp only
    rw [hx']
    apply Emit.ext
    · apply String.ext
      simp [Emit.bind, print, Token.text, String.data_append]
    · rfl
  · intro e hna he
    rw [printExpr_deref_load S pkg h n x t hna, he]
    rfl
  · intro a ha
    exact printExpr_deref_unknown S pkg h n a t ha

/-- C19 at a concrete input: operations on the parameter `q`. -/
theorem unOp_generic_witness :
    (∀ op, op ≠ .MUL →
      printExpr wordSizes "p" { allocs := [] } 2 (.unOp op paramQ tInt) =
        ⟨op.text ++ " " ++ "PARAM.q", .ok ()⟩) ∧
    ((∀ al, paramQ ≠ .alloc al) →
      (∃ w, Heap.load wordSizes { allocs := [] } paramQ = .ok (w, false)) →
      printExpr wordSizes "p" { allocs := [] } 2 (.unOp .MUL paramQ tInt) =
        ⟨"* " ++ "PARAM.q", .ok ()⟩) ∧
    (∀ e, (∀ al, paramQ ≠ .alloc al) → Heap.load wordSizes { allocs := [] } paramQ = .error e →
      printExpr wordSizes "p" { allocs := [] } 2 (.unOp .MUL paramQ tInt) = ⟨"", .error e⟩) ∧
    (∀ a, mapGet ({ allocs := [] } : Heap).allocs a = none →
      printExpr wordSizes "p" { allocs := [] } 2 (.unOp .MUL (.alloc a) tInt) =
        ⟨"unknown alloc: " ++ a.text "p" ++ "\n", .error .noAllocation⟩) :=
  unOp_generic wordSizes "p" { allocs := [] } paramQ tInt 1 2 "PARAM.q" (by rfl) (by decide)

/-- C19 fails as stated: the dereference of the parameter `q` is handled by
neither the composite-literal rule nor the populated-load rule, and
`printExpr` does not render it as `* PARAM.q`: `heap.load` ends the run with
the fatal "unexpected pointer" before anything is written. -/
theorem unOp_parameter_counterexample :
    Heap.load wordSizes { allocs := [] } paramQ = .error .unexpectedPointer ∧
    (∀ fuel, printExpr wordSizes "p" { allocs := [] } (fuel + 1) (.unOp .MUL paramQ tInt) =
      ⟨"", .error .unexpectedPointer⟩) :=
  ⟨by rfl, fun _ => by rfl⟩

/-- C20, the code at the failing input: for the slice `s[:]` of a parameter
`s`, whose base is not an allocation, `printExpr` writes nothing at all and
returns normally, whatever the step budget. -/
theorem slice_unknown_base_silent :
    ∀ fuel, printExpr wordSizes "p" { allocs := [] } (fuel + 1) (.slice paramS (.slice tInt)) =
      ⟨"", .ok ()⟩ :=
  fun _ => by rfl

/-! ## Calls -/

theorem printArgs_tail (pe : Value → Emit Unit) (r : Value → String) :
    ∀ (args : Args) (i : Nat), 0 < i →
      (∀ v ∈ args.toList, pe v = ⟨r v, .ok ()⟩) →
      printArgs pe i args = ⟨sepTail ", " (args.toList.map r), .ok ()⟩
  | .nil, _, _, _ => rfl
  | .cons arg rest, i, hi, hr => by
    have hpos : i > 0 := hi
    simp only [printArgs, emit_bind_def, hpos, if_true]
    rw [hr arg (by simp [Args.toList]),
      printArgs_tail pe r rest (i + 1) (Nat.succ_pos _)
        (fun v hv => hr v (by simp [Args.toList, hv]))]
    apply Emit.ext
    · apply String.ext
      simp [Emit.bind, print, sepTail, Args.toList, String.data_append]
    · rfl

theorem printArgs_render (pe : Value → Emit Unit) (r : Value → String) (args : Args)
    (hr : ∀ v ∈ args.toList, pe v = ⟨r v, .ok ()⟩) :
    printArgs pe 0 args = ⟨", ".intercalate (args.toList.map r), .ok ()⟩ := by
  cases args with
  | nil => rfl
  | cons arg rest =>
    simp only [printArgs, emit_bind_def, gt_iff_lt, Nat.lt_irrefl, if_false]
    rw [hr arg (by simp [Args.toList]),
      printArgs_tail pe r rest 1 (by decide) (fun v hv => hr v (by simp [Args.toList, hv])),
      Args.toList, List.map_cons, intercalate_cons]
    apply Emit.ext
    · apply String.ext
      simp [Emit.bind, print, emit_pure_def, Emit.pure, String.data_append]
    · rfl

theorem printExpr_call (S : Sizes) (pkg : String) (h : Heap) (n : Nat) (fn : Value)
    (args : Args) (t : Ty) :
    printExpr S pkg h (n + 1) (.call fn args t) =
      Emit.bind (printExpr S pkg h n fn) (fun _ =>
        Emit.bind (print "(") (fun _ =>
          Emit.bind (printArgs (printExpr S pkg h n) 0 args) (fun _ => print ")"))) := by
  simp [printExpr, emit_bind_def]

/-- C21. For a call, with `sf` the rendering of the callee and `r v` the
rendering of each argument `v` (at a step budget `k`), `printExpr` yields,
with any larger budget, `sf`, then `(`, then the renderings of the arguments
in order separated by `, ` (nothing before the first or after the last, and
nothing at all for an empty argument list), then `)`. -/
theorem printExpr_call_render (S : Sizes) (pkg : String) (h : Heap) (fn : Value) (args : Args)
    (t : Ty) (k fuel : Nat) (sf : String) (r : Value → String)
    (hfn : printExpr S pkg h k fn = ⟨sf, .ok ()⟩)
    (hr : ∀ v ∈ args.toList, printExpr S pkg h k v = ⟨r v, .ok ()⟩)
    (hfuel : k + 1 ≤ fuel) :
    printExpr S pkg h fuel (.call fn args t) =
      ⟨sf ++ "(" ++ ", ".intercalate (args.toList.map r) ++ ")", .ok ()⟩ ∧
    (args = .nil → printExpr S pkg h fuel (.call fn args t) = ⟨sf ++ "()", .ok ()⟩) := by
  obtain ⟨n, rfl⟩ : ∃ n, fuel = n + 1 := ⟨fuel - 1, by omega⟩
  have hmain : printExpr S pkg h (n + 1) (.call fn args t) =
      ⟨sf ++ "(" ++ ", ".intercalate (args.toList.map r) ++ ")", .ok ()⟩ := by
    rw [printExpr_call, printExpr_of_le S pkg h fn k n sf (by omega) hfn,
      printArgs_render _ r args
        (fun v hv => printExpr_of_le S pkg h v k n (r v) (by omega) (hr v hv))]
    apply Emit.ext
    · apply String.ext
      simp [Emit.bind, print, String.data_append]
    · rfl
  refine ⟨hmain, ?_⟩
  intro hnil
  rw [hmain, hnil]
  apply Emit.ext
  · apply String.ext
    simp [Args.toList, String.intercalate, String.data_append]
  · rfl

/-- C21 at a concrete input: the call `f(5, 7)`. -/
theorem printExpr_call_render_witness :
    printExpr wordSizes "p" { allocs := [] } 2 callF =
      ⟨"f" ++ "(" ++ ", ".intercalate ([intConst 5, intConst 7].map
        fun v => if v = intConst 5 then "5" else "7") ++ ")", .ok ()⟩ ∧
    ((.cons (intConst 5) (.cons (intConst 7) .nil) : Args) = .nil →
      printExpr wordSizes "p" { allocs := [] } 2 callF = ⟨"f" ++ "()", .ok ()⟩) :=
  printExpr_call_render wordSizes "p" { allocs := [] } (.function "f" (.other "func(int, int) int"))
    (.cons (intConst 5) (.cons (intConst 7) .nil)) tInt 1 2 "f"
    (fun v => if v = intConst 5 then "5" else "7") (by rfl)
    (by
      intro v hv
      have hv' : v = intConst 5 ∨ v = intConst 7 := by simpa [Args.toList] using hv
      rcases hv' with rfl | rfl
      · rfl
      · rfl)
    (by decide)

/-! ## The heap invariant of `store`, and maps -/

/-- C24. Heap invariant: a successful `heap.store` (to the resolved
allocation `alloc` and offset `offset`) keeps the set of registered
allocations and, in every cell, the type and the set of declared slot
offsets; every slot other than the written one keeps its content, and a slot
that was populated still holds the same value. -/
theorem store_preserves (S : Sizes) (h h' : Heap) (addr val : Value)
    (hs : h.store S addr val = .ok h') :
    ∃ alloc offset, evalPtr S addr 0 = .ok (alloc, offset) ∧
      (∀ a, (mapGet h'.allocs a).isSome = (mapGet h.allocs a).isSome) ∧
      (∀ a c, mapGet h.allocs a = some c →
        ∃ c', mapGet h'.allocs a = some c' ∧ c'.typ = c.typ ∧
          (∀ k, (mapGet c'.elems k).isSome = (mapGet c.elems k).isSome) ∧
          (∀ k, (a ≠ alloc ∨ k ≠ offset) → mapGet c'.elems k = mapGet c.elems k) ∧
          (∀ k v, mapGet c.elems k = some (some v) → mapGet c'.elems k = some (some v))) := by
  unfold Heap.store at hs
  cases hr : evalPtr S addr 0 with
  | error e => rw [hr] at hs; cases hs
  | ok p =>
    obtain ⟨alloc, offset⟩ := p
    rw [hr] at hs
    simp only at hs
    cases hc : mapGet h.allocs alloc with
    | none => rw [hc] at hs; cases hs
    | some cell =>
      rw [hc] at hs
      simp only at hs
      cases hsl : mapGet cell.elems offset with
      | none => rw [hsl] at hs; cases hs
      | some old =>
        cases old with
        | some w => rw [hsl] at hs; cases hs
        | none =>
          rw [hsl] at hs
          simp only [Except.ok.injEq] at hs
          subst hs
          refine ⟨alloc, offset, rfl, ?_, ?_⟩
          · intro a
            by_cases ha : a = alloc
            · subst ha; simp [mapGet_mapSet_self, hc]
            · simp [mapGet_mapSet_other _ _ _ _ ha]
          · intro a c hac
            by_cases ha : a = alloc
            · subst ha
              rw [hc] at hac
              cases hac
              refine ⟨_, mapGet_mapSet_self _ _ _, rfl, ?_, ?_, ?_⟩
              · intro k
                by_cases hk : k = offset
                · subst hk; simp [mapGet_mapSet_self, hsl]
                · simp [mapGet_mapSet_other _ _ _ _ hk]
              · intro k hk
                rcases hk with hk | hk
                · exact absurd rfl hk
                · simp [mapGet_mapSet_other _ _ _ _ hk]
              · intro k v hkv
                by_cases hk : k = offset
                · subst hk; rw [hsl] at hkv; cases hkv
                · simpa [mapGet_mapSet_other _ _ _ _ hk] using hkv
            · refine ⟨c, ?_, rfl, fun _ => rfl, fun _ _ => rfl, fun _ _ hkv => hkv⟩
              simpa [mapGet_mapSet_other _ _ _ _ ha] using hac

/-- C24 at a concrete input: the store of 7 to `t.B` after `t.A = 5`. -/
theorem store_preserves_witness :
    ∃ alloc offset, evalPtr wordSizes addrB 0 = .ok (alloc, offset) ∧
      (∀ a, (mapGet heapT57.allocs a).isSome = (mapGet heapT5.allocs a).isSome) ∧
      (∀ a c, mapGet heapT5.allocs a = some c →
        ∃ c', mapGet heapT57.allocs a = some c' ∧ c'.typ = c.typ ∧
          (∀ k, (mapGet c'.elems k).isSome = (mapGet c.elems k).isSome) ∧
          (∀ k, (a ≠ alloc ∨ k ≠ offset) → mapGet c'.elems k = mapGet c.elems k) ∧
          (∀ k v, mapGet c.elems k = some (some v) → mapGet c'.elems k = some (some v))) :=
  store_preserves wordSizes heapT5 heapT57 addrB (intConst 7) (by rfl)

theorem mapGet_isSome_iff {κ β : Type} [DecidableEq κ] (m : List (κ × β)) (k : κ) :
    (∃ v, mapGet m k = some v) ↔ k ∈ m.map Prod.fst := by
  induction m with
  | nil => simp [mapGet]
  | cons p rest ih =>
    obtain ⟨k', v'⟩ := p
    by_cases hk : k' = k
    · subst hk; simp [mapGet]
    · simp [mapGet, hk, ih, Ne.symm hk]

theorem mapGet_eq_some_iff {κ β : Type} [DecidableEq κ] (m : List (κ × β))
    (hm : (m.map Prod.fst).Nodup) (k : κ) (v : β) :
    mapGet m k = some v ↔ (k, v) ∈ m := by
  induction m with
  | nil => simp [mapGet]
  | cons p rest ih =>
    obtain ⟨k', v'⟩ := p
    simp only [List.map_cons, List.nodup_cons] at hm
    by_cases hk : k' = k
    · subst hk
      simp only [mapGet, if_true, Option.some.injEq, List.mem_cons, Prod.mk.injEq, true_and]
      constructor
      · intro h; exact Or.inl h.symm
      · rintro (h | h)
        · exact h.symm
        · exact absurd (List.mem_map_of_mem Prod.fst h) hm.1
    · simp only [mapGet, hk, if_false, List.mem_cons, Prod.mk.injEq]
      rw [ih hm.2]
      constructor
      · intro h; exact Or.inr h
      · rintro (⟨h, _⟩ | h)
        · exact absurd h.symm hk
        · exact h

theorem mapGet_perm {κ β : Type} [DecidableEq κ] (m m' : List (κ × β))
    (hm : (m.map Prod.fst).Nodup) (hp : m'.Perm m) (k : κ) : mapGet m' k = mapGet m k := by
  have hm' : (m'.map Prod.fst).Nodup := (hp.map Prod.fst).nodup_iff.mpr hm
  cases h : mapGet m k with
  | some v =>
    rw [mapGet_eq_some_iff m' hm']
    exact hp.mem_iff.mpr ((mapGet_eq_some_iff m hm k v).mp h)
  | none =>
    cases h' : mapGet m' k with
    | none => rfl
    | some v =>
      have := (mapGet_eq_some_iff m hm k v).mpr
        (hp.mem_iff.mp ((mapGet_eq_some_iff m' hm' k v).mp h'))
      rw [h] at this; cases this

theorem mapSet_keys {κ β : Type} [DecidableEq κ] (m : List (κ × β)) (k : κ) (v : β) :
    (mapSet m k v).map Prod.fst =
      if k ∈ m.map Prod.fst then m.map Prod.fst else m.map Prod.fst ++ [k] := by
  induction m with
  | nil => simp [mapSet]
  | cons p rest ih =>
    obtain ⟨k', v'⟩ := p
    by_cases hk : k' = k
    · subst hk; simp [mapSet]
    · simp only [mapSet, hk, if_false, List.map_cons, ih, List.mem_cons]
      have hk' : ¬ k = k' := fun h => hk h.symm
      by_cases hmem : k ∈ rest.map Prod.fst
      · simp only [List.mem_map] at hmem
        simp [hmem, hk']
      · simp only [List.mem_map] at hmem
        simp [hmem, hk']

theorem mapSet_keys_nodup {κ β : Type} [DecidableEq κ] (m : List (κ × β)) (k : κ) (v : β)
    (hm : (m.map Prod.fst).Nodup) : ((mapSet m k v).map Prod.fst).Nodup := by
  rw [mapSet_keys]
  split
  · exact hm
  · rename_i hk
    exact List.Nodup.append hm (List.nodup_singleton k) (by simpa using hk)

/-! ## The order of `keys` -/

theorem keys_perm {β : Type} (m m' : List (Int × β)) (hp : m'.Perm m) : keys m' = keys m := by
  unfold keys
  apply List.eq_of_perm_of_sorted (r := fun (a b : Int) => a ≤ b)
  · exact ((List.perm_insertionSort _ _).trans (hp.map Prod.fst)).trans
      (List.perm_insertionSort _ _).symm
  · exact List.sorted_insertionSort _ _
  · exact List.sorted_insertionSort _ _

theorem keys_mem {β : Type} (m : List (Int × β)) (k : Int) :
    k ∈ keys m ↔ ∃ v, mapGet m k = some v := by
  rw [mapGet_isSome_iff]
  exact (List.perm_insertionSort _ _).mem_iff

theorem keys_nodup {β : Type} (m : List (Int × β)) (hm : (m.map Prod.fst).Nodup) :
    (keys m).Nodup :=
  (List.perm_insertionSort _ _).nodup_iff.mpr hm

theorem printCellElems_congr (pe : Option Value → Emit Unit)
    (m m' : List (Int × Option Value)) (hg : ∀ k, mapGet m' k = mapGet m k) :
    ∀ (l : List Int) (i : Nat), printCellElems pe m' i l = printCellElems pe m i l := by
  intro l
  induction l with
  | nil => intro i; rfl
  | cons o rest ih => intro i; simp only [printCellElems, hg, ih]

theorem printSliceElems_congr (pe : Option Value → Emit Unit)
    (m m' : List (Int × Option Value)) (hg : ∀ k, mapGet m' k = mapGet m k) :
    ∀ (l : List Int) (i : Nat), printSliceElems pe m' i l = printSliceElems pe m i l := by
  intro l
  induction l with
  | nil => intro i; rfl
  | cons o rest ih => intro i; simp only [printSliceElems, hg, ih]

/-- C25. For a map `m` (an association list with each key once), `keys m`
is strictly ascending and holds exactly the keys of `m`, each once; a map
with the same entries in another iteration order has the same `keys` and the
same lookups, so the loops of `printExpr` over the slots of a cell visit them
in ascending offset order and print the same text for both. -/
theorem keys_strictly_ascending {β : Type} (m : List (Int × β))
    (hm : (m.map Prod.fst).Nodup) :
    List.Sorted (· < ·) (keys m) ∧
    (∀ k, k ∈ keys m ↔ ∃ v, mapGet m k = some v) ∧
    (keys m).Nodup ∧
    (∀ m' : List (Int × β), m'.Perm m → keys m' = keys m ∧ ∀ k, mapGet m' k = mapGet m k) ∧
    (∀ c c' : List (Int × Option Value), (c.map Prod.fst).Nodup → c'.Perm c →
      ∀ pe i, printCellElems pe c' i (keys c') = printCellElems pe c i (keys c) ∧
        printSliceElems pe c' i (keys c') = printSliceElems pe c i (keys c)) := by
  refine ⟨(keys_sorted m).lt_of_le (keys_nodup m hm), keys_mem m, keys_nodup m hm, ?_, ?_⟩
  · intro m' hp
    exact ⟨keys_perm m m' hp, mapGet_perm m m' hm hp⟩
  · intro c c' hc hp pe i
    rw [keys_perm c c' hp]
    exact ⟨printCellElems_congr pe c c' (mapGet_perm c c' hc hp) _ i,
      printSliceElems_congr pe c c' (mapGet_perm c c' hc hp) _ i⟩

/-- C25 at a concrete input: the map with the entries 16, 0, 8. -/
theorem keys_strictly_ascending_witness :
    List.Sorted (· < ·) (keys [((16 : Int), "c"), (0, "a"), (8, "b")]) ∧
    (∀ k, k ∈ keys [((16 : Int), "c"), (0, "a"), (8, "b")] ↔
      ∃ v, mapGet [((16 : Int), "c"), (0, "a"), (8, "b")] k = some v) ∧
    (keys [((16 : Int), "c"), (0, "a"), (8, "b")]).Nodup ∧
    (∀ m' : List (Int × String), m'.Perm [((16 : Int), "c"), (0, "a"), (8, "b")] →
      keys m' = keys [((16 : Int), "c"), (0, "a"), (8, "b")] ∧
      ∀ k, mapGet m' k = mapGet [((16 : Int), "c"), (0, "a"), (8, "b")] k) ∧
    (∀ c c' : List (Int × Option Value), (c.map Prod.fst).Nodup → c'.Perm c →
      ∀ pe i, printCellElems pe c' i (keys c') = printCellElems pe c i (keys c) ∧
        printSliceElems pe c' i (keys c') = printSliceElems pe c i (keys c)) :=
  keys_strictly_ascending [((16 : Int), "c"), (0, "a"), (8, "b")] (by decide)

/-! ## Layout -/

theorem layout_gap (offs sizes : Nat → Int) (n : Nat)
    (hsize : ∀ i, i < n → 0 ≤ sizes i)
    (hgap : ∀ i, i + 1 < n → offs i + sizes i ≤ offs (i + 1)) :
    ∀ j i, i < j → j < n → offs i + sizes i ≤ offs j := by
  intro j
  induction j with
  | zero => intro i hi; omega
  | succ j ih =>
    intro i hi hj
    by_cases hij : i = j
    · subst hij; exact hgap i hj
    · have h1 := ih i (by omega) (by omega)
      have h2 := hgap j hj
      have h3 := hsize j (by omega)
      omega

/-- C27. Layout: with a layout provider that keeps its contract on the fields
of a struct, `offsets(struct)` has one offset per field, the fields taken in
declaration order; consecutive offsets satisfy
`offset[i+1] ≥ offset[i] + size(field i)`; the offsets are non-decreasing; and
no field reaches into a later one. -/
theorem offsets_layout (S : Sizes) (fs : Fields) (hS : S.Guarantee fs.types) :
    (offsets S fs).length = fs.length ∧
    (∀ i, i + 1 < fs.length →
      (offsets S fs).getD i 0 + S.Sizeof (fs.types.getD i (.other "")) ≤
        (offsets S fs).getD (i + 1) 0) ∧
    (∀ i j, i ≤ j → j < fs.length → (offsets S fs).getD i 0 ≤ (offsets S fs).getD j 0) ∧
    (∀ i j, i < j → j < fs.length →
      (offsets S fs).getD i 0 + S.Sizeof (fs.types.getD i (.other "")) ≤
        (offsets S fs).getD j 0) := by
  obtain ⟨hlen, hsize, hgap⟩ := hS
  have hl := Fields.length_types fs
  have hnn : ∀ i, i < fs.length → 0 ≤ S.Sizeof (fs.types.getD i (.other "")) := by
    intro i hi
    apply hsize
    rw [List.getD_eq_getElem _ _ (by omega)]
    exact List.getElem_mem _
  have hall := layout_gap (fun i => (S.Offsetsof fs.types).getD i 0)
    (fun i => S.Sizeof (fs.types.getD i (.other ""))) fs.length hnn
    (fun i hi => hgap i (by omega))
  refine ⟨by rw [offsets, hlen, hl], fun i hi => hgap i (by omega), ?_, fun i j hij hj => hall j i hij hj⟩
  intro i j hij hj
  rcases Nat.eq_or_lt_of_le hij with h | h
  · subst h; exact le_refl _
  · have h1 := hall j i h hj
    have h2 := hnn i (by omega)
    simp only [offsets]
    simp only at h1
    omega

/-- C27 at a concrete input: `struct { A int; S []int; B int }` in the
layout of 8-byte words, with the offsets 0, 8 and 32. -/
theorem offsets_layout_witness :
    offsets wordSizes fieldsASB = [0, 8, 32] ∧
    (offsets wordSizes fieldsASB).length = fieldsASB.length ∧
    (∀ i, i + 1 < fieldsASB.length →
      (offsets wordSizes fieldsASB).getD i 0 +
          wordSizes.Sizeof (fieldsASB.types.getD i (.other "")) ≤
        (offsets wordSizes fieldsASB).getD (i + 1) 0) ∧
    (∀ i j, i ≤ j → j < fieldsASB.length →
      (offsets wordSizes fieldsASB).getD i 0 ≤ (offsets wordSizes fieldsASB).getD j 0) ∧
    (∀ i j, i < j → j < fieldsASB.length →
      (offsets wordSizes fieldsASB).getD i 0 +
          wordSizes.Sizeof (fieldsASB.types.getD i (.other "")) ≤
        (offsets wordSizes fieldsASB).getD j 0) :=
  ⟨by decide, offsets_layout wordSizes fieldsASB
    ⟨by decide, by decide, fun i hi => by
      have hi3 : i < 2 := by
        have h3 : i + 1 < 3 := hi
        omega
      interval_cases i <;> decide⟩⟩

/-! ## Indentation -/

theorem Emit.bind_ok_inv {α β : Type} {m : Emit α} {f : α → Emit β} {o : String} {b : β}
    (h : Emit.bind m f = ⟨o, .ok b⟩) :
    ∃ o₁ a o₂, m = ⟨o₁, .ok a⟩ ∧ f a = ⟨o₂, .ok b⟩ ∧ o = o₁ ++ o₂ := by
  obtain ⟨mo, mr⟩ := m
  cases mr with
  | error e => simp [Emit.bind] at h
  | ok a =>
    simp only [Emit.bind, Emit.mk.injEq] at h
    exact ⟨mo, a, (f a).out, rfl, Emit.ext rfl h.2, h.1.symm⟩

theorem print_bind_ok_inv {β : Type} {s : String} {f : Unit → Emit β} {o : String} {b : β}
    (h : Emit.bind (print s) f = ⟨o, .ok b⟩) :
    ∃ o₂, f () = ⟨o₂, .ok b⟩ ∧ o = s ++ o₂ := by
  obtain ⟨o₁, a, o₂, h₁, h₂, ho⟩ := Emit.bind_ok_inv h
  simp only [print, Emit.mk.injEq] at h₁
  exact ⟨o₂, h₂, by rw [ho, h₁.1]⟩

/-- A run of `walk` that returns leaves the closure variable `indent` at its
old value, and has the shape its block's last instruction gives it. -/
theorem walk_ok (S : Sizes) (h : Heap) (fn : Function) :
    ∀ (n b : Nat) (indent out i' : String),
      walk S h fn n b indent = ⟨out, .ok i'⟩ →
      i' = indent ∧ ∃ m blk last, n = m + 1 ∧ fn.Blocks.get? b = some blk ∧
        blk.Instrs.getLast? = some last ∧ WalkShape S h fn m blk indent out last := by
  intro n
  induction n with
  | zero => intro b indent out i' hw; simp only [walk, fail] at hw; cases hw
  | succ m ih =>
    intro b indent out i' hw
    cases hb : fn.Blocks.get? b with
    | none => simp only [walk, hb, fail] at hw; cases hw
    | some blk =>
      cases hl : blk.Instrs.getLast? with
      | none => simp only [walk, hb, hl, fail] at hw; cases hw
      | some last =>
        cases last with
        | If cond =>
          simp only [walk, hb, hl, emit_bind_def, emit_pure_def] at hw
          obtain ⟨o₁, hw₁, e₁⟩ := print_bind_ok_inv hw
          obtain ⟨c, u, o₂, hc, hw₂, e₂⟩ := Emit.bind_ok_inv hw₁
          obtain ⟨o₃, hw₃, e₃⟩ := print_bind_ok_inv hw₂
          obtain ⟨t, j, o₄, ht, hw₄, e₄⟩ := Emit.bind_ok_inv hw₃
          obtain ⟨o₅, hw₅, e₅⟩ := print_bind_ok_inv hw₄
          obtain ⟨e, j', o₆, he, hw₆, e₆⟩ := Emit.bind_ok_inv hw₅
          obtain ⟨o₇, hw₇, e₇⟩ := print_bind_ok_inv hw₆
          simp only [Emit.pure, Emit.mk.injEq, Except.ok.injEq] at hw₇
          cases h₀ : blk.Succs.get? 0 with
          | none => rw [h₀] at ht; simp only [fail] at ht; cases ht
          | some s₀ =>
            cases h₁ : blk.Succs.get? 1 with
            | none => rw [h₁] at he; simp only [fail] at he; cases he
            | some s₁ =>
              rw [h₀] at ht
              rw [h₁] at he
              have hj := (ih _ _ _ _ ht).1
              rw [hj] at ht he
              have hj' := (ih _ _ _ _ he).1
              rw [hj'] at he
              refine ⟨hw₇.2.symm, m, blk, _, rfl, rfl, hl, s₀, s₁, c, t, e, h₀, h₁, hc, ht, he, ?_⟩
              rw [e₁, e₂, e₃, e₄, e₅, e₆, e₇, ← hw₇.1]
              apply String.ext
              simp [ifText, String.data_append]
        | Jump =>
          simp only [walk, hb, hl] at hw
          cases h₀ : blk.Succs.get? 0 with
          | none => rw [h₀] at hw; simp only [fail] at hw; cases hw
          | some s₀ =>
            rw [h₀] at hw
            have hi := (ih _ _ _ _ hw).1
            rw [hi] at hw
            exact ⟨hi, m, blk, _, rfl, rfl, hl, s₀, h₀, hw⟩
        | Panic x =>
          simp only [walk, hb, hl, emit_bind_def, emit_pure_def] at hw
          obtain ⟨o₁, hw, e₁⟩ := print_bind_ok_inv hw
          obtain ⟨sx, u, o₂, hx, hw, e₂⟩ := Emit.bind_ok_inv hw
          obtain ⟨o₃, hw, e₃⟩ := print_bind_ok_inv hw
          simp only [Emit.pure, Emit.mk.injEq, Except.ok.injEq] at hw
          refine ⟨hw.2.symm, m, blk, _, rfl, rfl, hl, sx, hx, ?_⟩
          rw [e₁, e₂, e₃, ← hw.1]
          apply String.ext
          simp [String.data_append]
        | Return results =>
          cases hr : results.get? 0 with
          | none =>
            simp only [walk, hb, hl, hr, emit_bind_def, emit_pure_def] at hw
            obtain ⟨o₁, hw, e₁⟩ := print_bind_ok_inv hw
            obtain ⟨_, _, _, hx, _, _⟩ := Emit.bind_ok_inv hw
            simp only [fail] at hx; cases hx
          | some r =>
            rw [walk_return S h fn m b indent blk results r hb hl hr] at hw
            obtain ⟨o₁, hw, e₁⟩ := print_bind_ok_inv hw
            obtain ⟨sx, u, o₂, hx, hw, e₂⟩ := Emit.bind_ok_inv hw
            obtain ⟨o₃, hw, e₃⟩ := print_bind_ok_inv hw
            simp only [Emit.pure, Emit.mk.injEq, Except.ok.injEq] at hw
            refine ⟨hw.2.symm, m, blk, _, rfl, rfl, hl, r, sx, hr, hx, ?_⟩
            rw [e₁, e₂, e₃, ← hw.1]
            apply String.ext
            simp [returnText, String.data_append]
        | _ => simp only [walk, hb, hl, fail] at hw; cases hw

theorem occurs_refl (s : String) : occurs s s := List.infix_refl _

theorem occurs_trans {a b c : String} (h₁ : occurs a b) (h₂ : occurs b c) : occurs a c :=
  List.IsInfix.trans h₁ h₂

theorem occurs_then (indent c t e rest : String) : occurs t (ifText indent c t e ++ rest) :=
  ⟨(indent ++ "if (" ++ c ++ ") \x7b\n").data,
    (indent ++ "\x7d else \x7b\n" ++ e ++ indent ++ "\x7d\n" ++ rest).data,
    by simp [ifText, String.data_append]⟩

theorem occurs_else (indent c t e rest : String) : occurs e (ifText indent c t e ++ rest) :=
  ⟨(indent ++ "if (" ++ c ++ ") \x7b\n" ++ t ++ indent ++ "\x7d else \x7b\n").data,
    (indent ++ "\x7d\n" ++ rest).data,
    by simp [ifText, String.data_append]⟩

theorem tabs_succ (indent : String) (k : Nat) :
    indent ++ "\t" ++ tabs k = indent ++ tabs (k + 1) := by
  rw [tabs, String.append_assoc]

/-- The blocks below a block that `walk` has rendered: each has been rendered
by a run of `walk` at the indentation of its depth, and its text is part of
the text of the block above. -/
theorem walk_descend (S : Sizes) (h : Heap) (fn : Function) :
    ∀ (path : List Nat) (fuel root : Nat) (indent out i' : String) (b k : Nat),
      walk S h fn fuel root indent = ⟨out, .ok i'⟩ →
      descend fn path root = some (b, k) →
      ∃ n text, walk S h fn n b (indent ++ tabs k) = ⟨text, .ok (indent ++ tabs k)⟩ ∧
        occurs text out := by
  intro path
  induction path with
  | nil =>
    intro fuel root indent out i' b k hw hd
    simp only [descend, Option.some.injEq, Prod.mk.injEq] at hd
    obtain ⟨rfl, rfl⟩ := hd
    obtain ⟨rfl, _⟩ := walk_ok S h fn _ _ _ _ _ hw
    exact ⟨fuel, out, by simpa [tabs] using hw, occurs_refl _⟩
  | cons i path ih =>
    intro fuel root indent out i' b k hw hd
    obtain ⟨rfl, m, blk, last, rfl, hb, hl, hshape⟩ := walk_ok S h fn _ _ _ _ _ hw
    simp only [descend, hb, hl] at hd
    cases last with
    | If cond =>
      obtain ⟨s₀, s₁, c, t, e, h₀, h₁, hc, ht, he, rfl⟩ := hshape
      simp only at hd
      split at hd
      · rename_i hi
        cases hs : blk.Succs.get? i with
        | none => rw [hs] at hd; cases hd
        | some s =>
          rw [hs] at hd
          simp only [Option.map_eq_some', Prod.mk.injEq] at hd
          obtain ⟨⟨b', k'⟩, hd', rfl, rfl⟩ := hd
          have hcases : i = 0 ∨ i = 1 := by omega
          rcases hcases with rfl | rfl
          · rw [h₀] at hs; cases hs
            obtain ⟨n, text, hn, ho⟩ := ih _ _ _ _ _ _ _ ht hd'
            rw [tabs_succ] at hn
            exact ⟨n, text, hn, occurs_trans ho (occurs_then _ _ _ _ _)⟩
          · rw [h₁] at hs; cases hs
            obtain ⟨n, text, hn, ho⟩ := ih _ _ _ _ _ _ _ he hd'
            rw [tabs_succ] at hn
            exact ⟨n, text, hn, occurs_trans ho (occurs_else _ _ _ _ _)⟩
      · cases hd
    | Jump =>
      obtain ⟨s, h₀, hs⟩ := hshape
      simp only at hd
      split at hd
      · rw [h₀] at hd
        exact ih _ _ _ _ _ _ _ hs hd
      · cases hd
    | Panic x => simp only at hd; cases hd
    | Return results => simp only at hd; cases hd
    | _ => exact hshape.elim

/-- C22. Indentation.  When `walk` on a block `root` at the indentation
`indent` returns, the indentation in effect afterwards is `indent` again; and
every block `b` reached from `root` through `k` conditional branches (and any
number of jumps) has been rendered by a run of `walk` at the indentation
`indent` plus `k` tabs, which also ends with that indentation and whose text
is part of the text of `root`.  The text of such a run has the shape its
block gives it: a `return (` or `panic(` line starts with the indentation of
the run, and an if-construct has its `if (`, `else` and closing lines at the
indentation of the run and both branches rendered one tab deeper. -/
theorem walk_indentation (S : Sizes) (h : Heap) (fn : Function) (fuel root : Nat)
    (indent out i' : String)
    (hw : walk S h fn fuel root indent = ⟨out, .ok i'⟩) :
    i' = indent ∧
    ∀ path b k, descend fn path root = some (b, k) →
      ∃ n blk last text,
        walk S h fn (n + 1) b (indent ++ tabs k) = ⟨text, .ok (indent ++ tabs k)⟩ ∧
        occurs text out ∧
        fn.Blocks.get? b = some blk ∧ blk.Instrs.getLast? = some last ∧
        WalkShape S h fn n blk (indent ++ tabs k) text last := by
  refine ⟨(walk_ok S h fn _ _ _ _ _ hw).1, ?_⟩
  intro path b k hd
  obtain ⟨n, text, hn, ho⟩ := walk_descend S h fn path fuel root indent out i' b k hw hd
  obtain ⟨_, m, blk, last, rfl, hb, hl, hshape⟩ := walk_ok S h fn _ _ _ _ _ hn
  exact ⟨m, blk, last, text, hn, ho, hb, hl, hshape⟩

/-- C22 at a concrete input: the function `fnNested`, whose block 4 lies two
branches deep. -/
theorem walk_indentation_witness :
    descend fnNested [0, 1] 0 = some (4, 2) ∧
    "\t" = "\t" ∧
    ∀ path b k, descend fnNested path 0 = some (b, k) →
      ∃ n blk last text,
        walk wordSizes ⟨[]⟩ fnNested (n + 1) b ("\t" ++ tabs k) =
          ⟨text, .ok ("\t" ++ tabs k)⟩ ∧
        occurs text
          "\tif (PARAM.c) \x7b\n\t\tif (PARAM.d) \x7b\n\t\t\treturn (5)\n\t\t\x7d else \x7b\n\t\t\treturn (6)\n\t\t\x7d\n\n\t\x7d else \x7b\n\t\treturn (7)\n\t\x7d\n\n" ∧
        fnNested.Blocks.get? b = some blk ∧ blk.Instrs.getLast? = some last ∧
        WalkShape wordSizes ⟨[]⟩ fnNested n blk ("\t" ++ tabs k) text last :=
  ⟨by rfl, walk_indentation wordSizes ⟨[]⟩ fnNested 4 0 "\t" _ "\t" (by rfl)⟩

/-! ## The last instruction of a block -/

theorem Emit.bind_error_inv {α β : Type} {m : Emit α} {f : α → Emit β} {e : Err}
    (h : (Emit.bind m f).res = .error e) :
    m.res = .error e ∨ ∃ a, m.res = .ok a ∧ (f a).res = .error e := by
  rw [Emit.bind_res] at h
  cases hm : m.res with
  | error e' =>
    rw [hm] at h
    simp only [Except.error.injEq] at h
    exact Or.inl (by rw [h])
  | ok a => rw [hm] at h; simp only at h; exact Or.inr ⟨a, rfl, h⟩

theorem print_bind_error_inv {β : Type} {s : String} {f : Unit → Emit β} {e : Err}
    (h : (Emit.bind (print s) f).res = .error e) : (f ()).res = .error e := by
  rcases Emit.bind_error_inv h with h' | ⟨_, _, h'⟩
  · cases h'
  · exact h'

theorem walk_other (S : Sizes) (h : Heap) (fn : Function) (n b : Nat) (indent : String)
    (blk : Block) (last : Instr)
    (hb : fn.Blocks.get? b = some blk) (hl : blk.Instrs.getLast? = some last)
    (ht : isTerminator last = false) :
    walk S h fn (n + 1) b indent = ⟨"", .error .unexpectedInstruction⟩ := by
  cases last <;> first
    | (simp [isTerminator] at ht; done)
    | (simp only [walk, hb, hl, fail])

theorem walk_panic (S : Sizes) (h : Heap) (fn : Function) (n b : Nat) (indent : String)
    (blk : Block) (x : Value) (sx : String)
    (hb : fn.Blocks.get? b = some blk) (hl : blk.Instrs.getLast? = some (.Panic x))
    (hx : printExpr S fn.pkg h n x = ⟨sx, .ok ()⟩) :
    walk S h fn (n + 1) b indent = ⟨indent ++ "panic(" ++ sx ++ ")\n", .ok indent⟩ := by
  simp only [walk, hb, hl, emit_bind_def, emit_pure_def, hx]
  apply Emit.ext
  · apply String.ext
    simp [Emit.bind, print, Emit.pure, String.data_append]
  · rfl

/-- Where a failure of `walk` on a block that ends in one of the four
instructions comes from. -/
theorem walk_error_origin (S : Sizes) (h : Heap) (fn : Function) (n b : Nat) (indent : String)
    (blk : Block) (last : Instr) (e : Err)
    (hb : fn.Blocks.get? b = some blk) (hl : blk.Instrs.getLast? = some last)
    (ht : isTerminator last = true)
    (he : (walk S h fn (n + 1) b indent).res = .error e) :
    (∃ v, last.operand = some v ∧ (printExpr S fn.pkg h n v).res = .error e) ∨
    (∃ s ∈ blk.Succs, ∃ ind, (walk S h fn n s ind).res = .error e) ∨
    e = .runtimePanic := by
  cases last with
  | If cond =>
    simp only [walk, hb, hl, emit_bind_def, emit_pure_def] at he
    have he := print_bind_error_inv he
    rcases Emit.bind_error_inv he with hc | ⟨_, _, he⟩
    · exact Or.inl ⟨cond, rfl, hc⟩
    have he := print_bind_error_inv he
    rcases Emit.bind_error_inv he with h₀ | ⟨j, _, he⟩
    · cases hs : blk.Succs.get? 0 with
      | none => rw [hs] at h₀; simp only [fail] at h₀; cases h₀; exact Or.inr (Or.inr rfl)
      | some s =>
        rw [hs] at h₀
        exact Or.inr (Or.inl ⟨s, List.get?_mem hs, _, h₀⟩)
    have he := print_bind_error_inv he
    rcases Emit.bind_error_inv he with h₁ | ⟨_, _, he⟩
    · cases hs : blk.Succs.get? 1 with
      | none => rw [hs] at h₁; simp only [fail] at h₁; cases h₁; exact Or.inr (Or.inr rfl)
      | some s =>
        rw [hs] at h₁
        exact Or.inr (Or.inl ⟨s, List.get?_mem hs, _, h₁⟩)
    have he := print_bind_error_inv he
    cases he
  | Jump =>
    simp only [walk, hb, hl] at he
    cases hs : blk.Succs.get? 0 with
    | none => rw [hs] at he; simp only [fail] at he; cases he; exact Or.inr (Or.inr rfl)
    | some s =>
      rw [hs] at he
      exact Or.inr (Or.inl ⟨s, List.get?_mem hs, _, he⟩)
  | Panic x =>
    simp only [walk, hb, hl, emit_bind_def, emit_pure_def] at he
    have he := print_bind_error_inv he
    rcases Emit.bind_error_inv he with hc | ⟨_, _, he⟩
    · exact Or.inl ⟨x, rfl, hc⟩
    have he := print_bind_error_inv he
    cases he
  | Return results =>
    cases hr : results.get? 0 with
    | none =>
      simp only [walk, hb, hl, hr, emit_bind_def, emit_pure_def] at he
      have he := print_bind_error_inv he
      rcases Emit.bind_error_inv he with hc | ⟨_, hc, _⟩
      · simp only [fail] at hc; cases hc; exact Or.inr (Or.inr rfl)
      · simp only [fail] at hc; cases hc
    | some r =>
      rw [walk_return S h fn n b indent blk results r hb hl hr] at he
      have he := print_bind_error_inv he
      rcases Emit.bind_error_inv he with hc | ⟨_, _, he⟩
      · split at hc
        · cases hc
        · exact Or.inl ⟨r, hr, hc⟩
      have he := print_bind_error_inv he
      cases he
  | _ => simp [isTerminator] at ht

/-- C23, as the code has it.  On a block whose last instruction is not one
of `If`, `Jump`, `Return`, `Panic`, `walk` ends the run with the fatal
"unexpected instruction" before it writes anything.  On a block that ends in
one of the four, `walk` has no failure of its own: when it fails, `printExpr`
has failed on the value of the last instruction, or `walk` has failed on a
successor, or a successor or result is missing (a run-time panic).  For a
`Jump` it writes nothing of its own and is `walk` on the target; for a `Panic`
whose value renders as `sx` it writes the indentation, `panic(`, `sx`, `)`
and a newline. -/
theorem walk_last_instruction (S : Sizes) (h : Heap) (fn : Function) (n b : Nat)
    (indent : String) (blk : Block) (last : Instr)
    (hb : fn.Blocks.get? b = some blk) (hl : blk.Instrs.getLast? = some last) :
    (isTerminator last = false →
      walk S h fn (n + 1) b indent = ⟨"", .error .unexpectedInstruction⟩) ∧
    (isTerminator last = true → ∀ e, (walk S h fn (n + 1) b indent).res = .error e →
      (∃ v, last.operand = some v ∧ (printExpr S fn.pkg h n v).res = .error e) ∨
      (∃ s ∈ blk.Succs, ∃ ind, (walk S h fn n s ind).res = .error e) ∨
      e = .runtimePanic) ∧
    (last = .Jump → ∀ s, blk.Succs.get? 0 = some s →
      walk S h fn (n + 1) b indent = walk S h fn n s indent) ∧
    (∀ x sx, last = .Panic x → printExpr S fn.pkg h n x = ⟨sx, .ok ()⟩ →
      walk S h fn (n + 1) b indent = ⟨indent ++ "panic(" ++ sx ++ ")\n", .ok indent⟩) := by
  refine ⟨walk_other S h fn n b indent blk last hb hl,
    fun ht e he => walk_error_origin S h fn n b indent blk last e hb hl ht he, ?_, ?_⟩
  · intro hj s hs
    subst hj
    exact walk_jump S h fn n b indent blk s hb hl hs
  · intro x sx hp hx
    subst hp
    exact walk_panic S h fn n b indent blk x sx hb hl hx

/-- C23 at a concrete input: the only block of `fnPanic`, which ends in
`panic(e)`. -/
theorem walk_last_instruction_witness :
    (isTerminator (.Panic (.parameter "e" (.other "error"))) = false →
      walk wordSizes ⟨[]⟩ fnPanic (1 + 1) 0 "\t" = ⟨"", .error .unexpectedInstruction⟩) ∧
    (isTerminator (.Panic (.parameter "e" (.other "error"))) = true →
      ∀ e, (walk wordSizes ⟨[]⟩ fnPanic (1 + 1) 0 "\t").res = .error e →
      (∃ v, (Instr.Panic (.parameter "e" (.other "error"))).operand = some v ∧
        (printExpr wordSizes fnPanic.pkg ⟨[]⟩ 1 v).res = .error e) ∨
      (∃ s ∈ ([] : List Nat), ∃ ind, (walk wordSizes ⟨[]⟩ fnPanic 1 s ind).res = .error e) ∨
      e = .runtimePanic) ∧
    (Instr.Panic (.parameter "e" (.other "error")) = .Jump →
      ∀ s, ([] : List Nat).get? 0 = some s →
      walk wordSizes ⟨[]⟩ fnPanic (1 + 1) 0 "\t" = walk wordSizes ⟨[]⟩ fnPanic 1 s "\t") ∧
    (∀ x sx, Instr.Panic (.parameter "e" (.other "error")) = .Panic x →
      printExpr wordSizes fnPanic.pkg ⟨[]⟩ 1 x = ⟨sx, .ok ()⟩ →
      walk wordSizes ⟨[]⟩ fnPanic (1 + 1) 0 "\t" =
        ⟨"\t" ++ "panic(" ++ sx ++ ")\n", .ok "\t"⟩) :=
  walk_last_instruction wordSizes ⟨[]⟩ fnPanic 1 0 "\t"
    ⟨[.Panic (.parameter "e" (.other "error"))], []⟩
    (.Panic (.parameter "e" (.other "error"))) (by rfl) (by rfl)

/-- C23 fails as stated: the only block of `fnDerefQ` ends in a `Return`, and
`walk` fails fatally on it ("unexpected pointer", from `printExpr` on `*q`),
whatever the step budget; and for the `panic(e)` of `fnPanic`, `walk` writes
the indentation before `panic(`. -/
theorem walk_fatal_counterexample :
    (fnDerefQ.Blocks.get? 0).bind (fun blk => blk.Instrs.getLast?) =
      some (.Return [derefQ]) ∧
    (∀ fuel, walk wordSizes ⟨[]⟩ fnDerefQ (fuel + 2) 0 "\t" =
      ⟨"\treturn (", .error .unexpectedPointer⟩) ∧
    walk wordSizes ⟨[]⟩ fnPanic 2 0 "\t" = ⟨"\tpanic(PARAM.e)\n", .ok "\t"⟩ ∧
    (walk wordSizes ⟨[]⟩ fnPanic 2 0 "\t").out ≠ "panic(PARAM.e)\n" :=
  ⟨by rfl, fun _ => by rfl, by rfl, by decide⟩

/-! ## Termination -/

theorem Emit.stable_refl {α : Type} (m : Emit α) : Emit.stable m m := fun _ => rfl

theorem Emit.stable_trans {α : Type} {m₁ m₂ m₃ : Emit α} (h₁ : Emit.stable m₁ m₂)
    (h₂ : Emit.stable m₂ m₃) : Emit.stable m₁ m₃ := by
  intro h
  have e₁ := h₁ h
  have e₂ := h₂ (by rw [e₁]; exact h)
  rw [e₂, e₁]

theorem Emit.stable_of_outOfFuel {α : Type} (m' : Emit α) (o : String) :
    Emit.stable ⟨o, .error .outOfFuel⟩ m' := fun h => absurd rfl h

theorem Emit.stable_bind {α β : Type} {m m' : Emit α} {f f' : α → Emit β}
    (hm : Emit.stable m m') (hf : ∀ a, Emit.stable (f a) (f' a)) :
    Emit.stable (Emit.bind m f) (Emit.bind m' f') := by
  intro h
  obtain ⟨mo, mr⟩ := m
  cases mr with
  | error e =>
    have hne : e ≠ .outOfFuel := by
      intro he
      subst he
      exact h rfl
    have hm' := hm (by simpa using hne)
    rw [hm']
    rfl
  | ok a =>
    have hm' := hm (by simp)
    have hfa := hf a (by simpa [Emit.bind] using h)
    rw [hm']
    simp only [Emit.bind, hfa]

theorem printNilable_stable {pe pe' : Value → Emit Unit} (hpe : ∀ v, Emit.stable (pe v) (pe' v))
    (o : Option Value) : Emit.stable (printNilable pe o) (printNilable pe' o) := by
  cases o with
  | none => exact Emit.stable_refl _
  | some w => exact hpe w

theorem printArgs_stable {pe pe' : Value → Emit Unit} (hpe : ∀ v, Emit.stable (pe v) (pe' v)) :
    ∀ (args : Args) (i : Nat), Emit.stable (printArgs pe i args) (printArgs pe' i args)
  | .nil, _ => Emit.stable_refl _
  | .cons arg rest, i => by
    simp only [printArgs, emit_bind_def]
    split <;> exact Emit.stable_bind (Emit.stable_refl _) (fun _ =>
      Emit.stable_bind (hpe arg) (fun _ => printArgs_stable hpe rest (i + 1)))

theorem printSliceElems_stable {pe pe' : Option Value → Emit Unit}
    (hpe : ∀ v, Emit.stable (pe v) (pe' v)) (elems : List (Int × Option Value)) :
    ∀ (l : List Int) (i : Nat),
      Emit.stable (printSliceElems pe elems i l) (printSliceElems pe' elems i l) := by
  intro l
  induction l with
  | nil => intro i; exact Emit.stable_refl _
  | cons offset rest ih =>
    intro i
    simp only [printSliceElems, emit_bind_def]
    split <;> exact Emit.stable_bind (Emit.stable_refl _) (fun _ =>
      Emit.stable_bind (hpe _) (fun _ => ih (i + 1)))

theorem printCellElems_stable {pe pe' : Option Value → Emit Unit}
    (hpe : ∀ v, Emit.stable (pe v) (pe' v)) (elems : List (Int × Option Value)) :
    ∀ (l : List Int) (i : Nat),
      Emit.stable (printCellElems pe elems i l) (printCellElems pe' elems i l) := by
  intro l
  induction l with
  | nil => intro i; exact Emit.stable_refl _
  | cons offset rest ih =>
    intro i
    simp only [printCellElems, emit_bind_def]
    split <;> exact Emit.stable_bind (Emit.stable_refl _) (fun _ =>
      Emit.stable_bind (Emit.stable_refl _) (fun _ =>
        Emit.stable_bind (hpe _) (fun _ => ih (i + 1))))

theorem printExpr_stable_succ (S : Sizes) (pkg : String) (h : Heap) :
    ∀ (n : Nat) (v : Value), Emit.stable (printExpr S pkg h n v) (printExpr S pkg h (n + 1) v) := by
  intro n
  induction n with
  | zero => intro v; exact Emit.stable_of_outOfFuel _ _
  | succ n ih =>
    intro v
    have ihN := printNilable_stable ih
    cases v with
    | function name t => exact Emit.stable_refl _
    | const val t => exact Emit.stable_refl _
    | call fn args t =>
      simp only [printExpr, emit_bind_def]
      exact Emit.stable_bind (ih fn) (fun _ => Emit.stable_bind (Emit.stable_refl _) (fun _ =>
        Emit.stable_bind (printArgs_stable ih args 0) (fun _ => Emit.stable_refl _)))
    | extract tuple index t =>
      simp only [printExpr, emit_bind_def]
      split
      · rename_i x hidx
        exact Emit.stable_bind (Emit.stable_refl _) (fun _ => Emit.stable_bind (ih _) (fun _ =>
          Emit.stable_refl _))
      · exact Emit.stable_bind (ih _) (fun _ => Emit.stable_refl _)
    | makeInterface x t => simp only [printExpr]; exact ih x
    | parameter name t => exact Emit.stable_refl _
    | slice x t =>
      simp only [printExpr, emit_bind_def]
      split
      · split
        · exact Emit.stable_bind (Emit.stable_refl _) (fun _ =>
            Emit.stable_bind (printSliceElems_stable ihN _ _ 0) (fun _ => Emit.stable_refl _))
        · exact Emit.stable_refl _
      · exact Emit.stable_refl _
    | fieldAddr x field t =>
      simp only [printExpr, emit_bind_def]
      exact Emit.stable_bind (ih x) (fun _ => Emit.stable_refl _)
    | unOp op x t =>
      have hgen : Emit.stable
          (Emit.bind (print (op.text ++ " ")) (fun _ => printExpr S pkg h n x))
          (Emit.bind (print (op.text ++ " ")) (fun _ => printExpr S pkg h (n + 1) x)) :=
        Emit.stable_bind (Emit.stable_refl _) (fun _ => ih x)
      have hload : Emit.stable
          (match h.load S x with
            | .error e => fail e
            | .ok (w, true) => printNilable (printExpr S pkg h n) w
            | .ok (_, false) =>
              Emit.bind (print (op.text ++ " ")) (fun _ => printExpr S pkg h n x))
          (match h.load S x with
            | .error e => fail e
            | .ok (w, true) => printNilable (printExpr S pkg h (n + 1)) w
            | .ok (_, false) =>
              Emit.bind (print (op.text ++ " ")) (fun _ => printExpr S pkg h (n + 1) x)) := by
        split
        · exact Emit.stable_refl _
        · exact ihN _
        · exact hgen
      cases op with
      | MUL =>
        simp only [printExpr, emit_bind_def]
        split
        · split
          · exact Emit.stable_bind (Emit.stable_refl _) (fun _ =>
              Emit.stable_bind (printCellElems_stable ihN _ _ 0) (fun _ => Emit.stable_refl _))
          · exact Emit.stable_bind (Emit.stable_refl _) (fun _ => hload)
        · exact hload
      | ARROW => simp only [printExpr, emit_bind_def]; exact hgen
      | SUB => simp only [printExpr, emit_bind_def]; exact hgen
      | NOT => simp only [printExpr, emit_bind_def]; exact hgen
      | XOR => simp only [printExpr, emit_bind_def]; exact hgen
    | typeAssert x a t => exact Emit.stable_refl _
    | alloc a => exact Emit.stable_refl _
    | indexAddr x i t => exact Emit.stable_refl _
    | makeChan t => exact Emit.stable_refl _
    | makeMap t => exact Emit.stable_refl _
    | select t => exact Emit.stable_refl _
    | other k t => exact Emit.stable_refl _

theorem printExpr_stable (S : Sizes) (pkg : String) (h : Heap) (v : Value) {n m : Nat}
    (hnm : n ≤ m) : Emit.stable (printExpr S pkg h n v) (printExpr S pkg h m v) := by
  induction hnm with
  | refl => exact Emit.stable_refl _
  | step _ ih => exact Emit.stable_trans ih (printExpr_stable_succ S pkg h _ v)

theorem walk_stable_succ (S : Sizes) (h : Heap) (fn : Function) :
    ∀ (n b : Nat) (indent : String),
      Emit.stable (walk S h fn n b indent) (walk S h fn (n + 1) b indent) := by
  intro n
  induction n with
  | zero => intro b indent; exact Emit.stable_of_outOfFuel _ _
  | succ n ih =>
    intro b indent
    have hpe := printExpr_stable_succ S fn.pkg h n
    have hsucc : ∀ (o : Option Nat) (i : String), Emit.stable
        (match o with
          | some s => walk S h fn n s i
          | none => fail .runtimePanic)
        (match o with
          | some s => walk S h fn (n + 1) s i
          | none => fail .runtimePanic) := by
      intro o i
      cases o with
      | none => exact Emit.stable_refl _
      | some s => exact ih s i
    rw [walk, walk]
    simp only
    split
    · exact Emit.stable_refl _
    · split
      · exact Emit.stable_refl _
      · simp only [emit_bind_def]
        exact Emit.stable_bind (Emit.stable_refl _) (fun _ => Emit.stable_bind (hpe _) (fun _ =>
          Emit.stable_bind (Emit.stable_refl _) (fun _ => Emit.stable_bind (hsucc _ _) (fun _ =>
            Emit.stable_bind (Emit.stable_refl _) (fun _ => Emit.stable_bind (hsucc _ _) (fun _ =>
              Emit.stable_refl _))))))
      · exact hsucc _ _
      · simp only [emit_bind_def]
        exact Emit.stable_bind (Emit.stable_refl _) (fun _ => Emit.stable_bind (hpe _) (fun _ =>
          Emit.stable_refl _))
      · simp only [emit_bind_def]
        refine Emit.stable_bind (Emit.stable_refl _) (fun _ => ?_)
        split
        · exact Emit.stable_refl _
        · split
          · exact Emit.stable_refl _
          · exact Emit.stable_bind (hpe _) (fun _ => Emit.stable_refl _)
      · exact Emit.stable_refl _

theorem walk_stable (S : Sizes) (h : Heap) (fn : Function) (b : Nat) (indent : String) {n m : Nat}
    (hnm : n ≤ m) : Emit.stable (walk S h fn n b indent) (walk S h fn m b indent) := by
  induction hnm with
  | refl => exact Emit.stable_refl _
  | step _ ih => exact Emit.stable_trans ih (walk_stable_succ S h fn _ b indent)


theorem storePass_error (S : Sizes) (blocks : List Block) (h : Heap) (e : Err)
    (he : (forInstrs (storeInstr S) blocks h).res = .error e) : e ≠ .outOfFuel :=
  foldlM_res_error (fun h (b : Block) => b.Instrs.foldlM (storeInstr S) h)
    (fun e => e ≠ .outOfFuel) blocks
    (fun b blk _ e he => foldlM_res_error (storeInstr S) (fun e => e ≠ .outOfFuel) blk.Instrs
      (fun h i _ e he => storeInstr_error S h i e he) b e he) h e he

/-- In a function whose blocks are ranked so that every successor ranks below
its block, and whose last instructions have values that `printExpr` renders
within `k` steps, `walk` ends within `k + rank b + 1` steps. -/
theorem walk_within (S : Sizes) (h : Heap) (fn : Function) (rank : Nat → Nat) (k : Nat)
    (hrank : ∀ b blk, fn.Blocks.get? b = some blk → ∀ s ∈ blk.Succs, rank s < rank b)
    (hpe : ∀ blk last v, blk ∈ fn.Blocks → blk.Instrs.getLast? = some last →
      last.operand = some v → (printExpr S fn.pkg h k v).res ≠ .error .outOfFuel) :
    ∀ (r b : Nat) (indent : String), rank b ≤ r →
      (walk S h fn (k + r + 1) b indent).res ≠ .error .outOfFuel := by
  have step : ∀ r, (∀ s ind, rank s < r →
        (walk S h fn (k + r) s ind).res ≠ .error .outOfFuel) →
      ∀ b indent, rank b ≤ r → (walk S h fn (k + r + 1) b indent).res ≠ .error .outOfFuel := by
    intro r ih b indent hr hres
    cases hb : fn.Blocks.get? b with
    | none => simp only [walk, hb, fail] at hres; cases hres
    | some blk =>
      cases hl : blk.Instrs.getLast? with
      | none => simp only [walk, hb, hl, fail] at hres; cases hres
      | some last =>
        cases ht : isTerminator last with
        | false =>
          rw [walk_other S h fn (k + r) b indent blk last hb hl ht] at hres
          cases hres
        | true =>
          rcases walk_error_origin S h fn (k + r) b indent blk last _ hb hl ht hres with
            ⟨v, hop, hv⟩ | ⟨s, hs, ind, hw⟩ | hrt
          · have hk := hpe blk last v (List.get?_mem hb) hl hop
            have := printExpr_stable S fn.pkg h v (Nat.le_add_right k r) hk
            rw [this] at hv
            exact hk hv
          · exact ih s ind (lt_of_lt_of_le (hrank b blk hb s hs) hr) hw
          · cases hrt
  intro r
  induction r with
  | zero => exact step 0 (fun s ind hs => absurd hs (Nat.not_lt_zero _))
  | succ r ih => exact step (r + 1) (fun s ind hs => ih s ind (Nat.lt_succ_iff.mp hs))

theorem walk_loop (S : Sizes) (h : Heap) :
    ∀ (n : Nat) (indent : String), walk S h fnLoop n 1 indent = ⟨"", .error .outOfFuel⟩ := by
  intro n
  induction n with
  | zero => intro indent; rfl
  | succ n ih =>
    intro indent
    rw [walk_jump S h fnLoop n 1 indent ⟨[.Jump], [1]⟩ 1 (by rfl) (by rfl) (by rfl)]
    exact ih indent

/-- C26, as the code has it.  The check against the source type, the
registration of the allocations and the pass over the stores always end.
`walk` has no check for loops: it ends when the blocks can be ranked so that
every successor ranks below its block (the CFG has no loop) and `printExpr`
ends, within `k` steps, on the value of the last instruction of each block in
the heap that the two passes have built.  The whole reconstruction then ends,
with the rendered text or with a fatal error, and it is the same run for every
step budget from `k + rank 0 + 1` on. -/
theorem reconstruction_terminates (S : Sizes) (src : Option ScopeObject) (fn : Function)
    (rank : Nat → Nat) (k : Nat)
    (hrank : ∀ b blk, fn.Blocks.get? b = some blk → ∀ s ∈ blk.Succs, rank s < rank b)
    (hpe : ∀ h₀ h, (allocPhase S src fn).res = .ok h₀ →
      (forInstrs (storeInstr S) fn.Blocks h₀).res = .ok h →
      ∀ blk last v, blk ∈ fn.Blocks → blk.Instrs.getLast? = some last →
        last.operand = some v → (printExpr S fn.pkg h k v).res ≠ .error .outOfFuel) :
    (∀ e, (allocPhase S src fn).res = .error e → e ≠ .outOfFuel) ∧
    (∀ h₀ e, (forInstrs (storeInstr S) fn.Blocks h₀).res = .error e → e ≠ .outOfFuel) ∧
    ∀ fuel, k + rank 0 + 1 ≤ fuel →
      (doFunction S src fn fuel).res ≠ .error .outOfFuel ∧
      doFunction S src fn fuel = doFunction S src fn (k + rank 0 + 1) := by
  refine ⟨allocPhase_error S src fn, fun h₀ e => storePass_error S fn.Blocks h₀ e, ?_⟩
  have hno : ∀ fuel, k + rank 0 + 1 ≤ fuel →
      (doFunction S src fn fuel).res ≠ .error .outOfFuel := by
    intro fuel hfuel hres
    rw [doFunction_eq] at hres
    rcases Emit.bind_error_inv hres with ha | ⟨h₀, ha, hres⟩
    · exact allocPhase_error S src fn _ ha rfl
    rcases Emit.bind_error_inv hres with hs | ⟨h, hs, hres⟩
    · exact storePass_error S fn.Blocks h₀ _ hs rfl
    have hres := print_bind_error_inv hres
    rcases Emit.bind_error_inv hres with hw | ⟨_, _, hres⟩
    · obtain ⟨r, rfl⟩ : ∃ r, fuel = k + r + 1 := ⟨fuel - k - 1, by omega⟩
      exact walk_within S h fn rank k hrank (hpe h₀ h ha hs) r 0 "\t" (by omega) hw
    · cases hres
  intro fuel hfuel
  refine ⟨hno fuel hfuel, ?_⟩
  have hst : Emit.stable (doFunction S src fn (k + rank 0 + 1)) (doFunction S src fn fuel) := by
    rw [doFunction_eq, doFunction_eq]
    exact Emit.stable_bind (Emit.stable_refl _) (fun _ =>
      Emit.stable_bind (Emit.stable_refl _) (fun h =>
        Emit.stable_bind (Emit.stable_refl _) (fun _ =>
          Emit.stable_bind (walk_stable S h fn 0 "\t" hfuel) (fun _ => Emit.stable_refl _))))
  exact hst (hno _ (le_refl _))

/-- C26 at a concrete input: the function `fnBranch`, whose entry block
branches to two returning blocks; the entry block has rank 1. -/
theorem reconstruction_terminates_witness :
    (∀ e, (allocPhase wordSizes srcF fnBranch).res = .error e → e ≠ .outOfFuel) ∧
    (∀ h₀ e, (forInstrs (storeInstr wordSizes) fnBranch.Blocks h₀).res = .error e →
      e ≠ .outOfFuel) ∧
    ∀ fuel, 1 + (fun b => if b = 0 then 1 else 0) 0 + 1 ≤ fuel →
      (doFunction wordSizes srcF fnBranch fuel).res ≠ .error .outOfFuel ∧
      doFunction wordSizes srcF fnBranch fuel =
        doFunction wordSizes srcF fnBranch (1 + (fun b => if b = 0 then 1 else 0) 0 + 1) :=
  reconstruction_terminates wordSizes srcF fnBranch (fun b => if b = 0 then 1 else 0) 1
    (fun b blk hb s hs => by
      have hb3 : b < 3 := by
        have := List.get?_eq_some.mp hb
        exact this.1
      interval_cases b
      · simp [fnBranch] at hb
        subst hb
        simp at hs
        rcases hs with rfl | rfl <;> decide
      · simp [fnBranch] at hb
        subst hb
        simp at hs
      · simp [fnBranch] at hb
        subst hb
        simp at hs)
    (fun h₀ h _ _ blk last v hblk hl hop => by
      simp only [fnBranch, List.mem_cons, List.mem_singleton, List.not_mem_nil, or_false] at hblk
      rcases hblk with rfl | rfl | rfl <;>
        · simp only [List.getLast?_singleton, Option.some.injEq] at hl
          subst hl
          simp only [Instr.operand, List.get?_cons_zero, Option.some.injEq] at hop
          subst hop
          simp [printExpr, print, intConst])

/-- C26 fails as stated: for `fnLoop`, whose body is `for \x7b\x7d`, the
reconstruction does not end: `walk` calls itself on block 1 again and again
(in Go, until the stack is exhausted), so that whatever the step budget,
`walk` exhausts it after the opening line has been written. -/
theorem walk_loop_counterexample :
    fnLoop.Blocks.get? 1 = some ⟨[.Jump], [1]⟩ ∧
    (∀ fuel, doFunction wordSizes srcL fnLoop fuel =
      ⟨"p.L\n\x7b\x7b\x7b\n", .error .outOfFuel⟩) := by
  refine ⟨by rfl, fun fuel => ?_⟩
  have hw : walk wordSizes ⟨[]⟩ fnLoop fuel 0 "\t" = ⟨"", .error .outOfFuel⟩ := by
    cases fuel with
    | zero => rfl
    | succ n =>
      rw [walk_jump wordSizes ⟨[]⟩ fnLoop n 0 "\t" ⟨[.Jump], [1]⟩ 1 (by rfl) (by rfl) (by rfl)]
      exact walk_loop wordSizes ⟨[]⟩ n "\t"
  have ha : allocPhase wordSizes srcL fnLoop = ⟨"p.L\n", .ok ⟨[]⟩⟩ := by rfl
  have hs : forInstrs (storeInstr wordSizes) fnLoop.Blocks ⟨[]⟩ = ⟨"", .ok ⟨[]⟩⟩ := by rfl
  rw [doFunction_eq, ha]
  simp only [Emit.bind, hs, hw, print]
  apply Emit.ext
  · apply String.ext
    simp [String.data_append]
  · rfl

/-! ## The results of a `Return` -/

/-- C35. For a block that ends in a `Return` with at least one result,
`walk` renders the first result only: the text is the indentation,
`return (`, the rendering of the first result (or `ZERO`), `)` and a newline,
whatever the other results are, and it is the text `walk` writes for a block
that returns the first result alone; this holds for every step budget. -/
theorem walk_return_first (S : Sizes) (h : Heap) (fn fn' : Function) (b b' : Nat)
    (indent : String) (blk blk' : Block) (r₀ : Value) (rest : List Value)
    (hpkg : fn'.pkg = fn.pkg)
    (hb : fn.Blocks.get? b = some blk)
    (hl : blk.Instrs.getLast? = some (.Return (r₀ :: rest)))
    (hb' : fn'.Blocks.get? b' = some blk')
    (hl' : blk'.Instrs.getLast? = some (.Return [r₀])) :
    (∀ fuel, walk S h fn fuel b indent = walk S h fn' fuel b' indent) ∧
    (∀ n, walk S h fn (n + 1) b indent =
      Emit.bind (print (indent ++ "return (")) (fun _ =>
        Emit.bind (if isZero r₀ then print "ZERO" else printExpr S fn.pkg h n r₀) (fun _ =>
          Emit.bind (print ")\n") (fun _ => Emit.pure indent)))) := by
  have h₁ := fun n => walk_return S h fn n b indent blk (r₀ :: rest) r₀ hb hl rfl
  have h₂ := fun n => walk_return S h fn' n b' indent blk' [r₀] r₀ hb' hl' rfl
  refine ⟨fun fuel => ?_, h₁⟩
  cases fuel with
  | zero => rfl
  | succ n => rw [h₁ n, h₂ n, hpkg]

/-- C35 at a concrete input: `return 5, 7` renders as `return 5` does. -/
theorem walk_return_first_witness :
    (∀ fuel, walk wordSizes ⟨[]⟩ fnReturn2 fuel 0 "\t" =
      walk wordSizes ⟨[]⟩ fnReturn1 fuel 0 "\t") ∧
    (∀ n, walk wordSizes ⟨[]⟩ fnReturn2 (n + 1) 0 "\t" =
      Emit.bind (print ("\t" ++ "return (")) (fun _ =>
        Emit.bind (if isZero (intConst 5) then print "ZERO"
            else printExpr wordSizes fnReturn2.pkg ⟨[]⟩ n (intConst 5)) (fun _ =>
          Emit.bind (print ")\n") (fun _ => Emit.pure "\t")))) :=
  walk_return_first wordSizes ⟨[]⟩ fnReturn2 fnReturn1 0 0 "\t"
    ⟨[.Return [intConst 5, intConst 7]], []⟩ ⟨[.Return [intConst 5]], []⟩ (intConst 5)
    [intConst 7] (by rfl) (by rfl) (by rfl) (by rfl) (by rfl)

/-! ## The order of the stores -/

theorem mapSet_mapSet_self {κ β : Type} [DecidableEq κ] (m : List (κ × β)) (k : κ) (a b : β) :
    mapSet (mapSet m k a) k b = mapSet m k b := by
  induction m with
  | nil => simp [mapSet]
  | cons p rest ih =>
    obtain ⟨k', v'⟩ := p
    by_cases hk : k' = k
    · simp [mapSet, hk]
    · simp [mapSet, hk, ih]

theorem mapSet_comm {κ β : Type} [DecidableEq κ] (m : List (κ × β)) (k₁ k₂ : κ) (a b : β)
    (hne : k₁ ≠ k₂) (hk : (mapGet m k₁).isSome = true) :
    mapSet (mapSet m k₁ a) k₂ b = mapSet (mapSet m k₂ b) k₁ a := by
  induction m with
  | nil => simp [mapGet] at hk
  | cons p rest ih =>
    obtain ⟨k', v'⟩ := p
    by_cases h₁ : k' = k₁
    · subst h₁
      simp [mapSet, hne]
    · by_cases h₂ : k' = k₂
      · subst h₂
        have hne' : ¬ k₁ = k' := hne
        simp [mapSet, h₁, hne']
      · have hk' : (mapGet rest k₁).isSome = true := by
          simpa [mapGet, h₁] using hk
        simp [mapSet, h₁, h₂, ih hk']

theorem storeInstr_act (S : Sizes) (h : Heap) (i : Instr) :
    (storeInstr S h i).res = (actOf S i).run h := by
  unfold storeInstr actOf
  split
  all_goals first
    | rfl
    | (simp only [liftE, Heap.store]
       split <;> rfl)

theorem agree_refl {β : Type} (r : Except Err β) : Agree r r := by
  cases r <;> simp [Agree]

theorem agree_symm {β : Type} {r r' : Except Err β} (h : Agree r r') : Agree r' r := by
  cases r <;> cases r' <;> simp_all [Agree]

theorem agree_trans {β : Type} {r₁ r₂ r₃ : Except Err β} (h : Agree r₁ r₂) (h' : Agree r₂ r₃) :
    Agree r₁ r₃ := by
  cases r₁ <;> cases r₂ <;> cases r₃ <;> simp_all [Agree]

theorem agree_bind {α β : Type} {r r' : Except Err α} (h : Agree r r') (f : α → Except Err β) :
    Agree (r >>= f) (r' >>= f) := by
  cases r with
  | error e =>
    cases r' with
    | error e' => trivial
    | ok b => cases h
  | ok a =>
    cases r' with
    | error e' => cases h
    | ok b =>
      have hab : a = b := h
      subst hab
      exact agree_refl _

theorem putSlot_same (h h₁ : Heap) (a : Alloc) (o : Int) (v w : Value)
    (h₁ok : putSlot h a o v = .ok h₁) : ∃ e, putSlot h₁ a o w = .error e := by
  unfold putSlot at h₁ok
  cases hc : mapGet h.allocs a with
  | none => rw [hc] at h₁ok; cases h₁ok
  | some cell =>
    rw [hc] at h₁ok
    simp only at h₁ok
    cases hs : mapGet cell.elems o with
    | none => rw [hs] at h₁ok; cases h₁ok
    | some old =>
      rw [hs] at h₁ok
      cases old with
      | some _ => cases h₁ok
      | none =>
        simp only [Except.ok.injEq] at h₁ok
        subst h₁ok
        exact ⟨.alreadyInitialized, by simp [putSlot, mapGet_mapSet_self]⟩

theorem putSlot_swap (h : Heap) (a₁ a₂ : Alloc) (o₁ o₂ : Int) (v₁ v₂ : Value) :
    Agree (putSlot h a₁ o₁ v₁ >>= fun h₁ => putSlot h₁ a₂ o₂ v₂)
      (putSlot h a₂ o₂ v₂ >>= fun h₂ => putSlot h₂ a₁ o₁ v₁) := by
  by_cases hsame : a₁ = a₂ ∧ o₁ = o₂
  · obtain ⟨rfl, rfl⟩ := hsame
    cases h₁ : putSlot h a₁ o₁ v₁ with
    | error e =>
      cases h₂ : putSlot h a₁ o₁ v₂ with
      | error e' => trivial
      | ok x =>
        obtain ⟨e', he'⟩ := putSlot_same h x a₁ o₁ v₂ v₁ h₂
        show Agree _ (putSlot x a₁ o₁ v₁)
        rw [he']
        trivial
    | ok x =>
      obtain ⟨e, he⟩ := putSlot_same h x a₁ o₁ v₁ v₂ h₁
      show Agree (putSlot x a₁ o₁ v₂) _
      rw [he]
      cases h₂ : putSlot h a₁ o₁ v₂ with
      | error e' => trivial
      | ok y =>
        obtain ⟨e', he'⟩ := putSlot_same h y a₁ o₁ v₂ v₁ h₂
        show Agree _ (putSlot y a₁ o₁ v₁)
        rw [he']
        trivial
  · by_cases ha : a₁ = a₂
    · subst ha
      have ho : o₁ ≠ o₂ := fun ho => hsame ⟨rfl, ho⟩
      have ho' : o₂ ≠ o₁ := fun ho' => ho ho'.symm
      cases hc : mapGet h.allocs a₁ with
      | none => simp [putSlot, hc, Agree, bind, Except.bind]
      | some cell =>
        cases hs₁ : mapGet cell.elems o₁ with
        | none =>
          cases hs₂ : mapGet cell.elems o₂ with
          | none => simp [putSlot, hc, hs₁, hs₂, Agree, bind, Except.bind]
          | some x₂ =>
            cases x₂ <;>
              simp [putSlot, hc, hs₁, hs₂, Agree, bind, Except.bind, mapGet_mapSet_self,
                mapGet_mapSet_other _ _ _ _ ho, mapGet_mapSet_other _ _ _ _ ho']
        | some x₁ =>
          cases hs₂ : mapGet cell.elems o₂ with
          | none =>
            cases x₁ <;>
              simp [putSlot, hc, hs₁, hs₂, Agree, bind, Except.bind, mapGet_mapSet_self,
                mapGet_mapSet_other _ _ _ _ ho, mapGet_mapSet_other _ _ _ _ ho']
          | some x₂ =>
            cases x₁ <;> cases x₂ <;>
              simp [putSlot, hc, hs₁, hs₂, Agree, bind, Except.bind, mapGet_mapSet_self,
                mapGet_mapSet_other _ _ _ _ ho, mapGet_mapSet_other _ _ _ _ ho',
                mapSet_mapSet_self]
            rw [mapSet_comm cell.elems o₁ o₂ _ _ ho (by rw [hs₁]; rfl)]
    · have ha' : a₂ ≠ a₁ := fun h' => ha h'.symm
      cases hc₁ : mapGet h.allocs a₁ with
      | none =>
        cases hc₂ : mapGet h.allocs a₂ with
        | none => simp [putSlot, hc₁, hc₂, Agree, bind, Except.bind]
        | some c₂ =>
          cases hs₂ : mapGet c₂.elems o₂ with
          | none => simp [putSlot, hc₁, hc₂, hs₂, Agree, bind, Except.bind]
          | some x₂ =>
            cases x₂ <;>
              simp [putSlot, hc₁, hc₂, hs₂, Agree, bind, Except.bind,
                mapGet_mapSet_other _ _ _ _ ha, mapGet_mapSet_other _ _ _ _ ha']
      | some c₁ =>
        cases hc₂ : mapGet h.allocs a₂ with
        | none =>
          cases hs₁ : mapGet c₁.elems o₁ with
          | none => simp [putSlot, hc₁, hc₂, hs₁, Agree, bind, Except.bind]
          | some x₁ =>
            cases x₁ <;>
              simp [putSlot, hc₁, hc₂, hs₁, Agree, bind, Except.bind,
                mapGet_mapSet_other _ _ _ _ ha, mapGet_mapSet_other _ _ _ _ ha']
        | some c₂ =>
          cases hs₁ : mapGet c₁.elems o₁ with
          | none =>
            cases hs₂ : mapGet c₂.elems o₂ with
            | none => simp [putSlot, hc₁, hc₂, hs₁, hs₂, Agree, bind, Except.bind]
            | some x₂ =>
              cases x₂ <;>
                simp [putSlot, hc₁, hc₂, hs₁, hs₂, Agree, bind, Except.bind,
                  mapGet_mapSet_other _ _ _ _ ha, mapGet_mapSet_other _ _ _ _ ha']
          | some x₁ =>
            cases hs₂ : mapGet c₂.elems o₂ with
            | none =>
              cases x₁ <;>
                simp [putSlot, hc₁, hc₂, hs₁, hs₂, Agree, bind, Except.bind,
                  mapGet_mapSet_other _ _ _ _ ha, mapGet_mapSet_other _ _ _ _ ha']
            | some x₂ =>
              cases x₁ <;> cases x₂ <;>
                simp [putSlot, hc₁, hc₂, hs₁, hs₂, Agree, bind, Except.bind,
                  mapGet_mapSet_other _ _ _ _ ha, mapGet_mapSet_other _ _ _ _ ha']
              exact mapSet_comm h.allocs a₁ a₂ _ _ ha (by rw [hc₁]; rfl)

theorem act_swap (x y : Act) (h : Heap) :
    Agree (x.run h >>= fun h₁ => y.run h₁) (y.run h >>= fun h₂ => x.run h₂) := by
  cases x with
  | failWith e =>
    cases y with
    | failWith e' => trivial
    | skip => trivial
    | put a o v =>
      cases hp : putSlot h a o v with
      | error e' => simp [Act.run, hp, Agree, bind, Except.bind]
      | ok h₂ => simp [Act.run, hp, Agree, bind, Except.bind]
  | skip =>
    cases y with
    | failWith e' => trivial
    | skip => exact agree_refl _
    | put a o v =>
      show Agree (putSlot h a o v) (putSlot h a o v >>= fun h₂ => Except.ok h₂)
      cases putSlot h a o v with
      | error e' => trivial
      | ok h₂ => exact agree_refl _
  | put a o v =>
    cases y with
    | failWith e' =>
      cases hp : putSlot h a o v with
      | error e'' => simp [Act.run, hp, Agree, bind, Except.bind]
      | ok h₂ => simp [Act.run, hp, Agree, bind, Except.bind]
    | skip =>
      show Agree (putSlot h a o v >>= fun h₁ => Except.ok h₁) (putSlot h a o v)
      cases putSlot h a o v with
      | error e' => trivial
      | ok h₂ => exact agree_refl _
    | put a' o' v' => exact putSlot_swap h a a' o o' v v'

theorem foldlM_perm_agree {α β : Type} (f : β → α → Except Err β)
    (hswap : ∀ b x y, Agree (f b x >>= fun b₁ => f b₁ y) (f b y >>= fun b₂ => f b₂ x))
    (l l' : List α) (hp : l.Perm l') : ∀ b, Agree (l.foldlM f b) (l'.foldlM f b) := by
  induction hp with
  | nil => intro b; exact agree_refl _
  | cons x _ ih =>
    intro b
    rw [List.foldlM_cons, List.foldlM_cons]
    cases f b x with
    | error e => trivial
    | ok b₁ => exact ih b₁
  | swap x y l =>
    intro b
    simp only [List.foldlM_cons]
    have h := agree_bind (hswap b y x) (fun b₂ => l.foldlM f b₂)
    simpa only [bind_assoc] using h
  | trans _ _ ih₁ ih₂ => intro b; exact agree_trans (ih₁ b) (ih₂ b)

theorem emit_foldlM_res {α β : Type} (f : β → α → Emit β) :
    ∀ (l : List α) (b : β), (l.foldlM f b).res = l.foldlM (fun b a => (f b a).res) b := by
  intro l
  induction l with
  | nil => intro b; rfl
  | cons a rest ih =>
    intro b
    rw [List.foldlM_cons, List.foldlM_cons, emit_bind_def, Emit.bind_res]
    cases (f b a).res with
    | error e => rfl
    | ok b₁ => exact ih b₁

theorem storePass_agree (S : Sizes) (l l' : List Instr) (hp : l.Perm l') (h : Heap) :
    Agree (l.foldlM (storeInstr S) h).res (l'.foldlM (storeInstr S) h).res := by
  rw [emit_foldlM_res, emit_foldlM_res]
  apply foldlM_perm_agree _ _ l l' hp
  intro b x y
  simp only [storeInstr_act]
  exact act_swap (actOf S x) (actOf S y) b

/-- C34. The order of the stores does not matter: for every heap and every
list of instructions of the store pass, when the pass over the list returns
a heap, the pass over any permutation of the list returns the same heap, and
when the pass over the list fails, the pass over any permutation of it
fails. -/
theorem store_order_independent (S : Sizes) (h : Heap) (l l' : List Instr) (hp : l.Perm l') :
    (∀ h', (l.foldlM (storeInstr S) h).res = .ok h' →
      (l'.foldlM (storeInstr S) h).res = .ok h') ∧
    (∀ e, (l.foldlM (storeInstr S) h).res = .error e →
      ∃ e', (l'.foldlM (storeInstr S) h).res = .error e') := by
  have ha := storePass_agree S l l' hp h
  constructor
  · intro h' hl
    rw [hl] at ha
    cases hr : (l'.foldlM (storeInstr S) h).res with
    | error e => rw [hr] at ha; cases ha
    | ok h'' =>
      rw [hr] at ha
      have : h' = h'' := ha
      rw [this]
  · intro e hl
    rw [hl] at ha
    cases hr : (l'.foldlM (storeInstr S) h).res with
    | error e' => exact ⟨e', rfl⟩
    | ok h'' => rw [hr] at ha; cases ha

theorem store_order_independent_witness :
    [storeA5, storeB7].Perm [storeB7, storeA5] ∧
    ([storeA5, storeB7].foldlM (storeInstr wordSizes) heapT).res = .ok heapT57 ∧
    ([storeB7, storeA5].foldlM (storeInstr wordSizes) heapT).res = .ok heapT57 :=
  ⟨List.Perm.swap _ _ _, rfl,
    (store_order_independent wordSizes heapT [storeA5, storeB7] [storeB7, storeA5]
      (List.Perm.swap _ _ _)).1 heapT57 rfl⟩

/-! ## Leaf addresses resolve to declared slots -/

theorem slots_underlying (S : Sizes) : ∀ (T : Ty) (b : Int), slots S b T = slots S b T.Underlying
  | .named _ _ u, b => by
    rw [slots, Ty.Underlying]
    exact slots_underlying S u b
  | .array _ _, _ => rfl
  | .struct _, _ => rfl
  | .basic _, _ => rfl
  | .pointer _, _ => rfl
  | .slice _, _ => rfl
  | .other _, _ => rfl

theorem underlying_not_named : ∀ (T : Ty) (p n : String) (u : Ty), T.Underlying ≠ .named p n u
  | .named _ _ w, p, n, u => by
    rw [Ty.Underlying]
    exact underlying_not_named w p n u
  | .array _ _, _, _, _ => by simp [Ty.Underlying]
  | .struct _, _, _, _ => by simp [Ty.Underlying]
  | .basic _, _, _, _ => by simp [Ty.Underlying]
  | .pointer _, _, _, _ => by simp [Ty.Underlying]
  | .slice _, _, _, _ => by simp [Ty.Underlying]
  | .other _, _, _, _ => by simp [Ty.Underlying]

theorem slots_leaf (S : Sizes) (T : Ty) (b : Int) (h : isLeaf T = true) : slots S b T = [b] := by
  rw [slots_underlying]
  unfold isLeaf at h
  cases hu : T.Underlying with
  | named _ _ u =>
    exact absurd hu (underlying_not_named T _ _ u)
  | array _ _ => rw [hu] at h; cases h
  | struct _ => rw [hu] at h; cases h
  | basic _ => rfl
  | pointer _ => rfl
  | slice _ => rfl
  | other _ => rfl

theorem fieldSlots_mem (S : Sizes) (c k : Int) :
    ∀ (offs : List Int) (fs : Fields) (f : Nat) (o : Int) (nm : String) (tf : Ty),
      offs.get? f = some o → fs.get? f = some (nm, tf) →
      k ∈ slots S (add64 c o) tf → k ∈ fieldSlots S c offs fs
  | [], _, _, _, _, _, ho, _, _ => by simp at ho
  | _ :: _, .nil, _, _, _, _, _, hf, _ => by simp [Fields.get?] at hf
  | o' :: offs, .cons n' t' rest, 0, o, nm, tf, ho, hf, hk => by
    simp only [List.get?_cons_zero, Option.some.injEq] at ho
    simp only [Fields.get?, Option.some.injEq, Prod.mk.injEq] at hf
    obtain ⟨_, rfl⟩ := hf
    subst ho
    simp only [fieldSlots, List.mem_append]
    exact Or.inl hk
  | o' :: offs, .cons n' t' rest, f + 1, o, nm, tf, ho, hf, hk => by
    simp only [List.get?_cons_succ] at ho
    simp only [Fields.get?] at hf
    simp only [fieldSlots, List.mem_append]
    exact Or.inr (fieldSlots_mem S c k offs rest f o nm tf ho hf hk)

theorem fields_get_lt : ∀ (fs : Fields) (f : Nat) (x : String × Ty),
    fs.get? f = some x → f < fs.length
  | .nil, _, _, h => by simp [Fields.get?] at h
  | .cons _ _ rest, 0, _, _ => by simp [Fields.length]
  | .cons _ _ rest, f + 1, x, h => by
    simp only [Fields.get?] at h
    have := fields_get_lt rest f x h
    simp only [Fields.length]
    omega

theorem arraySlots_mem (S : Sizes) (c k : Int) (elem : Ty) (len n : Int)
    (h₀ : 0 ≤ n) (h₁ : n < len) (hz : S.Sizeof elem ≠ 0)
    (hk : k ∈ slots S (add64 c (mul64 n (S.Sizeof elem))) elem) :
    k ∈ slots S c (.array elem len) := by
  have hlen : ¬ (S.Sizeof elem = 0 ∨ len = 0) := by
    intro h
    rcases h with h | h
    · exact hz h
    · omega
  simp only [slots, hlen, if_false, List.mem_flatMap, List.mem_range]
  refine ⟨n.toNat, by omega, ?_⟩
  rw [Int.toNat_of_nonneg h₀]
  exact hk

theorem addrPath_slots (S : Sizes) (hS : S.OnePerField) :
    ∀ (v : Value) (a : Alloc) (U : Ty), addrPath S v = some (a, U) →
      v.type = .pointer U ∧ ∃ T l, a.typ = .pointer T ∧ chainOffsets S v = some (a, l) ∧
        ∀ b k, k ∈ slots S (wrap64 (b + l.sum)) U → k ∈ slots S (wrap64 b) T
  | .alloc a', a, U, h => by
    simp only [addrPath] at h
    split at h
    · rename_i T hT
      simp only [Option.some.injEq, Prod.mk.injEq] at h
      obtain ⟨rfl, rfl⟩ := h
      refine ⟨hT, T, [], hT, rfl, ?_⟩
      intro b k hk
      simpa using hk
    · cases h
  | .fieldAddr x field t, a, U, h => by
    simp only [addrPath] at h
    cases hx : addrPath S x with
    | none => rw [hx] at h; cases h
    | some p =>
      obtain ⟨a', Ux⟩ := p
      rw [hx] at h
      simp only at h
      obtain ⟨hty, T, lx, hT, hc, hsl⟩ := addrPath_slots S hS x a' Ux hx
      cases hu : Ux.Underlying with
      | struct fs =>
        rw [hu] at h
        simp only at h
        cases hf : fs.get? field with
        | none => rw [hf] at h; cases h
        | some ntf =>
          obtain ⟨nm, tf⟩ := ntf
          rw [hf] at h
          simp only at h
          split at h
          · rename_i ht
            simp only [Option.some.injEq, Prod.mk.injEq] at h
            obtain ⟨rfl, rfl⟩ := h
            have hlt : field < (S.Offsetsof fs.types).length := by
              rw [hS fs.types, Fields.length_types]
              exact fields_get_lt fs field _ hf
            have ho : (S.Offsetsof fs.types).get? field =
                some ((S.Offsetsof fs.types).get ⟨field, hlt⟩) := List.get?_eq_get hlt
            refine ⟨ht, T, (S.Offsetsof fs.types).get ⟨field, hlt⟩ :: lx, hT, ?_, ?_⟩
            · simp only [chainOffsets, hty, hu, ho, hc]
            · intro b k hk
              apply hsl b k
              rw [slots_underlying, hu, slots]
              apply fieldSlots_mem S _ k _ fs field _ nm tf ho hf
              have he : add64 (wrap64 (b + lx.sum)) ((S.Offsetsof fs.types).get ⟨field, hlt⟩) =
                  wrap64 (b + ((S.Offsetsof fs.types).get ⟨field, hlt⟩ :: lx).sum) := by
                rw [add64, wrap64_add_left, List.sum_cons]
                congr 1
                ring
              rw [he]
              exact hk
          · cases h
      | named _ _ _ => rw [hu] at h; cases h
      | array _ _ => rw [hu] at h; cases h
      | basic _ => rw [hu] at h; cases h
      | pointer _ => rw [hu] at h; cases h
      | slice _ => rw [hu] at h; cases h
      | other _ => rw [hu] at h; cases h
  | .indexAddr x index t, a, U, h => by
    cases index with
    | const val tc =>
      cases val with
      | none => simp [addrPath] at h
      | some c =>
        cases c with
        | bool b => simp [addrPath] at h
        | other s => simp [addrPath] at h
        | int n =>
          simp only [addrPath] at h
          cases hx : addrPath S x with
          | none => rw [hx] at h; cases h
          | some p =>
            obtain ⟨a', Ux⟩ := p
            rw [hx] at h
            simp only at h
            obtain ⟨hty, T, lx, hT, hc, hsl⟩ := addrPath_slots S hS x a' Ux hx
            cases hu : Ux.Underlying with
            | array elem len =>
              rw [hu] at h
              simp only at h
              split at h
              · rename_i hcond
                obtain ⟨ht, h₀, h₁, hn, hz⟩ := hcond
                simp only [Option.some.injEq, Prod.mk.injEq] at h
                obtain ⟨rfl, rfl⟩ := h
                refine ⟨ht, T, n * S.Sizeof elem :: lx, hT, ?_, ?_⟩
                · simp only [chainOffsets, hty, hu, hn, if_true, hc]
                · intro b k hk
                  apply hsl b k
                  rw [slots_underlying, hu]
                  apply arraySlots_mem S _ k elem len n h₀ h₁ hz
                  have he : add64 (wrap64 (b + lx.sum)) (mul64 n (S.Sizeof elem)) =
                      wrap64 (b + (n * S.Sizeof elem :: lx).sum) := by
                    rw [add64, mul64, wrap64_add_left, wrap64_add_right, List.sum_cons]
                    congr 1
                    ring
                  rw [he]
                  exact hk
              · cases h
            | named _ _ _ => rw [hu] at h; cases h
            | struct _ => rw [hu] at h; cases h
            | basic _ => rw [hu] at h; cases h
            | pointer _ => rw [hu] at h; cases h
            | slice _ => rw [hu] at h; cases h
            | other _ => rw [hu] at h; cases h
    | _ => simp [addrPath] at h
  | .function _ _, _, _, h => by simp [addrPath] at h
  | .const _ _, _, _, h => by simp [addrPath] at h
  | .call _ _ _, _, _, h => by simp [addrPath] at h
  | .extract _ _ _, _, _, h => by simp [addrPath] at h
  | .typeAssert _ _ _, _, _, h => by simp [addrPath] at h
  | .makeInterface _ _, _, _, h => by simp [addrPath] at h
  | .parameter _ _, _, _, h => by simp [addrPath] at h
  | .slice _ _, _, _, h => by simp [addrPath] at h
  | .unOp _ _ _, _, _, h => by simp [addrPath] at h
  | .makeChan _, _, _, h => by simp [addrPath] at h
  | .makeMap _, _, _, h => by simp [addrPath] at h
  | .select _, _, _, h => by simp [addrPath] at h
  | .other _ _, _, _, h => by simp [addrPath] at h

/-- C32. Layout and resolver agree: with a layout provider that returns one
offset per field, for every chain `v` of in-bounds field projections and
in-bounds constant-index projections (through arrays whose elements have a
size other than `0`) from an allocation `a` of type `*T` that ends at a
scalar leaf, `evalPtr` resolves `v` to an offset of `a` that is one of
`slots 0 T`.  So in the heap right after `heap.alloc` of `a` the offset is a
declared, empty slot and a store through `v` succeeds, and in every heap
whose cell for `a` declares the `slots 0 T` a store through `v` is not
rejected with "offset not valid". -/
theorem leaf_offset_declared (S : Sizes) (hS : S.OnePerField) (v : Value) (a : Alloc) (U : Ty)
    (hv : addrPath S v = some (a, U)) (hleaf : isLeaf U = true) :
    ∃ T off, a.typ = .pointer T ∧ evalPtr S v 0 = .ok (a, off) ∧ off ∈ slots S 0 T ∧
      (∀ h : Heap, ∃ h' cell, (h.alloc S a).res = .ok h' ∧ mapGet h'.allocs a = some cell ∧
        mapGet cell.elems off = some none ∧ ∀ val, ∃ h'', h'.store S v val = .ok h'') ∧
      (∀ (h₂ : Heap) (c₂ : Cell), mapGet h₂.allocs a = some c₂ →
        (∀ k ∈ slots S 0 T, (mapGet c₂.elems k).isSome = true) →
        ∀ val, h₂.store S v val ≠ .error .offsetNotValid) := by
  obtain ⟨_, T, l, hT, hc, hsl⟩ := addrPath_slots S hS v a U hv
  have hz : wrap64 0 = 0 := by decide
  have he := evalPtr_chain S v 0 a l hz hc
  have hmem : wrap64 (0 + l.sum) ∈ slots S 0 T := by
    have := hsl 0 (wrap64 (0 + l.sum)) (by rw [slots_leaf S U _ hleaf]; simp)
    rwa [hz] at this
  refine ⟨T, wrap64 (0 + l.sum), hT, he, hmem, ?_, ?_⟩
  · intro h
    obtain ⟨h', cell, hal, hcell, _, _, hnone⟩ := alloc_slots S hS h a T hT
    exact ⟨h', cell, hal, hcell, hnone _ hmem, fun val =>
      ⟨_, store_at S h' v val a _ cell he hcell (hnone _ hmem)⟩⟩
  · intro h₂ c₂ hc₂ hdecl val
    have hs := hdecl _ hmem
    unfold Heap.store
    rw [he]
    simp only [hc₂]
    cases hg : mapGet c₂.elems (wrap64 (0 + l.sum)) with
    | none => rw [hg] at hs; cases hs
    | some old =>
      cases old with
      | none => simp
      | some w => simp

theorem leaf_offset_declared_witness :
    addrPath wordSizes addrElem2B = some (allocArr, tInt) ∧ isLeaf tInt = true ∧
    ∃ T off, allocArr.typ = .pointer T ∧ evalPtr wordSizes addrElem2B 0 = .ok (allocArr, off) ∧
      off ∈ slots wordSizes 0 T ∧
      (∀ h : Heap, ∃ h' cell, (h.alloc wordSizes allocArr).res = .ok h' ∧
        mapGet h'.allocs allocArr = some cell ∧
        mapGet cell.elems off = some none ∧
        ∀ val, ∃ h'', h'.store wordSizes addrElem2B val = .ok h'') ∧
      (∀ (h₂ : Heap) (c₂ : Cell), mapGet h₂.allocs allocArr = some c₂ →
        (∀ k ∈ slots wordSizes 0 T, (mapGet c₂.elems k).isSome = true) →
        ∀ val, h₂.store wordSizes addrElem2B val ≠ .error .offsetNotValid) :=
  ⟨by rfl, by rfl,
    leaf_offset_declared wordSizes wordSizes_onePerField addrElem2B allocArr tInt (by rfl)
      (by rfl)⟩

/-! ## Different leaf paths resolve to different offsets -/

theorem goodLayoutAt_underlying (S : Sizes) :
    ∀ (T : Ty) (size : Int), goodLayoutAt S size T = goodLayoutAt S size T.Underlying
  | .named _ _ u, size => by
    rw [goodLayoutAt, Ty.Underlying]
    exact goodLayoutAt_underlying S u size
  | .array _ _, _ => rfl
  | .struct _, _ => rfl
  | .basic _, _ => rfl
  | .pointer _, _ => rfl
  | .slice _, _ => rfl
  | .other _, _ => rfl

mutual
theorem goodLayoutAt_nonneg (S : Sizes) :
    ∀ (T : Ty) (size : Int), goodLayoutAt S size T = true → 0 ≤ size
  | .named _ _ u, size, h => by
    rw [goodLayoutAt] at h
    exact goodLayoutAt_nonneg S u size h
  | .array elem len, size, h => by
    simp only [goodLayoutAt, Bool.and_eq_true, decide_eq_true_eq] at h
    obtain ⟨⟨h₀, h₁⟩, h₂⟩ := h
    rw [h₁]
    exact mul_nonneg h₀ (goodLayoutAt_nonneg S elem _ h₂)
  | .struct fs, size, h => by
    rw [goodLayoutAt] at h
    exact goodFields_le S fs _ 0 size h
  | .basic _, size, h => by
    simp only [goodLayoutAt, decide_eq_true_eq] at h
    omega
  | .pointer _, size, h => by
    simp only [goodLayoutAt, decide_eq_true_eq] at h
    omega
  | .slice _, size, h => by
    simp only [goodLayoutAt, decide_eq_true_eq] at h
    omega
  | .other _, size, h => by
    simp only [goodLayoutAt, decide_eq_true_eq] at h
    omega
theorem goodFields_le (S : Sizes) :
    ∀ (fs : Fields) (offs : List Int) (start size : Int),
      goodFields S start size offs fs = true → start ≤ size
  | .nil, [], start, size, h => by
    simpa only [goodFields, decide_eq_true_eq] using h
  | .nil, _ :: _, _, _, h => by simp [goodFields] at h
  | .cons _ _ _, [], _, _, h => by simp [goodFields] at h
  | .cons _ t rest, o :: offs, start, size, h => by
    simp only [goodFields, Bool.and_eq_true, decide_eq_true_eq] at h
    obtain ⟨⟨h₀, h₁⟩, h₂⟩ := h
    have := goodLayoutAt_nonneg S t _ h₁
    have := goodFields_le S rest offs _ size h₂
    omega
end

theorem goodFields_get (S : Sizes) :
    ∀ (fs : Fields) (offs : List Int) (start size : Int) (f : Nat) (nm : String) (tf : Ty),
      goodFields S start size offs fs = true → fs.get? f = some (nm, tf) →
      ∃ o, offs.get? f = some o ∧ start ≤ o ∧ o + S.Sizeof tf ≤ size ∧
        goodLayoutAt S (S.Sizeof tf) tf = true
  | .nil, _, _, _, _, _, _, _, hf => by simp [Fields.get?] at hf
  | .cons _ _ _, [], _, _, _, _, _, h, _ => by simp [goodFields] at h
  | .cons _ t rest, o :: offs, start, size, 0, nm, tf, h, hf => by
    simp only [goodFields, Bool.and_eq_true, decide_eq_true_eq] at h
    obtain ⟨⟨h₀, h₁⟩, h₂⟩ := h
    simp only [Fields.get?, Option.some.injEq, Prod.mk.injEq] at hf
    obtain ⟨_, rfl⟩ := hf
    exact ⟨o, rfl, h₀, goodFields_le S rest offs _ size h₂, h₁⟩
  | .cons _ t rest, o :: offs, start, size, f + 1, nm, tf, h, hf => by
    simp only [goodFields, Bool.and_eq_true, decide_eq_true_eq] at h
    obtain ⟨⟨h₀, h₁⟩, h₂⟩ := h
    simp only [Fields.get?] at hf
    obtain ⟨o', ho', hs', he', hg'⟩ := goodFields_get S rest offs _ size f nm tf h₂ hf
    have := goodLayoutAt_nonneg S t _ h₁
    exact ⟨o', by simpa using ho', by omega, he', hg'⟩

theorem goodFields_lt (S : Sizes) :
    ∀ (fs : Fields) (offs : List Int) (start size : Int) (f₁ f₂ : Nat) (n₁ n₂ : String)
      (t₁ t₂ : Ty) (o₁ o₂ : Int),
      goodFields S start size offs fs = true → f₁ < f₂ →
      fs.get? f₁ = some (n₁, t₁) → fs.get? f₂ = some (n₂, t₂) →
      offs.get? f₁ = some o₁ → offs.get? f₂ = some o₂ → o₁ + S.Sizeof t₁ ≤ o₂
  | .nil, _, _, _, _, _, _, _, _, _, _, _, _, _, hf, _, _, _ => by simp [Fields.get?] at hf
  | .cons _ _ _, [], _, _, _, _, _, _, _, _, _, _, h, _, _, _, _, _ => by
    simp [goodFields] at h
  | .cons _ t rest, o :: offs, start, size, _, 0, _, _, _, _, _, _, _, hlt, _, _, _, _ => by
    omega
  | .cons _ t rest, o :: offs, start, size, 0, f₂ + 1, n₁, n₂, t₁, t₂, o₁, o₂, h, _, hf₁, hf₂,
      ho₁, ho₂ => by
    simp only [goodFields, Bool.and_eq_true, decide_eq_true_eq] at h
    obtain ⟨⟨h₀, h₁⟩, h₂⟩ := h
    simp only [Fields.get?, Option.some.injEq, Prod.mk.injEq] at hf₁ hf₂
    obtain ⟨_, rfl⟩ := hf₁
    simp only [List.get?_cons_zero, Option.some.injEq, List.get?_cons_succ] at ho₁ ho₂
    subst ho₁
    obtain ⟨o', ho', hs', _, _⟩ := goodFields_get S rest offs _ size f₂ n₂ t₂ h₂ hf₂
    rw [ho₂] at ho'
    simp only [Option.some.injEq] at ho'
    subst ho'
    exact hs'
  | .cons _ t rest, o :: offs, start, size, f₁ + 1, f₂ + 1, n₁, n₂, t₁, t₂, o₁, o₂, h, hlt,
      hf₁, hf₂, ho₁, ho₂ => by
    simp only [goodFields, Bool.and_eq_true, decide_eq_true_eq] at h
    simp only [Fields.get?] at hf₁ hf₂
    simp only [List.get?_cons_succ] at ho₁ ho₂
    exact goodFields_lt S rest offs _ size f₁ f₂ n₁ n₂ t₁ t₂ o₁ o₂ h.2 (by omega) hf₁ hf₂
      ho₁ ho₂

theorem resolve_field_inv (S : Sizes) (T U : Ty) (f : Nat) (rest : List Step) (d : Int)
    (h : resolve S T (.field f :: rest) = some (d, U)) :
    ∃ fs nm tf o d', T.Underlying = .struct fs ∧ fs.get? f = some (nm, tf) ∧
      (S.Offsetsof fs.types).get? f = some o ∧ resolve S tf rest = some (d', U) ∧
      d = o + d' := by
  simp only [resolve] at h
  split at h
  · rename_i fs hu
    split at h
    · rename_i nm tf o hf ho
      split at h
      · rename_i d' U' hr
        simp only [Option.some.injEq, Prod.mk.injEq] at h
        obtain ⟨rfl, rfl⟩ := h
        exact ⟨fs, nm, tf, o, d', hu, hf, ho, hr, rfl⟩
      · cases h
    · cases h
  · cases h

theorem resolve_index_inv (S : Sizes) (T U : Ty) (n : Int) (rest : List Step) (d : Int)
    (h : resolve S T (.index n :: rest) = some (d, U)) :
    ∃ elem len d', T.Underlying = .array elem len ∧ 0 ≤ n ∧ n < len ∧
      resolve S elem rest = some (d', U) ∧ d = n * S.Sizeof elem + d' := by
  simp only [resolve] at h
  split at h
  · rename_i elem len hu
    split at h
    · rename_i hn
      split at h
      · rename_i d' U' hr
        simp only [Option.some.injEq, Prod.mk.injEq] at h
        obtain ⟨rfl, rfl⟩ := h
        exact ⟨elem, len, d', hu, hn.1, hn.2, hr, rfl⟩
      · cases h
    · cases h
  · cases h

theorem good_struct (S : Sizes) (T : Ty) (fs : Fields) (hu : T.Underlying = .struct fs)
    (hg : goodLayoutAt S (S.Sizeof T) T = true) :
    goodFields S 0 (S.Sizeof T) (S.Offsetsof fs.types) fs = true := by
  rw [goodLayoutAt_underlying, hu, goodLayoutAt] at hg
  exact hg

theorem good_array (S : Sizes) (T elem : Ty) (len : Int) (hu : T.Underlying = .array elem len)
    (hg : goodLayoutAt S (S.Sizeof T) T = true) :
    0 ≤ len ∧ S.Sizeof T = len * S.Sizeof elem ∧
      goodLayoutAt S (S.Sizeof elem) elem = true := by
  rw [goodLayoutAt_underlying, hu] at hg
  simp only [goodLayoutAt, Bool.and_eq_true, decide_eq_true_eq] at hg
  exact ⟨hg.1.1, hg.1.2, hg.2⟩

theorem good_leaf (S : Sizes) (T : Ty) (hl : isLeaf T = true)
    (hg : goodLayoutAt S (S.Sizeof T) T = true) : 0 < S.Sizeof T := by
  rw [goodLayoutAt_underlying] at hg
  unfold isLeaf at hl
  cases hu : T.Underlying with
  | named _ _ u => exact absurd hu (underlying_not_named T _ _ u)
  | array _ _ => rw [hu] at hl; cases hl
  | struct _ => rw [hu] at hl; cases hl
  | basic _ => rw [hu] at hg; simpa [goodLayoutAt] using hg
  | pointer _ => rw [hu] at hg; simpa [goodLayoutAt] using hg
  | slice _ => rw [hu] at hg; simpa [goodLayoutAt] using hg
  | other _ => rw [hu] at hg; simpa [goodLayoutAt] using hg

theorem resolve_extent (S : Sizes) :
    ∀ (p : List Step) (T : Ty) (d : Int) (U : Ty),
      goodLayoutAt S (S.Sizeof T) T = true → resolve S T p = some (d, U) →
      goodLayoutAt S (S.Sizeof U) U = true ∧ 0 ≤ d ∧ d + S.Sizeof U ≤ S.Sizeof T
  | [], T, d, U, hg, h => by
    simp only [resolve, Option.some.injEq, Prod.mk.injEq] at h
    obtain ⟨rfl, rfl⟩ := h
    exact ⟨hg, le_refl _, by omega⟩
  | .field f :: rest, T, d, U, hg, h => by
    obtain ⟨fs, nm, tf, o, d', hu, hf, ho, hr, rfl⟩ := resolve_field_inv S T U f rest d h
    obtain ⟨o', ho', h₀, h₁, hgf⟩ :=
      goodFields_get S fs _ 0 _ f nm tf (good_struct S T fs hu hg) hf
    rw [ho] at ho'
    simp only [Option.some.injEq] at ho'
    subst ho'
    obtain ⟨hgU, hd₀, hd₁⟩ := resolve_extent S rest tf d' U hgf hr
    exact ⟨hgU, by omega, by omega⟩
  | .index n :: rest, T, d, U, hg, h => by
    obtain ⟨elem, len, d', hu, hn₀, hn₁, hr, rfl⟩ := resolve_index_inv S T U n rest d h
    obtain ⟨_, hsz, hge⟩ := good_array S T elem len hu hg
    obtain ⟨hgU, hd₀, hd₁⟩ := resolve_extent S rest elem d' U hge hr
    have hnn := goodLayoutAt_nonneg S elem _ hge
    have h₁ : 0 ≤ n * S.Sizeof elem := mul_nonneg hn₀ hnn
    have h₂ : (n + 1) * S.Sizeof elem ≤ len * S.Sizeof elem :=
      mul_le_mul_of_nonneg_right (by omega) hnn
    refine ⟨hgU, by omega, ?_⟩
    rw [hsz]
    have h₃ : (n + 1) * S.Sizeof elem = n * S.Sizeof elem + S.Sizeof elem := by ring
    omega

theorem resolve_leaf (S : Sizes) (T U : Ty) (p : List Step) (d : Int) (hl : isLeaf T = true)
    (h : resolve S T p = some (d, U)) : p = [] := by
  unfold isLeaf at hl
  cases p with
  | nil => rfl
  | cons s rest =>
    cases s with
    | field f =>
      obtain ⟨fs, _, _, _, _, hu, _⟩ := resolve_field_inv S T U f rest d h
      rw [hu] at hl
      cases hl
    | index n =>
      obtain ⟨elem, len, _, hu, _⟩ := resolve_index_inv S T U n rest d h
      rw [hu] at hl
      cases hl

theorem resolve_distinct (S : Sizes) :
    ∀ (p₁ p₂ : List Step) (T : Ty) (d₁ d₂ : Int) (L₁ L₂ : Ty),
      goodLayoutAt S (S.Sizeof T) T = true →
      resolve S T p₁ = some (d₁, L₁) → resolve S T p₂ = some (d₂, L₂) →
      isLeaf L₁ = true → isLeaf L₂ = true → p₁ ≠ p₂ → d₁ ≠ d₂
  | [], p₂, T, d₁, d₂, L₁, L₂, _, h₁, h₂, hl₁, _, hne => by
    simp only [resolve, Option.some.injEq, Prod.mk.injEq] at h₁
    obtain ⟨_, rfl⟩ := h₁
    exact absurd (resolve_leaf S T L₂ p₂ d₂ hl₁ h₂).symm hne
  | s₁ :: r₁, [], T, d₁, d₂, L₁, L₂, _, h₁, h₂, _, hl₂, hne => by
    simp only [resolve, Option.some.injEq, Prod.mk.injEq] at h₂
    obtain ⟨_, rfl⟩ := h₂
    exact absurd (resolve_leaf S T L₁ (s₁ :: r₁) d₁ hl₂ h₁) hne
  | .field f₁ :: r₁, .index n₂ :: r₂, T, d₁, d₂, L₁, L₂, _, h₁, h₂, _, _, _ => by
    obtain ⟨fs, _, _, _, _, hu, _⟩ := resolve_field_inv S T L₁ f₁ r₁ d₁ h₁
    obtain ⟨elem, len, _, hu', _⟩ := resolve_index_inv S T L₂ n₂ r₂ d₂ h₂
    rw [hu] at hu'
    cases hu'
  | .index n₁ :: r₁, .field f₂ :: r₂, T, d₁, d₂, L₁, L₂, _, h₁, h₂, _, _, _ => by
    obtain ⟨elem, len, _, hu, _⟩ := resolve_index_inv S T L₁ n₁ r₁ d₁ h₁
    obtain ⟨fs, _, _, _, _, hu', _⟩ := resolve_field_inv S T L₂ f₂ r₂ d₂ h₂
    rw [hu] at hu'
    cases hu'
  | .field f₁ :: r₁, .field f₂ :: r₂, T, d₁, d₂, L₁, L₂, hg, h₁, h₂, hl₁, hl₂, hne => by
    obtain ⟨fs, nm₁, t₁, o₁, e₁, hu, hf₁, ho₁, hr₁, rfl⟩ :=
      resolve_field_inv S T L₁ f₁ r₁ d₁ h₁
    obtain ⟨fs', nm₂, t₂, o₂, e₂, hu', hf₂, ho₂, hr₂, rfl⟩ :=
      resolve_field_inv S T L₂ f₂ r₂ d₂ h₂
    rw [hu] at hu'
    simp only [Ty.struct.injEq] at hu'
    subst hu'
    have hgf := good_struct S T fs hu hg
    obtain ⟨_, ho₁', _, _, hg₁⟩ := goodFields_get S fs _ 0 _ f₁ nm₁ t₁ hgf hf₁
    obtain ⟨_, ho₂', _, _, hg₂⟩ := goodFields_get S fs _ 0 _ f₂ nm₂ t₂ hgf hf₂
    obtain ⟨hgL₁, ha₁, hb₁⟩ := resolve_extent S r₁ t₁ e₁ L₁ hg₁ hr₁
    obtain ⟨hgL₂, ha₂, hb₂⟩ := resolve_extent S r₂ t₂ e₂ L₂ hg₂ hr₂
    have hp₁ := good_leaf S L₁ hl₁ hgL₁
    have hp₂ := good_leaf S L₂ hl₂ hgL₂
    rcases Nat.lt_trichotomy f₁ f₂ with hlt | heq | hgt
    · have := goodFields_lt S fs _ 0 _ f₁ f₂ nm₁ nm₂ t₁ t₂ o₁ o₂ hgf hlt hf₁ hf₂ ho₁ ho₂
      omega
    · subst heq
      rw [hf₁] at hf₂
      simp only [Option.some.injEq, Prod.mk.injEq] at hf₂
      obtain ⟨_, rfl⟩ := hf₂
      rw [ho₁] at ho₂
      simp only [Option.some.injEq] at ho₂
      subst ho₂
      have hr : r₁ ≠ r₂ := fun hr => hne (by rw [hr])
      have := resolve_distinct S r₁ r₂ t₁ e₁ e₂ L₁ L₂ hg₁ hr₁ hr₂ hl₁ hl₂ hr
      omega
    · have := goodFields_lt S fs _ 0 _ f₂ f₁ nm₂ nm₁ t₂ t₁ o₂ o₁ hgf hgt hf₂ hf₁ ho₂ ho₁
      omega
  | .index n₁ :: r₁, .index n₂ :: r₂, T, d₁, d₂, L₁, L₂, hg, h₁, h₂, hl₁, hl₂, hne => by
    obtain ⟨elem, len, e₁, hu, hn₁, _, hr₁, rfl⟩ := resolve_index_inv S T L₁ n₁ r₁ d₁ h₁
    obtain ⟨elem', len', e₂, hu', hn₂, _, hr₂, rfl⟩ := resolve_index_inv S T L₂ n₂ r₂ d₂ h₂
    rw [hu] at hu'
    simp only [Ty.array.injEq] at hu'
    obtain ⟨rfl, rfl⟩ := hu'
    obtain ⟨_, _, hge⟩ := good_array S T elem len hu hg
    obtain ⟨hgL₁, ha₁, hb₁⟩ := resolve_extent S r₁ elem e₁ L₁ hge hr₁
    obtain ⟨hgL₂, ha₂, hb₂⟩ := resolve_extent S r₂ elem e₂ L₂ hge hr₂
    have hp₁ := good_leaf S L₁ hl₁ hgL₁
    have hp₂ := good_leaf S L₂ hl₂ hgL₂
    have hnn := goodLayoutAt_nonneg S elem _ hge
    rcases lt_trichotomy n₁ n₂ with hlt | heq | hgt
    · have h₃ : (n₁ + 1) * S.Sizeof elem ≤ n₂ * S.Sizeof elem :=
        mul_le_mul_of_nonneg_right (by omega) hnn
      have h₄ : (n₁ + 1) * S.Sizeof elem = n₁ * S.Sizeof elem + S.Sizeof elem := by ring
      omega
    · subst heq
      have hr : r₁ ≠ r₂ := fun hr => hne (by rw [hr])
      have := resolve_distinct S r₁ r₂ elem e₁ e₂ L₁ L₂ hge hr₁ hr₂ hl₁ hl₂ hr
      omega
    · have h₃ : (n₂ + 1) * S.Sizeof elem ≤ n₁ * S.Sizeof elem :=
        mul_le_mul_of_nonneg_right (by omega) hnn
      have h₄ : (n₂ + 1) * S.Sizeof elem = n₂ * S.Sizeof elem + S.Sizeof elem := by ring
      omega

theorem resolve_append_field (S : Sizes) (f : Nat) (fs : Fields) (nm : String) (tf : Ty)
    (o : Int) (U : Ty) (hu : U.Underlying = .struct fs) (hf : fs.get? f = some (nm, tf))
    (ho : (S.Offsetsof fs.types).get? f = some o) :
    ∀ (p : List Step) (T : Ty) (d : Int), resolve S T p = some (d, U) →
      resolve S T (p ++ [.field f]) = some (d + o, tf)
  | [], T, d, h => by
    simp only [resolve, Option.some.injEq, Prod.mk.injEq] at h
    obtain ⟨rfl, rfl⟩ := h
    simp only [resolve, List.nil_append, hu, hf, ho, zero_add, add_zero]
  | .field g :: rest, T, d, h => by
    obtain ⟨fs', nm', t', o', d', hu', hf', ho', hr', rfl⟩ :=
      resolve_field_inv S T U g rest d h
    have := resolve_append_field S f fs nm tf o U hu hf ho rest t' d' hr'
    show resolve S T (.field g :: (rest ++ [.field f])) = _
    simp only [resolve, hu', hf', ho', this, add_assoc]
  | .index n :: rest, T, d, h => by
    obtain ⟨elem, len, d', hu', hn₀, hn₁, hr', rfl⟩ := resolve_index_inv S T U n rest d h
    have := resolve_append_field S f fs nm tf o U hu hf ho rest elem d' hr'
    show resolve S T (.index n :: (rest ++ [.field f])) = _
    simp only [resolve, hu', hn₀, hn₁, and_self, if_true, this, add_assoc]

theorem resolve_append_index (S : Sizes) (n : Int) (elem : Ty) (len : Int) (U : Ty)
    (hu : U.Underlying = .array elem len) (h₀ : 0 ≤ n) (h₁ : n < len) :
    ∀ (p : List Step) (T : Ty) (d : Int), resolve S T p = some (d, U) →
      resolve S T (p ++ [.index n]) = some (d + n * S.Sizeof elem, elem)
  | [], T, d, h => by
    simp only [resolve, Option.some.injEq, Prod.mk.injEq] at h
    obtain ⟨rfl, rfl⟩ := h
    simp only [resolve, List.nil_append, hu, h₀, h₁, and_self, if_true, zero_add, add_zero]
  | .field g :: rest, T, d, h => by
    obtain ⟨fs', nm', t', o', d', hu', hf', ho', hr', rfl⟩ :=
      resolve_field_inv S T U g rest d h
    have := resolve_append_index S n elem len U hu h₀ h₁ rest t' d' hr'
    show resolve S T (.field g :: (rest ++ [.index n])) = _
    simp only [resolve, hu', hf', ho', this, add_assoc]
  | .index m :: rest, T, d, h => by
    obtain ⟨elem', len', d', hu', hn₀, hn₁, hr', rfl⟩ := resolve_index_inv S T U m rest d h
    have := resolve_append_index S n elem len U hu h₀ h₁ rest elem' d' hr'
    show resolve S T (.index m :: (rest ++ [.index n])) = _
    simp only [resolve, hu', hn₀, hn₁, and_self, if_true, this, add_assoc]

theorem addrPath_resolve (S : Sizes) (hS : S.OnePerField) :
    ∀ (v : Value) (a : Alloc) (U T : Ty) (l : List Int), addrPath S v = some (a, U) →
      a.typ = .pointer T → chainOffsets S v = some (a, l) →
      resolve S T (pathSteps v) = some (l.sum, U)
  | .alloc a', a, U, T, l, h, hT, hc => by
    simp only [chainOffsets, Option.some.injEq, Prod.mk.injEq] at hc
    obtain ⟨rfl, rfl⟩ := hc
    simp only [addrPath, hT, Option.some.injEq, Prod.mk.injEq, true_and] at h
    subst h
    rfl
  | .fieldAddr x field t, a, U, T, l, h, hT, hc => by
    simp only [addrPath] at h
    cases hx : addrPath S x with
    | none => rw [hx] at h; cases h
    | some p =>
      obtain ⟨a', Ux⟩ := p
      rw [hx] at h
      simp only at h
      obtain ⟨hty, T', lx, hT', hcx, _⟩ := addrPath_slots S hS x a' Ux hx
      split at h
      · rename_i fs hu
        split at h
        · rename_i nm tf hf
          split at h
          · simp only [Option.some.injEq, Prod.mk.injEq] at h
            obtain ⟨rfl, rfl⟩ := h
            rw [hT] at hT'
            simp only [Ty.pointer.injEq] at hT'
            subst hT'
            simp only [chainOffsets, hty, hu, hcx] at hc
            split at hc
            · rename_i o a'' l'' ho heq
              simp only [Option.some.injEq, Prod.mk.injEq] at heq hc
              obtain ⟨_, rfl⟩ := heq
              obtain ⟨_, rfl⟩ := hc
              have ih := addrPath_resolve S hS x a' Ux T lx hx hT hcx
              have := resolve_append_field S field fs nm tf o Ux hu hf ho (pathSteps x) T
                lx.sum ih
              rw [pathSteps, this, List.sum_cons, add_comm]
            · cases hc
          · cases h
        · cases h
      · cases h
  | .indexAddr x index t, a, U, T, l, h, hT, hc => by
    cases index with
    | const val tc =>
      cases val with
      | none => simp [addrPath] at h
      | some c =>
        cases c with
        | bool b => simp [addrPath] at h
        | other s => simp [addrPath] at h
        | int n =>
          simp only [addrPath] at h
          cases hx : addrPath S x with
          | none => rw [hx] at h; cases h
          | some p =>
            obtain ⟨a', Ux⟩ := p
            rw [hx] at h
            simp only at h
            obtain ⟨hty, T', lx, hT', hcx, _⟩ := addrPath_slots S hS x a' Ux hx
            split at h
            · rename_i elem len hu
              split at h
              · rename_i hcond
                obtain ⟨_, h₀, h₁, hn, _⟩ := hcond
                simp only [Option.some.injEq, Prod.mk.injEq] at h
                obtain ⟨rfl, rfl⟩ := h
                rw [hT] at hT'
                simp only [Ty.pointer.injEq] at hT'
                subst hT'
                simp only [chainOffsets, hty, hu, hn, if_true, hcx, Option.some.injEq,
                  Prod.mk.injEq, true_and] at hc
                subst hc
                have ih := addrPath_resolve S hS x a' Ux T lx hx hT hcx
                have := resolve_append_index S n elem len Ux hu h₀ h₁ (pathSteps x) T lx.sum ih
                rw [pathSteps, this, List.sum_cons, add_comm]
              · cases h
            · cases h
    | _ => simp [addrPath] at h
  | .function _ _, _, _, _, _, h, _, _ => by simp [addrPath] at h
  | .const _ _, _, _, _, _, h, _, _ => by simp [addrPath] at h
  | .call _ _ _, _, _, _, _, h, _, _ => by simp [addrPath] at h
  | .extract _ _ _, _, _, _, _, h, _, _ => by simp [addrPath] at h
  | .typeAssert _ _ _, _, _, _, _, h, _, _ => by simp [addrPath] at h
  | .makeInterface _ _, _, _, _, _, h, _, _ => by simp [addrPath] at h
  | .parameter _ _, _, _, _, _, h, _, _ => by simp [addrPath] at h
  | .slice _ _, _, _, _, _, h, _, _ => by simp [addrPath] at h
  | .unOp _ _ _, _, _, _, _, h, _, _ => by simp [addrPath] at h
  | .makeChan _, _, _, _, _, h, _, _ => by simp [addrPath] at h
  | .makeMap _, _, _, _, _, h, _, _ => by simp [addrPath] at h
  | .select _, _, _, _, _, h, _, _ => by simp [addrPath] at h
  | .other _ _, _, _, _, _, h, _, _ => by simp [addrPath] at h

theorem store_other_slot (S : Sizes) (h h' : Heap) (v₁ v₂ val₁ val₂ : Value) (a : Alloc)
    (o₁ o₂ : Int) (he₁ : evalPtr S v₁ 0 = .ok (a, o₁)) (he₂ : evalPtr S v₂ 0 = .ok (a, o₂))
    (hne : o₁ ≠ o₂) (hst : h.store S v₁ val₁ = .ok h') (e : Err)
    (hf : h'.store S v₂ val₂ = .error e) : h.store S v₂ val₂ = .error e := by
  have hne' : ¬ o₂ = o₁ := fun h => hne h.symm
  unfold Heap.store at hst hf ⊢
  rw [he₁] at hst
  rw [he₂] at hf ⊢
  simp only at hst hf ⊢
  cases hc : mapGet h.allocs a with
  | none => rw [hc] at hst; cases hst
  | some cell =>
    rw [hc] at hst
    simp only at hst ⊢
    cases hs : mapGet cell.elems o₁ with
    | none => rw [hs] at hst; cases hst
    | some old =>
      rw [hs] at hst
      cases old with
      | some _ => cases hst
      | none =>
        simp only [Except.ok.injEq] at hst
        subst hst
        simp only [mapGet_mapSet_self, mapGet_mapSet_other _ _ _ _ hne'] at hf
        cases hs₂ : mapGet cell.elems o₂ with
        | none => rw [hs₂] at hf; exact hf
        | some old₂ =>
          rw [hs₂] at hf
          cases old₂ with
          | none => cases hf
          | some w => exact hf

/-- C33. No false double-writes: with a layout provider that returns one
offset per field and a layout of `T` that does not overlap (`goodLayout`),
`T` having a size in the range of an `int64`, two chains of in-bounds
projections from the same allocation of type `*T` that end at scalar leaves
and differ in their projections resolve through `evalPtr` to different
offsets of the allocation; so when the store through the first succeeds, every
failure of a following store through the second is the failure that the store
would have had without the first one (it is no write-once violation caused
by the first). -/
theorem leaf_offsets_distinct (S : Sizes) (hS : S.OnePerField) (a : Alloc) (T : Ty)
    (ha : a.typ = .pointer T) (hgood : goodLayout S T = true) (hsize : InInt64 (S.Sizeof T))
    (v₁ v₂ : Value) (L₁ L₂ : Ty) (h₁ : addrPath S v₁ = some (a, L₁))
    (h₂ : addrPath S v₂ = some (a, L₂)) (hl₁ : isLeaf L₁ = true) (hl₂ : isLeaf L₂ = true)
    (hne : pathSteps v₁ ≠ pathSteps v₂) :
    ∃ o₁ o₂, evalPtr S v₁ 0 = .ok (a, o₁) ∧ evalPtr S v₂ 0 = .ok (a, o₂) ∧ o₁ ≠ o₂ ∧
      ∀ (h h' : Heap) (val₁ val₂ : Value), h.store S v₁ val₁ = .ok h' →
        ∀ e, h'.store S v₂ val₂ = .error e → h.store S v₂ val₂ = .error e := by
  obtain ⟨_, T₁, l₁, hT₁, hc₁, _⟩ := addrPath_slots S hS v₁ a L₁ h₁
  obtain ⟨_, T₂, l₂, hT₂, hc₂, _⟩ := addrPath_slots S hS v₂ a L₂ h₂
  have hr₁ := addrPath_resolve S hS v₁ a L₁ T l₁ h₁ ha hc₁
  have hr₂ := addrPath_resolve S hS v₂ a L₂ T l₂ h₂ ha hc₂
  obtain ⟨hg₁, ha₁, hb₁⟩ := resolve_extent S _ T _ L₁ hgood hr₁
  obtain ⟨hg₂, ha₂, hb₂⟩ := resolve_extent S _ T _ L₂ hgood hr₂
  have hp₁ := good_leaf S L₁ hl₁ hg₁
  have hp₂ := good_leaf S L₂ hl₂ hg₂
  have hd := resolve_distinct S _ _ T _ _ L₁ L₂ hgood hr₁ hr₂ hl₁ hl₂ hne
  have hz : wrap64 0 = 0 := by decide
  have hi₁ : InInt64 l₁.sum := by
    unfold InInt64 at hsize ⊢
    omega
  have hi₂ : InInt64 l₂.sum := by
    unfold InInt64 at hsize ⊢
    omega
  have he₁ : evalPtr S v₁ 0 = .ok (a, l₁.sum) := by
    rw [evalPtr_chain S v₁ 0 a l₁ hz hc₁, Int.zero_add, wrap64_of_inInt64 _ hi₁]
  have he₂ : evalPtr S v₂ 0 = .ok (a, l₂.sum) := by
    rw [evalPtr_chain S v₂ 0 a l₂ hz hc₂, Int.zero_add, wrap64_of_inInt64 _ hi₂]
  exact ⟨l₁.sum, l₂.sum, he₁, he₂, hd, fun h h' val₁ val₂ hst e hf =>
    store_other_slot S h h' v₁ v₂ val₁ val₂ a _ _ he₁ he₂ hd hst e hf⟩

theorem leaf_offsets_distinct_witness :
    goodLayout wordSizes tArr = true ∧ pathSteps addrElem1B ≠ pathSteps addrElem2B ∧
    ∃ o₁ o₂, evalPtr wordSizes addrElem1B 0 = .ok (allocArr, o₁) ∧
      evalPtr wordSizes addrElem2B 0 = .ok (allocArr, o₂) ∧ o₁ ≠ o₂ ∧
      ∀ (h h' : Heap) (val₁ val₂ : Value), h.store wordSizes addrElem1B val₁ = .ok h' →
        ∀ e, h'.store wordSizes addrElem2B val₂ = .error e →
          h.store wordSizes addrElem2B val₂ = .error e :=
  ⟨by rfl, by decide,
    leaf_offsets_distinct wordSizes wordSizes_onePerField allocArr tArr rfl (by rfl)
      (by decide) addrElem1B addrElem2B tInt tInt (by rfl) (by rfl) (by rfl) (by rfl)
      (by decide)⟩

/-! ## Termination without loops in the blocks and in the heap -/

theorem acc_of_acyclic {α : Type} (r : α → α → Prop) (l : List α)
    (hsrc : ∀ x y, r x y → x ∈ l) (root : α)
    (hacyc : ∀ x, Relation.ReflTransGen r root x → ¬ Relation.TransGen r x x) :
    ∀ x, Relation.ReflTransGen r root x → Acc (fun y x => r x y) x := by
  have key : ∀ (n : Nat) (V : List α) (x : α), V.Nodup → (∀ v ∈ V, v ∈ l) →
      (∀ v ∈ V, Relation.TransGen r v x) → Relation.ReflTransGen r root x →
      l.length ≤ V.length + n → Acc (fun y x => r x y) x := by
    intro n
    induction n with
    | zero =>
      intro V x hnd hsub hV hroot hlen
      refine Acc.intro x (fun y hxy => ?_)
      exfalso
      have hxl := hsrc x y hxy
      have hxV : x ∉ V := fun hx => hacyc x hroot (hV x hx)
      have hnd' : (x :: V).Nodup := List.nodup_cons.mpr ⟨hxV, hnd⟩
      have hsub' : x :: V ⊆ l := by
        intro z hz
        rcases List.mem_cons.mp hz with rfl | hz
        · exact hxl
        · exact hsub z hz
      have := (List.subperm_of_subset hnd' hsub').length_le
      simp only [List.length_cons] at this
      omega
    | succ n ih =>
      intro V x hnd hsub hV hroot hlen
      refine Acc.intro x (fun y hxy => ?_)
      have hxl := hsrc x y hxy
      have hxV : x ∉ V := fun hx => hacyc x hroot (hV x hx)
      refine ih (x :: V) y (List.nodup_cons.mpr ⟨hxV, hnd⟩) ?_ ?_ (hroot.tail hxy) ?_
      · intro z hz
        rcases List.mem_cons.mp hz with rfl | hz
        · exact hxl
        · exact hsub z hz
      · intro z hz
        rcases List.mem_cons.mp hz with rfl | hz
        · exact Relation.TransGen.single hxy
        · exact (hV z hz).tail hxy
      · simp only [List.length_cons]
        omega
  intro x hx
  exact key l.length [] x List.nodup_nil (fun _ h => by cases h) (fun _ h => by cases h) hx
    (by simp)

theorem ends_bind {α β : Type} {m : Emit α} {f : α → Emit β} (hm : m.ends)
    (hf : ∀ a, (f a).ends) : (Emit.bind m f).ends := by
  intro he
  rcases Emit.bind_error_inv he with h | ⟨a, _, h⟩
  · exact hm h
  · exact hf a h

theorem ends_print (s : String) : (print s).ends := by
  intro h
  cases h

theorem ends_pure {α : Type} (a : α) : (Emit.pure a).ends := by
  intro h
  cases h

theorem ends_of_stable {α : Type} {m m' : Emit α} (hs : Emit.stable m m') (hm : m.ends) :
    m'.ends := by
  have := hs hm
  rw [this]
  exact hm

theorem printNilable_ends {pe : Value → Emit Unit} (o : Option Value)
    (hpe : ∀ w ∈ o.toList, (pe w).ends) : (printNilable pe o).ends := by
  cases o with
  | none => exact ends_print _
  | some w => exact hpe w (by simp)

theorem printArgs_ends {pe : Value → Emit Unit} :
    ∀ (args : Args) (i : Nat), (∀ w ∈ args.toList, (pe w).ends) → (printArgs pe i args).ends
  | .nil, _, _ => ends_pure _
  | .cons arg rest, i, hpe => by
    have harg : (pe arg).ends := hpe arg (by simp [Args.toList])
    have hrest : ∀ w ∈ rest.toList, (pe w).ends :=
      fun w hw => hpe w (by simp [Args.toList, hw])
    simp only [printArgs, emit_bind_def]
    split
    · exact ends_bind (ends_print _) (fun _ =>
        ends_bind harg (fun _ => printArgs_ends rest (i + 1) hrest))
    · exact ends_bind (ends_pure _) (fun _ =>
        ends_bind harg (fun _ => printArgs_ends rest (i + 1) hrest))

theorem printSliceElems_ends {pe : Option Value → Emit Unit}
    (elems : List (Int × Option Value)) :
    ∀ (l : List Int) (i : Nat), (∀ o ∈ l, (pe (mapGet elems o).join).ends) →
      (printSliceElems pe elems i l).ends := by
  intro l
  induction l with
  | nil => intro i _; exact ends_pure _
  | cons offset rest ih =>
    intro i hpe
    have h₀ := hpe offset (List.mem_cons_self _ _)
    have hr := ih (i + 1) (fun o ho => hpe o (List.mem_cons_of_mem _ ho))
    simp only [printSliceElems, emit_bind_def]
    split
    · exact ends_bind (ends_print _) (fun _ => ends_bind h₀ (fun _ => hr))
    · exact ends_bind (ends_pure _) (fun _ => ends_bind h₀ (fun _ => hr))

theorem printCellElems_ends {pe : Option Value → Emit Unit}
    (elems : List (Int × Option Value)) :
    ∀ (l : List Int) (i : Nat), (∀ o ∈ l, (pe (mapGet elems o).join).ends) →
      (printCellElems pe elems i l).ends := by
  intro l
  induction l with
  | nil => intro i _; exact ends_pure _
  | cons offset rest ih =>
    intro i hpe
    have h₀ := hpe offset (List.mem_cons_self _ _)
    have hr := ih (i + 1) (fun o ho => hpe o (List.mem_cons_of_mem _ ho))
    simp only [printCellElems, emit_bind_def]
    split
    · exact ends_bind (ends_print _) (fun _ => ends_bind (ends_print _) (fun _ =>
        ends_bind h₀ (fun _ => hr)))
    · exact ends_bind (ends_pure _) (fun _ => ends_bind (ends_print _) (fun _ =>
        ends_bind h₀ (fun _ => hr)))

theorem cell_ends {pe : Value → Emit Unit} (c : Cell)
    (hpe : ∀ w ∈ cellValues c, (pe w).ends) :
    ∀ o ∈ keys c.elems, (printNilable pe (mapGet c.elems o).join).ends := by
  intro o ho
  apply printNilable_ends
  intro w hw
  apply hpe w
  simp only [cellValues, List.mem_filterMap]
  refine ⟨o, ho, ?_⟩
  simpa [Option.mem_toList] using hw

theorem ends_fail {α : Type} (e : Err) (he : e ≠ .outOfFuel) : (fail e : Emit α).ends := by
  intro h
  simp only [fail, Except.error.injEq] at h
  exact he h

theorem load_error (S : Sizes) (h : Heap) (x : Value) (e : Err)
    (he : h.load S x = .error e) : e ≠ .outOfFuel := by
  unfold Heap.load at he
  cases hr : evalPtr S x 0 with
  | error e' =>
    rw [hr] at he
    simp only [Except.error.injEq] at he
    subst he
    exact evalPtr_error S x 0 e' hr
  | ok p =>
    obtain ⟨a, o⟩ := p
    rw [hr] at he
    simp only at he
    cases hc : mapGet h.allocs a with
    | none =>
      rw [hc] at he
      simp only [Except.error.injEq] at he
      subst he
      intro h'
      cases h'
    | some c =>
      rw [hc] at he
      simp only at he
      cases hs : mapGet c.elems o with
      | none => rw [hs] at he; cases he
      | some old => rw [hs] at he; cases he

theorem children_extract_other (S : Sizes) (h : Heap) (tuple : Value) (index : Nat) (t : Ty)
    (hother : index ≠ 1 ∨ ∀ x T tt, tuple ≠ .typeAssert x T tt) :
    children S h (.extract tuple index t) = [tuple] := by
  simp only [children]
  split
  · rename_i x T tt hidx
    rcases hother with hi | ht
    · simp [hi] at hidx
    · exact absurd rfl (ht x T tt)
  · rfl

theorem children_deref_load (S : Sizes) (h : Heap) (x : Value) (t : Ty)
    (hx : ∀ al, x ≠ .alloc al) :
    children S h (.unOp .MUL x t) = loadChildren S h x := by
  cases x with
  | alloc al => exact absurd rfl (hx al)
  | _ => simp [children]

/-- One step of `printExpr` does not lack steps when the calls it makes
do not. -/
theorem printExpr_ends_step (S : Sizes) (pkg : String) (h : Heap) (n : Nat) (v : Value)
    (hch : ∀ w ∈ children S h v, (printExpr S pkg h n w).ends) :
    (printExpr S pkg h (n + 1) v).ends := by
  cases v with
  | function name t => exact ends_print _
  | const val t => exact ends_print _
  | call fn args t =>
    simp only [printExpr, emit_bind_def]
    exact ends_bind (hch fn (by simp [children])) (fun _ => ends_bind (ends_print _) (fun _ =>
      ends_bind (printArgs_ends args 0 (fun w hw => hch w (by simp [children, hw])))
        (fun _ => ends_print _)))
  | extract tuple index t =>
    by_cases hsp : ∃ x T tt, index = 1 ∧ tuple = .typeAssert x T tt
    · obtain ⟨x, T, tt, rfl, rfl⟩ := hsp
      rw [printExpr_probe]
      have hx : (printExpr S pkg h n x).ends := hch x (by simp [children])
      exact ends_bind (ends_print _) (fun _ => ends_bind hx (fun _ => ends_print _))
    · have hother : index ≠ 1 ∨ ∀ x T tt, tuple ≠ .typeAssert x T tt := by
        by_cases hi : index = 1
        · exact Or.inr (fun x T tt ht => hsp ⟨x, T, tt, hi, ht⟩)
        · exact Or.inl hi
      rw [printExpr_extract_other S pkg h n tuple index t hother]
      rw [children_extract_other S h tuple index t hother] at hch
      exact ends_bind (hch tuple (by simp)) (fun _ => ends_print _)
  | makeInterface x t =>
    simp only [printExpr]
    exact hch x (by simp [children])
  | parameter name t => exact ends_print _
  | slice x t =>
    simp only [printExpr, emit_bind_def]
    split
    · rename_i a
      split
      · rename_i c hc
        have hcv : ∀ w ∈ cellValues c, (printExpr S pkg h n w).ends :=
          fun w hw => hch w (by simp only [children, hc]; exact hw)
        exact ends_bind (ends_print _) (fun _ =>
          ends_bind (printSliceElems_ends c.elems _ 0 (cell_ends c hcv)) (fun _ =>
            ends_print _))
      · exact ends_pure _
    · exact ends_pure _
  | fieldAddr x field t =>
    simp only [printExpr, emit_bind_def]
    refine ends_bind (hch x (by simp [children])) (fun _ => ?_)
    split
    · split
      · split
        · exact ends_print _
        · exact ends_fail _ (by intro h'; cases h')
      · exact ends_fail _ (by intro h'; cases h')
    · exact ends_fail _ (by intro h'; cases h')
  | unOp op x t =>
    have hgen : (∀ w ∈ [x], (printExpr S pkg h n w).ends) →
        (Emit.bind (print (op.text ++ " ")) (fun _ => printExpr S pkg h n x)).ends :=
      fun hx => ends_bind (ends_print _) (fun _ => hx x (by simp))
    have hload : (∀ w ∈ loadChildren S h x, (printExpr S pkg h n w).ends) →
        (match h.load S x with
          | .error e => fail e
          | .ok (w, true) => printNilable (printExpr S pkg h n) w
          | .ok (_, false) =>
            Emit.bind (print (op.text ++ " ")) (fun _ => printExpr S pkg h n x)).ends := by
      intro hl
      unfold loadChildren at hl
      split
      · rename_i e he
        exact ends_fail _ (load_error S h x e he)
      · rename_i w hw
        rw [hw] at hl
        exact printNilable_ends w hl
      · rename_i w hw
        rw [hw] at hl
        exact hgen hl
    cases op with
    | MUL =>
      by_cases hal : ∃ a, x = .alloc a
      · obtain ⟨a, rfl⟩ := hal
        simp only [printExpr, emit_bind_def]
        split
        · rename_i c hc
          have hcv : ∀ w ∈ cellValues c, (printExpr S pkg h n w).ends :=
            fun w hw => hch w (by simp only [children, hc]; exact hw)
          exact ends_bind (ends_print _) (fun _ =>
            ends_bind (printCellElems_ends c.elems _ 0 (cell_ends c hcv)) (fun _ =>
              ends_print _))
        · rename_i hc
          exact ends_bind (ends_print _) (fun _ =>
            hload (fun w hw => hch w (by simp only [children, hc]; exact hw)))
      · have hx : ∀ al, x ≠ .alloc al := fun al hxa => hal ⟨al, hxa⟩
        rw [printExpr_deref_load S pkg h n x t hx]
        rw [children_deref_load S h x t hx] at hch
        exact hload hch
    | ARROW =>
      simp only [printExpr, emit_bind_def]
      exact hgen (fun w hw => hch w (by simpa [children] using hw))
    | SUB =>
      simp only [printExpr, emit_bind_def]
      exact hgen (fun w hw => hch w (by simpa [children] using hw))
    | NOT =>
      simp only [printExpr, emit_bind_def]
      exact hgen (fun w hw => hch w (by simpa [children] using hw))
    | XOR =>
      simp only [printExpr, emit_bind_def]
      exact hgen (fun w hw => hch w (by simpa [children] using hw))
  | typeAssert x a t => exact ends_print _
  | alloc a => exact ends_print _
  | indexAddr x i t => exact ends_print _
  | makeChan t => exact ends_print _
  | makeMap t => exact ends_print _
  | select t => exact ends_print _
  | other k t => exact ends_print _

theorem ends_uniform (S : Sizes) (pkg : String) (h : Heap) :
    ∀ l : List Value, (∀ w ∈ l, ∃ k, (printExpr S pkg h k w).ends) →
      ∃ K, ∀ w ∈ l, (printExpr S pkg h K w).ends := by
  intro l
  induction l with
  | nil => intro _; exact ⟨0, fun _ hw => by cases hw⟩
  | cons w₀ rest ih =>
    intro hl
    obtain ⟨k₀, hk₀⟩ := hl w₀ (List.mem_cons_self _ _)
    obtain ⟨K, hK⟩ := ih (fun w hw => hl w (List.mem_cons_of_mem _ hw))
    refine ⟨max k₀ K, fun w hw => ?_⟩
    rcases List.mem_cons.mp hw with rfl | hw
    · exact ends_of_stable (printExpr_stable S pkg h w (le_max_left k₀ K)) hk₀
    · exact ends_of_stable (printExpr_stable S pkg h w (le_max_right k₀ K)) (hK w hw)

theorem printExpr_ends_of_acc (S : Sizes) (pkg : String) (h : Heap) (v : Value)
    (hacc : Acc (fun w v => Follows S h v w) v) : ∃ k, (printExpr S pkg h k v).ends := by
  induction hacc with
  | intro x _ ih =>
    obtain ⟨K, hK⟩ := ends_uniform S pkg h (children S h x) (fun w hw => ih w hw)
    exact ⟨K + 1, printExpr_ends_step S pkg h K x hK⟩

theorem mapGet_mem_of {κ β : Type} [DecidableEq κ] (m : List (κ × β)) (k : κ) (v : β)
    (h : mapGet m k = some v) : (k, v) ∈ m := by
  induction m with
  | nil => cases h
  | cons p rest ih =>
    obtain ⟨k', v'⟩ := p
    by_cases hk : k' = k
    · subst hk
      simp only [mapGet, if_true, Option.some.injEq] at h
      subst h
      exact List.mem_cons_self _ _
    · simp only [mapGet, hk, if_false] at h
      exact List.mem_cons_of_mem _ (ih h)

theorem stored_mem_values (h : Heap) (a : Alloc) (o : Int) (w : Value)
    (hs : stored h a o = some w) : w ∈ h.values := by
  unfold stored at hs
  cases hc : mapGet h.allocs a with
  | none => rw [hc] at hs; cases hs
  | some c =>
    rw [hc] at hs
    simp only at hs
    cases he : mapGet c.elems o with
    | none => rw [he] at hs; cases hs
    | some old =>
      rw [he] at hs
      simp only [Option.join] at hs
      subst hs
      simp only [Heap.values, List.mem_flatMap, List.mem_filterMap]
      exact ⟨(a, c), mapGet_mem_of _ _ _ hc, (o, some w), mapGet_mem_of _ _ _ he, rfl⟩

theorem args_toList_size : ∀ (args : Args) (w : Value), w ∈ args.toList →
    sizeOf w < sizeOf args
  | .nil, _, h => by simp [Args.toList] at h
  | .cons v rest, w, h => by
    simp only [Args.toList, List.mem_cons] at h
    rcases h with rfl | h
    · simp only [Args.cons.sizeOf_spec]
      omega
    · have := args_toList_size rest w h
      simp only [Args.cons.sizeOf_spec]
      omega

theorem cellValues_stored (h : Heap) (a : Alloc) (c : Cell) (hc : mapGet h.allocs a = some c)
    (w : Value) (hw : w ∈ cellValues c) : ∃ o, stored h a o = some w := by
  simp only [cellValues, List.mem_filterMap] at hw
  obtain ⟨o, _, ho⟩ := hw
  exact ⟨o, by simp only [stored, hc, ho]⟩

theorem loadChildren_cases (S : Sizes) (h : Heap) (x w : Value)
    (hw : w ∈ loadChildren S h x) : w = x ∨ ∃ a o, stored h a o = some w := by
  unfold loadChildren at hw
  split at hw
  · cases hw
  · rename_i w' hl
    right
    unfold Heap.load at hl
    cases hr : evalPtr S x 0 with
    | error e => rw [hr] at hl; cases hl
    | ok p =>
      obtain ⟨a, o⟩ := p
      rw [hr] at hl
      simp only at hl
      cases hc : mapGet h.allocs a with
      | none => rw [hc] at hl; cases hl
      | some c =>
        rw [hc] at hl
        simp only at hl
        cases he : mapGet c.elems o with
        | none => rw [he] at hl; cases hl
        | some old =>
          rw [he] at hl
          simp only [Except.ok.injEq, Prod.mk.injEq] at hl
          obtain ⟨rfl, _⟩ := hl
          refine ⟨a, o, ?_⟩
          simp only [stored, hc, he, Option.join]
          simpa [Option.mem_toList] using hw
  · left
    simpa using hw

theorem children_cases (S : Sizes) (h : Heap) (v w : Value) (hw : w ∈ children S h v) :
    sizeOf w < sizeOf v ∨ ∃ a o, stored h a o = some w := by
  cases v with
  | call fn args t =>
    left
    simp only [children, List.mem_cons] at hw
    rcases hw with rfl | hw
    · simp only [Value.call.sizeOf_spec]
      omega
    · have := args_toList_size args w hw
      simp only [Value.call.sizeOf_spec]
      omega
  | extract tuple index t =>
    left
    by_cases hsp : ∃ x T tt, index = 1 ∧ tuple = .typeAssert x T tt
    · obtain ⟨x, T, tt, rfl, rfl⟩ := hsp
      simp only [children, decide_True, List.mem_singleton] at hw
      subst hw
      simp only [Value.extract.sizeOf_spec, Value.typeAssert.sizeOf_spec]
      omega
    · have hother : index ≠ 1 ∨ ∀ x T tt, tuple ≠ .typeAssert x T tt := by
        by_cases hi : index = 1
        · exact Or.inr (fun x T tt ht => hsp ⟨x, T, tt, hi, ht⟩)
        · exact Or.inl hi
      rw [children_extract_other S h tuple index t hother, List.mem_singleton] at hw
      subst hw
      simp only [Value.extract.sizeOf_spec]
      omega
  | makeInterface x t =>
    left
    simp only [children, List.mem_singleton] at hw
    subst hw
    simp only [Value.makeInterface.sizeOf_spec]
    omega
  | fieldAddr x field t =>
    left
    simp only [children, List.mem_singleton] at hw
    subst hw
    simp only [Value.fieldAddr.sizeOf_spec]
    omega
  | slice x t =>
    cases x with
    | alloc a =>
      simp only [children] at hw
      cases hc : mapGet h.allocs a with
      | none => rw [hc] at hw; cases hw
      | some c =>
        rw [hc] at hw
        obtain ⟨o, ho⟩ := cellValues_stored h a c hc w hw
        exact Or.inr ⟨a, o, ho⟩
    | _ => simp [children] at hw
  | unOp op x t =>
    have hx : w = x → sizeOf w < sizeOf (Value.unOp op x t) := by
      intro hwx
      subst hwx
      simp only [Value.unOp.sizeOf_spec]
      omega
    cases op with
    | MUL =>
      by_cases hal : ∃ a, x = .alloc a
      · obtain ⟨a, rfl⟩ := hal
        simp only [children] at hw
        cases hc : mapGet h.allocs a with
        | none =>
          rw [hc] at hw
          rcases loadChildren_cases S h _ w hw with h₁ | h₁
          · exact Or.inl (hx h₁)
          · exact Or.inr h₁
        | some c =>
          rw [hc] at hw
          obtain ⟨o, ho⟩ := cellValues_stored h a c hc w hw
          exact Or.inr ⟨a, o, ho⟩
      · have hna : ∀ al, x ≠ .alloc al := fun al hxa => hal ⟨al, hxa⟩
        rw [children_deref_load S h x t hna] at hw
        rcases loadChildren_cases S h _ w hw with h₁ | h₁
        · exact Or.inl (hx h₁)
        · exact Or.inr h₁
    | ARROW => exact Or.inl (hx (by simpa [children] using hw))
    | SUB => exact Or.inl (hx (by simpa [children] using hw))
    | NOT => exact Or.inl (hx (by simpa [children] using hw))
    | XOR => exact Or.inl (hx (by simpa [children] using hw))
  | function _ _ => simp [children] at hw
  | const _ _ => simp [children] at hw
  | parameter _ _ => simp [children] at hw
  | typeAssert _ _ _ => simp [children] at hw
  | alloc _ => simp [children] at hw
  | indexAddr _ _ _ => simp [children] at hw
  | makeChan _ => simp [children] at hw
  | makeMap _ => simp [children] at hw
  | select _ => simp [children] at hw
  | other _ _ => simp [children] at hw

theorem follows_acc (S : Sizes) (h : Heap)
    (hheap : ∀ a o w, stored h a o = some w → ¬ Relation.TransGen (Follows S h) w w) :
    ∀ v, Acc (fun w v => Follows S h v w) v := by
  let R : Value → Value → Prop := fun x y =>
    (∃ a o, stored h a o = some x) ∧ (∃ a o, stored h a o = some y) ∧
      Relation.TransGen (Follows S h) x y
  have hR : ∀ x y, Relation.TransGen R x y →
      (∃ a o, stored h a o = some x) ∧ Relation.TransGen (Follows S h) x y := by
    intro x y hxy
    induction hxy with
    | single hs => exact ⟨hs.1, hs.2.2⟩
    | tail _ hs ih => exact ⟨ih.1, ih.2.trans hs.2.2⟩
  have accR : ∀ x, Acc (fun y x => R x y) x := by
    intro x
    refine acc_of_acyclic R h.values ?_ x ?_ x Relation.ReflTransGen.refl
    · intro a b hab
      obtain ⟨⟨al, o, hs⟩, _⟩ := hab
      exact stored_mem_values h al o a hs
    · intro y _ hyy
      obtain ⟨⟨al, o, hs⟩, ht⟩ := hR y y hyy
      exact hheap al o y hs ht
  have step : ∀ x, (∃ a o, stored h a o = some x) → Acc (fun w v => Follows S h v w) x := by
    intro x
    induction accR x with
    | intro x _ ihR =>
      intro hx
      have claim : ∀ (n : Nat) (v : Value), sizeOf v < n →
          Relation.TransGen (Follows S h) x v → Acc (fun w v => Follows S h v w) v := by
        intro n
        induction n with
        | zero => intro v hv; omega
        | succ n ih =>
          intro v hv hxv
          refine Acc.intro v (fun c hc => ?_)
          rcases children_cases S h v c hc with hlt | hst
          · exact ih c (by omega) (hxv.tail hc)
          · exact ihR c ⟨hx, hst, hxv.tail hc⟩ hst
      exact Acc.intro x (fun c hc => claim (sizeOf c + 1) c (by omega)
        (Relation.TransGen.single hc))
  have all : ∀ (n : Nat) (v : Value), sizeOf v < n → Acc (fun w v => Follows S h v w) v := by
    intro n
    induction n with
    | zero => intro v hv; omega
    | succ n ih =>
      intro v hv
      refine Acc.intro v (fun c hc => ?_)
      rcases children_cases S h v c hc with hlt | hst
      · exact ih c (by omega)
      · exact step c hst
  intro v
  exact all (sizeOf v + 1) v (by omega)

/-- Without a loop through the heap, `printExpr` ends on every value. -/
theorem printExpr_ends (S : Sizes) (pkg : String) (h : Heap)
    (hheap : ∀ a o w, stored h a o = some w → ¬ Relation.TransGen (Follows S h) w w)
    (v : Value) : ∃ k, (printExpr S pkg h k v).ends :=
  printExpr_ends_of_acc S pkg h v (follows_acc S h hheap v)

theorem walk_uniform (S : Sizes) (h : Heap) (fn : Function) :
    ∀ l : List Nat, (∀ s ∈ l, ∃ k, ∀ ind, (walk S h fn k s ind).ends) →
      ∃ K, ∀ s ∈ l, ∀ ind, (walk S h fn K s ind).ends := by
  intro l
  induction l with
  | nil => intro _; exact ⟨0, fun _ hs => by cases hs⟩
  | cons s₀ rest ih =>
    intro hl
    obtain ⟨k₀, hk₀⟩ := hl s₀ (List.mem_cons_self _ _)
    obtain ⟨K, hK⟩ := ih (fun s hs => hl s (List.mem_cons_of_mem _ hs))
    refine ⟨max k₀ K, fun s hs ind => ?_⟩
    rcases List.mem_cons.mp hs with rfl | hs
    · exact ends_of_stable (walk_stable S h fn s ind (le_max_left k₀ K)) (hk₀ ind)
    · exact ends_of_stable (walk_stable S h fn s ind (le_max_right k₀ K)) (hK s hs ind)

theorem walk_ends_of_acc (S : Sizes) (h : Heap) (fn : Function)
    (hpe : ∀ v, ∃ k, (printExpr S fn.pkg h k v).ends) (b : Nat)
    (hacc : Acc (fun s b => SuccOf fn b s) b) :
    ∃ k, ∀ indent, (walk S h fn k b indent).ends := by
  induction hacc with
  | intro x _ ih =>
    cases hb : fn.Blocks.get? x with
    | none =>
      refine ⟨1, fun indent => ?_⟩
      simp only [walk, hb]
      exact ends_fail _ (by intro h'; cases h')
    | some blk =>
      cases hl : blk.Instrs.getLast? with
      | none =>
        refine ⟨1, fun indent => ?_⟩
        simp only [walk, hb, hl]
        exact ends_fail _ (by intro h'; cases h')
      | some last =>
        obtain ⟨K, hK⟩ := walk_uniform S h fn blk.Succs
          (fun s hs => ih s ⟨blk, hb, hs⟩)
        obtain ⟨kv, hkv⟩ : ∃ kv, ∀ v, last.operand = some v →
            (printExpr S fn.pkg h kv v).ends := by
          cases hop : last.operand with
          | none => exact ⟨0, fun v hv => by cases hv⟩
          | some v₀ =>
            obtain ⟨k, hk⟩ := hpe v₀
            refine ⟨k, fun v hv => ?_⟩
            simp only [Option.some.injEq] at hv
            subst hv
            exact hk
        refine ⟨max K kv + 1, fun indent hres => ?_⟩
        cases ht : isTerminator last with
        | false =>
          rw [walk_other S h fn _ x indent blk last hb hl ht] at hres
          cases hres
        | true =>
          rcases walk_error_origin S h fn _ x indent blk last _ hb hl ht hres with
            ⟨v, hop, hv⟩ | ⟨s, hs, ind, hw⟩ | hrt
          · exact ends_of_stable (printExpr_stable S fn.pkg h v (le_max_right K kv))
              (hkv v hop) hv
          · exact ends_of_stable (walk_stable S h fn s ind (le_max_left K kv))
              (hK s hs ind) hw
          · cases hrt

theorem succOf_acc (fn : Function)
    (hcfg : ∀ b, Relation.ReflTransGen (SuccOf fn) 0 b → ¬ Relation.TransGen (SuccOf fn) b b) :
    Acc (fun s b => SuccOf fn b s) 0 := by
  refine acc_of_acyclic (SuccOf fn) (List.range fn.Blocks.length) ?_ 0 hcfg 0
    Relation.ReflTransGen.refl
  intro b s hbs
  obtain ⟨blk, hb, _⟩ := hbs
  exact List.mem_range.mpr (List.get?_eq_some.mp hb).1

/-- C36. In a function in which no block that can be reached from the entry
block lies on a cycle of successors, and with a heap in which no value stored
in a slot leads back to itself along the calls that `printExpr` makes
(operands, dereferences of populated slots, composite and slice literals),
`printExpr` ends on every value and `walk` on the entry block ends, with all
the `printExpr` calls it makes: from some step budget on neither lacks steps,
and the run is the same for every larger budget. -/
theorem walk_terminates (S : Sizes) (h : Heap) (fn : Function)
    (hcfg : ∀ b, Relation.ReflTransGen (SuccOf fn) 0 b → ¬ Relation.TransGen (SuccOf fn) b b)
    (hheap : ∀ a o w, stored h a o = some w → ¬ Relation.TransGen (Follows S h) w w) :
    (∀ v, ∃ k, ∀ fuel, k ≤ fuel →
      (printExpr S fn.pkg h fuel v).res ≠ .error .outOfFuel ∧
      printExpr S fn.pkg h fuel v = printExpr S fn.pkg h k v) ∧
    ∃ k, ∀ fuel, k ≤ fuel → ∀ indent,
      (walk S h fn fuel 0 indent).res ≠ .error .outOfFuel ∧
      walk S h fn fuel 0 indent = walk S h fn k 0 indent := by
  have hpe := printExpr_ends S fn.pkg h hheap
  constructor
  · intro v
    obtain ⟨k, hk⟩ := hpe v
    refine ⟨k, fun fuel hfuel => ?_⟩
    have hst := printExpr_stable S fn.pkg h v hfuel
    exact ⟨ends_of_stable hst hk, hst hk⟩
  · obtain ⟨k, hk⟩ := walk_ends_of_acc S h fn hpe 0 (succOf_acc fn hcfg)
    refine ⟨k, fun fuel hfuel indent => ?_⟩
    have hst := walk_stable S h fn 0 indent hfuel
    exact ⟨ends_of_stable hst (hk indent), hst (hk indent)⟩

theorem walk_terminates_witness :
    (∀ v, ∃ k, ∀ fuel, k ≤ fuel →
      (printExpr wordSizes fnBranch.pkg heapT57 fuel v).res ≠ .error .outOfFuel ∧
      printExpr wordSizes fnBranch.pkg heapT57 fuel v =
        printExpr wordSizes fnBranch.pkg heapT57 k v) ∧
    ∃ k, ∀ fuel, k ≤ fuel → ∀ indent,
      (walk wordSizes heapT57 fnBranch fuel 0 indent).res ≠ .error .outOfFuel ∧
      walk wordSizes heapT57 fnBranch fuel 0 indent =
        walk wordSizes heapT57 fnBranch k 0 indent :=
  walk_terminates wordSizes heapT57 fnBranch
    (fun b _ hbb => by
      have hsucc : ∀ x y, SuccOf fnBranch x y → x = 0 ∧ y ≠ 0 := by
        intro x y hxy
        obtain ⟨blk, hb, hy⟩ := hxy
        have hx3 : x < 3 := (List.get?_eq_some.mp hb).1
        interval_cases x
        · simp [fnBranch] at hb
          subst hb
          simp at hy
          rcases hy with rfl | rfl <;> simp
        · simp [fnBranch] at hb
          subst hb
          simp at hy
        · simp [fnBranch] at hb
          subst hb
          simp at hy
      obtain ⟨c, hbc, hcb⟩ := Relation.TransGen.head'_iff.mp hbb
      obtain ⟨rfl, hc⟩ := hsucc b c hbc
      rcases Relation.ReflTransGen.cases_head hcb with rfl | ⟨d, hcd, _⟩
      · exact hc rfl
      · exact hc (hsucc c d hcd).1)
    (fun a o w hs hww => by
      have hmem := stored_mem_values heapT57 a o w hs
      obtain ⟨c, hwc, _⟩ := Relation.TransGen.head'_iff.mp hww
      simp only [Heap.values, heapT57, List.flatMap_cons, List.flatMap_nil, List.append_nil,
        List.filterMap_cons, List.filterMap_nil, List.mem_cons, List.mem_singleton,
        List.not_mem_nil, or_false] at hmem
      rcases hmem with rfl | rfl
      · simp [Follows, children, intConst] at hwc
      · simp [Follows, children, intConst] at hwc)

end Passify

namespace Mklang

open Passify

/-! ## The also-is closure -/

theorem copy_isNonterm (d : Define) : d.copy.isNonterm = d.isNonterm := by
  cases d <;> rfl

theorem copy_embedKeys (d : Define) : d.copy.embedKeys = d.embedKeys := by
  cases d <;> rfl

theorem copy_consMap (d : Define) : d.copy.consMap = d.consMap := by
  cases d <;> rfl

theorem copy_mark (also : String) (d : Define) : (d.mark also).copy = d.copy := by
  cases d <;> rfl

theorem mark_isAlso (also : String) (d : Define) :
    (d.mark also).isAlso = mapSet d.isAlso also true := by
  cases d <;> rfl

theorem shape_refl (defs : List (String × Define)) : Shape defs defs := ⟨rfl, fun _ => rfl⟩

theorem shape_trans {a b c : List (String × Define)} (h₁ : Shape a b) (h₂ : Shape b c) :
    Shape a c :=
  ⟨h₂.1.trans h₁.1, fun n => (h₂.2 n).trans (h₁.2 n)⟩

theorem shape_get {a b : List (String × Define)} (h : Shape a b) {n : String} {d : Define}
    (hd : mapGet a n = some d) : ∃ d', mapGet b n = some d' ∧ d'.copy = d.copy := by
  have := h.2 n
  rw [hd] at this
  cases hb : mapGet b n with
  | none => rw [hb] at this; cases this
  | some d' =>
    rw [hb] at this
    exact ⟨d', rfl, by simpa using this⟩

theorem shape_get_inv {a b : List (String × Define)} (h : Shape a b) {n : String} {d' : Define}
    (hd : mapGet b n = some d') : ∃ d, mapGet a n = some d ∧ d'.copy = d.copy := by
  have := h.2 n
  rw [hd] at this
  cases ha : mapGet a n with
  | none => rw [ha] at this; cases this
  | some d =>
    rw [ha] at this
    exact ⟨d, rfl, by simpa using this⟩

theorem shape_isSome {a b : List (String × Define)} (h : Shape a b) (n : String) :
    (mapGet b n).isSome = (mapGet a n).isSome := by
  have := congrArg Option.isSome (h.2 n)
  simpa using this

theorem shape_isNontermIn {a b : List (String × Define)} (h : Shape a b) (n : String) :
    isNontermIn b n = isNontermIn a n := by
  unfold isNontermIn
  cases ha : mapGet a n with
  | none =>
    have := shape_isSome h n
    rw [ha] at this
    cases hb : mapGet b n with
    | none => rfl
    | some d => rw [hb] at this; cases this
  | some d =>
    obtain ⟨d', hb, hc⟩ := shape_get h ha
    rw [hb]
    simp only
    rw [← copy_isNonterm d', hc, copy_isNonterm]

theorem shape_edge {a b : List (String × Define)} (h : Shape a b) {m e : String}
    (he : Edge a m e) : Edge b m e := by
  obtain ⟨d, hd, hn, hmem, hs⟩ := he
  obtain ⟨d', hb, hc⟩ := shape_get h hd
  refine ⟨d', hb, ?_, ?_, ?_⟩
  · rw [← copy_isNonterm d', hc, copy_isNonterm]; exact hn
  · rw [← copy_embedKeys d', hc, copy_embedKeys]; exact hmem
  · rw [shape_isSome h]; exact hs

theorem shape_symm {a b : List (String × Define)} (h : Shape a b) : Shape b a :=
  ⟨h.1.symm, fun n => (h.2 n).symm⟩

theorem shape_reach {a b : List (String × Define)} (h : Shape a b) {n d : String}
    (hr : Reach a n d) : Reach b n d := by
  induction hr with
  | refl => exact Reach.refl _
  | step _ he ih => exact Reach.step ih (shape_edge h he)

theorem mapSet_keys_of_get {β : Type} (m : List (String × β)) (k : String) (v w : β)
    (h : mapGet m k = some w) : (mapSet m k v).map Prod.fst = m.map Prod.fst := by
  rw [mapSet_keys]
  have : k ∈ m.map Prod.fst := (mapGet_isSome_iff m k).mp ⟨w, h⟩
  simp only [this, if_true]

/-- Marking a definition keeps the shape. -/
theorem shape_mark (defs : List (String × Define)) (n also : String) (d : Define)
    (hd : mapGet defs n = some d) : Shape defs (mapSet defs n (d.mark also)) := by
  refine ⟨mapSet_keys_of_get defs n _ d hd, fun k => ?_⟩
  by_cases hk : k = n
  · subst hk
    rw [mapGet_mapSet_self, hd]
    simp [copy_mark]
  · rw [mapGet_mapSet_other _ _ _ _ hk]

theorem isAlsoOf_mark (defs : List (String × Define)) (n also : String) (d : Define)
    (hd : mapGet defs n = some d) (D a : String) :
    isAlsoOf (mapSet defs n (d.mark also)) D a =
      if D = n ∧ a = also then true else isAlsoOf defs D a := by
  unfold isAlsoOf
  by_cases hD : D = n
  · subst hD
    rw [mapGet_mapSet_self, hd]
    simp only [mark_isAlso, true_and]
    by_cases ha : a = also
    · subst ha; simp [mapGet_mapSet_self]
    · simp [ha, mapGet_mapSet_other _ _ _ _ ha]
  · rw [mapGet_mapSet_other _ _ _ _ hD]
    simp [hD]

theorem countP_lt_of_imp {α : Type} (p q : α → Bool) :
    ∀ (l : List α), (∀ x ∈ l, p x = true → q x = true) →
      (∃ x ∈ l, q x = true ∧ p x = false) → l.countP p < l.countP q := by
  intro l
  induction l with
  | nil => intro _ h; obtain ⟨x, hx, _⟩ := h; cases hx
  | cons a rest ih =>
    intro himp hex
    have hrest : ∀ x ∈ rest, p x = true → q x = true :=
      fun x hx => himp x (List.mem_cons_of_mem _ hx)
    have hle : rest.countP p ≤ rest.countP q := List.countP_mono_left hrest
    by_cases hqa : q a = true
    · by_cases hpa : p a = true
      · have hex' : ∃ x ∈ rest, q x = true ∧ p x = false := by
          obtain ⟨x, hx, hq, hp⟩ := hex
          rcases List.mem_cons.mp hx with rfl | hx'
          · rw [hpa] at hp; cases hp
          · exact ⟨x, hx', hq, hp⟩
        have := ih hrest hex'
        simp only [List.countP_cons, hqa, hpa, if_true]
        omega
      · simp only [List.countP_cons, hqa, hpa, if_true]
        simp only [Bool.false_eq_true, if_false]
        omega
    · have hpa : ¬ p a = true := fun h => hqa (himp a (List.mem_cons_self _ _) h)
      have hex' : ∃ x ∈ rest, q x = true ∧ p x = false := by
        obtain ⟨x, hx, hq, hp⟩ := hex
        rcases List.mem_cons.mp hx with rfl | hx'
        · exact absurd hq hqa
        · exact ⟨x, hx', hq, hp⟩
      have := ih hrest hex'
      simp only [List.countP_cons, hqa, hpa]
      simpa using this

theorem floodPost_id (also : String) (defs : List (String × Define)) (starts : String → Prop)
    (hs : ∀ s, starts s → isAlsoOf defs s also = true) : FloodPost also defs defs starts := by
  refine ⟨shape_refl defs, fun _ _ _ => rfl, fun _ h => h, hs, ?_, ?_⟩
  · intro m _ h₁ h₂
    rw [h₁] at h₂; cases h₂
  · intro P _ _ D h₁ h₂
    rw [h₁] at h₂; cases h₂

theorem floodPost_congr (also : String) (defs defs' : List (String × Define))
    (S S' : String → Prop) (h : FloodPost also defs defs' S) (hS : ∀ s, S s ↔ S' s) :
    FloodPost also defs defs' S' := by
  obtain ⟨h₁, h₂, h₃, h₄, h₅, h₆⟩ := h
  exact ⟨h₁, h₂, h₃, fun s hs => h₄ s ((hS s).mpr hs), h₅,
    fun P hP hcl => h₆ P (fun s hs => hP s ((hS s).mp hs)) hcl⟩

theorem floodPost_seq (also : String) (d₀ d₁ d₂ : List (String × Define))
    (S₁ S₂ : String → Prop) (h₁ : FloodPost also d₀ d₁ S₁) (h₂ : FloodPost also d₁ d₂ S₂) :
    FloodPost also d₀ d₂ (fun s => S₁ s ∨ S₂ s) := by
  obtain ⟨a₁, a₂, a₃, a₄, a₅, a₆⟩ := h₁
  obtain ⟨b₁, b₂, b₃, b₄, b₅, b₆⟩ := h₂
  refine ⟨shape_trans a₁ b₁, fun D a ha => (b₂ D a ha).trans (a₂ D a ha),
    fun D h => b₃ D (a₃ D h), ?_, ?_, ?_⟩
  · rintro s (hs | hs)
    · exact b₃ s (a₄ s hs)
    · exact b₄ s hs
  · intro m hm hm₂ hm₀ e he
    cases hm₁ : isAlsoOf d₁ m also with
    | true => exact b₃ e (a₅ m hm hm₁ hm₀ e he)
    | false =>
      exact b₅ m (by rw [shape_isNontermIn a₁]; exact hm) hm₂ hm₁ e (shape_edge a₁ he)
  · intro P hP hcl D hD₂ hD₀
    cases hD₁ : isAlsoOf d₁ D also with
    | true => exact a₆ P (fun s hs => hP s (Or.inl hs)) hcl D hD₁ hD₀
    | false =>
      exact b₆ P (fun s hs => hP s (Or.inr hs))
        (fun m e hm he => hcl m e hm (shape_edge (shape_symm a₁) he)) D hD₂ hD₁

theorem unmarked_le (also : String) (defs defs' : List (String × Define))
    (S : String → Prop) (h : FloodPost also defs defs' S) :
    unmarked also defs' ≤ unmarked also defs := by
  obtain ⟨h₁, _, h₃, _, _, _⟩ := h
  unfold unmarked
  rw [h₁.1]
  apply List.countP_mono_left
  intro x _ hx
  simp only [Bool.and_eq_true, Bool.not_eq_true'] at hx ⊢
  refine ⟨by rw [← shape_isNontermIn h₁]; exact hx.1, ?_⟩
  cases h : isAlsoOf defs x also with
  | false => rfl
  | true => rw [h₃ x h] at hx; cases hx.2

/-- Marking a terminal. -/
theorem floodPost_term (also : String) (defs : List (String × Define)) (e : String)
    (d : Define) (hd : mapGet defs e = some d) (hterm : d.isNonterm = false) :
    FloodPost also defs (mapSet defs e (d.mark also)) (fun s => s = e) := by
  have hmark := isAlsoOf_mark defs e also d hd
  refine ⟨shape_mark defs e also d hd, ?_, ?_, ?_, ?_, ?_⟩
  · intro D a ha
    rw [hmark]
    simp [ha]
  · intro D h
    rw [hmark, h]
    simp
  · intro s hs
    rw [hmark]
    simp [hs]
  · intro m hm hm' hm₀ e' _
    rw [hmark] at hm'
    by_cases hme : m = e
    · subst hme
      simp only [isNontermIn, hd, hterm] at hm
      cases hm
    · simp only [hme, false_and, if_false] at hm'
      rw [hm'] at hm₀; cases hm₀
  · intro P hP _ D hD hD₀
    rw [hmark] at hD
    by_cases hDe : D = e
    · exact hP D hDe
    · simp only [hDe, false_and, if_false] at hD
      rw [hD] at hD₀; cases hD₀

theorem isNontermIn_get {defs : List (String × Define)} {n : String}
    (h : isNontermIn defs n = true) :
    ∃ embeds cons str isAlso, mapGet defs n = some (.nonterm embeds cons str isAlso) := by
  unfold isNontermIn at h
  cases hd : mapGet defs n with
  | none => rw [hd] at h; cases h
  | some d =>
    rw [hd] at h
    cases d with
    | term _ _ => cases h
    | nonterm embeds cons str isAlso => exact ⟨embeds, cons, str, isAlso, rfl⟩

theorem unmarked_mark_lt (also : String) (defs : List (String × Define)) (n : String)
    (d : Define) (hd : mapGet defs n = some d) (hn : d.isNonterm = true)
    (hu : isAlsoOf defs n also = false) :
    unmarked also (mapSet defs n (d.mark also)) < unmarked also defs := by
  have hsh := shape_mark defs n also d hd
  have hmark := isAlsoOf_mark defs n also d hd
  unfold unmarked
  rw [hsh.1]
  apply countP_lt_of_imp
  · intro x _ hx
    simp only [Bool.and_eq_true, Bool.not_eq_true'] at hx ⊢
    refine ⟨by rw [← shape_isNontermIn hsh]; exact hx.1, ?_⟩
    have := hx.2
    rw [hmark] at this
    by_cases hxn : x = n
    · simp [hxn] at this
    · simpa [hxn] using this
  · refine ⟨n, (mapGet_isSome_iff defs n).mp ⟨d, hd⟩, ?_, ?_⟩
    · simp only [Bool.and_eq_true, Bool.not_eq_true']
      exact ⟨by simp [isNontermIn, hd, hn], hu⟩
    · rw [hmark]
      simp

/-- The loop of `flood` over the embedded names. -/
theorem floodFold_post (also : String)
    (rec : List (String × Define) → String → Option (List (String × Define))) (fuel : Nat)
    (hrec : ∀ defs n, unmarked also defs < fuel → isNontermIn defs n = true →
      ∃ defs', rec defs n = some defs' ∧ FloodPost also defs defs' (fun s => s = n)) :
    ∀ (l : List String) (d : List (String × Define)), unmarked also d < fuel →
      ∃ d', l.foldlM (floodEmbed also rec) d = some d' ∧
        FloodPost also d d' (fun s => s ∈ l ∧ (mapGet d s).isSome = true) := by
  intro l
  induction l with
  | nil =>
    intro d _
    exact ⟨d, rfl, floodPost_id also d _ (fun s hs => absurd hs.1 (List.not_mem_nil s))⟩
  | cons e rest ih =>
    intro d hU
    have hstep : ∃ d₁, floodEmbed also rec d e = some d₁ ∧
        FloodPost also d d₁ (fun s => s = e ∧ (mapGet d s).isSome = true) := by
      cases hde : mapGet d e with
      | none =>
        refine ⟨d, by simp only [floodEmbed, hde], floodPost_id also d _ ?_⟩
        rintro s ⟨rfl, hs⟩
        rw [hde] at hs; cases hs
      | some d' =>
        cases d' with
        | term pass ia =>
          refine ⟨mapSet d e ((Define.term pass ia).mark also),
            by simp only [floodEmbed, hde, Define.mark], ?_⟩
          apply floodPost_congr also d _ (fun s => s = e) _
            (floodPost_term also d e (.term pass ia) hde rfl)
          intro s
          constructor
          · rintro rfl; exact ⟨rfl, by rw [hde]; rfl⟩
          · exact fun h => h.1
        | nonterm embeds cons str ia =>
          obtain ⟨d₁, h₁, hp⟩ := hrec d e hU (by simp [isNontermIn, hde, Define.isNonterm])
          refine ⟨d₁, by simp only [floodEmbed, hde, h₁], ?_⟩
          apply floodPost_congr also d _ (fun s => s = e) _ hp
          intro s
          constructor
          · rintro rfl; exact ⟨rfl, by rw [hde]; rfl⟩
          · exact fun h => h.1
    obtain ⟨d₁, h₁, hp₁⟩ := hstep
    have hU₁ : unmarked also d₁ < fuel := lt_of_le_of_lt (unmarked_le also d d₁ _ hp₁) hU
    obtain ⟨d₂, h₂, hp₂⟩ := ih d₁ hU₁
    refine ⟨d₂, ?_, ?_⟩
    · rw [List.foldlM_cons, h₁]
      exact h₂
    · apply floodPost_congr also d d₂ _ _ (floodPost_seq also d d₁ d₂ _ _ hp₁ hp₂)
      intro s
      have hs := shape_isSome hp₁.1 s
      constructor
      · rintro (⟨rfl, h⟩ | ⟨hm, h⟩)
        · exact ⟨List.mem_cons_self _ _, h⟩
        · exact ⟨List.mem_cons_of_mem _ hm, by rw [← hs]; exact h⟩
      · rintro ⟨hm, h⟩
        rcases List.mem_cons.mp hm with rfl | hm'
        · exact Or.inl ⟨rfl, h⟩
        · exact Or.inr ⟨hm', by rw [hs]; exact h⟩

/-- A run of `flood` with enough budget returns, and has marked what the
start reaches. -/
theorem flood_post (sh : List String → List String) (hsh : ∀ l, (sh l).Perm l)
    (also : String) :
    ∀ (fuel : Nat) (defs : List (String × Define)) (n : String),
      unmarked also defs < fuel → isNontermIn defs n = true →
      ∃ defs', flood sh also fuel defs n = some defs' ∧
        FloodPost also defs defs' (fun s => s = n) := by
  intro fuel
  induction fuel with
  | zero => intro defs n h; exact absurd h (Nat.not_lt_zero _)
  | succ fuel ih =>
    intro defs n hU hn
    obtain ⟨embeds, cons, str, isAlso, hd⟩ := isNontermIn_get hn
    by_cases hmk : (mapGet isAlso also).getD false = true
    · refine ⟨defs, by simp only [flood, hd, hmk, if_true], floodPost_id also defs _ ?_⟩
      rintro s rfl
      simp only [isAlsoOf, hd, Define.isAlso]
      exact hmk
    · have hu : isAlsoOf defs n also = false := by
        simp only [isAlsoOf, hd, Define.isAlso]
        simpa using hmk
      have hlt := unmarked_mark_lt also defs n _ hd rfl hu
      have hsh₁ := shape_mark defs n also _ hd
      have hmark := isAlsoOf_mark defs n also _ hd
      obtain ⟨d', hfold, hs, ho, hm, hc, hcl, hsound⟩ :=
        floodFold_post also (flood sh also fuel) fuel ih (sh (embeds.map Prod.fst))
          (mapSet defs n ((Define.nonterm embeds cons str isAlso).mark also)) (by omega)
      refine ⟨d', ?_, shape_trans hsh₁ hs, ?_, ?_, ?_, ?_, ?_⟩
      · simp only [flood, hd, hmk]
        exact hfold
      · intro D a ha
        rw [ho D a ha, hmark]
        simp [ha]
      · intro D hD
        apply hm
        rw [hmark, hD]
        simp
      · rintro s rfl
        apply hm
        rw [hmark]
        simp
      · intro m hmn hm' hm₀ e he
        by_cases hmeq : m = n
        · subst hmeq
          obtain ⟨d₀, hd₀, _, hmem, hdef⟩ := he
          rw [hd] at hd₀
          cases hd₀
          apply hc
          exact ⟨(hsh _).mem_iff.mpr hmem, by rw [shape_isSome hsh₁]; exact hdef⟩
        · have hm₁ : isAlsoOf (mapSet defs n
              ((Define.nonterm embeds cons str isAlso).mark also)) m also = false := by
            rw [hmark, hm₀]
            simp [hmeq]
          exact hcl m (by rw [shape_isNontermIn hsh₁]; exact hmn) hm' hm₁ e
            (shape_edge hsh₁ he)
      · intro P hP hcl' D hD hD₀
        by_cases hDn : D = n
        · exact hP D hDn
        · have hD₁ : isAlsoOf (mapSet defs n
              ((Define.nonterm embeds cons str isAlso).mark also)) D also = false := by
            rw [hmark, hD₀]
            simp [hDn]
          apply hsound P ?_ ?_ D hD hD₁
          · rintro s ⟨hmem, hdef⟩
            apply hcl' n s (hP n rfl)
            exact ⟨_, hd, rfl, (hsh _).mem_iff.mp hmem, by rw [← shape_isSome hsh₁]; exact hdef⟩
          · intro m e hPm he
            exact hcl' m e hPm (shape_edge (shape_symm hsh₁) he)

theorem unmarked_le_length (also : String) (defs : List (String × Define)) :
    unmarked also defs ≤ defs.length := by
  unfold unmarked
  exact le_trans (List.countP_le_length _) (by simp)

theorem shape_length {a b : List (String × Define)} (h : Shape a b) : b.length = a.length := by
  have := congrArg List.length h.1
  simpa using this

theorem reach_defined {defs : List (String × Define)} {n d : String} (h : Reach defs n d)
    (hn : (mapGet defs n).isSome = true) : (mapGet defs d).isSome = true := by
  induction h with
  | refl => exact hn
  | step _ he _ =>
    obtain ⟨_, _, _, _, hdef⟩ := he
    exact hdef

/-- One step of the loop that floods every non-terminal with its own name. -/
theorem floodDef_post (sh : List String → List String) (hsh : ∀ l, (sh l).Perm l)
    (fuel : Nat) (defs₀ : List (String × Define)) (hfuel : defs₀.length < fuel)
    (done : List String) (d : List (String × Define)) (N : String) (hs : Shape defs₀ d)
    (hinv : ∀ A D, isAlsoOf d D A = true ↔
      (A ∈ done ∧ isNontermIn defs₀ A = true ∧ Reach defs₀ A D)) :
    ∃ d', floodDef sh fuel d N = some d' ∧ Shape defs₀ d' ∧
      ∀ A D, isAlsoOf d' D A = true ↔
        (A ∈ N :: done ∧ isNontermIn defs₀ A = true ∧ Reach defs₀ A D) := by
  cases hN : isNontermIn defs₀ N with
  | false =>
    have hNd : isNontermIn d N = false := by rw [shape_isNontermIn hs]; exact hN
    refine ⟨d, ?_, hs, ?_⟩
    · unfold floodDef
      unfold isNontermIn at hNd
      cases hg : mapGet d N with
      | none => rfl
      | some x =>
        rw [hg] at hNd
        cases x with
        | term _ _ => rfl
        | nonterm _ _ _ _ => cases hNd
    · intro A D
      rw [hinv A D]
      constructor
      · rintro ⟨h₁, h₂, h₃⟩
        exact ⟨List.mem_cons_of_mem _ h₁, h₂, h₃⟩
      · rintro ⟨h₁, h₂, h₃⟩
        rcases List.mem_cons.mp h₁ with rfl | h₁'
        · rw [hN] at h₂; cases h₂
        · exact ⟨h₁', h₂, h₃⟩
  | true =>
    have hNd : isNontermIn d N = true := by rw [shape_isNontermIn hs]; exact hN
    have hU : unmarked N d < fuel :=
      lt_of_le_of_lt (unmarked_le_length N d) (by rw [shape_length hs]; exact hfuel)
    obtain ⟨d', hfl, hs', ho, hm, hc, hcl, hsound⟩ := flood_post sh hsh N fuel d N hU hNd
    obtain ⟨embeds, cons, str, ia, hg⟩ := isNontermIn_get hNd
    refine ⟨d', by simp only [floodDef, hg, hfl], shape_trans hs hs', ?_⟩
    intro A D
    by_cases hA : A = N
    · subst hA
      constructor
      · intro hD
        refine ⟨List.mem_cons_self _ _, hN, ?_⟩
        cases hD₀ : isAlsoOf d D A with
        | true => exact ((hinv A D).mp hD₀).2.2
        | false =>
          exact hsound (fun x => Reach defs₀ A x) (fun s hs => hs ▸ Reach.refl _)
            (fun m e hm he => Reach.step hm (shape_edge (shape_symm hs) he)) D hD hD₀
      · rintro ⟨_, _, hr⟩
        induction hr with
        | refl => exact hc _ rfl
        | step hr' he ih =>
          rename_i m e
          cases hm₀ : isAlsoOf d m A with
          | true =>
            have := (hinv A m).mp hm₀
            exact hm e ((hinv A e).mpr ⟨this.1, this.2.1, Reach.step this.2.2 he⟩)
          | false =>
            have hmn : isNontermIn d m = true := by
              obtain ⟨dm, hdm, hnt, _, _⟩ := shape_edge hs he
              simp [isNontermIn, hdm, hnt]
            exact hcl m hmn ih hm₀ e (shape_edge hs he)
    · rw [ho D A hA, hinv A D]
      constructor
      · rintro ⟨h₁, h₂, h₃⟩
        exact ⟨List.mem_cons_of_mem _ h₁, h₂, h₃⟩
      · rintro ⟨h₁, h₂, h₃⟩
        rcases List.mem_cons.mp h₁ with rfl | h₁'
        · exact absurd rfl hA
        · exact ⟨h₁', h₂, h₃⟩

theorem floodAll_fold (sh : List String → List String) (hsh : ∀ l, (sh l).Perm l)
    (fuel : Nat) (defs₀ : List (String × Define)) (hfuel : defs₀.length < fuel) :
    ∀ (l done : List String) (d : List (String × Define)), Shape defs₀ d →
      (∀ A D, isAlsoOf d D A = true ↔
        (A ∈ done ∧ isNontermIn defs₀ A = true ∧ Reach defs₀ A D)) →
      ∃ d', l.foldlM (floodDef sh fuel) d = some d' ∧ Shape defs₀ d' ∧
        ∀ A D, isAlsoOf d' D A = true ↔
          ((A ∈ l ∨ A ∈ done) ∧ isNontermIn defs₀ A = true ∧ Reach defs₀ A D) := by
  intro l
  induction l with
  | nil =>
    intro done d hs hinv
    exact ⟨d, rfl, hs, fun A D => by simpa using hinv A D⟩
  | cons N rest ih =>
    intro done d hs hinv
    obtain ⟨d₁, h₁, hs₁, hinv₁⟩ := floodDef_post sh hsh fuel defs₀ hfuel done d N hs hinv
    obtain ⟨d₂, h₂, hs₂, hinv₂⟩ := ih (N :: done) d₁ hs₁ hinv₁
    refine ⟨d₂, ?_, hs₂, ?_⟩
    · rw [List.foldlM_cons, h₁]
      exact h₂
    · intro A D
      rw [hinv₂ A D]
      simp only [List.mem_cons]
      constructor
      · rintro ⟨h | h | h, h'⟩
        · exact ⟨Or.inl (Or.inr h), h'⟩
        · exact ⟨Or.inl (Or.inl h), h'⟩
        · exact ⟨Or.inr h, h'⟩
      · rintro ⟨(h | h) | h, h'⟩
        · exact ⟨Or.inr (Or.inl h), h'⟩
        · exact ⟨Or.inl h, h'⟩
        · exact ⟨Or.inr (Or.inr h), h'⟩

/-- The loop that floods every non-terminal returns when its budget exceeds
the number of definitions, and leaves `N` in the `isAlso` of `D` exactly when
`N` is a non-terminal that reaches `D`. -/
theorem floodAll_post (sh : List String → List String) (hsh : ∀ l, (sh l).Perm l)
    (fuel : Nat) (defs₀ : List (String × Define)) (hfuel : defs₀.length < fuel)
    (hclean : ∀ D A, isAlsoOf defs₀ D A = false) :
    ∃ d', floodAll sh fuel defs₀ = some d' ∧ Shape defs₀ d' ∧
      ∀ A D, isAlsoOf d' D A = true ↔ (isNontermIn defs₀ A = true ∧ Reach defs₀ A D) := by
  obtain ⟨d', h₁, hs, hinv⟩ := floodAll_fold sh hsh fuel defs₀ hfuel
    (sh (defs₀.map Prod.fst)) [] defs₀ (shape_refl _)
    (fun A D => by simp [hclean D A])
  refine ⟨d', h₁, hs, fun A D => ?_⟩
  rw [hinv A D]
  constructor
  · exact fun h => h.2
  · intro h
    refine ⟨Or.inl ?_, h⟩
    apply (hsh _).mem_iff.mpr
    obtain ⟨_, _, _, _, hg⟩ := isNontermIn_get h.1
    exact (mapGet_isSome_iff defs₀ A).mp ⟨_, hg⟩

/-! ## The evolution of embeds and constructors -/

theorem mapGet_map_val {β γ : Type} (f : β → γ) (m : List (String × β)) (k : String) :
    mapGet (m.map (fun p => (p.1, f p.2))) k = (mapGet m k).map f := by
  induction m with
  | nil => rfl
  | cons p rest ih =>
    obtain ⟨k', v⟩ := p
    by_cases hk : k' = k
    · simp [mapGet, hk]
    · simp [mapGet, hk, ih]

theorem mapGet_mapDelete {β : Type} (m : List (String × β)) (k k' : String) :
    mapGet (mapDelete m k) k' = if k' = k then none else mapGet m k' := by
  induction m with
  | nil => simp [mapDelete, mapGet]
  | cons p rest ih =>
    obtain ⟨k₀, v⟩ := p
    unfold mapDelete at ih ⊢
    by_cases h₀ : k₀ = k
    · subst h₀
      simp only [List.filter_cons, ne_eq, not_true_eq_false, decide_False, Bool.false_eq_true,
        if_false, ih]
      by_cases hk : k' = k₀
      · simp [hk]
      · have : ¬ k₀ = k' := fun h => hk h.symm
        simp [hk, mapGet, this]
    · simp only [List.filter_cons, ne_eq, h₀, not_false_eq_true, decide_True, if_true, mapGet, ih]
      by_cases hk : k₀ = k'
      · subst hk
        simp [h₀]
      · simp [hk]

theorem mapGet_foldl_mapDelete {β : Type} (ks : List String) :
    ∀ (m : List (String × β)) (k' : String),
      mapGet (ks.foldl mapDelete m) k' = if k' ∈ ks then none else mapGet m k' := by
  induction ks with
  | nil => intro m k'; simp
  | cons k rest ih =>
    intro m k'
    rw [List.foldl_cons, ih, mapGet_mapDelete]
    by_cases h₁ : k' ∈ rest
    · simp [h₁]
    · by_cases h₂ : k' = k
      · simp [h₂]
      · simp [h₁, h₂]

theorem keys_mapDelete {β : Type} (m : List (String × β)) (k e : String) :
    e ∈ (mapDelete m k).map Prod.fst ↔ e ∈ m.map Prod.fst ∧ e ≠ k := by
  rw [← mapGet_isSome_iff, ← mapGet_isSome_iff, mapGet_mapDelete]
  by_cases h : e = k
  · simp [h]
  · simp [h]

theorem keys_foldl_mapDelete {β : Type} (ks : List String) (m : List (String × β))
    (e : String) :
    e ∈ (ks.foldl mapDelete m).map Prod.fst ↔ e ∈ m.map Prod.fst ∧ e ∉ ks := by
  rw [← mapGet_isSome_iff, ← mapGet_isSome_iff, mapGet_foldl_mapDelete]
  by_cases h : e ∈ ks
  · simp [h]
  · simp [h]

theorem keys_mapSet {β : Type} (m : List (String × β)) (k e : String) (v : β) :
    e ∈ (mapSet m k v).map Prod.fst ↔ e ∈ m.map Prod.fst ∨ e = k := by
  rw [mapSet_keys]
  split
  · rename_i h
    constructor
    · exact Or.inl
    · rintro (h' | rfl)
      · exact h'
      · exact h
  · simp

theorem evo_refl (d : List (String × Define)) : Evo d d (fun _ => []) (fun _ => []) :=
  ⟨id, fun _ h => h, fun _ _ => by simp, fun _ _ _ => rfl, fun _ _ h => by cases h⟩

theorem evo_congr {d d' : List (String × Define)} {E M E' M' : String → List String}
    (h : Evo d d' E M) (hE : ∀ N e, e ∈ E N ↔ e ∈ E' N) (hM : ∀ N m, m ∈ M N ↔ m ∈ M' N) :
    Evo d d' E' M' := by
  obtain ⟨h₁, h₂, h₃, h₄, h₅⟩ := h
  refine ⟨h₁, h₂, fun N e => ?_, fun N m hm => ?_, fun N m hm => ?_⟩
  · rw [h₃, hE]
  · exact h₄ N m (fun h => hm ((hM N m).mp h))
  · exact h₅ N m ((hM N m).mpr hm)

theorem evo_seq {d₀ d₁ d₂ : List (String × Define)} {E₁ M₁ E₂ M₂ : String → List String}
    (h : Evo d₀ d₁ E₁ M₁) (h' : Evo d₁ d₂ E₂ M₂) :
    Evo d₀ d₂ (fun N => E₁ N ++ E₂ N) (fun N => M₁ N ++ M₂ N) := by
  obtain ⟨a₁, a₂, a₃, a₄, a₅⟩ := h
  obtain ⟨b₁, b₂, b₃, b₄, b₅⟩ := h'
  refine ⟨fun hc => b₁ (a₁ hc), fun N hN => b₂ N (a₂ N hN), fun N e => ?_, fun N m hm => ?_,
    fun N m hm => ?_⟩
  · rw [b₃, a₃, List.mem_append, or_assoc]
  · simp only [List.mem_append, not_or] at hm
    rw [b₄ N m hm.2, a₄ N m hm.1]
  · by_cases h₂ : m ∈ M₂ N
    · exact b₅ N m h₂
    · rw [b₄ N m h₂]
      rcases List.mem_append.mp hm with h₁ | h₁
      · exact a₅ N m h₁
      · exact absurd h₁ h₂

/-- Replacing the entry of `δ`: what has to be shown about the old and the
new entry. -/
theorem evo_set (d : List (String × Define)) (δ : String) (new : Define)
    (E M : List String)
    (hclean : Clean d → new.isAlso = [])
    (hnt : isNontermIn d δ = true → new.isNonterm = true)
    (hE : ∀ e, e ∈ new.embedKeys ↔ e ∈ embedsAt d δ ∨ e ∈ E)
    (hM : ∀ m, m ∉ M → mapGet new.consMap m = mapGet (consAt d δ) m)
    (hM' : ∀ m, m ∈ M → (mapGet new.consMap m).isSome = true) :
    Evo d (mapSet d δ new) (fun N => if N = δ then E else [])
      (fun N => if N = δ then M else []) := by
  refine ⟨?_, ?_, ?_, ?_, ?_⟩
  · intro hc N x hx
    by_cases hN : N = δ
    · subst hN
      rw [mapGet_mapSet_self] at hx
      cases hx
      exact hclean hc
    · rw [mapGet_mapSet_other _ _ _ _ hN] at hx
      exact hc N x hx
  · intro N hN
    by_cases hNδ : N = δ
    · subst hNδ
      simp only [isNontermIn, mapGet_mapSet_self]
      exact hnt hN
    · simpa only [isNontermIn, mapGet_mapSet_other _ _ _ _ hNδ] using hN
  · intro N e
    by_cases hNδ : N = δ
    · subst hNδ
      simp only [embedsAt, mapGet_mapSet_self, if_true]
      exact hE e
    · simp [embedsAt, mapGet_mapSet_other _ _ _ _ hNδ, hNδ]
  · intro N m hm
    by_cases hNδ : N = δ
    · subst hNδ
      simp only [if_true] at hm
      simp only [consAt, mapGet_mapSet_self]
      exact hM m hm
    · simp [consAt, mapGet_mapSet_other _ _ _ _ hNδ]
  · intro N m hm
    by_cases hNδ : N = δ
    · subst hNδ
      simp only [if_true] at hm
      simp only [consAt, mapGet_mapSet_self]
      exact hM' m hm
    · simp [hNδ] at hm

theorem setEmbed_evo (d : List (String × Define)) (δ e : String)
    (hnt : isNontermIn d δ = true) :
    Evo d (setEmbed d δ e) (fun N => if N = δ then [e] else []) (fun _ => []) := by
  obtain ⟨embeds, cons, str, ia, hd⟩ := isNontermIn_get hnt
  have h := evo_set d δ (.nonterm (mapSet embeds e true) cons str ia) [e] []
    (fun hc => hc δ (.nonterm embeds cons str ia) hd) (fun _ => rfl)
    (fun e' => by
      simp only [Define.embedKeys, embedsAt, hd, List.mem_singleton]
      exact keys_mapSet embeds e e' true)
    (fun m _ => by simp only [Define.consMap, consAt, hd])
    (fun m hm => by cases hm)
  simp only [setEmbed, hd]
  exact evo_congr h (fun _ _ => Iff.rfl) (fun N m => by split <;> simp)

theorem setCon_evo (d : List (String × Define)) (δ c : String) (sig : Signature)
    (hnt : isNontermIn d δ = true) :
    Evo d (setCon d δ c sig) (fun _ => []) (fun N => if N = δ then [c] else []) := by
  obtain ⟨embeds, cons, str, ia, hd⟩ := isNontermIn_get hnt
  have h := evo_set d δ (.nonterm embeds (mapSet cons c sig) str ia) [] [c]
    (fun hc => hc δ (.nonterm embeds cons str ia) hd) (fun _ => rfl)
    (fun e' => by simp only [Define.embedKeys, embedsAt, hd, List.not_mem_nil, or_false])
    (fun m hm => by
      simp only [List.mem_singleton] at hm
      simp only [Define.consMap, consAt, hd]
      exact mapGet_mapSet_other _ _ _ _ hm)
    (fun m hm => by
      simp only [List.mem_singleton] at hm
      subst hm
      simp only [Define.consMap, mapGet_mapSet_self, Option.isSome_some])
  simp only [setCon, hd]
  exact evo_congr h (fun N m => by split <;> simp) (fun _ _ => Iff.rfl)

theorem setStr_evo (d : List (String × Define)) (δ s : String)
    (hnt : isNontermIn d δ = true) :
    Evo d (setStr d δ s) (fun _ => []) (fun _ => []) := by
  obtain ⟨embeds, cons, str, ia, hd⟩ := isNontermIn_get hnt
  have h := evo_set d δ (.nonterm embeds cons (some s) ia) [] []
    (fun hc => hc δ (.nonterm embeds cons str ia) hd) (fun _ => rfl)
    (fun e' => by simp only [Define.embedKeys, embedsAt, hd, List.not_mem_nil, or_false])
    (fun m _ => by simp only [Define.consMap, consAt, hd])
    (fun m hm => by cases hm)
  simp only [setStr, hd]
  exact evo_congr h (fun N m => by split <;> simp) (fun N m => by split <;> simp)

theorem evo_nonterm {d d' : List (String × Define)} {E M : String → List String}
    (h : Evo d d' E M) {N : String} (hN : isNontermIn d N = true) : isNontermIn d' N = true :=
  h.2.1 N hN

theorem deltaEmbeds_evo (δ : String) (hasNt : Bool) :
    ∀ (l : List GoType) (d d' : List (String × Define)),
      (hasNt = true → isNontermIn d δ = true) →
      deltaEmbeds δ hasNt l d = .ok d' →
      Evo d d' (fun N => if N = δ then own1 l else []) (fun _ => []) := by
  intro l
  induction l with
  | nil =>
    intro d d' _ h
    simp only [deltaEmbeds, Except.ok.injEq] at h
    subst h
    exact evo_congr (evo_refl d) (fun N e => by simp [own1]) (fun _ _ => Iff.rfl)
  | cons typ rest ih =>
    intro d d' hnt h
    rw [deltaEmbeds] at h
    cases hsp : stripPointers typ with
    | mk ptrs t =>
      rw [hsp] at h
      cases t with
      | typeParam name =>
        simp only at h
        by_cases hp : ptrs = 1
        · simp only [hp, if_true] at h
          cases hasNt with
          | false => simp at h
          | true =>
            simp only [if_true] at h
            have hn := hnt rfl
            have e₁ := setEmbed_evo d δ name hn
            have e₂ := ih _ d' (fun _ => evo_nonterm e₁ hn) h
            refine evo_congr (evo_seq e₁ e₂) (fun N e => ?_) (fun N m => by simp)
            by_cases hN : N = δ
            · simp [hN, own1, hsp, hp]
            · simp [hN]
        · simp only [hp, if_false] at h
          have e₂ := ih d d' hnt h
          refine evo_congr e₂ (fun N e => ?_) (fun _ _ => Iff.rfl)
          by_cases hN : N = δ
          · simp [hN, own1, hsp, hp]
          · simp [hN]
      | pointer _ => simp at h
      | struct _ => simp at h
      | named _ => simp at h
      | other _ => simp at h

theorem bind_res_ok {α β : Type} {m : Emit α} {f : α → Emit β} {b : β}
    (h : (Emit.bind m f).res = .ok b) : ∃ a, m.res = .ok a ∧ (f a).res = .ok b := by
  rw [Emit.bind_res] at h
  cases hm : m.res with
  | error e => rw [hm] at h; cases h
  | ok a => rw [hm] at h; exact ⟨a, rfl, h⟩

theorem print_bind_res {β : Type} (s : String) (f : Unit → Emit β) :
    (Emit.bind (print s) f).res = (f ()).res := by
  rw [Emit.bind_res]; rfl

theorem deltaMethods_evo (δ : String) (hasNt : Bool) :
    ∀ (l : List Method) (d d' : List (String × Define)),
      (hasNt = true → isNontermIn d δ = true) →
      (deltaMethods δ hasNt l d).res = .ok d' →
      Evo d d' (fun _ => []) (fun N => if N = δ then ownM l else []) := by
  intro l
  induction l with
  | nil =>
    intro d d' _ h
    simp only [deltaMethods, emit_pure_def, Emit.pure, Except.ok.injEq] at h
    subst h
    exact evo_congr (evo_refl d) (fun _ _ => Iff.rfl) (fun N e => by simp [ownM])
  | cons con rest ih =>
    intro d d' hnt h
    have skip : con.sig.results ≠ [] → (deltaMethods δ hasNt rest d).res = .ok d' →
        Evo d d' (fun _ => []) (fun N => if N = δ then ownM (con :: rest) else []) := by
      intro hne h'
      refine evo_congr (ih d d' hnt h') (fun _ _ => Iff.rfl) (fun N m => ?_)
      by_cases hN : N = δ
      · simp [hN, ownM, List.filter_cons, hne]
      · simp [hN]
    rw [deltaMethods] at h
    cases hres : con.sig.results with
    | nil =>
      rw [hres] at h
      simp only at h
      cases hasNt with
      | false => simp [fail] at h
      | true =>
        simp only [if_true] at h
        have hn := hnt rfl
        have e₁ := setCon_evo d δ con.name con.sig hn
        have e₂ := ih _ d' (fun _ => evo_nonterm e₁ hn) h
        refine evo_congr (evo_seq e₁ e₂) (fun N e => by simp) (fun N m => ?_)
        by_cases hN : N = δ
        · simp [hN, ownM, List.filter_cons, hres]
        · simp [hN]
    | cons r rs =>
      rw [hres] at h
      have hne : con.sig.results ≠ [] := by rw [hres]; simp
      cases rs with
      | cons r' rs' =>
        simp only at h
        rw [print_bind_res] at h
        exact skip hne h
      | nil =>
        cases r with
        | named name =>
          simp only at h
          split at h
          · rw [print_bind_res] at h
            exact skip hne h
          · exact skip hne h
        | pointer _ => simp [fail] at h
        | typeParam _ => simp [fail] at h
        | struct _ => simp [fail] at h
        | other _ => simp [fail] at h

theorem embedsAt_of_not_nonterm {d : List (String × Define)} {N : String}
    (h : isNontermIn d N = false) : embedsAt d N = [] := by
  unfold isNontermIn at h
  unfold embedsAt
  cases hg : mapGet d N with
  | none => rfl
  | some x =>
    rw [hg] at h
    cases x with
    | term _ _ => rfl
    | nonterm _ _ _ _ => cases h

theorem consAt_of_not_nonterm {d : List (String × Define)} {N : String}
    (h : isNontermIn d N = false) : consAt d N = [] := by
  unfold isNontermIn at h
  unfold consAt
  cases hg : mapGet d N with
  | none => rfl
  | some x =>
    rw [hg] at h
    cases x with
    | term _ _ => rfl
    | nonterm _ _ _ _ => cases h

/-- Setting a name that is not a non-terminal to a new terminal. -/
theorem setTerm_evo (d : List (String × Define)) (δ pass : String)
    (h : isNontermIn d δ = false) :
    Evo d (mapSet d δ (.term pass [])) (fun _ => []) (fun _ => []) := by
  have := evo_set d δ (.term pass []) [] [] (fun _ => rfl)
    (fun hn => by rw [h] at hn; cases hn)
    (fun e => by simp [Define.embedKeys, embedsAt_of_not_nonterm h])
    (fun m _ => by simp [Define.consMap, consAt_of_not_nonterm h])
    (fun m hm => by cases hm)
  exact evo_congr this (fun N m => by split <;> simp) (fun N m => by split <;> simp)

theorem evo_trans {d₀ d₁ d₂ : List (String × Define)}
    (h : Evo d₀ d₁ (fun _ => []) (fun _ => [])) (h' : Evo d₁ d₂ (fun _ => []) (fun _ => [])) :
    Evo d₀ d₂ (fun _ => []) (fun _ => []) :=
  evo_congr (evo_seq h h') (fun _ _ => by simp) (fun _ _ => by simp)

theorem defineLoop_evo (langName : String) :
    ∀ (names : List String) (d d' : List (String × Define)),
      (defineLoop langName names d).res = .ok d' →
      Evo d d' (fun _ => []) (fun _ => []) := by
  intro names
  induction names with
  | nil =>
    intro d d' h
    simp only [defineLoop, emit_pure_def, Emit.pure, Except.ok.injEq] at h
    subst h
    exact evo_refl d
  | cons n rest ih =>
    intro d d' h
    rw [defineLoop] at h
    cases hg : mapGet d n with
    | none =>
      rw [hg] at h
      exact evo_trans (setTerm_evo d n langName (by simp [isNontermIn, hg])) (ih _ d' h)
    | some x =>
      rw [hg] at h
      simp only at h
      rw [print_bind_res] at h
      exact ih d d' h

theorem redefineLoop_evo (langName : String) :
    ∀ (names : List String) (d d' : List (String × Define)),
      (redefineLoop langName names d).res = .ok d' →
      Evo d d' (fun _ => []) (fun _ => []) := by
  intro names
  induction names with
  | nil =>
    intro d d' h
    simp only [redefineLoop, emit_pure_def, Emit.pure, Except.ok.injEq] at h
    subst h
    exact evo_refl d
  | cons n rest ih =>
    intro d d' h
    rw [redefineLoop] at h
    cases hg : mapGet d n with
    | none =>
      rw [hg] at h
      simp only at h
      rw [print_bind_res] at h
      exact ih d d' h
    | some x =>
      rw [hg] at h
      cases x with
      | term p ia =>
        simp only at h
        exact evo_trans (setTerm_evo d n langName (by simp [isNontermIn, hg, Define.isNonterm]))
          (ih _ d' h)
      | nonterm _ _ _ _ =>
        simp only at h
        rw [print_bind_res] at h
        exact ih d d' h

theorem applyDelta_evo (d d' : List (String × Define)) (δ : String) (iface : Iface)
    (h : (applyDelta d (δ, iface)).res = .ok d') :
    Evo d d' (fun N => if N = δ ∧ iface.implicit = false then own1 iface.embeddeds else [])
      (fun N => if N = δ ∧ iface.implicit = false then ownM iface.methods else []) := by
  have body : ∀ (d₁ : List (String × Define)) (hasNt : Bool),
      (hasNt = true → isNontermIn d₁ δ = true) →
      (if iface.implicit = true then
          if hasNt = true then
            match iface.embeddeds.get? 0 with
            | some (.struct s) => (pure (setStr d₁ δ s) : Emit (List (String × Define)))
            | _ => fail .runtimePanic
          else fail .runtimePanic
        else
          match deltaEmbeds δ hasNt iface.embeddeds d₁ with
          | .error e => fail e
          | .ok defs => deltaMethods δ hasNt iface.methods defs).res = .ok d' →
      Evo d₁ d'
        (fun N => if N = δ ∧ iface.implicit = false then own1 iface.embeddeds else [])
        (fun N => if N = δ ∧ iface.implicit = false then ownM iface.methods else []) := by
    intro d₁ hasNt hnt hb
    cases himp : iface.implicit with
    | true =>
      rw [himp] at hb
      simp only [if_true] at hb
      cases hasNt with
      | false => simp [fail] at hb
      | true =>
        simp only [if_true] at hb
        split at hb
        · rename_i s _
          simp only [emit_pure_def, Emit.pure, Except.ok.injEq] at hb
          subst hb
          exact evo_congr (setStr_evo d₁ δ s (hnt rfl)) (fun _ _ => by simp)
            (fun _ _ => by simp)
        · simp [fail] at hb
    | false =>
      rw [himp] at hb
      simp only [Bool.false_eq_true, if_false] at hb
      cases he : deltaEmbeds δ hasNt iface.embeddeds d₁ with
      | error e => rw [he] at hb; simp [fail] at hb
      | ok d₂ =>
        rw [he] at hb
        simp only at hb
        have e₁ := deltaEmbeds_evo δ hasNt iface.embeddeds d₁ d₂ hnt he
        have e₂ := deltaMethods_evo δ hasNt iface.methods d₂ d'
          (fun hh => evo_nonterm e₁ (hnt hh)) hb
        refine evo_congr (evo_seq e₁ e₂) (fun N e => ?_) (fun N m => ?_)
        · by_cases hN : N = δ <;> simp [hN]
        · by_cases hN : N = δ <;> simp [hN]
  unfold applyDelta at h
  simp only at h
  cases hg : mapGet d δ with
  | none =>
    rw [hg] at h
    simp only at h
    have e₀ : Evo d (mapSet d δ (.nonterm [] [] none [])) (fun _ => []) (fun _ => []) := by
      have hn : isNontermIn d δ = false := by simp [isNontermIn, hg]
      have := evo_set d δ (.nonterm [] [] none []) [] [] (fun _ => rfl) (fun _ => rfl)
        (fun e => by simp [Define.embedKeys, embedsAt_of_not_nonterm hn])
        (fun m _ => by simp [Define.consMap, consAt_of_not_nonterm hn])
        (fun m hm => by cases hm)
      exact evo_congr this (fun N m => by split <;> simp) (fun N m => by split <;> simp)
    have e₁ := body _ true
      (fun _ => by simp [isNontermIn, mapGet_mapSet_self, Define.isNonterm]) h
    exact evo_congr (evo_seq e₀ e₁) (fun _ _ => by simp) (fun _ _ => by simp)
  | some x =>
    rw [hg] at h
    cases x with
    | nonterm _ _ _ _ =>
      simp only at h
      exact body d true (fun _ => by simp [isNontermIn, hg, Define.isNonterm]) h
    | term _ _ =>
      simp only at h
      rw [print_bind_res] at h
      exact body d false (fun hh => by cases hh) h

theorem deltaLoop_evo :
    ∀ (delta : List (String × Iface)) (d d' : List (String × Define)),
      (deltaLoop delta d).res = .ok d' →
      Evo d d' (ownEmbeds delta) (ownCons delta) := by
  intro delta
  induction delta with
  | nil =>
    intro d d' h
    simp only [deltaLoop, emit_pure_def, Emit.pure, Except.ok.injEq] at h
    subst h
    exact evo_congr (evo_refl d) (fun _ _ => by simp [ownEmbeds]) (fun _ _ => by simp [ownCons])
  | cons x rest ih =>
    intro d d' h
    obtain ⟨δ, iface⟩ := x
    rw [deltaLoop] at h
    obtain ⟨d₁, h₁, h₂⟩ := bind_res_ok h
    have e₁ := applyDelta_evo d d₁ δ iface h₁
    have e₂ := ih d₁ d' h₂
    refine evo_congr (evo_seq e₁ e₂) (fun N e => ?_) (fun N m => ?_)
    · simp only [ownEmbeds, List.flatMap_cons, List.mem_append]
      by_cases hN : δ = N
      · subst hN; simp
      · have : ¬ N = δ := fun h => hN h.symm
        simp [hN, this]
    · simp only [ownCons, List.flatMap_cons, List.mem_append]
      by_cases hN : δ = N
      · subst hN; simp
      · have : ¬ N = δ := fun h => hN h.symm
        simp [hN, this]

theorem scanParams_delta :
    ∀ (tparams : List TypeParam) (c : List (String × List String)) (dl : List (String × Iface))
      (r : List (String × List String) × List (String × Iface)),
      scanParams tparams c dl = .ok r → r.2 = dl ++ deltasOf tparams := by
  intro tparams
  induction tparams with
  | nil =>
    intro c dl r h
    simp only [scanParams, Except.ok.injEq] at h
    subst h
    simp [deltasOf]
  | cons tp rest ih =>
    intro c dl r h
    rw [scanParams] at h
    cases hc : tp.constraint with
    | named command =>
      rw [hc] at h
      rw [ih _ _ _ h]
      simp [deltasOf, List.filterMap_cons, hc]
    | iface i =>
      rw [hc] at h
      rw [ih _ _ _ h]
      simp [deltasOf, List.filterMap_cons, hc]
    | other => rw [hc] at h; cases h

theorem embedNames_eq :
    ∀ (l : List GoType) (names : List String), embedNames l = .ok names → names = anyEmbeds l := by
  intro l
  induction l with
  | nil =>
    intro names h
    simp only [embedNames, Except.ok.injEq] at h
    subst h
    rfl
  | cons t rest ih =>
    intro names h
    rw [embedNames] at h
    cases ht : (stripPointers t).2 with
    | typeParam name =>
      rw [ht] at h
      simp only at h
      cases hr : embedNames rest with
      | error e => rw [hr] at h; cases h
      | ok ns =>
        rw [hr] at h
        simp only [Except.ok.injEq] at h
        subst h
        rw [ih ns hr]
        simp [anyEmbeds, List.filterMap_cons, ht]
    | pointer _ => rw [ht] at h; cases h
    | struct _ => rw [ht] at h; cases h
    | named _ => rw [ht] at h; cases h
    | other _ => rw [ht] at h; cases h

theorem clobbers_eq :
    ∀ (delta : List (String × Iface)) (cl : List String × List String),
      clobbers delta = .ok cl → cl.1 = allEmbeds delta ∧ cl.2 = allMethods delta := by
  intro delta
  induction delta with
  | nil =>
    intro cl h
    simp only [clobbers, Except.ok.injEq] at h
    subst h
    exact ⟨rfl, rfl⟩
  | cons x rest ih =>
    intro cl h
    obtain ⟨δ, iface⟩ := x
    rw [clobbers] at h
    cases himp : iface.implicit with
    | true =>
      rw [himp] at h
      simp only [if_true] at h
      obtain ⟨h₁, h₂⟩ := ih cl h
      exact ⟨by rw [h₁]; simp [allEmbeds, List.flatMap_cons, himp],
        by rw [h₂]; simp [allMethods, List.flatMap_cons, himp]⟩
    | false =>
      rw [himp] at h
      simp only [Bool.false_eq_true, if_false] at h
      cases hn : embedNames iface.embeddeds with
      | error e => rw [hn] at h; cases h
      | ok names =>
        rw [hn] at h
        simp only at h
        cases hr : clobbers rest with
        | error e => rw [hr] at h; cases h
        | ok cl' =>
          rw [hr] at h
          simp only [Except.ok.injEq] at h
          subst h
          obtain ⟨h₁, h₂⟩ := ih cl' hr
          exact ⟨by simp [allEmbeds, List.flatMap_cons, himp, h₁, embedNames_eq _ _ hn],
            by simp [allMethods, List.flatMap_cons, himp, h₂]⟩

theorem embedsAt_copy (defs : List (String × Define)) (N : String) :
    embedsAt (defs.map (fun p => (p.1, p.2.copy))) N = embedsAt defs N := by
  unfold embedsAt
  rw [mapGet_map_val]
  cases mapGet defs N with
  | none => rfl
  | some x => simp [copy_embedKeys]

theorem consAt_copy (defs : List (String × Define)) (N : String) :
    consAt (defs.map (fun p => (p.1, p.2.copy))) N = consAt defs N := by
  unfold consAt
  rw [mapGet_map_val]
  cases mapGet defs N with
  | none => rfl
  | some x => simp [copy_consMap]

theorem clean_copy (defs : List (String × Define)) :
    Clean (defs.map (fun p => (p.1, p.2.copy))) := by
  intro N x hx
  rw [mapGet_map_val] at hx
  cases hg : mapGet defs N with
  | none => rw [hg] at hx; cases hx
  | some y =>
    rw [hg] at hx
    simp only [Option.map_some', Option.some.injEq] at hx
    subst hx
    cases y <;> rfl

theorem embedsAt_clobber (ec cc : List String) (defs : List (String × Define)) (N e : String) :
    e ∈ embedsAt (defs.map (fun p => (p.1, p.2.clobber ec cc))) N ↔
      e ∈ embedsAt defs N ∧ e ∉ ec := by
  unfold embedsAt
  rw [mapGet_map_val]
  cases mapGet defs N with
  | none => simp
  | some x =>
    cases x with
    | term _ _ => simp [Define.clobber, Define.embedKeys]
    | nonterm embeds cons str ia =>
      simp only [Option.map_some', Define.clobber, Define.embedKeys]
      exact keys_foldl_mapDelete ec embeds e

theorem consAt_clobber (ec cc : List String) (defs : List (String × Define)) (N m : String) :
    mapGet (consAt (defs.map (fun p => (p.1, p.2.clobber ec cc))) N) m =
      if m ∈ cc then none else mapGet (consAt defs N) m := by
  unfold consAt
  rw [mapGet_map_val]
  cases mapGet defs N with
  | none => simp [mapGet]
  | some x =>
    cases x with
    | term _ _ => simp [Define.clobber, Define.consMap, mapGet]
    | nonterm embeds cons str ia =>
      simp only [Option.map_some', Define.clobber, Define.consMap]
      exact mapGet_foldl_mapDelete cc cons m

theorem clean_clobber (ec cc : List String) (defs : List (String × Define)) (h : Clean defs) :
    Clean (defs.map (fun p => (p.1, p.2.clobber ec cc))) := by
  intro N x hx
  rw [mapGet_map_val] at hx
  cases hg : mapGet defs N with
  | none => rw [hg] at hx; cases hx
  | some y =>
    rw [hg] at hx
    simp only [Option.map_some', Option.some.injEq] at hx
    subst hx
    have := h N y hg
    cases y <;> exact this

/-- The definitions before `flood` runs: no `isAlso` has an entry, and the
embeds and constructors of every definition that is left are those of the
previous language without the clobbered names, and the ones of its own
delta. -/
theorem extendPre_spec (L0 : Lang) (langName : String) (tparams : List TypeParam)
    (r : List (String × Define) × List (String × List String))
    (h : (extendPre L0 langName tparams).res = .ok r) :
    Clean r.1 ∧ ∀ N, (mapGet r.1 N).isSome = true →
      (∀ e, e ∈ embedsAt r.1 N ↔
        (e ∈ embedsAt L0.defs N ∧ e ∉ allEmbeds (deltasOf tparams)) ∨
          e ∈ ownEmbeds (deltasOf tparams) N) ∧
      (∀ m, m ∉ ownCons (deltasOf tparams) N → mapGet (consAt r.1 N) m =
        if m ∈ allMethods (deltasOf tparams) then none else mapGet (consAt L0.defs N) m) ∧
      (∀ m, m ∈ ownCons (deltasOf tparams) N → (mapGet (consAt r.1 N) m).isSome = true) := by
  unfold extendPre at h
  simp only at h
  cases hsc : scanParams tparams [] [] with
  | error e => rw [hsc] at h; cases h
  | ok cd =>
    obtain ⟨commands, delta⟩ := cd
    rw [hsc] at h
    simp only at h
    have hdelta : delta = deltasOf tparams := by
      simpa using scanParams_delta tparams [] [] _ hsc
    subst hdelta
    obtain ⟨_, _, h⟩ := bind_res_ok h
    obtain ⟨d₁, hd₁, h⟩ := bind_res_ok h
    obtain ⟨d₂, hd₂, h⟩ := bind_res_ok h
    obtain ⟨cl, hcl, h⟩ := bind_res_ok h
    obtain ⟨d₄, hd₄, h⟩ := bind_res_ok h
    simp only [Emit.pure, Except.ok.injEq] at h
    subst h
    simp only [liftE] at hcl
    obtain ⟨hec, hcc⟩ := clobbers_eq _ cl hcl
    have e₁₂ := evo_trans (defineLoop_evo langName _ _ d₁ hd₁)
      (redefineLoop_evo langName _ d₁ d₂ hd₂)
    have e₃₄ := deltaLoop_evo (deltasOf tparams) _ d₄ hd₄
    have hclean₄ : Clean d₄ :=
      e₃₄.1 (clean_clobber _ _ _ (e₁₂.1 (clean_copy L0.defs)))
    refine ⟨?_, ?_⟩
    · intro N x hx
      rw [mapGet_foldl_mapDelete] at hx
      split at hx
      · cases hx
      · exact hclean₄ N x hx
    · intro N hN
      simp only at hN
      rw [mapGet_foldl_mapDelete] at hN
      have hkeep : mapGet (List.foldl mapDelete d₄
          (take (take (take (take commands "inherit").2 "define").2 "redefine").2 "omit").1) N =
          mapGet d₄ N := by
        rw [mapGet_foldl_mapDelete]
        split
        · rename_i hmem
          simp [hmem] at hN
        · rfl
      have hE : ∀ e, e ∈ embedsAt d₄ N ↔
          (e ∈ embedsAt L0.defs N ∧ e ∉ allEmbeds (deltasOf tparams)) ∨
            e ∈ ownEmbeds (deltasOf tparams) N := by
        intro e
        rw [e₃₄.2.2.1 N e, embedsAt_clobber, e₁₂.2.2.1 N e, embedsAt_copy, hec]
        simp
      have hM : ∀ m, m ∉ ownCons (deltasOf tparams) N → mapGet (consAt d₄ N) m =
          if m ∈ allMethods (deltasOf tparams) then none else mapGet (consAt L0.defs N) m := by
        intro m hm
        rw [e₃₄.2.2.2.1 N m hm, consAt_clobber, e₁₂.2.2.2.1 N m (by simp), consAt_copy, hcc]
      refine ⟨?_, ?_, ?_⟩
      · intro e
        simp only [embedsAt, hkeep]
        exact hE e
      · intro m hm
        simp only [consAt, hkeep]
        exact hM m hm
      · intro m hm
        simp only [consAt, hkeep]
        exact e₃₄.2.2.2.2 N m hm

theorem floodEmbed_fold_shape (also : String)
    (rec : List (String × Define) → String → Option (List (String × Define)))
    (hrec : ∀ d n d', rec d n = some d' → Shape d d') :
    ∀ (l : List String) (d d' : List (String × Define)),
      l.foldlM (floodEmbed also rec) d = some d' → Shape d d' := by
  intro l
  induction l with
  | nil =>
    intro d d' h
    simp only [List.foldlM_nil, Option.pure_def, Option.some.injEq] at h
    subst h
    exact shape_refl d
  | cons e rest ih =>
    intro d d' h
    rw [List.foldlM_cons] at h
    cases hstep : floodEmbed also rec d e with
    | none => rw [hstep] at h; cases h
    | some d₁ =>
      rw [hstep] at h
      have hs₁ : Shape d d₁ := by
        unfold floodEmbed at hstep
        cases hg : mapGet d e with
        | none =>
          rw [hg] at hstep
          simp only [Option.some.injEq] at hstep
          subst hstep
          exact shape_refl d
        | some x =>
          rw [hg] at hstep
          cases x with
          | term pass ia =>
            simp only [Option.some.injEq] at hstep
            subst hstep
            exact shape_mark d e also (.term pass ia) hg
          | nonterm _ _ _ _ => exact hrec d e d₁ hstep
      exact shape_trans hs₁ (ih d₁ d' h)

theorem flood_shape (sh : List String → List String) (also : String) :
    ∀ (fuel : Nat) (d : List (String × Define)) (n : String) (d' : List (String × Define)),
      flood sh also fuel d n = some d' → Shape d d' := by
  intro fuel
  induction fuel with
  | zero => intro d n d' h; cases h
  | succ fuel ih =>
    intro d n d' h
    rw [flood] at h
    cases hg : mapGet d n with
    | none =>
      rw [hg] at h
      simp only [Option.some.injEq] at h
      subst h
      exact shape_refl d
    | some x =>
      rw [hg] at h
      cases x with
      | term _ _ =>
        simp only [Option.some.injEq] at h
        subst h
        exact shape_refl d
      | nonterm embeds cons str ia =>
        simp only at h
        split at h
        · simp only [Option.some.injEq] at h
          subst h
          exact shape_refl d
        · exact shape_trans (shape_mark d n also (.nonterm embeds cons str ia) hg)
            (floodEmbed_fold_shape also _ ih _ _ d' h)

theorem floodAll_shape (sh : List String → List String) (fuel : Nat)
    (d d' : List (String × Define)) (h : floodAll sh fuel d = some d') : Shape d d' := by
  unfold floodAll at h
  have key : ∀ (l : List String) (d₀ d₁ : List (String × Define)),
      l.foldlM (floodDef sh fuel) d₀ = some d₁ → Shape d₀ d₁ := by
    intro l
    induction l with
    | nil =>
      intro d₀ d₁ h
      simp only [List.foldlM_nil, Option.pure_def, Option.some.injEq] at h
      subst h
      exact shape_refl d₀
    | cons N rest ih =>
      intro d₀ d₁ h
      rw [List.foldlM_cons] at h
      cases hstep : floodDef sh fuel d₀ N with
      | none => rw [hstep] at h; cases h
      | some d₂ =>
        rw [hstep] at h
        have hs : Shape d₀ d₂ := by
          unfold floodDef at hstep
          split at hstep
          · exact flood_shape sh N fuel d₀ N d₂ hstep
          · simp only [Option.some.injEq] at hstep
            subst hstep
            exact shape_refl d₀
        exact shape_trans hs (ih d₂ d₁ h)
  exact key _ d d' h

theorem extend_res (sh : List String → List String) (fuel : Nat) (L0 : Lang)
    (langName : String) (tparams : List TypeParam)
    (r : List (String × Define) × List (String × List String)) (d' : List (String × Define))
    (hpre : (extendPre L0 langName tparams).res = .ok r)
    (hflood : floodAll sh fuel r.1 = some d') :
    (extend sh fuel L0 langName tparams).res = .ok ⟨langName, d'⟩ := by
  unfold extend
  rw [Emit.bind_res, hpre]
  simp only [hflood]
  rw [Emit.bind_res]
  split
  · rfl
  · rename_i e he
    split at he
    · cases he
    · cases he

theorem extend_ok (sh : List String → List String) (fuel : Nat) (L0 : Lang)
    (langName : String) (tparams : List TypeParam) (L : Lang)
    (h : (extend sh fuel L0 langName tparams).res = .ok L) :
    ∃ r d', (extendPre L0 langName tparams).res = .ok r ∧ floodAll sh fuel r.1 = some d' ∧
      L = ⟨langName, d'⟩ := by
  unfold extend at h
  obtain ⟨r, hr, h⟩ := bind_res_ok h
  cases hf : floodAll sh fuel r.1 with
  | none => rw [hf] at h; cases h
  | some d' =>
    have := extend_res sh fuel L0 langName tparams r d' hr hf
    unfold extend at this
    rw [Emit.bind_res, hr] at this
    simp only at this
    rw [this] at h
    simp only [Except.ok.injEq] at h
    exact ⟨r, d', hr, hf, h.symm⟩

theorem ownCons_subset (delta : List (String × Iface)) (N m : String)
    (h : m ∈ ownCons delta N) : m ∈ allMethods delta := by
  simp only [ownCons, allMethods, List.mem_flatMap] at h ⊢
  obtain ⟨x, hx, hm⟩ := h
  refine ⟨x, hx, ?_⟩
  split at hm
  · rename_i hc
    simp only [hc.2, if_true]
    simp only [ownM, List.mem_map, List.mem_filter] at hm
    obtain ⟨y, hy, rfl⟩ := hm
    exact List.mem_map_of_mem _ hy.1
  · cases hm

/-- The embeds and constructors of a definition of the returned language,
from those of the previous language. -/
theorem extend_spec (sh : List String → List String) (fuel : Nat) (L0 : Lang)
    (langName : String) (tparams : List TypeParam) (L : Lang)
    (hL : (extend sh fuel L0 langName tparams).res = .ok L) (N : String) (x : Define)
    (hN : mapGet L.defs N = some x) :
    (∀ e, e ∈ x.embedKeys ↔
      (e ∈ embedsAt L0.defs N ∧ e ∉ allEmbeds (deltasOf tparams)) ∨
        e ∈ ownEmbeds (deltasOf tparams) N) ∧
    (∀ m, m ∉ ownCons (deltasOf tparams) N → mapGet x.consMap m =
      if m ∈ allMethods (deltasOf tparams) then none else mapGet (consAt L0.defs N) m) ∧
    (∀ m, m ∈ ownCons (deltasOf tparams) N → (mapGet x.consMap m).isSome = true) := by
  obtain ⟨r, d', hr, hf, rfl⟩ := extend_ok sh fuel L0 langName tparams L hL
  have hs := floodAll_shape sh fuel r.1 d' hf
  obtain ⟨y, hy, hc⟩ := shape_get_inv hs hN
  have hsome : (mapGet r.1 N).isSome = true := by rw [hy]; rfl
  obtain ⟨h₁, h₂, h₃⟩ := (extendPre_spec L0 langName tparams r hr).2 N hsome
  have he : x.embedKeys = embedsAt r.1 N := by
    simp only [embedsAt, hy]
    rw [← copy_embedKeys x, hc, copy_embedKeys]
  have hm : x.consMap = consAt r.1 N := by
    simp only [consAt, hy]
    rw [← copy_consMap x, hc, copy_consMap]
  rw [he, hm]
  exact ⟨h₁, h₂, h₃⟩

theorem clean_isAlsoOf {defs : List (String × Define)} (h : Clean defs) (D A : String) :
    isAlsoOf defs D A = false := by
  unfold isAlsoOf
  cases hg : mapGet defs D with
  | none => rfl
  | some d => simp [h D d hg, mapGet]

/-- C28. Also-is closure.  When `extend` reaches `flood` (no run-time panic
before it), then with a step budget above the number of definitions, and
whatever the order in which the maps are ranged over, `extend` returns a
language `L`, and for all names `D` and `N`: `N` is in the `isAlso` of `D`
exactly when `N` is a non-terminal of `L` and `D` is `N` or is reached from
`N` by embeds edges through non-terminals of `L`.  Nothing is asked of the
embeds graph, which may be cyclic. -/
theorem isAlso_closure (sh : List String → List String) (hsh : ∀ l, (sh l).Perm l)
    (L0 : Lang) (langName : String) (tparams : List TypeParam)
    (r : List (String × Define) × List (String × List String))
    (hpre : (extendPre L0 langName tparams).res = .ok r)
    (fuel : Nat) (hfuel : r.1.length < fuel) :
    ∃ L, (extend sh fuel L0 langName tparams).res = .ok L ∧ L.name = langName ∧
      ∀ N D, isAlsoOf L.defs D N = true ↔
        (isNontermIn L.defs N = true ∧ Reach L.defs N D) := by
  have hclean := (extendPre_spec L0 langName tparams r hpre).1
  obtain ⟨d', hf, hs, hchar⟩ := floodAll_post sh hsh fuel r.1 hfuel
    (fun D A => clean_isAlsoOf hclean D A)
  refine ⟨⟨langName, d'⟩, extend_res sh fuel L0 langName tparams r d' hpre hf, rfl, ?_⟩
  intro N D
  rw [hchar N D, shape_isNontermIn hs]
  constructor
  · rintro ⟨h₁, h₂⟩
    exact ⟨h₁, shape_reach hs h₂⟩
  · rintro ⟨h₁, h₂⟩
    exact ⟨h₁, shape_reach (shape_symm hs) h₂⟩

/-- C28 at a concrete input: the extension of `exL0` by `exParams`, in which
`Datum` embeds `Const` and `Expr` no longer does. -/
theorem isAlso_closure_witness :
    (extend id 5 exL0 "L1" exParams).res = .ok exL1 ∧
    ∃ L, (extend id 5 exL0 "L1" exParams).res = .ok L ∧ L.name = "L1" ∧
      ∀ N D, isAlsoOf L.defs D N = true ↔
        (isNontermIn L.defs N = true ∧ Reach L.defs N D) :=
  ⟨by rfl, isAlso_closure id (fun l => List.Perm.refl l) exL0 "L1" exParams exPre (by rfl) 5
    (by decide)⟩

/-- C29. Constructor evolution.  In the language that `extend` returns, a
name is a constructor of the non-terminal `N` exactly when it was one in the
previous language and is a method of no delta of the extension, or the own
delta of `N` declares it without a result.  A constructor that is a method of
no delta keeps its signature; and a method of some delta that the own delta
of `N` does not declare without a result (such as one declared with the
result `omit`) is not a constructor of `N`. -/
theorem cons_evolution (sh : List String → List String) (fuel : Nat) (L0 : Lang)
    (langName : String) (tparams : List TypeParam) (L : Lang)
    (hL : (extend sh fuel L0 langName tparams).res = .ok L) (N : String)
    (embeds : List (String × Bool)) (cons : List (String × Signature)) (str : Option String)
    (isAlso : List (String × Bool))
    (hN : mapGet L.defs N = some (.nonterm embeds cons str isAlso)) :
    (∀ m, (mapGet cons m).isSome = true ↔
      ((mapGet (consAt L0.defs N) m).isSome = true ∧ m ∉ allMethods (deltasOf tparams)) ∨
        m ∈ ownCons (deltasOf tparams) N) ∧
    (∀ m, m ∉ allMethods (deltasOf tparams) → mapGet cons m = mapGet (consAt L0.defs N) m) ∧
    (∀ m, m ∈ allMethods (deltasOf tparams) → m ∉ ownCons (deltasOf tparams) N →
      mapGet cons m = none) := by
  obtain ⟨_, h₂, h₃⟩ := extend_spec sh fuel L0 langName tparams L hL N _ hN
  simp only [Define.consMap] at h₂ h₃
  refine ⟨fun m => ?_, fun m hm => ?_, fun m hm hm' => ?_⟩
  · by_cases ho : m ∈ ownCons (deltasOf tparams) N
    · simp [ho, h₃ m ho]
    · rw [h₂ m ho]
      by_cases ha : m ∈ allMethods (deltasOf tparams)
      · simp [ha, ho]
      · simp [ha, ho]
  · have ho : m ∉ ownCons (deltasOf tparams) N := fun h => hm (ownCons_subset _ N m h)
    rw [h₂ m ho]
    simp [hm]
  · rw [h₂ m hm']
    simp [hm]

/-- C29 at a concrete input: the non-terminal `Expr` of the extension of
`exL0` by `exParams`, whose delta declares `IfThen() omit`. -/
theorem cons_evolution_witness :
    (∀ m, (mapGet [("If", sigOf "(Cond, Then, Else Expr)")] m).isSome = true ↔
      ((mapGet (consAt exL0.defs "Expr") m).isSome = true ∧
        m ∉ allMethods (deltasOf exParams)) ∨ m ∈ ownCons (deltasOf exParams) "Expr") ∧
    (∀ m, m ∉ allMethods (deltasOf exParams) →
      mapGet [("If", sigOf "(Cond, Then, Else Expr)")] m = mapGet (consAt exL0.defs "Expr") m) ∧
    (∀ m, m ∈ allMethods (deltasOf exParams) → m ∉ ownCons (deltasOf exParams) "Expr" →
      mapGet [("If", sigOf "(Cond, Then, Else Expr)")] m = none) :=
  cons_evolution id 5 exL0 "L1" exParams exL1 (by rfl) "Expr" [("Primitive", true)]
    [("If", sigOf "(Cond, Then, Else Expr)")] none [("Expr", true)] (by rfl)

/-- C30. Embedding evolution.  In the language that `extend` returns, a name
is in the embeds of the non-terminal `N` exactly when it was there in the
previous language and no delta of the extension embeds it at any pointer
depth, or the own delta of `N` embeds it with exactly one pointer level.  So
a name that the own delta of `N` embeds as `*X` is in the embeds of `N`; and
a name that some delta embeds (as `**X`, say) is in the embeds of no
non-terminal, those apart whose own delta embeds it as `*X`. -/
theorem embeds_evolution (sh : List String → List String) (fuel : Nat) (L0 : Lang)
    (langName : String) (tparams : List TypeParam) (L : Lang)
    (hL : (extend sh fuel L0 langName tparams).res = .ok L) (N : String)
    (embeds : List (String × Bool)) (cons : List (String × Signature)) (str : Option String)
    (isAlso : List (String × Bool))
    (hN : mapGet L.defs N = some (.nonterm embeds cons str isAlso)) :
    (∀ e, e ∈ embeds.map Prod.fst ↔
      (e ∈ embedsAt L0.defs N ∧ e ∉ allEmbeds (deltasOf tparams)) ∨
        e ∈ ownEmbeds (deltasOf tparams) N) ∧
    (∀ X, X ∈ ownEmbeds (deltasOf tparams) N → X ∈ embeds.map Prod.fst) ∧
    (∀ X, X ∈ allEmbeds (deltasOf tparams) → X ∉ ownEmbeds (deltasOf tparams) N →
      X ∉ embeds.map Prod.fst) := by
  obtain ⟨h₁, _, _⟩ := extend_spec sh fuel L0 langName tparams L hL N _ hN
  simp only [Define.embedKeys] at h₁
  refine ⟨h₁, fun X hX => (h₁ X).mpr (Or.inr hX), fun X hX hX' hmem => ?_⟩
  rcases (h₁ X).mp hmem with ⟨_, h⟩ | h
  · exact h hX
  · exact hX' h

/-- C30 at a concrete input: the non-terminal `Datum` of the extension of
`exL0` by `exParams`; the delta of `Expr` embeds `**Const` and the own delta
of `Datum` embeds `*Const`. -/
theorem embeds_evolution_witness :
    (∀ e, e ∈ [("Const", true)].map Prod.fst ↔
      (e ∈ embedsAt exL0.defs "Datum" ∧ e ∉ allEmbeds (deltasOf exParams)) ∨
        e ∈ ownEmbeds (deltasOf exParams) "Datum") ∧
    (∀ X, X ∈ ownEmbeds (deltasOf exParams) "Datum" → X ∈ [("Const", true)].map Prod.fst) ∧
    (∀ X, X ∈ allEmbeds (deltasOf exParams) → X ∉ ownEmbeds (deltasOf exParams) "Datum" →
      X ∉ [("Const", true)].map Prod.fst) :=
  embeds_evolution id 5 exL0 "L1" exParams exL1 (by rfl) "Datum" [("Const", true)]
    [("Pair", sigOf "(Car, Cdr Datum)")] none [("Datum", true)] (by rfl)

/-! ## The uniqueness of constructors -/

theorem mapGet_mem {β : Type} (m : List (String × β)) (k : String) (v : β)
    (h : mapGet m k = some v) : (k, v) ∈ m := by
  induction m with
  | nil => cases h
  | cons p rest ih =>
    obtain ⟨k', v'⟩ := p
    by_cases hk : k' = k
    · subst hk
      simp only [mapGet, if_true, Option.some.injEq] at h
      subst h
      exact List.mem_cons_self _ _
    · simp only [mapGet, hk, if_false] at h
      exact List.mem_cons_of_mem _ (ih h)

theorem consAt_isSome {defs : List (String × Define)} {N m : String}
    (h : (mapGet (consAt defs N) m).isSome = true) :
    ∃ d, mapGet defs N = some d ∧ (N, d) ∈ defs ∧ m ∈ d.consMap.map Prod.fst := by
  unfold consAt at h
  cases hg : mapGet defs N with
  | none => rw [hg] at h; simp [mapGet] at h
  | some d =>
    rw [hg] at h
    refine ⟨d, rfl, mapGet_mem defs N d hg, ?_⟩
    apply (mapGet_isSome_iff d.consMap m).mp
    cases hv : mapGet d.consMap m with
    | none => rw [hv] at h; cases h
    | some v => exact ⟨v, rfl⟩

theorem uniqueCons_of_check (defs : List (String × Define))
    (h : uniqueConsCheck defs = true) : UniqueCons defs := by
  intro N₁ N₂ m h₁ h₂
  obtain ⟨d₁, _, hm₁, hc₁⟩ := consAt_isSome h₁
  obtain ⟨d₂, _, hm₂, hc₂⟩ := consAt_isSome h₂
  simp only [uniqueConsCheck, List.all_eq_true] at h
  obtain ⟨c, hc, hcm⟩ := List.mem_map.mp hc₁
  have := h _ hm₁ _ hm₂ c hc
  simp only [Bool.or_eq_true, Bool.not_eq_true', decide_eq_true_eq] at this
  rcases this with hn | he
  · rw [hcm] at hn
    have : (d₂.consMap.map Prod.fst).contains m = true := by
      simpa using hc₂
    rw [this] at hn
    cases hn
  · exact he

/-- C39. Constructor uniqueness.  When every constructor name of the
previous language is in the constructor set of at most one definition, and no
name is declared without a result in the deltas of two different names of the
extension, the same holds in the language that `extend` returns; a name that
the own delta of `N₂` declares without a result is then a constructor of `N₂`
and of no other definition, wherever it was before.  The empty language has
the invariant. -/
theorem cons_unique (sh : List String → List String) (fuel : Nat) (L0 : Lang)
    (langName : String) (tparams : List TypeParam) (L : Lang)
    (hL : (extend sh fuel L0 langName tparams).res = .ok L)
    (h₀ : UniqueCons L0.defs) (hΔ : DisjointDeltas (deltasOf tparams)) :
    UniqueCons L.defs ∧
    (∀ N₁ N₂ m, m ∈ ownCons (deltasOf tparams) N₂ → N₁ ≠ N₂ →
      mapGet (consAt L.defs N₁) m = none ∧
      ((mapGet L.defs N₂).isSome = true → (mapGet (consAt L.defs N₂) m).isSome = true)) ∧
    UniqueCons emptyLang.defs := by
  have key : ∀ N m, (mapGet (consAt L.defs N) m).isSome = true →
      ((mapGet (consAt L0.defs N) m).isSome = true ∧ m ∉ allMethods (deltasOf tparams)) ∨
        m ∈ ownCons (deltasOf tparams) N := by
    intro N m hm
    obtain ⟨d, hd, _, _⟩ := consAt_isSome hm
    obtain ⟨_, h₂, _⟩ := extend_spec sh fuel L0 langName tparams L hL N d hd
    by_cases ho : m ∈ ownCons (deltasOf tparams) N
    · exact Or.inr ho
    · left
      simp only [consAt, hd] at hm
      rw [h₂ m ho] at hm
      split at hm
      · cases hm
      · rename_i ha
        exact ⟨hm, ha⟩
  refine ⟨?_, ?_, ?_⟩
  · intro N₁ N₂ m h₁ h₂
    rcases key N₁ m h₁ with ⟨p₁, a₁⟩ | o₁
    · rcases key N₂ m h₂ with ⟨p₂, _⟩ | o₂
      · exact h₀ N₁ N₂ m p₁ p₂
      · exact absurd (ownCons_subset _ N₂ m o₂) a₁
    · rcases key N₂ m h₂ with ⟨_, a₂⟩ | o₂
      · exact absurd (ownCons_subset _ N₁ m o₁) a₂
      · exact hΔ N₁ N₂ m o₁ o₂
  · intro N₁ N₂ m ho hne
    constructor
    · cases hv : mapGet (consAt L.defs N₁) m with
      | none => rfl
      | some v =>
        have hs : (mapGet (consAt L.defs N₁) m).isSome = true := by rw [hv]; rfl
        rcases key N₁ m hs with ⟨_, a₁⟩ | o₁
        · exact absurd (ownCons_subset _ N₂ m ho) a₁
        · exact absurd (hΔ N₁ N₂ m o₁ ho) hne
    · intro hdef
      cases hd : mapGet L.defs N₂ with
      | none => rw [hd] at hdef; cases hdef
      | some d =>
        obtain ⟨_, _, h₃⟩ := extend_spec sh fuel L0 langName tparams L hL N₂ d hd
        simp only [consAt, hd]
        exact h₃ m ho
  · intro N₁ N₂ m h₁ _
    simp [emptyLang, consAt, mapGet] at h₁

/-- C39 at a concrete input: the extension of `exL0` by `exParamsMove`,
which moves the constructor `If` from `Expr` to `Datum`. -/
theorem cons_unique_witness :
    UniqueCons exL2.defs ∧
    (∀ N₁ N₂ m, m ∈ ownCons (deltasOf exParamsMove) N₂ → N₁ ≠ N₂ →
      mapGet (consAt exL2.defs N₁) m = none ∧
      ((mapGet exL2.defs N₂).isSome = true → (mapGet (consAt exL2.defs N₂) m).isSome = true)) ∧
    UniqueCons emptyLang.defs :=
  cons_unique id 5 exL0 "L2" exParamsMove exL2 (by rfl)
    (uniqueCons_of_check exL0.defs (by decide))
    (fun N₁ N₂ m h₁ h₂ => by
      simp [ownCons, deltasOf, exParamsMove, ownM, sigOf] at h₁ h₂
      rw [← h₁.1, ← h₂.1])

/-! ## Run-time faults of `extend` -/

theorem scanParams_commands (key : String) :
    ∀ (tparams : List TypeParam) (c : List (String × List String))
      (dl : List (String × Iface)),
      (∀ tp ∈ tparams, tp.constraint ≠ .other) →
      ∃ r, scanParams tparams c dl = .ok r ∧
        (mapGet r.1 key).getD [] = (mapGet c key).getD [] ++ commandNames tparams key := by
  intro tparams
  induction tparams with
  | nil =>
    intro c dl _
    exact ⟨(c, dl), rfl, by simp [commandNames]⟩
  | cons tp rest ih =>
    intro c dl hno
    have hrest : ∀ tp ∈ rest, tp.constraint ≠ .other :=
      fun t ht => hno t (List.mem_cons_of_mem _ ht)
    rw [scanParams]
    cases hc : tp.constraint with
    | named command =>
      simp only
      obtain ⟨r, hr, hk⟩ := ih (mapSet c command ((mapGet c command).getD [] ++ [tp.name]))
        dl hrest
      refine ⟨r, hr, ?_⟩
      rw [hk]
      by_cases hck : command = key
      · subst hck
        simp [commandNames, List.filterMap_cons, hc, mapGet_mapSet_self]
      · have hkc : ¬ key = command := fun h => hck h.symm
        rw [mapGet_mapSet_other _ _ _ _ hkc]
        simp [commandNames, List.filterMap_cons, hc, hck]
    | iface i =>
      simp only
      obtain ⟨r, hr, hk⟩ := ih c (dl ++ [(tp.name, i)]) hrest
      exact ⟨r, hr, by rw [hk]; simp [commandNames, List.filterMap_cons, hc]⟩
    | other => exact absurd hc (hno tp (List.mem_cons_self _ _))

theorem inheritLoop_res (defs : List (String × Define)) :
    ∀ names : List String, (inheritLoop defs names).res = .ok () := by
  intro names
  induction names with
  | nil => rfl
  | cons n rest ih =>
    rw [inheritLoop]
    split
    · rw [print_bind_res]; exact ih
    · exact ih

theorem defineLoop_res (langName : String) :
    ∀ (names : List String) (d : List (String × Define)),
      ∃ d', (defineLoop langName names d).res = .ok d' ∧
        ∀ N, isTermIn d' N = true → isTermIn d N = true ∨ N ∈ names := by
  intro names
  induction names with
  | nil => intro d; exact ⟨d, rfl, fun N h => Or.inl h⟩
  | cons n rest ih =>
    intro d
    rw [defineLoop]
    cases hg : mapGet d n with
    | none =>
      simp only
      obtain ⟨d', h', ht⟩ := ih (mapSet d n (.term langName []))
      refine ⟨d', h', fun N hN => ?_⟩
      rcases ht N hN with h | h
      · by_cases hNn : N = n
        · exact Or.inr (hNn ▸ List.mem_cons_self _ _)
        · left
          simpa only [isTermIn, mapGet_mapSet_other _ _ _ _ hNn] using h
      · exact Or.inr (List.mem_cons_of_mem _ h)
    | some x =>
      simp only
      rw [print_bind_res]
      obtain ⟨d', h', ht⟩ := ih d
      refine ⟨d', h', fun N hN => ?_⟩
      rcases ht N hN with h | h
      · exact Or.inl h
      · exact Or.inr (List.mem_cons_of_mem _ h)

theorem redefineLoop_res (langName : String) :
    ∀ (names : List String) (d : List (String × Define)),
      ∃ d', (redefineLoop langName names d).res = .ok d' ∧
        ∀ N, isTermIn d' N = true → isTermIn d N = true := by
  intro names
  induction names with
  | nil => intro d; exact ⟨d, rfl, fun N h => h⟩
  | cons n rest ih =>
    intro d
    rw [redefineLoop]
    cases hg : mapGet d n with
    | none =>
      simp only
      rw [print_bind_res]
      exact ih d
    | some x =>
      cases x with
      | term p ia =>
        simp only
        obtain ⟨d', h', ht⟩ := ih (mapSet d n (.term langName []))
        refine ⟨d', h', fun N hN => ?_⟩
        have := ht N hN
        by_cases hNn : N = n
        · subst hNn; simp [isTermIn, hg]
        · simpa only [isTermIn, mapGet_mapSet_other _ _ _ _ hNn] using this
      | nonterm _ _ _ _ =>
        simp only
        rw [print_bind_res]
        exact ih d

theorem embedNames_ok :
    ∀ l : List GoType, l.all embedsParam = true → ∃ names, embedNames l = .ok names := by
  intro l
  induction l with
  | nil => intro _; exact ⟨[], rfl⟩
  | cons t rest ih =>
    intro h
    simp only [List.all_cons, Bool.and_eq_true] at h
    obtain ⟨names, hn⟩ := ih h.2
    have ht := h.1
    unfold embedsParam at ht
    rw [embedNames]
    split at ht
    · simp only [hn]
      exact ⟨_, rfl⟩
    · cases ht

theorem clobbers_ok :
    ∀ delta : List (String × Iface), (∀ d ∈ delta, wellShaped d.2 = true) →
      ∃ cl, clobbers delta = .ok cl := by
  intro delta
  induction delta with
  | nil => intro _; exact ⟨_, rfl⟩
  | cons x rest ih =>
    intro h
    obtain ⟨δ, iface⟩ := x
    obtain ⟨cl, hcl⟩ := ih (fun d hd => h d (List.mem_cons_of_mem _ hd))
    have hw := h (δ, iface) (List.mem_cons_self _ _)
    rw [clobbers]
    cases himp : iface.implicit with
    | true => simp only [if_true]; exact ⟨cl, hcl⟩
    | false =>
      simp only [Bool.false_eq_true, if_false]
      simp only [wellShaped, himp, Bool.false_eq_true, if_false, Bool.and_eq_true] at hw
      obtain ⟨names, hn⟩ := embedNames_ok _ hw.1
      rw [hn, hcl]
      exact ⟨_, rfl⟩

theorem isTermIn_setEmbed (d : List (String × Define)) (δ e N : String) :
    isTermIn (setEmbed d δ e) N = isTermIn d N := by
  unfold setEmbed
  cases hg : mapGet d δ with
  | none => rfl
  | some x =>
    cases x with
    | term _ _ => rfl
    | nonterm _ _ _ _ =>
      simp only
      by_cases hN : N = δ
      · subst hN; simp [isTermIn, mapGet_mapSet_self, hg]
      · simp only [isTermIn, mapGet_mapSet_other _ _ _ _ hN]

theorem isTermIn_setCon (d : List (String × Define)) (δ c N : String) (sig : Signature) :
    isTermIn (setCon d δ c sig) N = isTermIn d N := by
  unfold setCon
  cases hg : mapGet d δ with
  | none => rfl
  | some x =>
    cases x with
    | term _ _ => rfl
    | nonterm _ _ _ _ =>
      simp only
      by_cases hN : N = δ
      · subst hN; simp [isTermIn, mapGet_mapSet_self, hg]
      · simp only [isTermIn, mapGet_mapSet_other _ _ _ _ hN]

theorem isTermIn_setStr (d : List (String × Define)) (δ s N : String) :
    isTermIn (setStr d δ s) N = isTermIn d N := by
  unfold setStr
  cases hg : mapGet d δ with
  | none => rfl
  | some x =>
    cases x with
    | term _ _ => rfl
    | nonterm _ _ _ _ =>
      simp only
      by_cases hN : N = δ
      · subst hN; simp [isTermIn, mapGet_mapSet_self, hg]
      · simp only [isTermIn, mapGet_mapSet_other _ _ _ _ hN]

theorem deltaEmbeds_ok (δ : String) :
    ∀ (l : List GoType) (d : List (String × Define)), l.all embedsParam = true →
      ∃ d', deltaEmbeds δ true l d = .ok d' ∧ ∀ N, isTermIn d' N = isTermIn d N := by
  intro l
  induction l with
  | nil => intro d _; exact ⟨d, rfl, fun _ => rfl⟩
  | cons t rest ih =>
    intro d h
    simp only [List.all_cons, Bool.and_eq_true] at h
    have ht := h.1
    unfold embedsParam at ht
    rw [deltaEmbeds]
    cases hsp : stripPointers t with
    | mk ptrs u =>
      rw [hsp] at ht
      cases u with
      | typeParam e =>
        simp only
        by_cases hp : ptrs = 1
        · simp only [hp, if_true]
          obtain ⟨d', hd', ht'⟩ := ih (setEmbed d δ e) h.2
          exact ⟨d', hd', fun N => by rw [ht' N, isTermIn_setEmbed]⟩
        · simp only [hp, if_false]
          exact ih d h.2
      | pointer _ => cases ht
      | struct _ => cases ht
      | named _ => cases ht
      | other _ => cases ht

theorem deltaMethods_ok (δ : String) :
    ∀ (l : List Method) (d : List (String × Define)),
      l.all (fun m => resultsOK m.sig.results) = true →
      ∃ d', (deltaMethods δ true l d).res = .ok d' ∧ ∀ N, isTermIn d' N = isTermIn d N := by
  intro l
  induction l with
  | nil => intro d _; exact ⟨d, rfl, fun _ => rfl⟩
  | cons con rest ih =>
    intro d h
    simp only [List.all_cons, Bool.and_eq_true] at h
    have hr := h.1
    rw [deltaMethods]
    cases hres : con.sig.results with
    | nil =>
      simp only [if_true]
      obtain ⟨d', hd', ht'⟩ := ih (setCon d δ con.name con.sig) h.2
      exact ⟨d', hd', fun N => by rw [ht' N, isTermIn_setCon]⟩
    | cons r rs =>
      rw [hres] at hr
      cases rs with
      | cons r' rs' =>
        simp only
        rw [print_bind_res]
        exact ih d h.2
      | nil =>
        cases r with
        | named name =>
          simp only
          split
          · rw [print_bind_res]
            exact ih d h.2
          · exact ih d h.2
        | pointer _ => cases hr
        | typeParam _ => cases hr
        | struct _ => cases hr
        | other _ => cases hr

theorem applyDelta_ok (d : List (String × Define)) (δ : String) (iface : Iface)
    (hterm : isTermIn d δ = false) (hw : wellShaped iface = true) :
    ∃ d', (applyDelta d (δ, iface)).res = .ok d' ∧
      ∀ N, isTermIn d' N = true → isTermIn d N = true := by
  have body : ∀ d₁ : List (String × Define),
      ∃ d', (if iface.implicit = true then
          if true = true then
            match iface.embeddeds.get? 0 with
            | some (.struct s) => (pure (setStr d₁ δ s) : Emit (List (String × Define)))
            | _ => fail .runtimePanic
          else fail .runtimePanic
        else
          match deltaEmbeds δ true iface.embeddeds d₁ with
          | .error e => fail e
          | .ok defs => deltaMethods δ true iface.methods defs).res = .ok d' ∧
        ∀ N, isTermIn d' N = isTermIn d₁ N := by
    intro d₁
    unfold wellShaped at hw
    cases himp : iface.implicit with
    | true =>
      rw [himp] at hw
      simp only [if_true] at hw ⊢
      split at hw
      · rename_i s hs
        exact ⟨_, rfl, fun N => isTermIn_setStr d₁ δ s N⟩
      · cases hw
    | false =>
      rw [himp] at hw
      simp only [Bool.false_eq_true, if_false, Bool.and_eq_true] at hw ⊢
      obtain ⟨d₂, h₂, t₂⟩ := deltaEmbeds_ok δ iface.embeddeds d₁ hw.1
      obtain ⟨d₃, h₃, t₃⟩ := deltaMethods_ok δ iface.methods d₂ hw.2
      rw [h₂]
      exact ⟨d₃, h₃, fun N => by rw [t₃ N, t₂ N]⟩
  unfold applyDelta
  simp only
  cases hg : mapGet d δ with
  | none =>
    simp only
    obtain ⟨d', h', t'⟩ := body (mapSet d δ (.nonterm [] [] none []))
    refine ⟨d', h', fun N hN => ?_⟩
    rw [t' N] at hN
    by_cases hNδ : N = δ
    · subst hNδ
      simp [isTermIn, mapGet_mapSet_self] at hN
    · simpa only [isTermIn, mapGet_mapSet_other _ _ _ _ hNδ] using hN
  | some x =>
    cases x with
    | nonterm _ _ _ _ =>
      simp only
      obtain ⟨d', h', t'⟩ := body d
      exact ⟨d', h', fun N hN => by rw [← t' N]; exact hN⟩
    | term _ _ => simp [isTermIn, hg] at hterm

theorem deltaLoop_ok :
    ∀ (delta : List (String × Iface)) (d : List (String × Define)),
      (∀ x ∈ delta, wellShaped x.2 = true ∧ isTermIn d x.1 = false) →
      ∃ d', (deltaLoop delta d).res = .ok d' := by
  intro delta
  induction delta with
  | nil => intro d _; exact ⟨d, rfl⟩
  | cons x rest ih =>
    intro d h
    obtain ⟨δ, iface⟩ := x
    obtain ⟨hw, ht⟩ := h (δ, iface) (List.mem_cons_self _ _)
    obtain ⟨d₁, h₁, t₁⟩ := applyDelta_ok d δ iface ht hw
    obtain ⟨d₂, h₂⟩ := ih d₁ (fun y hy => by
      obtain ⟨hw', ht'⟩ := h y (List.mem_cons_of_mem _ hy)
      refine ⟨hw', ?_⟩
      cases hc : isTermIn d₁ y.1 with
      | false => rfl
      | true => rw [t₁ y.1 hc] at ht'; cases ht')
    refine ⟨d₂, ?_⟩
    rw [deltaLoop, Emit.bind_res, h₁]
    exact h₂

theorem isTermIn_map (f : Define → Define) (hf : ∀ pass ia, ∃ ia', f (.term pass ia) = .term pass ia')
    (hn : ∀ e c s ia, ∃ e' c' s' ia', f (.nonterm e c s ia) = .nonterm e' c' s' ia')
    (d : List (String × Define)) (N : String) :
    isTermIn (d.map (fun p => (p.1, f p.2))) N = isTermIn d N := by
  unfold isTermIn
  rw [mapGet_map_val]
  cases mapGet d N with
  | none => rfl
  | some x =>
    cases x with
    | term pass ia =>
      obtain ⟨ia', h⟩ := hf pass ia
      simp [h]
    | nonterm e c s ia =>
      obtain ⟨e', c', s', ia', h⟩ := hn e c s ia
      simp [h]

theorem mem_deltasOf (tparams : List TypeParam) (x : String × Iface)
    (hx : x ∈ deltasOf tparams) :
    ∃ tp ∈ tparams, tp.constraint = .iface x.2 ∧ tp.name = x.1 := by
  simp only [deltasOf, List.mem_filterMap] at hx
  obtain ⟨tp, htp, h⟩ := hx
  refine ⟨tp, htp, ?_⟩
  cases hc : tp.constraint with
  | named _ => rw [hc] at h; cases h
  | other => rw [hc] at h; cases h
  | iface i =>
    rw [hc] at h
    simp only [Option.some.injEq] at h
    subst h
    exact ⟨rfl, rfl⟩

/-- Under `extendOK` the phases of `extend` before `flood` all return. -/
theorem extendPre_ok (L0 : Lang) (langName : String) (tparams : List TypeParam)
    (h : extendOK L0 tparams = true) :
    ∃ r, (extendPre L0 langName tparams).res = .ok r := by
  simp only [extendOK, List.all_eq_true] at h
  have hno : ∀ tp ∈ tparams, tp.constraint ≠ .other := by
    intro tp htp hc
    have := h tp htp
    rw [hc] at this
    cases this
  obtain ⟨⟨commands, delta⟩, hsc, hdef⟩ := scanParams_commands "define" tparams [] [] hno
  have hdelta : delta = deltasOf tparams := by
    simpa using scanParams_delta tparams [] [] _ hsc
  subst hdelta
  simp only [mapGet, Option.getD_none, List.nil_append] at hdef
  have hshape : ∀ x ∈ deltasOf tparams, wellShaped x.2 = true ∧
      isTermIn L0.defs x.1 = false ∧ x.1 ∉ commandNames tparams "define" := by
    intro x hx
    obtain ⟨tp, htp, hc, hn⟩ := mem_deltasOf tparams x hx
    have := h tp htp
    rw [hc] at this
    simp only [Bool.and_eq_true, Bool.not_eq_true'] at this
    rw [hn] at this
    exact ⟨this.1.1, this.1.2, by simpa using this.2⟩
  unfold extendPre
  simp only [hsc]
  rw [Emit.bind_res, inheritLoop_res]
  simp only
  obtain ⟨d₁, hd₁, t₁⟩ := defineLoop_res langName
    (take (take commands "inherit").2 "define").1
    (L0.defs.map (fun p => (p.1, p.2.copy)))
  rw [Emit.bind_res, hd₁]
  simp only
  obtain ⟨d₂, hd₂, t₂⟩ := redefineLoop_res langName
    (take (take (take commands "inherit").2 "define").2 "redefine").1 d₁
  rw [Emit.bind_res, hd₂]
  simp only
  obtain ⟨cl, hcl⟩ := clobbers_ok (deltasOf tparams) (fun x hx => (hshape x hx).1)
  rw [Emit.bind_res]
  simp only [liftE, hcl]
  have hterm : ∀ x ∈ deltasOf tparams,
      isTermIn (d₂.map (fun p => (p.1, p.2.clobber cl.1 cl.2))) x.1 = false := by
    intro x hx
    obtain ⟨_, hx₁, hx₂⟩ := hshape x hx
    cases hc : isTermIn (d₂.map (fun p => (p.1, p.2.clobber cl.1 cl.2))) x.1 with
    | false => rfl
    | true =>
      exfalso
      rw [isTermIn_map (Define.clobber cl.1 cl.2) (fun pass ia => ⟨ia, rfl⟩)
        (fun e c s ia => ⟨_, _, _, _, rfl⟩)] at hc
      rcases t₁ x.1 (t₂ x.1 hc) with h₀ | h₀
      · rw [isTermIn_map Define.copy (fun pass ia => ⟨[], rfl⟩)
          (fun e c s ia => ⟨_, _, _, _, rfl⟩)] at h₀
        rw [hx₁] at h₀
        cases h₀
      · apply hx₂
        rw [← hdef]
        simp only [take] at h₀
        rw [mapGet_mapDelete] at h₀
        simpa using h₀
  obtain ⟨d₄, hd₄⟩ := deltaLoop_ok (deltasOf tparams) _
    (fun x hx => ⟨(hshape x hx).1, hterm x hx⟩)
  rw [Emit.bind_res, hd₄]
  exact ⟨_, rfl⟩

/-- C38 (the part that holds): `extend` completes without a run-time fault
for every previous language and every type-parameter list whose constraints
are named commands or well-shaped interfaces, when no parameter with an
interface constraint names a terminal: the phases before `flood` return
definitions `r.1`, no budget makes the run end in a run-time fault, and every
budget above the number of these definitions makes it return a language, in
whatever order the maps are ranged over. -/
theorem extend_completes (L0 : Lang) (langName : String) (tparams : List TypeParam)
    (h : extendOK L0 tparams = true) :
    ∃ r, (extendPre L0 langName tparams).res = .ok r ∧
      (∀ sh fuel, (extend sh fuel L0 langName tparams).res ≠ .error .runtimePanic) ∧
      ∀ sh : List String → List String, (∀ l, (sh l).Perm l) → ∀ fuel, r.1.length < fuel →
        ∃ L, (extend sh fuel L0 langName tparams).res = .ok L := by
  obtain ⟨r, hr⟩ := extendPre_ok L0 langName tparams h
  refine ⟨r, hr, ?_, ?_⟩
  · intro sh fuel
    cases hf : floodAll sh fuel r.1 with
    | some d' =>
      rw [extend_res sh fuel L0 langName tparams r d' hr hf]
      intro hc
      cases hc
    | none =>
      unfold extend
      rw [Emit.bind_res, hr]
      simp only [hf, fail]
      intro hc
      cases hc
  · intro sh hsh fuel hfuel
    obtain ⟨d', hf, _⟩ := floodAll_post sh hsh fuel r.1 hfuel
      (clean_isAlsoOf (extendPre_spec L0 langName tparams r hr).1)
    exact ⟨_, extend_res sh fuel L0 langName tparams r d' hr hf⟩

theorem extend_completes_witness :
    extendOK exL0 exParams = true ∧
    ∃ r, (extendPre exL0 "L1" exParams).res = .ok r ∧
      (∀ sh fuel, (extend sh fuel exL0 "L1" exParams).res ≠ .error .runtimePanic) ∧
      ∀ sh : List String → List String, (∀ l, (sh l).Perm l) → ∀ fuel, r.1.length < fuel →
        ∃ L, (extend sh fuel exL0 "L1" exParams).res = .ok L :=
  ⟨by decide, extend_completes exL0 "L1" exParams (by decide)⟩

/-- C38 (counterexample): an interface constraint that embeds `int` makes
`extend` end in a run-time fault, and for an interface constraint on the
terminal `Primitive` it prints that the name is already a terminal and then
ends in a run-time fault. -/
theorem extend_faults :
    (extend id 5 exL0 "L9" exParamsInt).res = .error .runtimePanic ∧
    extend id 5 exL0 "L9" exParamsTerm =
      ⟨"Primitive is already a terminal\n", .error .runtimePanic⟩ := by
  constructor
  · rfl
  · rfl

/-! ## `extend` does not write to the objects of the previous language -/

theorem extends_refl (m : Mem) : Extends m m :=
  ⟨le_refl _, fun _ _ => rfl, fun a o ha hg => by
    have := (List.get?_eq_some.mp hg).1
    omega⟩

theorem extends_alloc {m₀ m : Mem} (h : Extends m₀ m) (o : Obj)
    (ho : o.refsFrom m₀.length) :
    Extends m₀ (allocObj m o).1 ∧ m₀.length ≤ (allocObj m o).2 := by
  obtain ⟨hl, hold, hnew⟩ := h
  refine ⟨⟨?_, ?_, ?_⟩, hl⟩
  · simp only [allocObj, List.length_append, List.length_singleton]
    omega
  · intro a ha
    simp only [allocObj]
    rw [List.get?_eq_getElem?, List.getElem?_append_left (by omega), ← List.get?_eq_getElem?]
    exact hold a ha
  · intro a o' ha hg
    simp only [allocObj] at hg
    by_cases hlt : a < m.length
    · rw [List.get?_eq_getElem?, List.getElem?_append_left hlt, ← List.get?_eq_getElem?] at hg
      exact hnew a o' ha hg
    · have hlen := (List.get?_eq_some.mp hg).1
      simp only [List.length_append, List.length_singleton] at hlen
      have hal : a = m.length := by omega
      subst hal
      simp only [List.get?_eq_getElem?, List.getElem?_concat_length, Option.some.injEq] at hg
      subst hg
      exact ho

theorem extends_update {m₀ m m' : Mem} (h : Extends m₀ m) (a : Nat) (ha : m₀.length ≤ a)
    (f : Obj → Option Obj)
    (hf : ∀ o o', f o = some o' → o.refsFrom m₀.length → o'.refsFrom m₀.length)
    (hu : updateObj m a f = .ok m') : Extends m₀ m' := by
  obtain ⟨hl, hold, hnew⟩ := h
  unfold updateObj at hu
  cases hg : m.get? a with
  | none => rw [hg] at hu; cases hu
  | some o =>
    rw [hg] at hu
    simp only at hu
    cases hfo : f o with
    | none => rw [hfo] at hu; cases hu
    | some o' =>
      rw [hfo] at hu
      simp only [Except.ok.injEq] at hu
      subst hu
      refine ⟨by simpa using hl, ?_, ?_⟩
      · intro b hb
        rw [List.get?_eq_getElem?, List.getElem?_set_ne (by omega), ← List.get?_eq_getElem?]
        exact hold b hb
      · intro b ob hb hgb
        by_cases hab : a = b
        · subst hab
          have hlt := (List.get?_eq_some.mp hg).1
          rw [List.get?_eq_getElem?, List.getElem?_set_self hlt] at hgb
          simp only [Option.some.injEq] at hgb
          subst hgb
          exact hf o o' hfo (hnew a o ha hg)
        · rw [List.get?_eq_getElem?, List.getElem?_set_ne hab, ← List.get?_eq_getElem?] at hgb
          exact hnew b ob hb hgb

theorem setBool_refs (n : Nat) (k : String) (o o' : Obj) (h : setBool k o = some o')
    (_ : o.refsFrom n) : o'.refsFrom n := by
  cases o <;> simp only [setBool, Option.some.injEq] at h <;> try cases h
  trivial

theorem delBool_refs (n : Nat) (k : String) (o o' : Obj) (h : delBool k o = some o')
    (_ : o.refsFrom n) : o'.refsFrom n := by
  cases o <;> simp only [delBool, Option.some.injEq] at h <;> try cases h
  trivial

theorem setSig_refs (n : Nat) (k : String) (sig : Signature) (o o' : Obj)
    (h : setSig k sig o = some o') (_ : o.refsFrom n) : o'.refsFrom n := by
  cases o <;> simp only [setSig, Option.some.injEq] at h <;> try cases h
  trivial

theorem delSig_refs (n : Nat) (k : String) (o o' : Obj) (h : delSig k o = some o')
    (_ : o.refsFrom n) : o'.refsFrom n := by
  cases o <;> simp only [delSig, Option.some.injEq] at h <;> try cases h
  trivial

theorem setDef_refs (n : Nat) (k : String) (a : Nat) (ha : n ≤ a) (o o' : Obj)
    (h : setDef k a o = some o') (ho : o.refsFrom n) : o'.refsFrom n := by
  cases o <;> simp only [setDef, Option.some.injEq] at h <;> try cases h
  intro k' a' hg
  by_cases hk : k' = k
  · subst hk
    rw [mapGet_mapSet_self] at hg
    simp only [Option.some.injEq] at hg
    omega
  · rw [mapGet_mapSet_other _ _ _ _ hk] at hg
    exact ho k' a' hg

theorem delDef_refs (n : Nat) (k : String) (o o' : Obj) (h : delDef k o = some o')
    (ho : o.refsFrom n) : o'.refsFrom n := by
  cases o <;> simp only [delDef, Option.some.injEq] at h <;> try cases h
  intro k' a' hg
  rw [mapGet_mapDelete] at hg
  split at hg
  · cases hg
  · exact ho k' a' hg

theorem setStrField_refs (n : Nat) (s : String) (o o' : Obj) (h : setStrField s o = some o')
    (ho : o.refsFrom n) : o'.refsFrom n := by
  cases o <;> simp only [setStrField, Option.some.injEq] at h <;> try cases h
  exact ho

theorem setIsAlsoField_refs (n r : Nat) (hr : n ≤ r) (o o' : Obj)
    (h : setIsAlsoField r o = some o') (ho : o.refsFrom n) : o'.refsFrom n := by
  have hfr : freshRef n (some r) := fun a ha => by
    simp only [Option.some.injEq] at ha
    omega
  cases o <;> simp only [setIsAlsoField, Option.some.injEq] at h <;> try cases h
  · exact hfr
  · exact ⟨ho.1, ho.2.1, hfr⟩

theorem lookup_fresh {m₀ m : Mem} (h : Extends m₀ m) (D : Nat) (hD : m₀.length ≤ D)
    (k : String) (a : Nat) (hg : mapGet (readDefs m (some D)) k = some a) :
    m₀.length ≤ a := by
  simp only [readDefs] at hg
  cases hm : m.get? D with
  | none => rw [hm] at hg; cases hg
  | some o =>
    rw [hm] at hg
    have ho := h.2.2 D o hD hm
    cases o with
    | defMap x => exact ho k a hg
    | boolMap _ => cases hg
    | sigMap _ => cases hg
    | term _ _ => cases hg
    | nonterm _ _ _ _ => cases hg

theorem foldlM_extends {α : Type} (f : Mem → α → Except Err Mem) (P : Mem → Prop)
    (hf : ∀ m x m', P m → f m x = .ok m' → P m') :
    ∀ (l : List α) (m m' : Mem), P m → l.foldlM f m = .ok m' → P m' := by
  intro l
  induction l with
  | nil =>
    intro m m' hP h
    simp only [List.foldlM_nil, pure, Except.pure, Except.ok.injEq] at h
    subst h
    exact hP
  | cons x rest ih =>
    intro m m' hP h
    rw [List.foldlM_cons] at h
    cases hx : f m x with
    | error e => rw [hx] at h; cases h
    | ok m₁ =>
      rw [hx] at h
      exact ih m₁ m' (hf m x m₁ hP hx) h

theorem freshRef_some {n a : Nat} (h : n ≤ a) : freshRef n (some a) := fun b hb => by
  simp only [Option.some.injEq] at hb
  omega

theorem freshRef_none (n : Nat) : freshRef n none := fun _ hb => by cases hb

theorem copyDef_extends {m₀ m m' : Mem} (h : Extends m₀ m) (a a' : Nat)
    (hc : copyDef m a = .ok (m', a')) : Extends m₀ m' ∧ m₀.length ≤ a' := by
  unfold copyDef at hc
  cases hg : m.get? a with
  | none => rw [hg] at hc; cases hc
  | some o =>
    rw [hg] at hc
    cases o with
    | term pass ia =>
      simp only [Except.ok.injEq] at hc
      have := extends_alloc h (.term pass none) (freshRef_none _)
      rw [hc] at this
      exact this
    | nonterm e c str ia =>
      simp only [Except.ok.injEq] at hc
      obtain ⟨h₁, a₁⟩ := extends_alloc h (.boolMap (readBools m e)) trivial
      obtain ⟨h₂, a₂⟩ := extends_alloc h₁
        (.sigMap (readSigs (allocObj m (.boolMap (readBools m e))).1 c)) trivial
      have := extends_alloc h₂ (.nonterm (some (allocObj m (.boolMap (readBools m e))).2)
        (some (allocObj (allocObj m (.boolMap (readBools m e))).1
          (.sigMap (readSigs (allocObj m (.boolMap (readBools m e))).1 c))).2) str none)
        ⟨freshRef_some a₁, freshRef_some a₂, freshRef_none _⟩
      rw [hc] at this
      exact this
    | boolMap _ => cases hc
    | sigMap _ => cases hc
    | defMap _ => cases hc

theorem copyLoop_extends {m₀ : Mem} (D : Nat) (hD : m₀.length ≤ D) :
    ∀ (l : List (String × Nat)) (m m' : Mem), Extends m₀ m → copyLoop D l m = .ok m' →
      Extends m₀ m' := by
  intro l
  induction l with
  | nil =>
    intro m m' h hc
    simp only [copyLoop, Except.ok.injEq] at hc
    subst hc
    exact h
  | cons p rest ih =>
    intro m m' h hc
    obtain ⟨defName, a⟩ := p
    rw [copyLoop] at hc
    cases hcd : copyDef m a with
    | error e => rw [hcd] at hc; cases hc
    | ok r =>
      obtain ⟨m₁, a'⟩ := r
      rw [hcd] at hc
      simp only at hc
      obtain ⟨h₁, ha'⟩ := copyDef_extends h a a' hcd
      cases hu : updateObj m₁ D (setDef defName a') with
      | error e => rw [hu] at hc; cases hc
      | ok m₂ =>
        rw [hu] at hc
        exact ih m₂ m' (extends_update h₁ D hD _ (setDef_refs _ defName a' ha') hu) hc

theorem newTerm_extends {m₀ m m' : Mem} (h : Extends m₀ m) (D : Nat) (hD : m₀.length ≤ D)
    (langName defName : String)
    (hu : updateObj (allocObj m (.term langName none)).1 D
      (setDef defName (allocObj m (.term langName none)).2) = .ok m') : Extends m₀ m' := by
  obtain ⟨h₁, ha⟩ := extends_alloc h (.term langName none) (freshRef_none _)
  exact extends_update h₁ D hD _ (setDef_refs _ defName _ ha) hu

theorem defineLoopRef_extends {m₀ : Mem} (langName : String) (D : Nat) (hD : m₀.length ≤ D) :
    ∀ (l : List String) (m m' : Mem), Extends m₀ m → defineLoopRef langName D l m = .ok m' →
      Extends m₀ m' := by
  intro l
  induction l with
  | nil =>
    intro m m' h hc
    simp only [defineLoopRef, Except.ok.injEq] at hc
    subst hc
    exact h
  | cons defName rest ih =>
    intro m m' h hc
    rw [defineLoopRef] at hc
    cases hg : mapGet (readDefs m (some D)) defName with
    | some _ => rw [hg] at hc; exact ih m m' h hc
    | none =>
      rw [hg] at hc
      simp only at hc
      cases hu : updateObj (allocObj m (.term langName none)).1 D
          (setDef defName (allocObj m (.term langName none)).2) with
      | error e => rw [hu] at hc; cases hc
      | ok m₂ =>
        rw [hu] at hc
        exact ih m₂ m' (newTerm_extends h D hD langName defName hu) hc

theorem redefineLoopRef_extends {m₀ : Mem} (langName : String) (D : Nat)
    (hD : m₀.length ≤ D) :
    ∀ (l : List String) (m m' : Mem), Extends m₀ m →
      redefineLoopRef langName D l m = .ok m' → Extends m₀ m' := by
  intro l
  induction l with
  | nil =>
    intro m m' h hc
    simp only [redefineLoopRef, Except.ok.injEq] at hc
    subst hc
    exact h
  | cons defName rest ih =>
    intro m m' h hc
    rw [redefineLoopRef] at hc
    split at hc
    · simp only at hc
      cases hu : updateObj (allocObj m (.term langName none)).1 D
          (setDef defName (allocObj m (.term langName none)).2) with
      | error e => rw [hu] at hc; cases hc
      | ok m₂ =>
        rw [hu] at hc
        exact ih m₂ m' (newTerm_extends h D hD langName defName hu) hc
    · exact ih m m' h hc

theorem deleteMap_extends {m₀ m m' : Mem} (h : Extends m₀ m) (r : Option Nat)
    (hr : freshRef m₀.length r) (f : Obj → Option Obj)
    (hf : ∀ o o', f o = some o' → o.refsFrom m₀.length → o'.refsFrom m₀.length)
    (hd : deleteMap m r f = .ok m') : Extends m₀ m' := by
  cases r with
  | none =>
    simp only [deleteMap, Except.ok.injEq] at hd
    subst hd
    exact h
  | some a => exact extends_update h a (hr a rfl) f hf hd

theorem writeMap_extends {m₀ m m' : Mem} (h : Extends m₀ m) (r : Option Nat)
    (hr : freshRef m₀.length r) (f : Obj → Option Obj)
    (hf : ∀ o o', f o = some o' → o.refsFrom m₀.length → o'.refsFrom m₀.length)
    (hd : writeMap m r f = .ok m') : Extends m₀ m' := by
  cases r with
  | none => cases hd
  | some a => exact extends_update h a (hr a rfl) f hf hd

theorem clobberDef_extends {m₀ m m' : Mem} (h : Extends m₀ m) (ec cc : List String) (a : Nat)
    (ha : m₀.length ≤ a) (hc : clobberDef ec cc m a = .ok m') : Extends m₀ m' := by
  unfold clobberDef at hc
  cases hg : m.get? a with
  | none =>
    rw [hg] at hc
    simp only [Except.ok.injEq] at hc
    subst hc
    exact h
  | some o =>
    rw [hg] at hc
    have ho := h.2.2 a o ha hg
    cases o with
    | nonterm e c str ia =>
      simp only at hc
      cases h₁ : ec.foldlM (fun m k => deleteMap m e (delBool k)) m with
      | error err => rw [h₁] at hc; cases hc
      | ok m₁ =>
        rw [h₁] at hc
        simp only at hc
        have e₁ := foldlM_extends (fun m k => deleteMap m e (delBool k)) (Extends m₀)
          (fun m k m' hm hd => deleteMap_extends hm e ho.1 _ (delBool_refs _ k) hd) ec m m₁ h h₁
        exact foldlM_extends (fun m k => deleteMap m c (delSig k)) (Extends m₀)
          (fun m k m' hm hd => deleteMap_extends hm c ho.2.1 _ (delSig_refs _ k) hd) cc m₁ m'
          e₁ hc
    | term _ _ => simp only [Except.ok.injEq] at hc; subst hc; exact h
    | boolMap _ => simp only [Except.ok.injEq] at hc; subst hc; exact h
    | sigMap _ => simp only [Except.ok.injEq] at hc; subst hc; exact h
    | defMap _ => simp only [Except.ok.injEq] at hc; subst hc; exact h

theorem clobberLoop_extends {m₀ m m' : Mem} (h : Extends m₀ m)
    (sh : List String → List String) (ec cc : List String) (D : Nat) (hD : m₀.length ≤ D)
    (hc : clobberLoop sh ec cc D m = .ok m') : Extends m₀ m' := by
  unfold clobberLoop at hc
  refine foldlM_extends _ (Extends m₀) ?_ _ m m' h hc
  intro m₁ k m₂ h₁ hk
  simp only at hk
  cases hg : mapGet (readDefs m₁ (some D)) k with
  | none =>
    rw [hg] at hk
    simp only [Except.ok.injEq] at hk
    subst hk
    exact h₁
  | some a =>
    rw [hg] at hk
    exact clobberDef_extends h₁ ec cc a (lookup_fresh h₁ D hD k a hg) hk

theorem findNt_extends {m₀ m m' : Mem} (h : Extends m₀ m) (D : Nat) (hD : m₀.length ≤ D)
    (defName : String) (nt : Option Nat) (hf : findNt D m defName = .ok (m', nt)) :
    Extends m₀ m' ∧ freshRef m₀.length nt := by
  unfold findNt at hf
  cases hg : mapGet (readDefs m (some D)) defName with
  | none =>
    rw [hg] at hf
    simp only at hf
    obtain ⟨h₁, a₁⟩ := extends_alloc h (.boolMap []) trivial
    obtain ⟨h₂, a₂⟩ := extends_alloc h₁ (.sigMap []) trivial
    obtain ⟨h₃, a₃⟩ := extends_alloc h₂
      (.nonterm (some (allocObj m (.boolMap [])).2)
        (some (allocObj (allocObj m (.boolMap [])).1 (.sigMap [])).2) none none)
      ⟨freshRef_some a₁, freshRef_some a₂, freshRef_none _⟩
    split at hf
    · cases hf
    · rename_i m₄ hu
      simp only [Except.ok.injEq, Prod.mk.injEq] at hf
      obtain ⟨rfl, rfl⟩ := hf
      exact ⟨extends_update h₃ D hD _ (setDef_refs _ defName _ a₃) hu, freshRef_some a₃⟩
  | some a =>
    rw [hg] at hf
    simp only at hf
    have ha := lookup_fresh h D hD defName a hg
    split at hf
    · simp only [Except.ok.injEq, Prod.mk.injEq] at hf
      obtain ⟨rfl, rfl⟩ := hf
      exact ⟨h, freshRef_some ha⟩
    · simp only [Except.ok.injEq, Prod.mk.injEq] at hf
      obtain ⟨rfl, rfl⟩ := hf
      exact ⟨h, freshRef_none _⟩
    · cases hf

theorem embedsOf_fresh {m₀ m : Mem} (h : Extends m₀ m) (nt : Option Nat)
    (hnt : freshRef m₀.length nt) (r : Option Nat) (he : embedsOf m nt = .ok r) :
    freshRef m₀.length r := by
  unfold embedsOf at he
  cases nt with
  | none => cases he
  | some a =>
    simp only [Option.bind] at he
    cases hg : m.get? a with
    | none => rw [hg] at he; cases he
    | some o =>
      rw [hg] at he
      have ho := h.2.2 a o (hnt a rfl) hg
      cases o with
      | nonterm e c str ia =>
        simp only [Except.ok.injEq] at he
        subst he
        exact ho.1
      | term _ _ => cases he
      | boolMap _ => cases he
      | sigMap _ => cases he
      | defMap _ => cases he

theorem consOf_fresh {m₀ m : Mem} (h : Extends m₀ m) (nt : Option Nat)
    (hnt : freshRef m₀.length nt) (r : Option Nat) (he : consOf m nt = .ok r) :
    freshRef m₀.length r := by
  unfold consOf at he
  cases nt with
  | none => cases he
  | some a =>
    simp only [Option.bind] at he
    cases hg : m.get? a with
    | none => rw [hg] at he; cases he
    | some o =>
      rw [hg] at he
      have ho := h.2.2 a o (hnt a rfl) hg
      cases o with
      | nonterm e c str ia =>
        simp only [Except.ok.injEq] at he
        subst he
        exact ho.2.1
      | term _ _ => cases he
      | boolMap _ => cases he
      | sigMap _ => cases he
      | defMap _ => cases he

theorem deltaEmbedsRef_extends {m₀ : Mem} (nt : Option Nat) (hnt : freshRef m₀.length nt) :
    ∀ (l : List GoType) (m m' : Mem), Extends m₀ m → deltaEmbedsRef nt l m = .ok m' →
      Extends m₀ m' := by
  intro l
  induction l with
  | nil =>
    intro m m' h hc
    simp only [deltaEmbedsRef, Except.ok.injEq] at hc
    subst hc
    exact h
  | cons typ rest ih =>
    intro m m' h hc
    rw [deltaEmbedsRef] at hc
    split at hc
    · split at hc
      · cases he : embedsOf m nt with
        | error e => rw [he] at hc; cases hc
        | ok r =>
          rw [he] at hc
          simp only at hc
          rename_i embedName _ _
          cases hw : writeMap m r (setBool embedName) with
          | error e => rw [hw] at hc; cases hc
          | ok m₁ =>
            rw [hw] at hc
            exact ih m₁ m' (writeMap_extends h r (embedsOf_fresh h nt hnt r he) _
              (setBool_refs _ embedName) hw) hc
      · exact ih m m' h hc
    · cases hc

theorem deltaMethodsRef_extends {m₀ : Mem} (nt : Option Nat) (hnt : freshRef m₀.length nt) :
    ∀ (l : List Method) (m m' : Mem), Extends m₀ m → deltaMethodsRef nt l m = .ok m' →
      Extends m₀ m' := by
  intro l
  induction l with
  | nil =>
    intro m m' h hc
    simp only [deltaMethodsRef, Except.ok.injEq] at hc
    subst hc
    exact h
  | cons con rest ih =>
    intro m m' h hc
    rw [deltaMethodsRef] at hc
    split at hc
    · cases he : consOf m nt with
      | error e => rw [he] at hc; cases hc
      | ok r =>
        rw [he] at hc
        simp only at hc
        cases hw : writeMap m r (setSig con.name con.sig) with
        | error e => rw [hw] at hc; cases hc
        | ok m₁ =>
          rw [hw] at hc
          exact ih m₁ m' (writeMap_extends h r (consOf_fresh h nt hnt r he) _
            (setSig_refs _ con.name con.sig) hw) hc
    · exact ih m m' h hc
    · cases hc
    · exact ih m m' h hc

theorem applyDeltaRef_extends {m₀ m m' : Mem} (h : Extends m₀ m) (D : Nat)
    (hD : m₀.length ≤ D) (d : String × Iface) (hc : applyDeltaRef D m d = .ok m') :
    Extends m₀ m' := by
  unfold applyDeltaRef at hc
  cases hf : findNt D m d.1 with
  | error e => rw [hf] at hc; cases hc
  | ok r =>
    obtain ⟨m₁, nt⟩ := r
    rw [hf] at hc
    simp only at hc
    obtain ⟨h₁, hnt⟩ := findNt_extends h D hD d.1 nt hf
    split at hc
    · split at hc
      · rename_i a s _
        exact extends_update h₁ a (hnt a rfl) _ (setStrField_refs _ s) hc
      · cases hc
    · cases he : deltaEmbedsRef nt d.2.embeddeds m₁ with
      | error e => rw [he] at hc; cases hc
      | ok m₂ =>
        rw [he] at hc
        exact deltaMethodsRef_extends nt hnt _ m₂ m'
          (deltaEmbedsRef_extends nt hnt _ m₁ m₂ h₁ he) hc

theorem markNew_extends {m₀ m m' : Mem} (h : Extends m₀ m) (a : Nat) (ha : m₀.length ≤ a)
    (also : String)
    (hc : (match updateObj (allocObj m (.boolMap [])).1 a
        (setIsAlsoField (allocObj m (.boolMap [])).2) with
      | .error e => (.error e : Except Err Mem)
      | .ok m₂ => updateObj m₂ (allocObj m (.boolMap [])).2 (setBool also)) = .ok m') :
    Extends m₀ m' := by
  obtain ⟨h₁, a₁⟩ := extends_alloc h (.boolMap []) trivial
  cases hu : updateObj (allocObj m (.boolMap [])).1 a
      (setIsAlsoField (allocObj m (.boolMap [])).2) with
  | error e => rw [hu] at hc; cases hc
  | ok m₂ =>
    rw [hu] at hc
    exact extends_update (extends_update h₁ a ha _ (setIsAlsoField_refs _ _ a₁) hu) _ a₁ _
      (setBool_refs _ also) hc

theorem markRef_extends {m₀ m m' : Mem} (h : Extends m₀ m) (a : Nat) (ha : m₀.length ≤ a)
    (also : String) (hc : markRef m a also = .ok m') : Extends m₀ m' := by
  unfold markRef at hc
  cases hg : m.get? a with
  | none => rw [hg] at hc; cases hc
  | some o =>
    rw [hg] at hc
    have ho := h.2.2 a o ha hg
    cases o with
    | term pass ia =>
      cases ia with
      | some r => exact extends_update h r (ho r rfl) _ (setBool_refs _ also) hc
      | none => exact markNew_extends h a ha also hc
    | nonterm e c str ia =>
      cases ia with
      | some r => exact extends_update h r (ho.2.2 r rfl) _ (setBool_refs _ also) hc
      | none => exact markNew_extends h a ha also hc
    | boolMap _ => cases hc
    | sigMap _ => cases hc
    | defMap _ => cases hc

theorem floodRef_extends {m₀ : Mem} (sh : List String → List String) (D : Nat)
    (hD : m₀.length ≤ D) (also : String) :
    ∀ (fuel : Nat) (m : Mem) (nt : Nat) (m' : Mem), Extends m₀ m → m₀.length ≤ nt →
      floodRef sh D also fuel m nt = .ok m' → Extends m₀ m' := by
  intro fuel
  induction fuel with
  | zero => intro m nt m' _ _ hc; cases hc
  | succ fuel ih =>
    intro m nt m' h hnt hc
    rw [floodRef] at hc
    split at hc
    · rename_i e c str ia hg
      split at hc
      · simp only [Except.ok.injEq] at hc
        subst hc
        exact h
      · cases hm : markRef m nt also with
        | error err => rw [hm] at hc; cases hc
        | ok m₁ =>
          rw [hm] at hc
          simp only at hc
          refine foldlM_extends _ (Extends m₀) ?_ _ m₁ m' (markRef_extends h nt hnt also hm) hc
          intro m₂ embedName m₃ h₂ hstep
          unfold floodEmbedRef at hstep
          cases hl : mapGet (readDefs m₂ (some D)) embedName with
          | none =>
            rw [hl] at hstep
            simp only [Except.ok.injEq] at hstep
            subst hstep
            exact h₂
          | some a =>
            rw [hl] at hstep
            simp only at hstep
            have ha := lookup_fresh h₂ D hD embedName a hl
            split at hstep
            · exact markRef_extends h₂ a ha also hstep
            · exact ih m₂ a m₃ h₂ ha hstep
            · simp only [Except.ok.injEq] at hstep
              subst hstep
              exact h₂
    · cases hc

theorem floodAllRef_extends {m₀ m m' : Mem} (h : Extends m₀ m)
    (sh : List String → List String) (fuel D : Nat) (hD : m₀.length ≤ D)
    (hc : floodAllRef sh fuel D m = .ok m') : Extends m₀ m' := by
  unfold floodAllRef at hc
  refine foldlM_extends _ (Extends m₀) ?_ _ m m' h hc
  intro m₁ defName m₂ h₁ hstep
  simp only at hstep
  cases hl : mapGet (readDefs m₁ (some D)) defName with
  | none =>
    rw [hl] at hstep
    simp only [Except.ok.injEq] at hstep
    subst hstep
    exact h₁
  | some a =>
    rw [hl] at hstep
    simp only at hstep
    split at hstep
    · exact floodRef_extends sh D hD defName fuel m₁ a m₂ h₁
        (lookup_fresh h₁ D hD defName a hl) hstep
    · simp only [Except.ok.injEq] at hstep
      subst hstep
      exact h₁

theorem extendRef_extends (sh : List String → List String) (fuel : Nat) (m : Mem)
    (L0 : LangRef) (langName : String) (tparams : List TypeParam) (m' : Mem) (L : LangRef)
    (hc : extendRef sh fuel m L0 langName tparams = .ok (m', L)) :
    Extends m m' ∧ L = ⟨langName, some m.length⟩ := by
  unfold extendRef at hc
  simp only at hc
  obtain ⟨h₀, hD⟩ := extends_alloc (extends_refl m) (.defMap [])
    (fun k a hg => by cases hg)
  simp only [allocObj] at hD h₀ hc
  cases h₁ : copyLoop m.length (entriesOf sh m L0.defs) (m ++ [.defMap []]) with
  | error e => rw [h₁] at hc; cases hc
  | ok m₁ =>
    rw [h₁] at hc
    simp only at hc
    have e₁ := copyLoop_extends m.length hD _ _ m₁ h₀ h₁
    cases hsc : scanParams tparams [] [] with
    | error e => rw [hsc] at hc; cases hc
    | ok cd =>
      obtain ⟨commands, delta⟩ := cd
      rw [hsc] at hc
      simp only at hc
      cases h₂ : defineLoopRef langName m.length
          (take (take commands "inherit").2 "define").1 m₁ with
      | error e => rw [h₂] at hc; cases hc
      | ok m₂ =>
        rw [h₂] at hc
        simp only at hc
        have e₂ := defineLoopRef_extends langName m.length hD _ m₁ m₂ e₁ h₂
        cases h₃ : redefineLoopRef langName m.length
            (take (take (take commands "inherit").2 "define").2 "redefine").1 m₂ with
        | error e => rw [h₃] at hc; cases hc
        | ok m₃ =>
          rw [h₃] at hc
          simp only at hc
          have e₃ := redefineLoopRef_extends langName m.length hD _ m₂ m₃ e₂ h₃
          cases hcl : clobbers delta with
          | error e => rw [hcl] at hc; cases hc
          | ok cl =>
            rw [hcl] at hc
            simp only at hc
            cases h₄ : clobberLoop sh cl.1 cl.2 m.length m₃ with
            | error e => rw [h₄] at hc; cases hc
            | ok m₄ =>
              rw [h₄] at hc
              simp only at hc
              have e₄ := clobberLoop_extends e₃ sh cl.1 cl.2 m.length hD h₄
              cases h₅ : delta.foldlM (applyDeltaRef m.length) m₄ with
              | error e => rw [h₅] at hc; cases hc
              | ok m₅ =>
                rw [h₅] at hc
                simp only at hc
                have e₅ := foldlM_extends (applyDeltaRef m.length) (Extends m)
                  (fun m₁ d m₂ hm hd => applyDeltaRef_extends hm m.length hD d hd)
                  delta m₄ m₅ e₄ h₅
                cases h₆ : (take (take (take (take commands "inherit").2 "define").2
                    "redefine").2 "omit").1.foldlM
                    (fun m' k => updateObj m' m.length (delDef k)) m₅ with
                | error e => rw [h₆] at hc; cases hc
                | ok m₆ =>
                  rw [h₆] at hc
                  simp only at hc
                  have e₆ := foldlM_extends (fun m' k => updateObj m' m.length (delDef k))
                    (Extends m)
                    (fun m₁ k m₂ hm hd => extends_update hm m.length hD _ (delDef_refs _ k) hd)
                    _ m₅ m₆ e₅ h₆
                  cases h₇ : floodAllRef sh fuel m.length m₆ with
                  | error e => rw [h₇] at hc; cases hc
                  | ok m₇ =>
                    rw [h₇] at hc
                    simp only [Except.ok.injEq, Prod.mk.injEq] at hc
                    obtain ⟨rfl, rfl⟩ := hc
                    exact ⟨floodAllRef_extends e₆ sh fuel m.length hD h₇, rfl⟩

theorem validRef_get {m m' : Mem} (hold : ∀ a, a < m.length → m'.get? a = m.get? a)
    (r : Option Nat) (hr : validRef m r = true) :
    readBools m' r = readBools m r ∧ readSigs m' r = readSigs m r ∧
      readDefs m' r = readDefs m r := by
  cases r with
  | none => exact ⟨rfl, rfl, rfl⟩
  | some a =>
    simp only [validRef, decide_eq_true_eq] at hr
    simp only [readBools, readSigs, readDefs, hold a hr, and_self]

/-- C37. `extend` does not modify the previous language: when the call returns,
every object that was in the store before the call is as it was, so that the
previous language, all of whose references lie in that store, has the same
definition names and the same definitions, with the same embeds, constructors
and `isAlso` as before, whatever the type parameters delete, redefine or
omit; the map `defs` of the new language is a new object. -/
theorem extend_frame (sh : List String → List String) (fuel : Nat) (m : Mem) (L0 : LangRef)
    (langName : String) (tparams : List TypeParam) (m' : Mem) (L : LangRef)
    (hc : extendRef sh fuel m L0 langName tparams = .ok (m', L))
    (hv : L0.valid m = true) :
    (∀ a, a < m.length → m'.get? a = m.get? a) ∧
    readDefs m' L0.defs = readDefs m L0.defs ∧
    readLang m' L0 = readLang m L0 ∧
    L.defs = some m.length := by
  obtain ⟨⟨_, hold, _⟩, hL⟩ := extendRef_extends sh fuel m L0 langName tparams m' L hc
  simp only [LangRef.valid, Bool.and_eq_true, List.all_eq_true] at hv
  have hdefs := (validRef_get hold L0.defs hv.1).2.2
  refine ⟨hold, hdefs, ?_, by rw [hL]⟩
  unfold readLang
  rw [hdefs]
  apply List.filterMap_congr
  intro p hp
  have hpv := hv.2 p hp
  simp only [Bool.and_eq_true, decide_eq_true_eq] at hpv
  rw [hold p.2 hpv.1]
  cases hg : m.get? p.2 with
  | none => rfl
  | some o =>
    rw [hg] at hpv
    cases o with
    | term pass ia =>
      simp only [(validRef_get hold ia hpv.2).1]
    | nonterm e c str ia =>
      simp only [Bool.and_eq_true] at hpv
      simp only [(validRef_get hold e hpv.2.1.1).1, (validRef_get hold c hpv.2.1.2).2.1,
        (validRef_get hold ia hpv.2.2).1]
    | boolMap _ => rfl
    | sigMap _ => rfl
    | defMap _ => rfl

theorem extend_frame_witness :
    extendRef id 5 exMem exRef "L1" exParams = .ok (exMem1, ⟨"L1", some 15⟩) ∧
    readLang exMem exRef = exL0.defs ∧ readLang exMem1 ⟨"L1", some 15⟩ = exL1.defs ∧
    (∀ a, a < exMem.length → exMem1.get? a = exMem.get? a) ∧
    readDefs exMem1 exRef.defs = readDefs exMem exRef.defs ∧
    readLang exMem1 exRef = readLang exMem exRef ∧
    (⟨"L1", some 15⟩ : LangRef).defs = some exMem.length :=
  ⟨by rfl, by rfl, by rfl,
    extend_frame id 5 exMem exRef "L1" exParams exMem1 ⟨"L1", some 15⟩ (by rfl) (by rfl)⟩

end Mklang

namespace Builtin

/-! ## Zip -/

/-- C31, as the code has it.  `Zip(s1, s2, fn)` returns on no input: for all
slices and every `fn` the call ends in a run-time panic, so it never returns
what its doc comment says (`zipSpec`); in particular on `s1 = [1, 2, 3]`,
`s2 = [10, 20, 30]` and addition, where the comment promises
`[11, 22, 33], true`. -/
theorem zip_panics :
    (∀ (In1 In2 Out : Type) (s1 : List In1) (s2 : List In2) (fn : In1 → In2 → Out),
      Zip s1 s2 fn = .error .runtimePanic ∧ Zip s1 s2 fn ≠ .ok (zipSpec s1 s2 fn)) ∧
    zipSpec [1, 2, 3] [10, 20, 30] (fun (a b : Int) => a + b) = (some [11, 22, 33], true) ∧
    Zip [1, 2, 3] [10, 20, 30] (fun (a b : Int) => a + b) = .error .runtimePanic := by
  refine ⟨fun In1 In2 Out s1 s2 fn => ⟨rfl, ?_⟩, by decide, rfl⟩
  intro h
  cases h

end Builtin
